import Mathlib

/-! Induced 6-cycle counting in bipartite graphs

A shallow embedding of the preprocessing pipeline (`preProcessing.cpp`) and of the four
counting strategies (`BTJ.cpp`, `NJ.cpp`, `TJ.cpp`, `WJ.cpp`).

Conventions of the embedding

* `graph` (`std::vector<std::vector<uint32_t>>`) is a list of adjacency lists of naturals.
* `edges` (`std::vector<phmap::flat_hash_set<uint32_t>>`) is a list of member lists; only
  membership is ever asked of a set.
* a `phmap::flat_hash_map` that is only looked up (never iterated in a way that matters) is
  the partial function from keys to values.
* `uint32_t` / `uint64_t` arithmetic that can wrap is written with explicit `% 2^32` /
  `% 2^64`; loop counters bounded by a vector length are plain naturals.
* reading a vector outside its bounds is undefined behaviour in the source; the embedding
  reads the empty list (or zero) there and every theorem is stated where the reads are in
  bounds.
* `tbb::parallel_for` over a range is the sequential loop over that range: the bodies write
  disjoint slots.
* `tbb::parallel_scan` runs its body block after block; the lengths of the blocks are chosen
  by the scheduler and are a parameter of the embedding (`cuts`).
-/

namespace Induced6

open Finset

/-! ## Machine integers -/

/-- Wrap to `uint32_t`. -/
def u32 (n : Nat) : Nat := n % 4294967296

/-- Wrap to `uint64_t`. -/
def u64 (n : Nat) : Nat := n % 18446744073709551616

/-- Subtraction of `uint32_t` values. -/
def sub32 (a b : Nat) : Nat := (a + 4294967296 - b % 4294967296) % 4294967296

/-! ## Data model -/

/-- The type `graph` of main.h. -/
abbrev Graph := List (List Nat)

/-- The type `edges` of main.h: one set of neighbours per left vertex. -/
abbrev Edges := List (List Nat)

/-- Adjacency list `G[u]`. -/
def nbrs (G : Graph) (u : Nat) : List Nat := G.getD u []

/-- Membership test `E[c].contains(x)`. -/
def econtains (E : Edges) (c x : Nat) : Bool := decide (x ∈ E.getD c [])

/-- A hash map from vertex ids, seen through its lookups. -/
abbrev HMap (β : Type) := Nat → Option β

/-- The empty hash map. -/
def HMap.empty {β : Type} : HMap β := fun _ => none

/-- Assignment `m[k] = v`. -/
def HMap.set {β : Type} (m : HMap β) (k : Nat) (v : β) : HMap β :=
  fun j => if j = k then some v else m j

/-- Membership `m.contains(k)`. -/
def HMap.has {β : Type} (m : HMap β) (k : Nat) : Bool := (m k).isSome

/-- The statement `m[k].emplace_back(u)` on a map of vectors. -/
def emplaceBack (m : HMap (List Nat)) (k u : Nat) : HMap (List Nat) :=
  m.set k ((m k).getD [] ++ [u])

/-- Insertion `S.emplace(b)` into a hash set, kept as a duplicate-free list. -/
def emplace (S : List Nat) (b : Nat) : List Nat := if b ∈ S then S else S ++ [b]

/-- The reducer `Sum` of main.h applied to one block: `operator()` adds the
elements of the block to `value` in `uint64_t` arithmetic. -/
def Sum.apply (value : Nat) (block : List Nat) : Nat :=
  block.foldl (fun temp x => u64 (temp + x)) value

/-- The method `Sum::join`. -/
def Sum.join (value rhs : Nat) : Nat := u64 (value + rhs)

/-- The call `tbb::parallel_reduce(range(counts), total)` with a fresh `Sum total`, run as
one block. -/
def reduceCounts (counts : List Nat) : Nat := Sum.apply 0 counts

/-! ## The exhaustive specification -/

/-- Edge test on the adjacency lists: `v` occurs in `G[u]`. -/
def adj (G : Graph) (u v : Nat) : Bool := decide (v ∈ nbrs G u)

/-- The cycle `a - x - b - y - c - z - a` is present and induced: its six edges exist and
the three remaining left-right pairs `a-y`, `b-z`, `c-x` are not edges. -/
def isCycle6 (G : Graph) (a x b y c z : Nat) : Bool :=
  adj G a x && adj G b x && adj G b y && adj G c y && adj G c z && adj G a z &&
    !adj G a y && !adj G b z && !adj G c x

/-- The subgraph induced by the left vertices `a, b, c` and the right vertices `x, y, z` is
a 6-cycle: one of the six Hamiltonian cycles of the complete bipartite graph on them is
present and induced. -/
def induced6 (G : Graph) (a b c x y z : Nat) : Bool :=
  isCycle6 G a x b y c z || isCycle6 G a x b z c y || isCycle6 G a y b x c z ||
    isCycle6 G a y b z c x || isCycle6 G a z b x c y || isCycle6 G a z b y c x

/-- Exhaustive count: the number of vertex sets `{a < b < c}` of left vertices and
`{x < y < z}` of right vertices whose induced subgraph is a 6-cycle. Left vertices are the
ids below `vLeft`, right vertices the ids from `vLeft` up to the size of `G`. -/
def countInduced6 (G : Graph) (vLeft : Nat) : Nat :=
  ∑ a in range vLeft, ∑ b in range vLeft, ∑ c in range vLeft,
    ∑ x in Ico vLeft G.length, ∑ y in Ico vLeft G.length, ∑ z in Ico vLeft G.length,
      if a < b ∧ b < c ∧ x < y ∧ y < z ∧ induced6 G a b c x y z = true then 1 else 0

/-! ## Strategy C: `TJ.cpp` -/

namespace TJ

/-- The function `ab_c`: the number of `x` in `AB` that are not neighbours of `c`. -/
def ab_c (E : Edges) (AB : List Nat) (c : Nat) : Nat :=
  AB.foldl (fun count x => if !econtains E c x then count + 1 else count) 0

/-- Inner loop of the first phase of `getCount`:
`for (b : G[u]) if (b > a) ABs[a][b].emplace_back(u); else break;`. -/
def fillInner (a u : Nat) : List Nat → HMap (List Nat) → HMap (List Nat)
  | [], m => m
  | b :: bs, m => if b > a then fillInner a u bs (emplaceBack m b u) else m

/-- The map `ABs[a]` after the first phase. -/
def fillABs (G : Graph) (a : Nat) : HMap (List Nat) :=
  (nbrs G a).foldl (fun m u => fillInner a u (nbrs G u) m) HMap.empty

/-- The vector `ABs`, of size `vLeft - 1`. -/
def buildABs (G : Graph) (vLeft : Nat) : List (HMap (List Nat)) :=
  (List.range (sub32 vLeft 1)).map (fillABs G)

/-- Inner loop building `S`: `for (b : G[v]) if (b > a) S.emplace(b); else break;`. -/
def fillSInner (a : Nat) : List Nat → List Nat → List Nat
  | [], S => S
  | b :: bs, S => if b > a then fillSInner a bs (emplace S b) else S

/-- The set `S` of left vertices above `a` that share a neighbour with `a`. -/
def buildS (G : Graph) (a : Nat) : List Nat :=
  (nbrs G a).foldl (fun S v => fillSInner a (nbrs G v) S) []

/-- Lookup `ABs[a].at(b)`. -/
def atAB (ABs : List (HMap (List Nat))) (a b : Nat) : List Nat :=
  ((ABs.getD a HMap.empty) b).getD []

/-- The value of `counts[a]` after the second phase. -/
def countAt (G : Graph) (E : Edges) (ABs : List (HMap (List Nat))) (a : Nat) : Nat :=
  let S := buildS G a
  S.foldl (fun acc b =>
    S.foldl (fun acc c =>
      if b < c then
        if (ABs.getD b HMap.empty).has c then
          u64 (acc + u64 (u64 (ab_c E (atAB ABs a b) c * ab_c E (atAB ABs a c) b)
            * ab_c E (atAB ABs b c) a))
        else acc
      else acc) acc) 0

/-- The function `getCount` of TJ.cpp. -/
def getCount (G : Graph) (vLeft : Nat) (E : Edges) : Nat :=
  let ABs := buildABs G vLeft
  let counts := (List.range (sub32 vLeft 2)).map (countAt G E ABs)
  reduceCounts counts

end TJ

/-! ## Strategy B: `NJ.cpp` -/

namespace NJ

/-- The list `AB` of `getCount`: the neighbours `v` of `a` met before `u` in `G[a]` that
are not adjacent to `b`:
`for (v : G[a]) { if (v == u) break; if (!E[v].contains(b)) AB.emplace_back(v); }`. -/
def buildAB (E : Edges) (u b : Nat) : List Nat → List Nat → List Nat
  | [], AB => AB
  | v :: vs, AB =>
    if v = u then AB
    else if !econtains E v b then buildAB E u b vs (AB ++ [v]) else buildAB E u b vs AB

/-- The key `vw` of the memo map: `((uint64_t) v + w) * (v + w + 1) / 2 + std::min(v, w)`,
the second factor being a `uint32_t` sum. -/
def pairKey (v w : Nat) : Nat :=
  u64 (u64 ((v + w) * u32 (v + w + 1)) / 2 + min v w)

/-- The scan `for (c : l) if (E[other].contains(c) && !E[u].contains(c)) ++count;`. -/
def countCommon (E : Edges) (u other : Nat) (l : List Nat) : Nat :=
  l.foldl (fun count c =>
    if econtains E other c && !econtains E u c then count + 1 else count) 0

/-- The value `count` computed for a pair `(v, w)` that is not yet memoized: the shorter of
the two adjacency lists is scanned. -/
def countVW (G : Graph) (E : Edges) (u v w : Nat) : Nat :=
  if (nbrs G v).length < (nbrs G w).length then countCommon E u w (nbrs G v)
  else countCommon E u v (nbrs G w)

/-- The loop `for (v : AB)` with the memo map `VWs` and the accumulator `counts[u]`. -/
def loopV (G : Graph) (E : Edges) (u w : Nat) (AB : List Nat) (st : HMap Nat × Nat) :
    HMap Nat × Nat :=
  AB.foldl (fun st v =>
    let vw := pairKey v w
    if !st.1.has vw then
      let count := countVW G E u v w
      (st.1.set vw count, u64 (st.2 + count))
    else (st.1, u64 (st.2 + (st.1 vw).getD 0))) st

/-- The loop `for (w : G[b]) { if (w == u) break; if (!E[w].contains(a)) ... }`. -/
def loopW (G : Graph) (E : Edges) (u a : Nat) (AB : List Nat) :
    List Nat → HMap Nat × Nat → HMap Nat × Nat
  | [], st => st
  | w :: ws, st =>
    if w = u then st
    else if !econtains E w a then loopW G E u a AB ws (loopV G E u w AB st)
    else loopW G E u a AB ws st

/-- The loop over `i2 > i`: `b` runs through the entries of `G[u]` after `a`. -/
def loopB (G : Graph) (E : Edges) (u a : Nat) (bs : List Nat) (st : HMap Nat × Nat) :
    HMap Nat × Nat :=
  bs.foldl (fun st b =>
    loopW G E u a (buildAB E u b (nbrs G a) []) (nbrs G b) st) st

/-- The loop over `i`: `a` runs through `G[u]`, paired with every later entry. -/
def loopA (G : Graph) (E : Edges) (u : Nat) : List Nat → HMap Nat × Nat → HMap Nat × Nat
  | [], st => st
  | a :: rest, st => loopA G E u rest (loopB G E u a rest st)

/-- The value of `counts[u]`. -/
def countAt (G : Graph) (E : Edges) (u : Nat) : Nat :=
  (loopA G E u (nbrs G u) (HMap.empty, 0)).2

/-- The function `getCount` of NJ.cpp. -/
def getCount (G : Graph) (vLeft : Nat) (E : Edges) : Nat :=
  reduceCounts ((List.range (sub32 vLeft 2)).map (countAt G E))

end NJ

end Induced6

namespace Induced6

/-! ## Strategy D: `WJ.cpp` -/

namespace WJ

/-- A wedge `std::tuple<uint32_t, uint32_t, uint32_t>`: low endpoint, high endpoint,
midpoint. -/
abbrev Wedge := Nat × Nat × Nat

/-- The read `Wedges[i]`. -/
def wedgeAt (W : List Wedge) (i : Nat) : Wedge := W.getD i (0, 0, 0)

/-- The loop of `getm` on the `uint32_t` bounds `l`, `r`; the last midpoint computed is
returned with the answer. No result when the fuel runs out. -/
def getmLoop (W : List Wedge) (u : Nat) : Nat → Nat → Nat → Nat → Option (Bool × Nat)
  | 0, _, _, _ => none
  | fuel + 1, l, r, m =>
    if l ≤ r then
      let m1 := u32 (l + r) / 2
      let u2 := (wedgeAt W m1).2.1
      if u2 < u then getmLoop W u fuel (u32 (m1 + 1)) r m1
      else if u2 > u then getmLoop W u fuel l (sub32 m1 1) m1
      else some (true, m1)
    else some (false, m)

/-- The function `getm`: binary search for a wedge with high endpoint `u` in
`Wedges[start .. end - 1]`; the second component is the out-parameter `m` (`m0` is its value
at the call). The state of the loop is a pair of `uint32_t`, so a run that has not stopped
after `2^64` rounds never stops. -/
def getm (W : List Wedge) (start stop u m0 : Nat) : Option (Bool × Nat) :=
  getmLoop W u 18446744073709551616 start (sub32 stop 1) m0

/-- The number `val` of wedges out of `u` to a higher left vertex:
`for (v : G[u]) for (u2 : G[v]) if (u2 > u) ++val;`. -/
def wedgeCount (G : Graph) (u : Nat) : Nat :=
  (nbrs G u).foldl (fun val v =>
    (nbrs G v).foldl (fun val u2 => if u2 > u then u64 (val + 1) else val) val) 0

/-- The vector `partitions` before the scan: entry 0 is 0 and entry `u + 1` is the wedge
count of `u`, for `u < vLeft - 1`. -/
def rawPartitions (G : Graph) (vLeft : Nat) : List Nat :=
  (List.range (sub32 vLeft 1)).foldl (fun p u => p.set (u + 1) (wedgeCount G u))
    (List.replicate vLeft 0)

/-- The scan lambda on one block, as a final scan: `tmp` starts at `sum`, every entry of the
block is added to it in `uint64_t` arithmetic and the running value is written back. -/
def scanSum : List Nat → Nat → List Nat
  | [], _ => []
  | x :: xs, tmp => u64 (tmp + x) :: scanSum xs (u64 (tmp + x))

/-- The value handed from one block of `tbb::parallel_scan` to the next. The call passes the
identity `0`, an `int`, so the value type of the scan is `int`: the `uint64_t` that the lambda
returns for a block is stored in an `int` slot (the low 32 bits are kept), and that `int` is
converted back to `uint64_t`, with sign extension, when it is passed as `sum`. -/
def carryInt (x : Nat) : Nat :=
  if u32 x < 2147483648 then u32 x else 18446744069414584320 + u32 x

/-- The inclusive prefix sum written back by `tbb::parallel_scan`. The scheduler splits the
range into consecutive blocks: `cuts` holds the lengths of the leading blocks and the last
block takes the rest. Inside a block the sum is a `uint64_t`; between two blocks it goes
through `carryInt`. -/
def scanBlocks : List Nat → List Nat → Nat → List Nat
  | [], l, sum => scanSum l sum
  | k :: cuts, l, sum =>
    scanSum (l.take k) sum
      ++ scanBlocks cuts (l.drop k) (carryInt ((scanSum (l.take k) sum).getLastD sum))

/-- The vector `partitions` after the scan, for the block lengths `cuts` chosen by the
scheduler. -/
def buildPartitions (cuts : List Nat) (G : Graph) (vLeft : Nat) : List Nat :=
  scanBlocks cuts (rawPartitions G vLeft) 0

/-- The loop `for (w2 = hi; w2 >= w + 1; --w2) Wedges[w2] = Wedges[w2 - 1];` with
`hi = w + k`. -/
def shiftRight (W : List Wedge) (w : Nat) : Nat → List Wedge
  | 0 => W
  | k + 1 => shiftRight (W.set (w + k + 1) (wedgeAt W (w + k))) w k

/-- The loop `for (w = partitions[u1]; w < partitions[u1] + i + 1; ++w)` that puts the
wedge `t` into the sorted run `Wedges[p .. p + i - 1]`; `w` is the current index and the
first argument the number of rounds left. -/
def insertLoop (W : List Wedge) (p i : Nat) (t : Wedge) : Nat → Nat → List Wedge
  | 0, _ => W
  | fuel + 1, w =>
    if w = p + i then W.set w t
    else if t.2.1 < (wedgeAt W w).2.1 then (shiftRight W w (p + i - w)).set w t
    else insertLoop W p i t fuel (w + 1)

/-- Insertion of one wedge into the partition that starts at `p` and holds `i` wedges. -/
def insertWedge (W : List Wedge) (p i : Nat) (t : Wedge) : List Wedge :=
  insertLoop W p i t (i + 1) p

/-- The loop `for (u2 : G[v1]) if (u2 > u1) { insert; ++i; } else break;`. -/
def wedgesInner (p u1 v1 : Nat) : List Nat → List Wedge × Nat → List Wedge × Nat
  | [], st => st
  | u2 :: rest, st =>
    if u2 > u1 then wedgesInner p u1 v1 rest (insertWedge st.1 p st.2 (u1, u2, v1), st.2 + 1)
    else st

/-- The body of the construction loop for the low endpoint `u1`. -/
def wedgesOf (G : Graph) (partitions : List Nat) (W : List Wedge) (u1 : Nat) : List Wedge :=
  ((nbrs G u1).foldl (fun st v1 => wedgesInner (partitions.getD u1 0) u1 v1 (nbrs G v1) st)
    (W, 0)).1

/-- The vector `Wedges` after the construction phase. -/
def buildWedges (G : Graph) (vLeft : Nat) (partitions : List Nat) : List Wedge :=
  (List.range (sub32 vLeft 1)).foldl (wedgesOf G partitions)
    (List.replicate (partitions.getD (sub32 vLeft 1) 0) (0, 0, 0))

/-- The forward scan `while (idx < partitions[u1 + 1]) { ... ++idx; }` counting the
midpoints `v3` not adjacent to `u2`; the first argument is the number of rounds left. -/
def scanFwd (W : List Wedge) (E : Edges) (u2 u3 bound : Nat) : Nat → Nat → Nat → Nat
  | 0, _, c => c
  | fuel + 1, idx, c =>
    if idx < bound then
      if (wedgeAt W idx).2.1 ≠ u3 then c
      else scanFwd W E u2 u3 bound fuel (idx + 1)
        (if !econtains E u2 (wedgeAt W idx).2.2 then c + 1 else c)
    else c

/-- The backward scan `while (idx >= min_idx) { ... --idx; }`. Decrementing the unsigned
`idx` at 0 wraps around and the next read is far outside `Wedges`: no result. -/
def scanBack (W : List Wedge) (E : Edges) (u2 u3 minIdx : Nat) : Nat → Nat → Option Nat
  | 0, c =>
    if 0 ≥ minIdx then
      if (wedgeAt W 0).2.1 ≠ u3 then some c else none
    else some c
  | idx + 1, c =>
    if idx + 1 ≥ minIdx then
      if (wedgeAt W (idx + 1)).2.1 ≠ u3 then some c
      else scanBack W E u2 u3 minIdx idx
        (if !econtains E u2 (wedgeAt W (idx + 1)).2.2 then c + 1 else c)
    else some c

/-- The block guarded by `if (idx != u3)`: the value of `c` for the pair `(u1, u3)`. -/
def computeC (W : List Wedge) (partitions : List Nat) (E : Edges) (u1 u2 u3 : Nat) :
    Option Nat :=
  match getm W (u32 (partitions.getD u1 0)) (u32 (partitions.getD (u1 + 1) 0)) u3 0 with
  | none => none
  | some (false, _) => some 0
  | some (true, m) =>
    let c := scanFwd W E u2 u3 (partitions.getD (u1 + 1) 0)
      (partitions.getD (u1 + 1) 0 - m) m 0
    let minIdx := if u1 > 0 then u32 (partitions.getD (u1 - 1) 0) else 0
    scanBack W E u2 u3 minIdx (sub32 m 1) c

/-- The local variables `c`, `count`, `idx`, `u3`, `skip` of the counting loop. -/
structure Locals where
  /-- The cached number of admissible wedges `w3`. -/
  c : Nat
  /-- The running count of the wedge `w1`. -/
  count : Nat
  /-- The high endpoint for which `c` was computed. -/
  idx : Nat
  /-- The high endpoint of the last wedge `w2` that was looked at. -/
  u3 : Nat
  /-- Whether `v1` is adjacent to `u3`. -/
  skip : Bool

/-- One round of the loop over `w2_idx`. -/
def stepW2 (W : List Wedge) (partitions : List Nat) (E : Edges) (u1 u2 v1 : Nat)
    (st : Locals) (w2_idx : Nat) : Option Locals :=
  let v2 := (wedgeAt W w2_idx).2.2
  if (st.skip && decide (st.u3 = (wedgeAt W w2_idx).2.1)) || econtains E u1 v2 then some st
  else
    let u3 := (wedgeAt W w2_idx).2.1
    let skip := econtains E u3 v1
    if !skip then
      if st.idx ≠ u3 then
        match computeC W partitions E u1 u2 u3 with
        | none => none
        | some c => some ⟨c, u64 (st.count + c), u3, u3, skip⟩
      else some ⟨st.c, u64 (st.count + st.c), st.idx, u3, skip⟩
    else some ⟨st.c, st.count, st.idx, u3, skip⟩

/-- The loop over `w2_idx`. -/
def loopW2 (W : List Wedge) (partitions : List Nat) (E : Edges) (u1 u2 v1 : Nat) :
    List Nat → Locals → Option Locals
  | [], st => some st
  | w2_idx :: rest, st =>
    match stepW2 W partitions E u1 u2 v1 st w2_idx with
    | none => none
    | some st1 => loopW2 W partitions E u1 u2 v1 rest st1

/-- The value of `counts[w1_idx]`. The variable `c` is read only after it was assigned;
its initial value is taken as 0. -/
def countAt (W : List Wedge) (partitions : List Nat) (vLeft : Nat) (E : Edges)
    (w1_idx : Nat) : Option Nat :=
  let u1 := (wedgeAt W w1_idx).1
  let u2 := (wedgeAt W w1_idx).2.1
  if u2 = sub32 vLeft 1 then some 0
  else
    let v1 := (wedgeAt W w1_idx).2.2
    let lo := partitions.getD u2 0
    let hi := partitions.getD (u2 + 1) 0
    (loopW2 W partitions E u1 u2 v1 (List.range' lo (hi - lo)) ⟨0, 0, vLeft, vLeft, false⟩).map
      (fun st => st.count)

/-- The function `getCount` of WJ.cpp; no result when a search or a scan does not come
back. The parameter `nEdge` is not used by the source; `cuts` are the block lengths of the
scan. -/
def getCount (cuts : List Nat) (G : Graph) (_nEdge vLeft : Nat) (E : Edges) : Option Nat :=
  let partitions := buildPartitions cuts G vLeft
  let W := buildWedges G vLeft partitions
  ((List.range (partitions.getD (sub32 vLeft 1) 0)).mapM (countAt W partitions vLeft E)).map
    reduceCounts

end WJ

end Induced6

namespace Induced6

/-! ## Strategy A: `BTJ.cpp` -/

namespace BTJ

/-- The loop of `intersection_size` on the unread parts of the two vectors; the first
argument is the number of rounds left (each round advances at least one iterator). -/
def interLoop : Nat → List Nat → List Nat → Nat → Nat
  | 0, _, _, result => result
  | _ + 1, [], _, result => result
  | _ + 1, _ :: _, [], result => result
  | fuel + 1, x :: xs, y :: ys, result =>
    if x > y then interLoop fuel xs (y :: ys) result
    else if y > x then interLoop fuel (x :: xs) ys result
    else interLoop fuel xs ys (u64 (result + 1))

/-- The function `intersection_size`. -/
def intersection_size (s1 s2 : List Nat) : Nat :=
  interLoop (s1.length + s2.length) s1 s2 0

/-- The four scratch vectors shared by the workers. -/
structure Scratch where
  /-- The vector `ABCs`: the midpoints grouped by far endpoint. -/
  ABCs : List (List Nat)
  /-- The vector `ABCs_counts`. -/
  ABCs_counts : List Nat
  /-- The vector `localIDs`: 0 or the local id of a left vertex. -/
  localIDs : List Nat
  /-- The vector `reverseIDs`: the left vertex of a local slot. -/
  reverseIDs : List Nat

/-- The statement `ABCs[i].emplace_back(u); ABCs_counts[i] += 1;`. -/
def record (s : Scratch) (i u : Nat) : Scratch :=
  { s with ABCs := s.ABCs.set i (s.ABCs.getD i [] ++ [u]),
           ABCs_counts := s.ABCs_counts.set i (s.ABCs_counts.getD i 0 + 1) }

/-- The state of the grouping loop: the scratch vectors, `numAs` and `numCs`. -/
abbrev GroupState := Scratch × Nat × Nat

/-- The body of `for (c : G[u])` in the grouping loop of vertex `b`. -/
def groupStep (gs b u : Nat) (st : GroupState) (c : Nat) : GroupState :=
  if c > b then
    let st1 : GroupState :=
      if st.1.localIDs.getD (gs + c) 0 = 0 then
        ({ st.1 with localIDs := st.1.localIDs.set (gs + c) (st.2.2 + 1),
                     reverseIDs := st.1.reverseIDs.set (gs + b + (st.2.2 + 1) - 1) c },
          st.2.1, st.2.2 + 1)
      else st
    let localId := st1.1.localIDs.getD (gs + c) 0
    (record st1.1 (gs + b + localId - 1) u, st1.2.1, st1.2.2)
  else if b > c then
    let st1 : GroupState :=
      if st.1.localIDs.getD (gs + c) 0 = 0 then
        ({ st.1 with localIDs := st.1.localIDs.set (gs + c) (st.2.1 + 1),
                     reverseIDs := st.1.reverseIDs.set (gs + (st.2.1 + 1) - 1) c },
          st.2.1 + 1, st.2.2)
      else st
    let localId := st1.1.localIDs.getD (gs + c) 0
    (record st1.1 (gs + localId - 1) u, st1.2.1, st1.2.2)
  else st

/-- The grouping loop `for (u : G[b]) for (c : G[u])`. -/
def group (G : Graph) (gs b : Nat) (s : Scratch) : GroupState :=
  (nbrs G b).foldl (fun st u => (nbrs G u).foldl (groupStep gs b u) st) (s, 0, 0)

/-- The loop `for (c = 0; c < numCs; ++c)` inside the loop over `a`: the products added to
`counts[b - 1]`. -/
def joinC (ACs : List (HMap Nat)) (s : Scratch) (gs b a : Nat) (cs : List Nat)
    (acc : Nat) : Nat :=
  let origA := s.reverseIDs.getD (gs + a) 0
  let S := ACs.getD origA HMap.empty
  let AB := s.ABCs.getD (gs + a) []
  let ab_val := s.ABCs_counts.getD (gs + a) 0
  cs.foldl (fun acc c =>
    let origC := s.reverseIDs.getD (gs + b + c) 0
    match S origC with
    | some ac_val =>
      let BC := s.ABCs.getD (gs + b + c) []
      let bc_val := s.ABCs_counts.getD (gs + b + c) 0
      let notin := u32 (intersection_size AB BC)
      u64 (acc + u64 (u64 (u64 (ab_val + 18446744073709551616 - notin) * sub32 ac_val notin)
        * sub32 bc_val notin))
    | none => acc) acc

/-- The loop `for (a = 0; a < numAs; ++a)`: joins the a-side slot with every c-side slot,
then clears the a-side slot. -/
def joinA (ACs : List (HMap Nat)) (gs b numCs : Nat) (st : Scratch × Nat) (a : Nat) :
    Scratch × Nat :=
  let s := st.1
  let origA := s.reverseIDs.getD (gs + a) 0
  let acc := joinC ACs s gs b a (List.range numCs) st.2
  ({ s with ABCs := s.ABCs.set (gs + a) [],
            ABCs_counts := s.ABCs_counts.set (gs + a) 0,
            localIDs := s.localIDs.set (gs + origA) 0 }, acc)

/-- The loop `for (c = 0; c < numCs; ++c)` that clears the c-side slots. -/
def clearC (gs b : Nat) (s : Scratch) (c : Nat) : Scratch :=
  { s with ABCs := s.ABCs.set (gs + b + c) [],
           ABCs_counts := s.ABCs_counts.set (gs + b + c) 0,
           localIDs := s.localIDs.set (gs + s.reverseIDs.getD (gs + b + c) 0) 0 }

/-- The body of the second `parallel_for` for the vertex `b`, run by the worker `pid`:
the new scratch vectors and the new vector `counts`. -/
def processB (G : Graph) (vLeft : Nat) (ACs : List (HMap Nat)) (pid : Nat)
    (st : Scratch × List Nat) (b : Nat) : Scratch × List Nat :=
  let gs := u32 (pid * vLeft)
  let g := group G gs b st.1
  let numAs := g.2.1
  let numCs := g.2.2
  let j := (List.range numAs).foldl (joinA ACs gs b numCs) (g.1, st.2.getD (b - 1) 0)
  let s := (List.range numCs).foldl (clearC gs b) j.1
  (s, st.2.set (b - 1) j.2)

/-- The loop `for (c : G[u]) if (c > a && c >= c_start) ACs[a][c] += 1; else break;`. -/
def fillACInner (a c_start : Nat) : List Nat → HMap Nat → HMap Nat
  | [], m => m
  | c :: cs, m =>
    if c > a ∧ c ≥ c_start then fillACInner a c_start cs (m.set c ((m c).getD 0 + 1))
    else m

/-- The body of the first `parallel_for` for the vertex `a`: stale keys are erased from
the map of an old `a`, the map of a new `a` is filled. -/
def updateAC (G : Graph) (b_start c_start : Nat) (ACs : List (HMap Nat)) (a : Nat) :
    List (HMap Nat) :=
  if a < sub32 b_start 1 then
    ACs.set a (fun k => if k < c_start then none else (ACs.getD a HMap.empty) k)
  else
    ACs.set a ((nbrs G a).foldl (fun m u => fillACInner a c_start (nbrs G u) m)
      (ACs.getD a HMap.empty))

/-- The variables that live across the batches. -/
structure Batch where
  /-- Last `a` whose map exists. -/
  a_end : Nat
  /-- First `b` of the batch. -/
  b_start : Nat
  /-- Last `b` of the batch. -/
  b_end : Nat
  /-- Lower bound of the keys kept in the maps. -/
  c_start : Nat
  /-- The vector `ACs` of two-hop maps. -/
  ACs : List (HMap Nat)
  /-- The four scratch vectors. -/
  scratch : Scratch
  /-- The vector `counts`. -/
  counts : List Nat

/-- One round of the `while` loop. -/
def batchStep (G : Graph) (vLeft partition_size : Nat) (pid : Nat → Nat) (st : Batch) :
    Batch :=
  let ACs := (List.range (u32 (st.a_end + 1))).foldl (updateAC G st.b_start st.c_start) st.ACs
  let r := (List.range' st.b_start (u32 (st.b_end + 1) - st.b_start)).foldl
    (fun r b => processB G vLeft ACs (pid b) r b) (st.scratch, st.counts)
  let a_end := min (u32 (st.a_end + partition_size)) (sub32 vLeft 3)
  let b_start := u32 (st.b_start + partition_size)
  { a_end := a_end,
    b_start := b_start,
    b_end := min (u32 (a_end + 1)) (sub32 vLeft 2),
    c_start := u32 (b_start + 1),
    ACs := ACs,
    scratch := r.1,
    counts := r.2 }

/-- The loop `while (b_start <= vLeft - 2)`; no result when the rounds run out. -/
def batchLoop (G : Graph) (vLeft partition_size : Nat) (pid : Nat → Nat) :
    Nat → Batch → Option Batch
  | 0, _ => none
  | fuel + 1, st =>
    if st.b_start ≤ sub32 vLeft 2 then
      batchLoop G vLeft partition_size pid fuel (batchStep G vLeft partition_size pid st)
    else some st

/-- The function `getCount` of BTJ.cpp. `num_threads` is the concurrency of the task arena
and `pid b` the index of the worker that runs the body for `b`. The loop condition depends
only on the `uint32_t` variable `b_start`, which moves by a fixed step, so a run that has
not stopped after `2^32 + 1` rounds never stops. -/
def getCount (num_threads : Nat) (pid : Nat → Nat) (G : Graph)
    (vLeft partition_size : Nat) : Option Nat :=
  let size := u32 (num_threads * vLeft)
  let init : Batch :=
    { a_end := min (sub32 partition_size 1) (sub32 vLeft 3),
      b_start := 1,
      b_end := min partition_size (sub32 vLeft 2),
      c_start := 2,
      ACs := List.replicate (sub32 vLeft 2) HMap.empty,
      scratch := ⟨List.replicate size [], List.replicate size 0, List.replicate size 0,
        List.replicate size 0⟩,
      counts := List.replicate (sub32 vLeft 2) 0 }
  (batchLoop G vLeft partition_size pid 4294967297 init).map (fun st => reduceCounts st.counts)

end BTJ

end Induced6

namespace Induced6

/-! ## Preprocessing: `preProcessing.cpp` -/

/-- The local state of `Compute2Core`. -/
structure CoreState where
  /-- The vector `deg_vec` of remaining degrees. -/
  deg_vec : List Nat
  /-- The vector `newID` of flags. -/
  newID : List Int
  /-- The queue `deleting_q`, front first. -/
  deleting_q : List Nat
  /-- The counter `newVLeft`. -/
  newVLeft : Nat
  /-- The counter `newVRight`. -/
  newVRight : Nat

/-- The block `deleting_q.push(y); newID[y] = 0; if (y < vLeft) --newVLeft; else
--newVRight;`. -/
def removeVertex (vLeft : Nat) (st : CoreState) (y : Nat) : CoreState :=
  { st with
    deleting_q := st.deleting_q ++ [y],
    newID := st.newID.set y 0,
    newVLeft := if y < vLeft then sub32 st.newVLeft 1 else st.newVLeft,
    newVRight := if y < vLeft then st.newVRight else sub32 st.newVRight 1 }

/-- The body of the first loop of `Compute2Core`. -/
def initStep (G : Graph) (vLeft : Nat) (st : CoreState) (x : Nat) : CoreState :=
  let st1 := { st with deg_vec := st.deg_vec.set x (nbrs G x).length }
  if (nbrs G x).length < 2 then removeVertex vLeft st1 x else st1

/-- The body of `for (uint32_t y : G[x])` in the deletion loop. -/
def relax (vLeft : Nat) (st : CoreState) (y : Nat) : CoreState :=
  if st.newID.getD y 0 = 0 then st
  else
    let d := sub32 (st.deg_vec.getD y 0) 1
    let st1 := { st with deg_vec := st.deg_vec.set y d }
    if d < 2 then removeVertex vLeft st1 y else st1

/-- The loop `while (!deleting_q.empty())`; the first argument bounds the number of
rounds. -/
def deleteLoop (G : Graph) (vLeft : Nat) : Nat → CoreState → CoreState
  | 0, st => st
  | fuel + 1, st =>
    match st.deleting_q with
    | [] => st
    | x :: q => deleteLoop G vLeft fuel ((nbrs G x).foldl (relax vLeft) { st with deleting_q := q })

/-- The state of `Compute2Core` when its `while` loop is left. A vertex enters the queue
only when its flag goes from 1 to 0, so the loop makes at most one round per vertex. -/
def coreLoop (G : Graph) (vLeft vRight : Nat) : CoreState :=
  let n := u32 (vLeft + vRight)
  let init : CoreState :=
    { deg_vec := List.replicate n 0, newID := List.replicate n 1, deleting_q := [],
      newVLeft := vLeft, newVRight := vRight }
  deleteLoop G vLeft (n + 1) ((List.range n).foldl (initStep G vLeft) init)

/-- The function `Compute2Core`: the values written to `vLeft`, `vRight` and `newID`. The
last statement `--newID[0]` touches entry 0, which does not exist when the graph has no
vertex. -/
def Compute2Core (G : Graph) (vLeft vRight : Nat) : Nat × Nat × List Int :=
  let st := coreLoop G vLeft vRight
  (st.newVLeft, st.newVRight, st.newID.set 0 (st.newID.getD 0 0 - 1))

/-- The running sum of `tbb::parallel_scan` in `Obtain2Core`: `tmp += newID[u];
newID[u] = tmp;` with a `uint32_t` accumulator. The stored values are kept as `uint32_t`
bit patterns, which is how every later comparison reads them. -/
def scanIDs : List Int → Nat → List Nat
  | [], _ => []
  | x :: xs, tmp =>
    let t := (((tmp : Int) + x) % 4294967296).toNat
    t :: scanIDs xs t

/-- The test that tells a survivor from the scanned ids:
`(x == 0 && x_id == 0) || (x > 0 && x_id != newID[x - 1])`. -/
def isSurvivor (ids : List Nat) (x : Nat) : Bool :=
  (decide (x = 0) && decide (ids.getD x 0 = 0)) ||
    (decide (x > 0) && decide (ids.getD x 0 ≠ ids.getD (x - 1) 0))

/-- The statement `newG[i].emplace_back(...)` for each element of `l` in turn. -/
def appendAt (G : Graph) (i : Nat) (l : List Nat) : Graph :=
  G.set i (G.getD i [] ++ l)

/-- The body of the `parallel_for` of `Obtain2Core` for the vertex `x`. -/
def compactStep (G : Graph) (ids : List Nat) (newG : Graph) (x : Nat) : Graph :=
  if isSurvivor ids x then
    appendAt newG (ids.getD x 0)
      (((nbrs G x).filter (isSurvivor ids)).map (fun y => ids.getD y 0))
  else newG

/-- The function `Obtain2Core`: the new graph and the new `vLeft` and `vRight`. -/
def Obtain2Core (G : Graph) (vLeft vRight : Nat) : Graph × Nat × Nat :=
  let core := Compute2Core G vLeft vRight
  let ids := scanIDs core.2.2 0
  let newG := (List.range (u32 (vLeft + vRight))).foldl (compactStep G ids)
    (List.replicate (u32 (core.1 + core.2.1)) [])
  (newG, core.1, core.2.1)

/-- The body of the side swap for the vertex `i`: a left vertex moves up by `vRight`, a
right vertex moves down by `vLeft`, and the entries of its list move the other way. -/
def swapStep (G : Graph) (vLeft vRight : Nat) (G2 : Graph) (i : Nat) : Graph :=
  if i < vLeft then appendAt G2 (u32 (i + vRight)) ((nbrs G i).map (fun n => sub32 n vLeft))
  else appendAt G2 (sub32 i vLeft) ((nbrs G i).map (fun n => u32 (n + vRight)))

/-- The block `if (vLeft > vRight) { ... std::swap(vLeft, vRight); G = std::move(G2); }`. -/
def balance (g : Graph × Nat × Nat) : Graph × Nat × Nat :=
  if g.2.1 > g.2.2 then
    ((List.range (u32 (g.2.1 + g.2.2))).foldl (swapStep g.1 g.2.1 g.2.2)
      (List.replicate (u32 (g.2.1 + g.2.2)) []), g.2.2, g.2.1)
  else g

/-- The two-path count of the left vertex `i`:
`for (idx < G[i].size()) count += (uint64_t) G[G[i][idx]].size() - 1;`. -/
def path2Cnt (G : Graph) (i : Nat) : Nat :=
  (nbrs G i).foldl (fun count v =>
    u64 (count + u64 ((nbrs G v).length + 18446744073709551616 - 1))) 0

/-- The vector `path2Cnts`. -/
def path2Cnts (G : Graph) (vLeft : Nat) : List Nat :=
  (List.range vLeft).map (path2Cnt G)

/-- What `tbb::parallel_sort` may return for the vector `0, 1, ..., n - 1` and the
comparison `path2Cnts[i1] < path2Cnts[i2]`: any rearrangement of the indices in which no
index is preceded by one with a greater key. The sort is not stable, so the order of
indices with equal keys is not fixed. -/
def IsSortOutcome (keys idx : List Nat) : Prop :=
  idx.Perm (List.range keys.length) ∧
    idx.Pairwise (fun i j => ¬ keys.getD j 0 < keys.getD i 0)

/-- A model of the sort routine: it maps the keys to the sorted index vector. -/
abbrev Sorter := List Nat → List Nat

/-- A sort routine is admissible when all its results are sort outcomes. -/
def Sorter.Valid (sort : Sorter) : Prop := ∀ keys, IsSortOutcome keys (sort keys)

/-- One admissible sort routine: insertion sort of the indices by key. -/
def insertionSorter : Sorter := fun keys =>
  (List.range keys.length).insertionSort (fun i j => keys.getD i 0 ≤ keys.getD j 0)

/-- The vector `rank`: `rank[idx[i]] = i`. -/
def rankOf (idx : List Nat) (vLeft : Nat) : List Nat :=
  (List.range vLeft).foldl (fun rank i => rank.set (idx.getD i 0) i) (List.replicate vLeft 0)

/-- The body of the relabelling loop for the vertex `u`. -/
def relabelStep (G : Graph) (rank : List Nat) (vLeft : Nat) (newG : Graph) (u : Nat) :
    Graph :=
  if u < vLeft then appendAt newG (rank.getD u 0) (nbrs G u)
  else appendAt newG u ((nbrs G u).map (fun v => rank.getD v 0))

/-- The call `std::sort(newG[i].begin(), newG[i].end(), std::greater<uint32_t>())`. -/
def sortDesc (l : List Nat) : List Nat := l.insertionSort (fun a b => b ≤ a)

/-- The part shared by the two overloads after the 2-core: side swap, two-path sort,
relabelling and the sort of every adjacency list. -/
def reorder (sort : Sorter) (g : Graph × Nat × Nat) : Graph × Nat × Nat :=
  let b := balance g
  let G := b.1
  let vLeft := b.2.1
  let vRight := b.2.2
  let idx := sort (path2Cnts G vLeft)
  let rank := rankOf idx vLeft
  let newG := (List.range (u32 (vLeft + vRight))).foldl (relabelStep G rank vLeft)
    (List.replicate (u32 (vLeft + vRight)) [])
  (newG.map sortDesc, vLeft, vRight)

/-- The function `preProcessing(G, vLeft, vRight)`: the new `G`, `vLeft` and `vRight`. -/
def preProcessing (sort : Sorter) (G : Graph) (vLeft vRight : Nat) : Graph × Nat × Nat :=
  reorder sort (Obtain2Core G vLeft vRight)

/-- Insertion `E[i].emplace(v)` for each `v` of `l` in turn. -/
def emplaceAll (E : Edges) (i : Nat) (l : List Nat) : Edges :=
  E.set i (l.foldl emplace (E.getD i []))

/-- The edge index built by `preProcessing(G, vLeft, vRight, E)`: `E[rank[u]]` receives the
neighbours of the left vertex `u` of the balanced 2-core. -/
def buildE (sort : Sorter) (g : Graph × Nat × Nat) : Edges :=
  let b := balance g
  let G := b.1
  let vLeft := b.2.1
  let idx := sort (path2Cnts G vLeft)
  let rank := rankOf idx vLeft
  (List.range vLeft).foldl (fun E u => emplaceAll E (rank.getD u 0) (nbrs G u))
    (List.replicate vLeft [])

/-- The function `preProcessing(G, vLeft, vRight, E)`: the new `G`, `vLeft`, `vRight`
and `E`. -/
def preProcessingE (sort : Sorter) (G : Graph) (vLeft vRight : Nat) :
    Graph × Nat × Nat × Edges :=
  let g := Obtain2Core G vLeft vRight
  let r := reorder sort g
  (r.1, r.2.1, r.2.2, buildE sort g)

/-! ## The four programs -/

/-- The program BTJ after its arguments are read: `partition_size` is the second argument
when there is one (`none` otherwise, and then the left size read from the file is used).
It prints 0 without counting when a side has fewer than 3 vertices. -/
def BTJ.main (sort : Sorter) (num_threads : Nat) (pid : Nat → Nat) (G : Graph)
    (vLeft vRight : Nat) (partition_size : Option Nat) : Option Nat :=
  let ps := partition_size.getD vLeft
  let p := preProcessing sort G vLeft vRight
  if p.2.1 < 3 ∨ p.2.2 < 3 then some 0
  else BTJ.getCount num_threads pid p.1 p.2.1 ps

/-- The program NJ: preprocessing, then `getCount`. -/
def NJ.main (sort : Sorter) (G : Graph) (vLeft vRight : Nat) : Nat :=
  let p := preProcessingE sort G vLeft vRight
  NJ.getCount p.1 p.2.1 p.2.2.2

/-- The program TJ: preprocessing, then `getCount`. -/
def TJ.main (sort : Sorter) (G : Graph) (vLeft vRight : Nat) : Nat :=
  let p := preProcessingE sort G vLeft vRight
  TJ.getCount p.1 p.2.1 p.2.2.2

/-- The program WJ: preprocessing, then `getCount`; `cuts` are the block lengths of the
scan over `partitions`. -/
def WJ.main (sort : Sorter) (cuts : List Nat) (G : Graph) (nEdge vLeft vRight : Nat) :
    Option Nat :=
  let p := preProcessingE sort G vLeft vRight
  WJ.getCount cuts p.1 nEdge p.2.1 p.2.2.2

/-- The 6-cycle of the small literal example as `readGraph` stores it: left ids 0, 1, 2 and
right ids 3, 4, 5, edges in the order of the file. -/
def hexagon : Graph := [[3, 4], [3, 5], [4, 5], [0, 1], [0, 2], [1, 2]]

/-- The 6-cycle with the chord from left 0 to right 2 (id 5). -/
def chorded : Graph := [[3, 4, 5], [3, 5], [4, 5], [0, 1], [0, 2], [1, 2, 0]]

/-- The example dataset of the program headers: `3 2 2 / 0 0 / 0 1 / 1 0`. -/
def exampleDataset : Graph := [[2, 3], [2], [0, 1], [0]]

end Induced6

namespace Induced6

open Finset

/-! ## Well-formed inputs and the product form of the count -/

/-- The graph is in preprocessed form: the ids fit `uint32_t`, left vertices are the ids
below `vLeft`, every edge joins a left and a right vertex and is recorded on both lists, and
every adjacency list is strictly descending (hence free of duplicates). -/
structure Preprocessed (G : Graph) (vLeft : Nat) : Prop where
  /-- The left vertices are vertices of the graph. -/
  vLeft_le : vLeft ≤ G.length
  /-- Vertex ids are `uint32_t` values. -/
  size_lt : G.length < 4294967296
  /-- The neighbours of a left vertex are right vertices. -/
  left_nbrs : ∀ a, a < vLeft → ∀ x ∈ nbrs G a, vLeft ≤ x ∧ x < G.length
  /-- The neighbours of a right vertex are left vertices. -/
  right_nbrs : ∀ x, x < G.length → vLeft ≤ x → ∀ a ∈ nbrs G x, a < vLeft
  /-- Every edge is on both lists. -/
  symm : ∀ u, u < G.length → ∀ v ∈ nbrs G u, u ∈ nbrs G v
  /-- Every adjacency list is strictly descending. -/
  desc : ∀ u, u < G.length → (nbrs G u).Sorted (fun x y => x > y)

/-- The edge index `E` holds, for every left vertex, exactly its neighbours. -/
def EdgeIndex (G : Graph) (vLeft : Nat) (E : Edges) : Prop :=
  ∀ a, a < vLeft → (∀ x ∈ E.getD a [], x ∈ nbrs G a) ∧ (∀ x ∈ nbrs G a, x ∈ E.getD a [])

/-- The number of right vertices adjacent to the left vertices `p` and `q` and not to the
left vertex `r`. -/
def exclF (G : Graph) (vLeft p q r : Nat) : Nat :=
  ((Ico vLeft G.length).filter
    (fun x => adj G p x = true ∧ adj G q x = true ∧ adj G r x = false)).card

/-- The product form of the count: every triple `a < b < c` of left vertices contributes
the product of its three exclusive common-neighbour counts. -/
def tripleSum (G : Graph) (vLeft : Nat) : Nat :=
  ∑ a in range vLeft, ∑ b in range vLeft, ∑ c in range vLeft,
    if a < b ∧ b < c then exclF G vLeft a b c * exclF G vLeft b c a * exclF G vLeft a c b
    else 0

/-- The exclusive count read off the adjacency list of `p`. -/
def exclL (G : Graph) (p q r : Nat) : Nat :=
  ((nbrs G p).filter (fun x => adj G q x && !adj G r x)).length

end Induced6

namespace Induced6

/-- The product of the three exclusive counts of a left triple, read off the lists. -/
def prodL (G : Graph) (a b c : Nat) : Nat := exclL G a b c * exclL G b c a * exclL G a c b

end Induced6

namespace Induced6

/-- The memo map of strategy B is sound for the vertex `u`: what it holds under the key of
a pair of left vertices is the number of their common neighbours not adjacent to `u`. -/
def NJ.MemoOK (G : Graph) (vLeft u : Nat) (m : HMap Nat) : Prop :=
  ∀ v w, v < vLeft → w < vLeft → ∀ n, m (NJ.pairKey v w) = some n → n = exclL G v w u

/-- The sum that strategy B accumulates for the ordered pair `(a, b)` of right neighbours of
`u`: over the `w` above `u` adjacent to `b` and not to `a`, and the `v` above `u` adjacent
to `a` and not to `b`, the number of common neighbours of `v` and `w` not adjacent to `u`. -/
def NJ.pairTerm (G : Graph) (u a b : Nat) : Nat :=
  ((((nbrs G b).filter (fun w => decide (w > u))).filter (fun w => !adj G w a)).map
    (fun w => ((((nbrs G a).filter (fun v => decide (v > u))).filter
      (fun v => !adj G v b)).map (fun v => exclL G v w u)).sum)).sum

/-- The sum of `f a b` over the pairs of entries of a list with `a` before `b`. -/
def sumPairs (f : Nat → Nat → Nat) : List Nat → Nat
  | [] => 0
  | a :: rest => (rest.map (f a)).sum + sumPairs f rest

end Induced6

namespace Induced6

namespace WJ

/-- The wedges with low endpoint `u1`, in the order in which the construction loop meets
them: `(u1, u2, v1)` for `v1` in `G[u1]` and `u2` in `G[v1]` above `u1`. -/
def wedgeList (G : Graph) (u1 : Nat) : List Wedge :=
  (nbrs G u1).flatMap (fun v1 =>
    ((nbrs G v1).filter (fun u2 => decide (u2 > u1))).map (fun u2 => (u1, u2, v1)))

/-- A wedge put before the first wedge of a run whose high endpoint is greater. -/
def insWedge (t : Wedge) : List Wedge → List Wedge
  | [] => [t]
  | x :: S => if t.2.1 < x.2.1 then t :: x :: S else x :: insWedge t S

/-- The partition of `u1` as the insertions leave it. -/
def sortedWedges (G : Graph) (u1 : Nat) : List Wedge :=
  (wedgeList G u1).foldl (fun S t => insWedge t S) []

/-- The number of wedges whose low endpoint is below `u`. -/
def wedgesBelow (G : Graph) (u : Nat) : Nat :=
  ((List.range u).map (fun u1 => (wedgeList G u1).length)).sum

end WJ

end Induced6

namespace Induced6

namespace WJ

/-- What strategy D adds for the pair of wedges `w1 = (u1, u2, v1)` and `t2 = (u2, u3, v2)`:
when `v2` is not adjacent to `u1` and `v1` is not adjacent to `u3`, the number of wedges
`(u1, u3, v3)` whose midpoint is not adjacent to `u2`. -/
def pairCount (G : Graph) (E : Edges) (w1 t2 : Wedge) : Nat :=
  if !econtains E w1.1 t2.2.2 && !econtains E t2.2.1 w1.2.2 then
    (sortedWedges G w1.1).countP (fun t => decide (t.2.1 = t2.2.1) && !econtains E w1.2.1 t.2.2)
  else 0

/-- The count of the wedge `w1`: the sum over the wedges out of its high endpoint. -/
def wedgeTotal (G : Graph) (E : Edges) (w1 : Wedge) : Nat :=
  ((sortedWedges G w1.2.1).map (pairCount G E w1)).sum

end WJ

end Induced6

namespace Induced6

/-- The 6-cycle of the small literal example after preprocessing. -/
def hexagonPre : Graph := [[4, 3], [5, 3], [5, 4], [1, 0], [2, 0], [2, 1]]

/-- The edge index of the preprocessed 6-cycle. -/
def hexagonE : Edges := [[3, 4], [3, 5], [4, 5]]

end Induced6

namespace Induced6

/-- The six orders of three indices. -/
def sixOrders : List (List Nat) :=
  [[0, 1, 2], [0, 2, 1], [1, 0, 2], [1, 2, 0], [2, 0, 1], [2, 1, 0]]

end Induced6

namespace Induced6

/-- The adjacency lists of the graph `bigGraph m`: the left vertices 0, 1, 2 and three
groups of `m` right vertices, the first adjacent to 0 and 1, the second to 1 and 2, the
third to 0 and 2. -/
def bigNbrs (m u : Nat) : List Nat :=
  if u = 0 then
    ((List.range' 3 (3 * m)).filter (fun x => decide (x < 3 + m ∨ 3 + 2 * m ≤ x))).reverse
  else if u = 1 then
    ((List.range' 3 (3 * m)).filter (fun x => decide (x < 3 + 2 * m))).reverse
  else if u = 2 then
    ((List.range' 3 (3 * m)).filter (fun x => decide (3 + m ≤ x))).reverse
  else if u < 3 + m then [1, 0]
  else if u < 3 + 2 * m then [2, 1]
  else [2, 0]

/-- A preprocessed graph with 3 left vertices and `m^3` induced 6-cycles. -/
def bigGraph (m : Nat) : Graph := (List.range (3 + 3 * m)).map (bigNbrs m)

/-- The edge index of `bigGraph m`. -/
def bigE (m : Nat) : Edges := (List.range 3).map (bigNbrs m)

end Induced6

namespace Induced6

open Finset

/-! ## The 2-core and the invariants of `Compute2Core` -/

/-- The graph is a symmetric simple graph on the vertices `0 .. n - 1`: the ids fit
`uint32_t`, every neighbour is a vertex, every edge is on both lists and no list holds a
vertex twice. -/
structure SymmSimple (G : Graph) (n : Nat) : Prop where
  /-- Vertex ids are `uint32_t` values. -/
  size_lt : n < 4294967296
  /-- Every neighbour is a vertex. -/
  bound : ∀ u, u < n → ∀ v ∈ nbrs G u, v < n
  /-- Every edge is on both lists. -/
  symm : ∀ u, u < n → ∀ v ∈ nbrs G u, u ∈ nbrs G v
  /-- No list holds a vertex twice. -/
  nodup : ∀ u, u < n → (nbrs G u).Nodup

/-- Every member of `S` is a vertex and has at least 2 neighbours inside `S`. -/
def MinDeg2 (G : Graph) (n : Nat) (S : Finset Nat) : Prop :=
  ∀ x ∈ S, x < n ∧ 2 ≤ (nbrs G x).countP (fun y => decide (y ∈ S))

/-- The set `C` is the 2-core: the largest vertex set in which every vertex has at least 2
neighbours inside the set. -/
def IsTwoCore (G : Graph) (n : Nat) (C : Finset Nat) : Prop :=
  MinDeg2 G n C ∧ ∀ S, MinDeg2 G n S → S ⊆ C

/-- The vertices that the flags written by `Compute2Core` mark as surviving: flag 1, and
flag 0 for vertex 0, whose entry has been decremented. -/
def survivors (n : Nat) (newID : List Int) : Finset Nat :=
  (range n).filter (fun x => newID.getD x 0 = if x = 0 then 0 else 1)

/-- The left vertices whose flag is 1. -/
def aliveL (vLeft n : Nat) (newID : List Int) : Finset Nat :=
  (range n).filter (fun y => y < vLeft ∧ newID.getD y 0 = 1)

/-- The right vertices whose flag is 1. -/
def aliveR (vLeft n : Nat) (newID : List Int) : Finset Nat :=
  (range n).filter (fun y => vLeft ≤ y ∧ newID.getD y 0 = 1)

/-- The part of the invariant of `Compute2Core` that does not mention the degrees: the
flags are 0 or 1, the queue holds distinct vertices of flag 0, the two counters count the
flags 1 on each side, and no vertex of a set of minimum degree 2 has lost its flag. -/
structure CoreBase (G : Graph) (vLeft n : Nat) (st : CoreState) : Prop where
  /-- The vector `deg_vec` has one entry per vertex. -/
  len_deg : st.deg_vec.length = n
  /-- The vector `newID` has one entry per vertex. -/
  len_id : st.newID.length = n
  /-- Every flag is 0 or 1. -/
  flags : ∀ y, y < n → st.newID.getD y 0 = 0 ∨ st.newID.getD y 0 = 1
  /-- The queue holds vertices of flag 0. -/
  q_dead : ∀ z ∈ st.deleting_q, z < n ∧ st.newID.getD z 0 = 0
  /-- The queue holds no vertex twice. -/
  q_nodup : st.deleting_q.Nodup
  /-- The counter `newVLeft`. -/
  cntL : st.newVLeft = (aliveL vLeft n st.newID).card
  /-- The counter `newVRight`. -/
  cntR : st.newVRight = (aliveR vLeft n st.newID).card
  /-- No vertex of a set of minimum degree 2 has lost its flag. -/
  maxi : ∀ S, MinDeg2 G n S → ∀ y ∈ S, st.newID.getD y 0 = 1

/-- The degree invariant while the neighbours `rest` of the dequeued vertex `x` are still
to be visited: the entry of a vertex `y` of flag 1 is at least 2 and counts the neighbours
of `y` that have flag 1, wait in the queue, or are `x` with `y` still to be visited. -/
def DegInv (G : Graph) (n : Nat) (st : CoreState) (x : Nat) (rest : List Nat) : Prop :=
  ∀ y, y < n → st.newID.getD y 0 = 1 →
    st.deg_vec.getD y 0 = (nbrs G y).countP (fun z =>
        decide (st.newID.getD z 0 = 1 ∨ z ∈ st.deleting_q ∨ (z = x ∧ y ∈ rest))) ∧
      2 ≤ st.deg_vec.getD y 0

/-- The bound on the rounds left: the length of the queue plus the two counters. -/
def coreM (st : CoreState) : Nat := st.deleting_q.length + st.newVLeft + st.newVRight

end Induced6

namespace Induced6

/-- The 6-cycle (left 0..2, right 3..5) with one more right vertex, 6, that hangs off the
left vertex 0; `vLeft = 3` and `vRight = 4`. -/
def pendantHexagon : Graph := [[3, 4, 6], [3, 5], [4, 5], [0, 1], [0, 2], [1, 2], [0]]

end Induced6

namespace Induced6

open Finset

/-! ## Strategy A: the quantities and invariants of the proof -/

namespace BTJ

/-- The number of common neighbours of `a` and `k`, read off the list of `a`. -/
def wedges (G : Graph) (a k : Nat) : Nat :=
  (nbrs G a).countP (fun u => decide (k ∈ nbrs G u))

/-- What the map `ACs[a]` holds under the key `k` once it is filled. -/
def wedgeMap (G : Graph) (a k : Nat) : Option Nat :=
  if a < k ∧ 0 < wedges G a k then some (wedges G a k) else none

/-- The invariant of the vector `ACs` at the head of the batch loop: the maps of the
vertices below `bs - 1` hold, for the keys from `cs` on, the wedge counts, and the other maps
are empty. -/
def ACsInv (G : Graph) (vLeft bs cs : Nat) (ACs : List (HMap Nat)) : Prop :=
  ACs.length = vLeft - 2 ∧ ∀ a, a < vLeft - 2 →
    (a + 1 < bs → ∀ k, cs ≤ k → ACs.getD a HMap.empty k = wedgeMap G a k) ∧
    (bs ≤ a + 1 → ∀ k, ACs.getD a HMap.empty k = none)

/-- The pairs `(u, c)` in the order in which the grouping loop of `b` visits them. -/
def pairsOf (G : Graph) (b : Nat) : List (Nat × Nat) :=
  (nbrs G b).flatMap (fun u => (nbrs G u).map (fun c => (u, c)))

/-- The midpoints recorded for the vertex `v` among the pairs `P`. -/
def cont (P : List (Nat × Nat)) (v : Nat) : List Nat :=
  (P.filter (fun p => decide (p.2 = v))).map Prod.fst

/-- One branch of the grouping step, for the side whose slots start at `gs + off` and
whose counter is `n`. -/
def sideStep (gs off : Nat) (s : Scratch) (n c u : Nat) : Scratch × Nat :=
  let st1 : Scratch × Nat :=
    if s.localIDs.getD (gs + c) 0 = 0 then
      ({ s with localIDs := s.localIDs.set (gs + c) (n + 1),
                reverseIDs := s.reverseIDs.set (gs + off + (n + 1) - 1) c }, n + 1)
    else (s, n)
  (record st1.1 (gs + off + st1.1.localIDs.getD (gs + c) 0 - 1) u, st1.2)

/-- The scratch vectors represent the two sides `L1` (slots from `gs + o1`) and `L2`
(slots from `gs + o2`) after the pairs `P`. -/
structure Rep2 (gs size : Nat) (P : List (Nat × Nat)) (o1 : Nat) (L1 : List Nat) (o2 : Nat)
    (L2 : List Nat) (s : Scratch) : Prop where
  /-- Length of `ABCs`. -/
  len_abc : s.ABCs.length = size
  /-- Length of `ABCs_counts`. -/
  len_cnt : s.ABCs_counts.length = size
  /-- Length of `localIDs`. -/
  len_loc : s.localIDs.length = size
  /-- Length of `reverseIDs`. -/
  len_rev : s.reverseIDs.length = size
  /-- Local ids of the first side. -/
  loc1 : ∀ k, k < L1.length → s.localIDs.getD (gs + L1.getD k 0) 0 = k + 1
  /-- Local ids of the second side. -/
  loc2 : ∀ k, k < L2.length → s.localIDs.getD (gs + L2.getD k 0) 0 = k + 1
  /-- No other local id is set. -/
  loc0 : ∀ i, (∀ v, v ∈ L1 ∨ v ∈ L2 → i ≠ gs + v) → s.localIDs.getD i 0 = 0
  /-- Reverse ids of the first side. -/
  rev1 : ∀ k, k < L1.length → s.reverseIDs.getD (gs + o1 + k) 0 = L1.getD k 0
  /-- Reverse ids of the second side. -/
  rev2 : ∀ k, k < L2.length → s.reverseIDs.getD (gs + o2 + k) 0 = L2.getD k 0
  /-- Slots of the first side. -/
  abc1 : ∀ k, k < L1.length → s.ABCs.getD (gs + o1 + k) [] = cont P (L1.getD k 0)
  /-- Slots of the second side. -/
  abc2 : ∀ k, k < L2.length → s.ABCs.getD (gs + o2 + k) [] = cont P (L2.getD k 0)
  /-- Every other slot is empty. -/
  abc0 : ∀ i, (∀ k, k < L1.length → i ≠ gs + o1 + k) →
    (∀ k, k < L2.length → i ≠ gs + o2 + k) → s.ABCs.getD i [] = []
  /-- The counts are the lengths of the slots. -/
  cnt : ∀ i, s.ABCs_counts.getD i 0 = (s.ABCs.getD i []).length

/-- The invariant of the grouping loop of `b` after the pairs `P`. -/
def GroupInv (gs b size vLeft : Nat) (P : List (Nat × Nat)) (st : GroupState) : Prop :=
  ∃ As Cs : List Nat, Rep2 gs size P 0 As b Cs st.1 ∧ st.2.1 = As.length ∧
    st.2.2 = Cs.length ∧ As.Nodup ∧ Cs.Nodup ∧
    (∀ a, a ∈ As ↔ a < b ∧ a ∈ P.map Prod.snd) ∧
    (∀ c, c ∈ Cs ↔ b < c ∧ c ∈ P.map Prod.snd) ∧ (∀ c ∈ Cs, c < vLeft)

/-- No slot is in use: every vector has `size` entries, every slot is empty, every count
and every local id is 0. -/
structure Clean (size : Nat) (s : Scratch) : Prop where
  /-- Length of `ABCs`. -/
  len_abc : s.ABCs.length = size
  /-- Length of `ABCs_counts`. -/
  len_cnt : s.ABCs_counts.length = size
  /-- Length of `localIDs`. -/
  len_loc : s.localIDs.length = size
  /-- Length of `reverseIDs`. -/
  len_rev : s.reverseIDs.length = size
  /-- Every slot is empty. -/
  abc : ∀ i, s.ABCs.getD i [] = []
  /-- Every count is 0. -/
  cnt : ∀ i, s.ABCs_counts.getD i 0 = 0
  /-- Every local id is 0. -/
  loc : ∀ i, s.localIDs.getD i 0 = 0

/-- What the join phase needs of the representation: the reverse ids and the slots of the
two sides, and that nothing else is in use. -/
structure JRep (gs size : Nat) (P : List (Nat × Nat)) (o1 : Nat) (L1 : List Nat) (o2 : Nat)
    (L2 : List Nat) (s : Scratch) : Prop where
  /-- Length of `ABCs`. -/
  len_abc : s.ABCs.length = size
  /-- Length of `ABCs_counts`. -/
  len_cnt : s.ABCs_counts.length = size
  /-- Length of `localIDs`. -/
  len_loc : s.localIDs.length = size
  /-- Length of `reverseIDs`. -/
  len_rev : s.reverseIDs.length = size
  /-- No other local id is set. -/
  loc0 : ∀ i, (∀ v, v ∈ L1 ∨ v ∈ L2 → i ≠ gs + v) → s.localIDs.getD i 0 = 0
  /-- Reverse ids of the first side. -/
  rev1 : ∀ k, k < L1.length → s.reverseIDs.getD (gs + o1 + k) 0 = L1.getD k 0
  /-- Reverse ids of the second side. -/
  rev2 : ∀ k, k < L2.length → s.reverseIDs.getD (gs + o2 + k) 0 = L2.getD k 0
  /-- Slots of the first side. -/
  abc1 : ∀ k, k < L1.length → s.ABCs.getD (gs + o1 + k) [] = cont P (L1.getD k 0)
  /-- Slots of the second side. -/
  abc2 : ∀ k, k < L2.length → s.ABCs.getD (gs + o2 + k) [] = cont P (L2.getD k 0)
  /-- Every other slot is empty. -/
  abc0 : ∀ i, (∀ k, k < L1.length → i ≠ gs + o1 + k) →
    (∀ k, k < L2.length → i ≠ gs + o2 + k) → s.ABCs.getD i [] = []
  /-- The counts are the lengths of the slots. -/
  cnt : ∀ i, s.ABCs_counts.getD i 0 = (s.ABCs.getD i []).length

/-- The three statements that clear the slot `gs + i`. -/
def clearSlot (gs : Nat) (s : Scratch) (i : Nat) : Scratch :=
  { s with ABCs := s.ABCs.set (gs + i) [],
           ABCs_counts := s.ABCs_counts.set (gs + i) 0,
           localIDs := s.localIDs.set (gs + s.reverseIDs.getD (gs + i) 0) 0 }

/-- The common neighbours of `b` and `v`, in the order of the list of `b`. -/
def common (G : Graph) (b v : Nat) : List Nat :=
  (nbrs G b).filter (fun u => decide (v ∈ nbrs G u))

/-- What the join loop adds for the slot `AB` of a vertex whose map is `S` and the slot
`BC` of the vertex `c`. -/
def joinTerm (S : HMap Nat) (AB BC : List Nat) (c : Nat) : Nat :=
  match S c with
  | some ac_val =>
    u64 (u64 (u64 (AB.length + 18446744073709551616 - u32 (intersection_size AB BC))
      * sub32 ac_val (u32 (intersection_size AB BC)))
      * sub32 BC.length (u32 (intersection_size AB BC)))
  | none => 0

/-- One round of the loop over the c-side slots. -/
def joinAdd (S : HMap Nat) (AB : List Nat) (P : List (Nat × Nat)) (acc c : Nat) : Nat :=
  match S c with
  | some ac_val =>
    u64 (acc + u64 (u64 (u64 (AB.length + 18446744073709551616 -
      u32 (intersection_size AB (cont P c)))
      * sub32 ac_val (u32 (intersection_size AB (cont P c))))
      * sub32 (cont P c).length (u32 (intersection_size AB (cont P c)))))
  | none => acc

/-- The number of common neighbours of `p`, `q` and `r`, read off the list of `p`. -/
def triple (G : Graph) (p q r : Nat) : Nat :=
  ((nbrs G p).filter (fun u => decide (q ∈ nbrs G u) && decide (r ∈ nbrs G u))).length

/-- The share of the middle vertex `b` in the product form of the count. -/
def totalB (G : Graph) (vLeft b : Nat) : Nat :=
  ∑ a in range vLeft, ∑ c in range vLeft, if a < b ∧ b < c then prodL G a b c else 0

/-- The invariant of the vector `counts` when the vertices below `b` are done. -/
def CountsInv (G : Graph) (vLeft b : Nat) (counts : List Nat) : Prop :=
  counts.length = vLeft - 2 ∧
    ∀ i, i < vLeft - 2 → counts.getD i 0 = if i + 1 < b then u64 (totalB G vLeft (i + 1)) else 0

/-- The invariant of the batch loop at its head. -/
structure BInv (G : Graph) (vLeft ps size : Nat) (st : Batch) : Prop where
  /-- The first `b` of the batch is at least 1. -/
  bs_pos : 1 ≤ st.b_start
  /-- The bound `c_start`. -/
  cs_eq : st.c_start = st.b_start + 1
  /-- The bound `a_end`. -/
  ae_eq : st.a_end = min (st.b_start + ps - 2) (vLeft - 3)
  /-- The bound `b_end`. -/
  be_eq : st.b_end = min (st.a_end + 1) (vLeft - 2)
  /-- The two-hop maps. -/
  acs : ACsInv G vLeft st.b_start st.c_start st.ACs
  /-- The scratch vectors are clean. -/
  clean : Clean size st.scratch
  /-- The vertices below `b_start` are counted. -/
  counts : CountsInv G vLeft st.b_start st.counts

end BTJ

end Induced6

namespace Induced6
open Finset

/-! ## Input graphs of the preprocessing -/

/-- The graph is a simple symmetric bipartite graph with `vLeft` left and `vRight` right
vertices, as `readGraph` builds it from a file of distinct edges: one list per vertex, ids
that fit `uint32_t`, every edge between a left and a right vertex and on both lists, no
vertex twice on a list. -/
structure Bip (G : Graph) (vLeft vRight : Nat) : Prop where
  /-- One list per vertex. -/
  length_eq : G.length = vLeft + vRight
  /-- Vertex ids are `uint32_t` values. -/
  size_lt : vLeft + vRight < 4294967296
  /-- The neighbours of a left vertex are right vertices. -/
  left_nbrs : ∀ a, a < vLeft → ∀ x ∈ nbrs G a, vLeft ≤ x ∧ x < vLeft + vRight
  /-- The neighbours of a right vertex are left vertices. -/
  right_nbrs : ∀ x, vLeft ≤ x → x < vLeft + vRight → ∀ a ∈ nbrs G x, a < vLeft
  /-- Every edge is on both lists. -/
  symm : ∀ u, u < vLeft + vRight → ∀ v ∈ nbrs G u, u ∈ nbrs G v
  /-- No list holds a vertex twice. -/
  nodup : ∀ u, u < vLeft + vRight → (nbrs G u).Nodup

/-- The number of members of `C` up to `i`. -/
def cntUpTo (C : Finset Nat) (i : Nat) : Nat := ((range (i + 1)).filter (fun y => y ∈ C)).card

end Induced6

namespace Induced6

/-! ## The contract of the preprocessing steps and of the reducer -/

/-- The two-path count of a vertex: the sum over its neighbours `u` of `degree(u) - 1`. -/
def twoPath (G : Graph) (v : Nat) : Nat :=
  ((nbrs G v).map (fun u => (nbrs G u).length - 1)).sum

/-- The function `Obtain2Core` with the index of the last statement of `Compute2Core`,
`--newID[0]`, checked against the size of `newID`: `none` when `newID` has no entry 0. -/
def Obtain2CoreChecked (G : Graph) (vLeft vRight : Nat) : Option (Graph × Nat × Nat) :=
  if 0 < (coreLoop G vLeft vRight).newID.length then some (Obtain2Core G vLeft vRight)
  else none

/-- The history of one `Sum` body in a run of `tbb::parallel_reduce`: the body is made by
`Sum()` or by the splitting constructor, `operator()` is applied to it block after block, and
other bodies are merged into it by `join`. -/
inductive Reduction where
  /-- The constructor `Sum() : value(0)`. -/
  | fresh : Reduction
  /-- The splitting constructor `Sum(Sum& s, tbb::split) {value = 0;}`. -/
  | splitOff : Reduction → Reduction
  /-- The call `operator()(r)` on a block of the sequence. -/
  | block : Reduction → List Nat → Reduction
  /-- The call `join(rhs)`. -/
  | merge : Reduction → Reduction → Reduction

/-- The field `value` of the body at the end of its history. -/
def Reduction.value : Reduction → Nat
  | .fresh => 0
  | .splitOff _ => 0
  | .block b r => Sum.apply b.value r
  | .merge l r => Sum.join l.value r.value

/-- The elements of the blocks that went into the body, directly or through `join`. -/
def Reduction.elems : Reduction → List Nat
  | .fresh => []
  | .splitOff _ => []
  | .block b r => b.elems ++ r
  | .merge l r => l.elems ++ r.elems

/-- The vertices that survive in `Obtain2Core`: those that the flags of `Compute2Core` mark. -/
def coreSet (G : Graph) (vLeft vRight : Nat) : Finset Nat :=
  survivors (vLeft + vRight) (Compute2Core G vLeft vRight).2.2

/-- The entry `newID[x]` after the `parallel_scan` of `Obtain2Core`: the new id of `x` when
`x` survives. -/
def compactID (G : Graph) (vLeft vRight : Nat) (x : Nat) : Nat :=
  (scanIDs (Compute2Core G vLeft vRight).2.2 0).getD x 0

/-- The graph and the sizes of `preProcessing` after the 2-core and the side swap. -/
def balancedCore (G : Graph) (vLeft vRight : Nat) : Graph × Nat × Nat :=
  balance (Obtain2Core G vLeft vRight)

/-- The vector `rank` of `preProcessing`. -/
def rankVec (sort : Sorter) (G : Graph) (vLeft vRight : Nat) : List Nat :=
  rankOf (sort (path2Cnts (balancedCore G vLeft vRight).1 (balancedCore G vLeft vRight).2.1))
    (balancedCore G vLeft vRight).2.1

/-- A 6-cycle on the left vertices 0, 2, 3 and the right vertices 4, 5, 7, with the left
vertex 1 hanging off the right vertex 4 and the right vertex 6 without an edge; `vLeft = 4`
and `vRight = 4`. -/
def gappedHexagon : Graph := [[4, 5], [4], [4, 7], [5, 7], [0, 2, 1], [0, 3], [], [2, 3]]

/-- The complete bipartite graph on 3 left and 2 right vertices. -/
def k32 : Graph := [[3, 4], [3, 4], [3, 4], [0, 1, 2], [0, 1, 2]]

/-- The 6-cycle on the left vertices 0, 1, 2 and the right vertices 4, 5, 6, with one more
left vertex, 3, adjacent to the right vertices 4 and 5; `vLeft = 4` and `vRight = 3`. -/
def hexagonPlus : Graph := [[4, 5], [4, 6], [5, 6], [4, 5], [0, 1, 3], [0, 2, 3], [1, 2]]

/-- The graph `hexagonPlus` with the roles of the two sides exchanged: `vLeft = 3` and
`vRight = 4`. -/
def hexagonPlusSwapped : Graph := [[3, 4, 6], [3, 5, 6], [4, 5], [0, 1], [0, 2], [1, 2], [0, 1]]

/-- The 6-cycle of the small literal example with the left ids rotated and two right ids
exchanged. -/
def hexagonPermuted : Graph := [[5, 3], [4, 3], [4, 5], [1, 0], [1, 2], [0, 2]]

end Induced6

namespace Induced6

open Finset

/-- The body of the relabelling loop of `preProcessing(G, vLeft, vRight, E)` for the vertex
`u`: as in the other overload, with `E[rank[u]].emplace(v)` beside
`newG[rank[u]].emplace_back(v)` for a left vertex. -/
def relabelStepE (G : Graph) (rank : List Nat) (vLeft : Nat) (st : Graph × Edges) (u : Nat) :
    Graph × Edges :=
  if u < vLeft then
    (appendAt st.1 (rank.getD u 0) (nbrs G u), emplaceAll st.2 (rank.getD u 0) (nbrs G u))
  else (appendAt st.1 u ((nbrs G u).map (fun v => rank.getD v 0)), st.2)

/-- The function `preProcessing(G, vLeft, vRight, E)` read off its own text: the 2-core, the
side swap, the two-path sort, one loop that builds `newG` and `E` together, and the sort of
every list of `newG`. -/
def preProcessingWithE (sort : Sorter) (G : Graph) (vLeft vRight : Nat) :
    Graph × Nat × Nat × Edges :=
  let b := balance (Obtain2Core G vLeft vRight)
  let idx := sort (path2Cnts b.1 b.2.1)
  let rank := rankOf idx b.2.1
  let r := (List.range (u32 (b.2.1 + b.2.2))).foldl (relabelStepE b.1 rank b.2.1)
    (List.replicate (u32 (b.2.1 + b.2.2)) [], List.replicate b.2.1 [])
  (r.1.map sortDesc, b.2.1, b.2.2, r.2)

namespace WJ

/-- The indices `m` at which the loop of `getm` reads `Wedges[m]`, in order: the same loop
as `getmLoop`, recording every read. -/
def getmReads (W : List Wedge) (u : Nat) : Nat → Nat → Nat → List Nat
  | 0, _, _ => []
  | fuel + 1, l, r =>
    if l ≤ r then
      let m1 := u32 (l + r) / 2
      let u2 := (wedgeAt W m1).2.1
      if u2 < u then m1 :: getmReads W u fuel (u32 (m1 + 1)) r
      else if u2 > u then m1 :: getmReads W u fuel l (sub32 m1 1)
      else [m1]
    else []

/-- The reads of a call `getm(Wedges, start, end, u, m)`. -/
def getmTrace (W : List Wedge) (start stop u : Nat) : List Nat :=
  getmReads W u 18446744073709551616 start (sub32 stop 1)

/-- The values of `m` at which the loop of `getm` executes `r = m - 1`. -/
def getmDecs (W : List Wedge) (u : Nat) : Nat → Nat → Nat → List Nat
  | 0, _, _ => []
  | fuel + 1, l, r =>
    if l ≤ r then
      let m1 := u32 (l + r) / 2
      let u2 := (wedgeAt W m1).2.1
      if u2 < u then getmDecs W u fuel (u32 (m1 + 1)) r
      else if u2 > u then m1 :: getmDecs W u fuel l (sub32 m1 1)
      else []
    else []

/-- The indices at which the forward scan reads `Wedges[idx]`: the loop of `scanFwd`,
recording every read. -/
def scanFwdReads (W : List Wedge) (u3 bound : Nat) : Nat → Nat → List Nat
  | 0, _ => []
  | fuel + 1, idx =>
    if idx < bound then
      if (wedgeAt W idx).2.1 ≠ u3 then [idx]
      else idx :: scanFwdReads W u3 bound fuel (idx + 1)
    else []

/-- The indices at which the backward scan reads `Wedges[idx]`: the loop of `scanBack`,
recording every read. -/
def scanBackReads (W : List Wedge) (u3 minIdx : Nat) : Nat → List Nat
  | 0 => if 0 ≥ minIdx then [0] else []
  | idx + 1 =>
    if idx + 1 ≥ minIdx then
      if (wedgeAt W (idx + 1)).2.1 ≠ u3 then [idx + 1]
      else (idx + 1) :: scanBackReads W u3 minIdx idx
    else []

/-- The values of `idx` at which the backward scan executes `--idx`. -/
def scanBackDecs (W : List Wedge) (u3 minIdx : Nat) : Nat → List Nat
  | 0 => if 0 ≥ minIdx then (if (wedgeAt W 0).2.1 ≠ u3 then [] else [0]) else []
  | idx + 1 =>
    if idx + 1 ≥ minIdx then
      if (wedgeAt W (idx + 1)).2.1 ≠ u3 then []
      else (idx + 1) :: scanBackDecs W u3 minIdx idx
    else []

/-- The indices of `Wedges` read by the block guarded by `if (idx != u3)`: the reads of
`getm`, then, after a hit at `m`, those of the forward scan from `m` and of the backward
scan from `m - 1`. -/
def computeCReads (W : List Wedge) (partitions : List Nat) (u1 u3 : Nat) : List Nat :=
  getmTrace W (u32 (partitions.getD u1 0)) (u32 (partitions.getD (u1 + 1) 0)) u3 ++
  match getm W (u32 (partitions.getD u1 0)) (u32 (partitions.getD (u1 + 1) 0)) u3 0 with
  | some (true, m) =>
    scanFwdReads W u3 (partitions.getD (u1 + 1) 0) (partitions.getD (u1 + 1) 0 - m) m ++
      scanBackReads W u3 (if u1 > 0 then u32 (partitions.getD (u1 - 1) 0) else 0) (sub32 m 1)
  | _ => []

/-- The values of `idx` at which the backward scan of the block executes `--idx`. -/
def computeCDecs (W : List Wedge) (partitions : List Nat) (u1 u3 : Nat) : List Nat :=
  match getm W (u32 (partitions.getD u1 0)) (u32 (partitions.getD (u1 + 1) 0)) u3 0 with
  | some (true, m) =>
    scanBackDecs W u3 (if u1 > 0 then u32 (partitions.getD (u1 - 1) 0) else 0) (sub32 m 1)
  | _ => []

end WJ

namespace BTJ

/-- The variables of `getCount` when the `while` loop is entered for the first time. -/
def initBatch (num_threads vLeft partition_size : Nat) : Batch :=
  { a_end := min (sub32 partition_size 1) (sub32 vLeft 3),
    b_start := 1,
    b_end := min partition_size (sub32 vLeft 2),
    c_start := 2,
    ACs := List.replicate (sub32 vLeft 2) HMap.empty,
    scratch := ⟨List.replicate (u32 (num_threads * vLeft)) [],
      List.replicate (u32 (num_threads * vLeft)) 0, List.replicate (u32 (num_threads * vLeft)) 0,
      List.replicate (u32 (num_threads * vLeft)) 0⟩,
    counts := List.replicate (sub32 vLeft 2) 0 }

/-- The states in which the body of the `while` loop is entered, in order: one per
batch. -/
def batchHeads (G : Graph) (vLeft partition_size : Nat) (pid : Nat → Nat) :
    Nat → Batch → List Batch
  | 0, _ => []
  | fuel + 1, st =>
    if st.b_start ≤ sub32 vLeft 2 then
      st :: batchHeads G vLeft partition_size pid fuel (batchStep G vLeft partition_size pid st)
    else []

/-- The vector `ACs` at the start of the counting phase of the batch entered in the state
`st`: after the first `parallel_for`. -/
def countingACs (G : Graph) (st : Batch) : List (HMap Nat) :=
  (List.range (u32 (st.a_end + 1))).foldl (updateAC G st.b_start st.c_start) st.ACs

/-- An access to the scratch vectors made while a vertex `b` is processed: `loc i` is an
access to `localIDs[i]`; `aSide i` is an access to `ABCs[i]`, `ABCs_counts[i]` or
`reverseIDs[i]` through an index written `globalStart + ...` (a slot of the a-side);
`cSide i` is such an access through an index written `globalStart + b + ...` (a slot of
the c-side). -/
inductive Access where
  | loc (i : Nat)
  | aSide (i : Nat)
  | cSide (i : Nat)

/-- The index of an access. -/
def Access.index : Access → Nat
  | Access.loc i => i
  | Access.aSide i => i
  | Access.cSide i => i

/-- The accesses of the body of `for (c : G[u])` in the grouping loop of `b`, in the state
`st`: the index expressions of `groupStep`. -/
def groupStepIdx (gs b : Nat) (st : GroupState) (c : Nat) : List Access :=
  if c > b then
    let st1 : GroupState :=
      if st.1.localIDs.getD (gs + c) 0 = 0 then
        ({ st.1 with localIDs := st.1.localIDs.set (gs + c) (st.2.2 + 1),
                     reverseIDs := st.1.reverseIDs.set (gs + b + (st.2.2 + 1) - 1) c },
          st.2.1, st.2.2 + 1)
      else st
    let localId := st1.1.localIDs.getD (gs + c) 0
    Access.loc (gs + c) ::
      ((if st.1.localIDs.getD (gs + c) 0 = 0 then [Access.cSide (gs + b + (st.2.2 + 1) - 1)]
        else []) ++ [Access.cSide (gs + b + localId - 1)])
  else if b > c then
    let st1 : GroupState :=
      if st.1.localIDs.getD (gs + c) 0 = 0 then
        ({ st.1 with localIDs := st.1.localIDs.set (gs + c) (st.2.1 + 1),
                     reverseIDs := st.1.reverseIDs.set (gs + (st.2.1 + 1) - 1) c },
          st.2.1 + 1, st.2.2)
      else st
    let localId := st1.1.localIDs.getD (gs + c) 0
    Access.loc (gs + c) ::
      ((if st.1.localIDs.getD (gs + c) 0 = 0 then [Access.aSide (gs + (st.2.1 + 1) - 1)]
        else []) ++ [Access.aSide (gs + localId - 1)])
  else []

/-- The accesses of the loop `for (c : G[u])` from the state `st`. -/
def groupInnerIdx (gs b u : Nat) : List Nat → GroupState → List Access
  | [], _ => []
  | c :: rest, st => groupStepIdx gs b st c ++ groupInnerIdx gs b u rest (groupStep gs b u st c)

/-- The accesses of the grouping loop `for (u : G[b]) for (c : G[u])` from the state
`st`. -/
def groupIdx (G : Graph) (gs b : Nat) : List Nat → GroupState → List Access
  | [], _ => []
  | u :: rest, st =>
    groupInnerIdx gs b u (nbrs G u) st ++
      groupIdx G gs b rest ((nbrs G u).foldl (groupStep gs b u) st)

/-- The accesses of the body of `for (a = 0; a < numAs; ++a)` in the scratch state `s`:
the slot `globalStart + a`, the slots `globalStart + b + c` of the inner loop, and
`localIDs[globalStart + origA]`. -/
def joinAIdx (gs b numCs : Nat) (s : Scratch) (a : Nat) : List Access :=
  Access.aSide (gs + a) ::
    ((List.range numCs).map (fun c => Access.cSide (gs + b + c)) ++
      [Access.loc (gs + s.reverseIDs.getD (gs + a) 0)])

/-- The accesses of the loop `for (a = 0; a < numAs; ++a)` from the state `st`. -/
def joinIdx (ACs : List (HMap Nat)) (gs b numCs : Nat) :
    List Nat → Scratch × Nat → List Access
  | [], _ => []
  | a :: rest, st =>
    joinAIdx gs b numCs st.1 a ++ joinIdx ACs gs b numCs rest (joinA ACs gs b numCs st a)

/-- The accesses of the body of the loop that clears the c-side slots. -/
def clearCIdx (gs b : Nat) (s : Scratch) (c : Nat) : List Access :=
  [Access.cSide (gs + b + c), Access.loc (gs + s.reverseIDs.getD (gs + b + c) 0)]

/-- The accesses of the loop `for (c = 0; c < numCs; ++c)` that clears the c-side slots,
from the state `s`. -/
def clearIdx (gs b : Nat) : List Nat → Scratch → List Access
  | [], _ => []
  | c :: rest, s => clearCIdx gs b s c ++ clearIdx gs b rest (clearC gs b s c)

/-- The accesses to the scratch vectors of the body of the second `parallel_for` for the
vertex `b`, run by the worker `pid`. -/
def processBIdx (G : Graph) (vLeft : Nat) (ACs : List (HMap Nat)) (pid : Nat)
    (st : Scratch × List Nat) (b : Nat) : List Access :=
  let gs := u32 (pid * vLeft)
  let g := group G gs b st.1
  let numAs := g.2.1
  let numCs := g.2.2
  let j := (List.range numAs).foldl (joinA ACs gs b numCs) (g.1, st.2.getD (b - 1) 0)
  groupIdx G gs b (nbrs G b) (st.1, 0, 0) ++
    (joinIdx ACs gs b numCs (List.range numAs) (g.1, st.2.getD (b - 1) 0) ++
      clearIdx gs b (List.range numCs) j.1)

/-- The ranges of the claim: an index of `localIDs` lies in the block of the worker, a slot
of the a-side in its first `b` entries, a slot of the c-side in the entries from `b` to
`vLeft - 2`. -/
def Access.inBlock (gs b vLeft : Nat) : Access → Prop
  | Access.loc i => gs ≤ i ∧ i < gs + vLeft
  | Access.aSide i => gs ≤ i ∧ i < gs + b
  | Access.cSide i => gs + b ≤ i ∧ i < gs + vLeft - 1

/-- The accesses of one branch of the grouping step, for the side whose slots start at
`gs + off`. -/
def sideStepIdx (mk : Nat → Access) (gs off : Nat) (s : Scratch) (n c : Nat) : List Access :=
  let st1 : Scratch × Nat :=
    if s.localIDs.getD (gs + c) 0 = 0 then
      ({ s with localIDs := s.localIDs.set (gs + c) (n + 1),
                reverseIDs := s.reverseIDs.set (gs + off + (n + 1) - 1) c }, n + 1)
    else (s, n)
  Access.loc (gs + c) ::
    ((if s.localIDs.getD (gs + c) 0 = 0 then [mk (gs + off + (n + 1) - 1)] else []) ++
      [mk (gs + off + st1.1.localIDs.getD (gs + c) 0 - 1)])

/-- Two vectors of the same length that agree on the entries `gs .. gs + n - 1`. -/
def VecAgree {α : Type} (d : α) (gs n : Nat) (l l2 : List α) : Prop :=
  l.length = l2.length ∧ ∀ i, gs ≤ i → i < gs + n → l.getD i d = l2.getD i d

/-- Two vectors of the same length that agree outside the entries `gs .. gs + n - 1`. -/
def VecOut {α : Type} (d : α) (gs n : Nat) (l l2 : List α) : Prop :=
  l.length = l2.length ∧ ∀ i, (i < gs ∨ gs + n ≤ i) → l.getD i d = l2.getD i d

/-- The scratch states `s` and `t` agree on the block `gs .. gs + n - 1` of the four
vectors. -/
def BlockAgree (gs n : Nat) (s t : Scratch) : Prop :=
  VecAgree [] gs n s.ABCs t.ABCs ∧ VecAgree 0 gs n s.ABCs_counts t.ABCs_counts ∧
    VecAgree 0 gs n s.localIDs t.localIDs ∧ VecAgree 0 gs n s.reverseIDs t.reverseIDs

/-- The scratch states `s` and `t` agree outside the block `gs .. gs + n - 1` of the four
vectors. -/
def OutsideSame (gs n : Nat) (s t : Scratch) : Prop :=
  VecOut [] gs n s.ABCs t.ABCs ∧ VecOut 0 gs n s.ABCs_counts t.ABCs_counts ∧
    VecOut 0 gs n s.localIDs t.localIDs ∧ VecOut 0 gs n s.reverseIDs t.reverseIDs

/-- The four vectors have `size` entries and the block `gs .. gs + n - 1` is not in use:
every `ABCs` list of the block is empty and every `ABCs_counts` and `localIDs` entry of the
block is 0. -/
def BlockClean (gs n size : Nat) (s : Scratch) : Prop :=
  (s.ABCs.length = size ∧ s.ABCs_counts.length = size ∧ s.localIDs.length = size ∧
    s.reverseIDs.length = size) ∧
  ∀ i, gs ≤ i → i < gs + n →
    s.ABCs.getD i [] = [] ∧ s.ABCs_counts.getD i 0 = 0 ∧ s.localIDs.getD i 0 = 0

end BTJ

/-! ## Reading the dataset: `utilities.cpp` -/

/-- The test `isdigit(c)` on a byte of the file. -/
def isDigit (c : Nat) : Bool := decide (48 ≤ c) && decide (c ≤ 57)

/-- The variables of the header loop of `readGraph`. -/
structure HeaderState where
  /-- The number `nEdge`. -/
  nEdge : Nat
  /-- The number `vLeft`. -/
  vLeft : Nat
  /-- The number `vRight`. -/
  vRight : Nat
  /-- The flag `nE`: the digits belong to `nEdge`. -/
  nE : Bool
  /-- The flag `vL`: the digits belong to `vLeft`. -/
  vL : Bool

/-- The body of the header loop for the byte `c`. -/
def headerStep (h : HeaderState) (c : Nat) : HeaderState :=
  if isDigit c then
    if h.nE then { h with nEdge := u32 (h.nEdge * 10 + c - 48) }
    else if h.vL then { h with vLeft := u32 (h.vLeft * 10 + c - 48) }
    else { h with vRight := u32 (h.vRight * 10 + c - 48) }
  else
    if h.nE then { h with nE := false, vL := true }
    else { h with vL := false }

/-- The loop `while (c != '\n')` on the bytes from `f[headerEnd]` to the end of the
mapping: the state and the value of `headerEnd` at the newline. No result when the mapping
ends before a newline is read, or when the `int` counter `headerEnd` would pass
`2^31 - 1`. -/
def headerLoop : List Nat → HeaderState → Nat → Option (HeaderState × Nat)
  | [], _, _ => none
  | c :: rest, h, headerEnd =>
    if c = 10 then some (h, headerEnd)
    else if headerEnd + 1 < 2147483648 then headerLoop rest (headerStep h c) (headerEnd + 1)
    else none

/-- The variables of the loop over the edge lines. -/
structure BodyState where
  /-- The adjacency lists. -/
  G : Graph
  /-- The left id read so far. -/
  u : Nat
  /-- The right id read so far. -/
  v : Nat
  /-- The flag `left`: the digits belong to `u`. -/
  left : Bool

/-- The statement `G[i].emplace_back(x)`; no result when `i` is not an index of `G`. -/
def pushAt (G : Graph) (i x : Nat) : Option Graph :=
  if i < G.length then some (G.set i (G.getD i [] ++ [x])) else none

/-- The body of the loop over the edge lines for the byte `c`. -/
def bodyStep (vLeft : Nat) (st : BodyState) (c : Nat) : Option BodyState :=
  if isDigit c then
    if st.left then some { st with u := u32 (st.u * 10 + c - 48) }
    else some { st with v := u32 (st.v * 10 + c - 48) }
  else if c = 32 then some { st with left := false }
  else if !st.left then
    match pushAt st.G st.u (u32 (st.v + vLeft)) with
    | none => none
    | some G1 =>
      match pushAt G1 (u32 (st.v + vLeft)) st.u with
      | none => none
      | some G2 => some { G := G2, u := 0, v := 0, left := true }
  else some st

/-- The loop `for (i = headerEnd + 1; i < size; ++i)` on the bytes it reads. -/
def bodyLoop (vLeft : Nat) : List Nat → BodyState → Option BodyState
  | [], st => some st
  | c :: rest, st =>
    match bodyStep vLeft st c with
    | none => none
    | some st1 => bodyLoop vLeft rest st1

/-- The function `readGraph` on the bytes of the file: the graph and the values of `nEdge`,
`vLeft` and `vRight`. The size of the file is kept in a `uint32_t`. -/
def readGraph (file : List Nat) : Option (Graph × Nat × Nat × Nat) :=
  let size := u32 file.length
  let f := file.take size
  match headerLoop f ⟨0, 0, 0, true, false⟩ 0 with
  | none => none
  | some (h, headerEnd) =>
    match bodyLoop h.vLeft (f.drop (headerEnd + 1))
        ⟨List.replicate (u32 (h.vLeft + h.vRight)) [], 0, 0, true⟩ with
    | none => none
    | some st => some (st.G, h.nEdge, h.vLeft, h.vRight)

/-- The number written by a string of decimal digits, from the accumulator `x` on. -/
def numAcc (x : Nat) (ds : List Nat) : Nat := ds.foldl (fun x c => x * 10 + (c - 48)) x

/-- The number written by a string of decimal digits. -/
def numVal (ds : List Nat) : Nat := numAcc 0 ds

/-- A string of decimal digits. -/
def IsDigits (ds : List Nat) : Prop := ∀ c ∈ ds, isDigit c = true

/-- An edge line: the left id, a space, the right id, a newline. -/
def edgeLine (e : List Nat × List Nat) : List Nat := e.1 ++ [32] ++ e.2 ++ [10]

/-- A dataset file: the header line `<edgeCount> <leftSize> <rightSize>` and the edge
lines, every line ended by a newline. -/
def datasetFile (dE dL dR : List Nat) (es : List (List Nat × List Nat)) : List Nat :=
  dE ++ [32] ++ dL ++ [32] ++ dR ++ [10] ++ es.flatMap edgeLine

/-- The edge of an edge line put into the adjacency lists: `v + vLeft` at the end of the
list of `u` and `u` at the end of the list of `v + vLeft`. -/
def addEdge (vLeft : Nat) (G : Graph) (e : List Nat × List Nat) : Graph :=
  (G.set (numVal e.1) (G.getD (numVal e.1) [] ++ [numVal e.2 + vLeft])).set
    (numVal e.2 + vLeft)
    ((G.set (numVal e.1) (G.getD (numVal e.1) [] ++ [numVal e.2 + vLeft])).getD
      (numVal e.2 + vLeft) [] ++ [numVal e.1])

/-- The bytes of a string. -/
def bytesOf (s : String) : List Nat := s.toList.map Char.toNat

instance instDecidableIsDigits (ds : List Nat) : Decidable (IsDigits ds) := by
  unfold IsDigits; infer_instance

end Induced6

namespace Induced6
open Finset

/-- The function `Compute2Core` with the index of its last statement, `--newID[0]`, checked
against the size of `newID`: `none` when `newID` has no entry 0. -/
def Compute2CoreChecked (G : Graph) (vLeft vRight : Nat) : Option (Nat × Nat × List Int) :=
  if 0 < (coreLoop G vLeft vRight).newID.length then some (Compute2Core G vLeft vRight)
  else none

/-- The function `preProcessing(G, vLeft, vRight)` with the same check in `Compute2Core`. -/
def preProcessingChecked (sort : Sorter) (G : Graph) (vLeft vRight : Nat) :
    Option (Graph × Nat × Nat) :=
  (Obtain2CoreChecked G vLeft vRight).map (reorder sort)

/-- The function `preProcessing(G, vLeft, vRight, E)` with the same check in
`Compute2Core`. -/
def preProcessingEChecked (sort : Sorter) (G : Graph) (vLeft vRight : Nat) :
    Option (Graph × Nat × Nat × Edges) :=
  (Obtain2CoreChecked G vLeft vRight).map
    (fun g => ((reorder sort g).1, (reorder sort g).2.1, (reorder sort g).2.2, buildE sort g))

/-- The adjacency lists of the graph `wideGraph f`: the left vertices 0, 1, 2, 3; `f` right
vertices adjacent to all four; then two right vertices adjacent to 1 and 2, two adjacent to
2 and 3, and two adjacent to 0 and 3. -/
def wideNbrs (f u : Nat) : List Nat :=
  if u = 0 then
    ((List.range' 4 (f + 6)).filter (fun x => decide (x < 4 + f ∨ 8 + f ≤ x))).reverse
  else if u = 1 then
    ((List.range' 4 (f + 6)).filter (fun x => decide (x < 6 + f))).reverse
  else if u = 2 then
    ((List.range' 4 (f + 6)).filter (fun x => decide (x < 8 + f))).reverse
  else if u = 3 then
    ((List.range' 4 (f + 6)).filter (fun x => decide (x < 4 + f ∨ 6 + f ≤ x))).reverse
  else if u < 4 + f then [3, 2, 1, 0]
  else if u < 6 + f then [2, 1]
  else if u < 8 + f then [3, 2]
  else [3, 0]

/-- A preprocessed graph with 4 left vertices and `6 * f + 6` wedges. -/
def wideGraph (f : Nat) : Graph := (List.range (10 + f)).map (wideNbrs f)

/-- The edge index of `wideGraph f`. -/
def wideE (f : Nat) : Edges := (List.range 4).map (wideNbrs f)

end Induced6

namespace Induced6
open Finset

theorem tsum_swap23 (R : Finset Nat) (h : Nat → Nat → Nat → Nat) :
    ∑ x in R, ∑ y in R, ∑ z in R, h x y z = ∑ x in R, ∑ y in R, ∑ z in R, h x z y :=
  Finset.sum_congr rfl (fun _ _ => Finset.sum_comm)

theorem tsum_swap12 (R : Finset Nat) (h : Nat → Nat → Nat → Nat) :
    ∑ x in R, ∑ y in R, ∑ z in R, h x y z = ∑ x in R, ∑ y in R, ∑ z in R, h y x z :=
  Finset.sum_comm

theorem tsum_congr (R : Finset Nat) (h k : Nat → Nat → Nat → Nat)
    (hk : ∀ x y z, h x y z = k x y z) :
    ∑ x in R, ∑ y in R, ∑ z in R, h x y z = ∑ x in R, ∑ y in R, ∑ z in R, k x y z :=
  Finset.sum_congr rfl (fun x _ => Finset.sum_congr rfl (fun y _ =>
    Finset.sum_congr rfl (fun z _ => hk x y z)))

/-- Three pairwise exclusive classes `A`, `B`, `C`: the sorted triples that meet each class
once are as many as the triples of `A × B × C`. -/
theorem sorted_triples_card (R : Finset Nat) (A B C : Nat → Bool)
    (hAB : ∀ x, A x = true → B x = false) (hAC : ∀ x, A x = true → C x = false)
    (hBC : ∀ x, B x = true → C x = false) :
    (∑ x in R, ∑ y in R, ∑ z in R,
      if x < y ∧ y < z ∧ ((A x && B y && C z) || (A x && B z && C y) || (A y && B x && C z) ||
        (A y && B z && C x) || (A z && B x && C y) || (A z && B y && C x)) = true
      then 1 else 0)
    = (R.filter (fun x => A x = true)).card * (R.filter (fun x => B x = true)).card *
        (R.filter (fun x => C x = true)).card := by
  -- the right-hand side as a triple sum
  have hR : (R.filter (fun x => A x = true)).card * (R.filter (fun x => B x = true)).card *
        (R.filter (fun x => C x = true)).card
      = ∑ p in R, ∑ q in R, ∑ r in R, if (A p && B q && C r) = true then 1 else 0 := by
    have hprod : ∀ p q r : Nat, (if (A p && B q && C r) = true then 1 else 0)
        = (if A p = true then 1 else 0) * ((if B q = true then 1 else 0) *
            (if C r = true then 1 else 0)) := by
      intro p q r
      cases A p <;> cases B q <;> cases C r <;> simp
    rw [tsum_congr R _ _ hprod]
    simp only [← Finset.mul_sum, ← Finset.sum_mul, Finset.card_filter]
    ring
  rw [hR]
  -- split the right-hand side by the order of p, q, r
  obtain ⟨f, hfdef⟩ : ∃ f : Nat → Nat → Nat → Nat,
      ∀ p q r, f p q r = if (A p && B q && C r) = true then 1 else 0 :=
    ⟨_, fun _ _ _ => rfl⟩
  have hsplit : ∀ p q r, f p q r =
      (if p < q ∧ q < r then f p q r else 0) + (if p < r ∧ r < q then f p q r else 0) +
      (if q < p ∧ p < r then f p q r else 0) + (if r < p ∧ p < q then f p q r else 0) +
      (if q < r ∧ r < p then f p q r else 0) + (if r < q ∧ q < p then f p q r else 0) := by
    intro p q r
    by_cases hf : (A p && B q && C r) = true
    · simp only [Bool.and_eq_true] at hf
      obtain ⟨⟨hA, hB⟩, hC⟩ := hf
      have hpq : p ≠ q := fun h => by subst h; simp [hAB p hA] at hB
      have hpr : p ≠ r := fun h => by subst h; simp [hAC p hA] at hC
      have hqr : q ≠ r := fun h => by subst h; simp [hBC q hB] at hC
      have hf1 : f p q r = 1 := by simp [hfdef, hA, hB, hC]
      rw [hf1]
      rcases Nat.lt_or_gt_of_ne hpq with h1 | h1 <;> rcases Nat.lt_or_gt_of_ne hpr with h2 | h2 <;>
        rcases Nat.lt_or_gt_of_ne hqr with h3 | h3 <;>
        simp [h1, h2, h3, Nat.lt_asymm h1, Nat.lt_asymm h2, Nat.lt_asymm h3] <;> omega
    · have hf0 : f p q r = 0 := by rw [hfdef]; simp [hf]
      rw [hf0]; simp
  -- the left-hand side, written as a sum of six indicators
  have hL : ∀ x y z : Nat,
      (if x < y ∧ y < z ∧ ((A x && B y && C z) || (A x && B z && C y) || (A y && B x && C z) ||
        (A y && B z && C x) || (A z && B x && C y) || (A z && B y && C x)) = true
      then 1 else 0)
      = (if x < y ∧ y < z then f x y z else 0) + (if x < y ∧ y < z then f x z y else 0) +
        (if x < y ∧ y < z then f y x z else 0) + (if x < y ∧ y < z then f y z x else 0) +
        (if x < y ∧ y < z then f z x y else 0) + (if x < y ∧ y < z then f z y x else 0) := by
    intro x y z
    by_cases hxy : x < y ∧ y < z
    · have h1 := hAB x; have h2 := hAB y; have h3 := hAB z
      have h4 := hAC x; have h5 := hAC y; have h6 := hAC z
      have h7 := hBC x; have h8 := hBC y; have h9 := hBC z
      simp only [hxy, true_and, if_true, hfdef, and_self]
      revert h1 h2 h3 h4 h5 h6 h7 h8 h9
      cases A x <;> cases A y <;> cases A z <;> cases B x <;> cases B y <;> cases B z <;>
        cases C x <;> cases C y <;> cases C z <;> simp
    · have : ¬ (x < y ∧ y < z ∧ ((A x && B y && C z) || (A x && B z && C y) ||
          (A y && B x && C z) || (A y && B z && C x) || (A z && B x && C y) ||
          (A z && B y && C x)) = true) := fun h => hxy ⟨h.1, h.2.1⟩
      simp only [if_neg this, if_neg hxy]
  rw [tsum_congr R _ _ hL]
  rw [show (∑ p in R, ∑ q in R, ∑ r in R, if (A p && B q && C r) = true then 1 else 0)
      = ∑ p in R, ∑ q in R, ∑ r in R, f p q r from
        (tsum_congr R _ _ (fun p q r => (hfdef p q r))).symm]
  rw [tsum_congr R _ _ hsplit]
  simp only [Finset.sum_add_distrib]
  have e2 : (∑ x in R, ∑ y in R, ∑ z in R, if x < y ∧ y < z then f x z y else 0)
      = ∑ p in R, ∑ q in R, ∑ r in R, if p < r ∧ r < q then f p q r else 0 :=
    tsum_swap23 R (fun x y z => if x < y ∧ y < z then f x z y else 0)
  have e3 : (∑ x in R, ∑ y in R, ∑ z in R, if x < y ∧ y < z then f y x z else 0)
      = ∑ p in R, ∑ q in R, ∑ r in R, if q < p ∧ p < r then f p q r else 0 :=
    tsum_swap12 R (fun x y z => if x < y ∧ y < z then f y x z else 0)
  have e4 : (∑ x in R, ∑ y in R, ∑ z in R, if x < y ∧ y < z then f y z x else 0)
      = ∑ p in R, ∑ q in R, ∑ r in R, if r < p ∧ p < q then f p q r else 0 := by
    rw [tsum_swap12 R (fun x y z => if x < y ∧ y < z then f y z x else 0)]
    exact tsum_swap23 R (fun y x z => if x < y ∧ y < z then f y z x else 0)
  have e5 : (∑ x in R, ∑ y in R, ∑ z in R, if x < y ∧ y < z then f z x y else 0)
      = ∑ p in R, ∑ q in R, ∑ r in R, if q < r ∧ r < p then f p q r else 0 := by
    rw [tsum_swap23 R (fun x y z => if x < y ∧ y < z then f z x y else 0)]
    exact tsum_swap12 R (fun x z y => if x < y ∧ y < z then f z x y else 0)
  have e6 : (∑ x in R, ∑ y in R, ∑ z in R, if x < y ∧ y < z then f z y x else 0)
      = ∑ p in R, ∑ q in R, ∑ r in R, if r < q ∧ q < p then f p q r else 0 := by
    rw [tsum_swap12 R (fun x y z => if x < y ∧ y < z then f z y x else 0)]
    rw [tsum_swap23 R (fun y x z => if x < y ∧ y < z then f z y x else 0)]
    exact tsum_swap12 R (fun y z x => if x < y ∧ y < z then f z y x else 0)
  rw [e2, e3, e4, e5, e6]

end Induced6

namespace Induced6
open Finset

theorem isCycle6_eq (G : Graph) (a x b y c z : Nat) :
    isCycle6 G a x b y c z =
      ((adj G a x && adj G b x && !adj G c x) && (adj G b y && adj G c y && !adj G a y) &&
        (adj G c z && adj G a z && !adj G b z)) := by
  unfold isCycle6
  cases adj G a x <;> cases adj G b x <;> cases adj G c x <;> cases adj G b y <;>
    cases adj G c y <;> cases adj G a y <;> cases adj G c z <;> cases adj G a z <;>
    cases adj G b z <;> rfl

/-- The exhaustive count is the sum over the left triples of the products of the three
exclusive common-neighbour counts. -/
theorem countInduced6_eq_tripleSum (G : Graph) (vLeft : Nat) :
    countInduced6 G vLeft = tripleSum G vLeft := by
  unfold countInduced6 tripleSum
  apply tsum_congr
  intro a b c
  by_cases habc : a < b ∧ b < c
  · rw [if_pos habc]
    have key := sorted_triples_card (Ico vLeft G.length)
      (fun x => adj G a x && adj G b x && !adj G c x)
      (fun y => adj G b y && adj G c y && !adj G a y)
      (fun z => adj G c z && adj G a z && !adj G b z)
      (by intro x; dsimp only; cases adj G a x <;> cases adj G b x <;> cases adj G c x <;> simp)
      (by intro x; dsimp only; cases adj G a x <;> cases adj G b x <;> cases adj G c x <;> simp)
      (by intro x; dsimp only; cases adj G a x <;> cases adj G b x <;> cases adj G c x <;> simp)
    have e1 : exclF G vLeft a b c = ((Ico vLeft G.length).filter
        (fun x => (adj G a x && adj G b x && !adj G c x) = true)).card := by
      unfold exclF; congr 1; apply Finset.filter_congr; intro x _
      cases adj G a x <;> cases adj G b x <;> cases adj G c x <;> simp
    have e2 : exclF G vLeft b c a = ((Ico vLeft G.length).filter
        (fun x => (adj G b x && adj G c x && !adj G a x) = true)).card := by
      unfold exclF; congr 1; apply Finset.filter_congr; intro x _
      cases adj G a x <;> cases adj G b x <;> cases adj G c x <;> simp
    have e3 : exclF G vLeft a c b = ((Ico vLeft G.length).filter
        (fun x => (adj G c x && adj G a x && !adj G b x) = true)).card := by
      unfold exclF; congr 1; apply Finset.filter_congr; intro x _
      cases adj G a x <;> cases adj G b x <;> cases adj G c x <;> simp
    rw [e1, e2, e3, ← key]
    apply tsum_congr
    intro x y z
    simp only [induced6, isCycle6_eq, habc.1, habc.2, true_and]
  · rw [if_neg habc]
    have : ∀ x y z : Nat, (if a < b ∧ b < c ∧ x < y ∧ y < z ∧ induced6 G a b c x y z = true
        then 1 else 0) = 0 := by
      intro x y z
      rw [if_neg]; intro h; exact habc ⟨h.1, h.2.1⟩
    rw [tsum_congr _ _ _ this]
    simp

end Induced6

namespace Induced6
open Finset

/-! ## Machine arithmetic and loops as sums -/

theorem u64_lt (n : Nat) : u64 n < 18446744073709551616 := Nat.mod_lt _ (by norm_num)

theorem u64_of_lt {n : Nat} (h : n < 18446744073709551616) : u64 n = n := Nat.mod_eq_of_lt h

theorem u64_add_u64 (a b : Nat) : u64 (a + u64 b) = u64 (a + b) := by
  unfold u64; omega

theorem u64_u64_add (a b : Nat) : u64 (u64 a + b) = u64 (a + b) := by
  unfold u64; omega

theorem u64_mul_u64 (a b : Nat) : u64 (u64 a * b) = u64 (a * b) := by
  unfold u64; exact Nat.mod_mul_mod

theorem u64_idem (a : Nat) : u64 (u64 a) = u64 a := by
  unfold u64; omega

theorem sub32_of_le {a b : Nat} (hb : b ≤ a) (ha : a < 4294967296) : sub32 a b = a - b := by
  unfold sub32; omega

/-- A loop that adds `f x` to a `uint64_t` accumulator for each `x`. -/
theorem foldl_u64_add {α : Type} (f : α → Nat) (l : List α) (init : Nat) :
    l.foldl (fun acc x => u64 (acc + f x)) (u64 init) = u64 (init + (l.map f).sum) := by
  induction l generalizing init with
  | nil => simp
  | cons x xs ih =>
    simp only [List.foldl_cons, List.map_cons, List.sum_cons]
    rw [u64_u64_add, ih, Nat.add_assoc]

theorem reduceCounts_eq (counts : List Nat) : reduceCounts counts = u64 counts.sum := by
  have := foldl_u64_add (fun x => x) counts 0
  simpa [reduceCounts, Sum.apply, u64] using this

/-- A counting loop `if (p x) ++count`. -/
theorem foldl_count {α : Type} (p : α → Bool) (l : List α) (k : Nat) :
    l.foldl (fun count x => if p x then count + 1 else count) k = k + l.countP p := by
  induction l generalizing k with
  | nil => simp
  | cons x xs ih =>
    simp only [List.foldl_cons, List.countP_cons]
    rw [ih]
    by_cases hp : p x = true
    · simp [hp]; omega
    · simp [hp]

/-- On a strictly descending list the scan that stops at the first entry not above `a`
sees exactly the entries above `a`. -/
theorem takeWhile_gt_of_sorted (a : Nat) (l : List Nat) (h : l.Sorted (fun x y => x > y)) :
    l.takeWhile (fun b => decide (b > a)) = l.filter (fun b => decide (b > a)) := by
  induction l with
  | nil => rfl
  | cons x xs ih =>
    have hs := List.sorted_cons.mp h
    by_cases hx : x > a
    · simp [List.takeWhile_cons, List.filter_cons, hx, ih hs.2]
    · have hnil : xs.filter (fun b => decide (b > a)) = [] := by
        rw [List.filter_eq_nil_iff]
        intro b hb
        have := hs.1 b hb
        simp; omega
      simp [List.takeWhile_cons, List.filter_cons, hx, hnil]

theorem nodup_of_sorted_gt {l : List Nat} (h : l.Sorted (fun x y => x > y)) : l.Nodup :=
  h.imp (fun hxy => Nat.ne_of_gt hxy)

/-- Sum over a duplicate-free list as a sum over a finite set. -/
theorem sum_map_eq_finset_sum (l : List Nat) (hl : l.Nodup) (f : Nat → Nat) :
    (l.map f).sum = ∑ x in l.toFinset, f x := by
  rw [List.sum_toFinset f hl]

theorem length_filter_eq_card (l : List Nat) (hl : l.Nodup) (p : Nat → Bool) :
    (l.filter p).length = (l.toFinset.filter (fun x => p x = true)).card := by
  rw [← List.toFinset_card_of_nodup (hl.filter p)]
  congr 1
  ext x
  simp

end Induced6

namespace Induced6
open Finset

/-! ## Strategy C: the maps `ABs` and the sets `S` -/

namespace TJ

theorem ab_c_eq (E : Edges) (AB : List Nat) (c : Nat) :
    ab_c E AB c = (AB.filter (fun x => !econtains E c x)).length := by
  unfold ab_c
  rw [foldl_count (fun x => !econtains E c x) AB 0, List.countP_eq_length_filter]
  simp

theorem fillInner_eq (a u : Nat) (l : List Nat) (m : HMap (List Nat)) :
    fillInner a u l m =
      (l.takeWhile (fun b => decide (b > a))).foldl (fun m b => emplaceBack m b u) m := by
  induction l generalizing m with
  | nil => rfl
  | cons b bs ih =>
    by_cases hb : b > a
    · simp [fillInner, List.takeWhile_cons, hb, ih]
    · simp [fillInner, List.takeWhile_cons, hb]

theorem foldl_emplaceBack_apply (u : Nat) (L : List Nat) (hL : L.Nodup) (m : HMap (List Nat))
    (k : Nat) :
    (L.foldl (fun m b => emplaceBack m b u) m) k =
      if k ∈ L then some ((m k).getD [] ++ [u]) else m k := by
  induction L generalizing m with
  | nil => simp
  | cons b bs ih =>
    have hnd := List.nodup_cons.mp hL
    simp only [List.foldl_cons]
    rw [ih hnd.2]
    by_cases hkb : k = b
    · subst hkb
      simp [hnd.1, emplaceBack, HMap.set]
    · by_cases hk : k ∈ bs
      · simp [hk, hkb, emplaceBack, HMap.set]
      · simp [hk, hkb, emplaceBack, HMap.set]

/-- The entry of `b` after the scans of the vertices `u` of `l`: the vertices whose scan
reached `b` were appended in turn. -/
theorem foldl_fillInner_apply (G : Graph) (hs : ∀ u, (nbrs G u).Sorted (fun x y => x > y))
    (a b : Nat) (l : List Nat) (m : HMap (List Nat)) :
    (l.foldl (fun m u => fillInner a u (nbrs G u) m) m) b =
      if l.filter (fun u => decide (b ∈ nbrs G u ∧ b > a)) = [] then m b
      else some ((m b).getD [] ++ l.filter (fun u => decide (b ∈ nbrs G u ∧ b > a))) := by
  induction l generalizing m with
  | nil => simp
  | cons u us ih =>
    simp only [List.foldl_cons]
    rw [ih, fillInner_eq, takeWhile_gt_of_sorted a _ (hs u)]
    rw [foldl_emplaceBack_apply u _ ((nodup_of_sorted_gt (hs u)).filter _)]
    by_cases hbu : b ∈ nbrs G u ∧ b > a
    · have hmem : b ∈ (nbrs G u).filter (fun b => decide (b > a)) := by
        simp [List.mem_filter, hbu.1, hbu.2]
      simp only [hmem, if_true, List.filter_cons, hbu, decide_True, and_self]
      by_cases hrest : us.filter (fun u => decide (b ∈ nbrs G u ∧ b > a)) = []
      · simp [hrest]
      · simp [hrest]
    · have hmem : ¬ b ∈ (nbrs G u).filter (fun b => decide (b > a)) := by
        simp only [List.mem_filter, decide_eq_true_eq]; exact hbu
      simp only [hmem, if_false, List.filter_cons, hbu, decide_False]
      rfl

theorem fillABs_apply (G : Graph) (hs : ∀ u, (nbrs G u).Sorted (fun x y => x > y))
    (a b : Nat) :
    (fillABs G a) b =
      if (nbrs G a).filter (fun u => decide (b ∈ nbrs G u ∧ b > a)) = [] then none
      else some ((nbrs G a).filter (fun u => decide (b ∈ nbrs G u ∧ b > a))) := by
  unfold fillABs
  rw [foldl_fillInner_apply G hs]
  simp [HMap.empty]

theorem fillSInner_eq (a : Nat) (l S : List Nat) :
    fillSInner a l S = (l.takeWhile (fun b => decide (b > a))).foldl emplace S := by
  induction l generalizing S with
  | nil => rfl
  | cons b bs ih =>
    by_cases hb : b > a
    · simp [fillSInner, List.takeWhile_cons, hb, ih]
    · simp [fillSInner, List.takeWhile_cons, hb]

end TJ

theorem mem_foldl_emplace (L S : List Nat) (b : Nat) :
    b ∈ L.foldl emplace S ↔ b ∈ S ∨ b ∈ L := by
  induction L generalizing S with
  | nil => simp
  | cons x xs ih =>
    simp only [List.foldl_cons, ih, List.mem_cons]
    unfold emplace
    by_cases hx : x ∈ S
    · simp only [hx, if_true]
      constructor
      · rintro (h | h)
        · exact Or.inl h
        · exact Or.inr (Or.inr h)
      · rintro (h | h | h)
        · exact Or.inl h
        · subst h; exact Or.inl hx
        · exact Or.inr h
    · simp only [hx, if_false, List.mem_append, List.mem_singleton]
      tauto

theorem nodup_foldl_emplace (L S : List Nat) (hS : S.Nodup) : (L.foldl emplace S).Nodup := by
  induction L generalizing S with
  | nil => simpa
  | cons x xs ih =>
    simp only [List.foldl_cons]
    apply ih
    unfold emplace
    by_cases hx : x ∈ S
    · simpa [hx]
    · simp only [hx, if_false]
      rw [List.nodup_append]
      refine ⟨hS, List.nodup_singleton x, ?_⟩
      intro y hy hy2
      simp at hy2
      subst hy2; exact hx hy

namespace TJ

theorem mem_foldl_fillSInner (G : Graph) (hs : ∀ u, (nbrs G u).Sorted (fun x y => x > y))
    (a b : Nat) (l S : List Nat) :
    b ∈ l.foldl (fun S v => fillSInner a (nbrs G v) S) S ↔
      b ∈ S ∨ (b > a ∧ ∃ v ∈ l, b ∈ nbrs G v) := by
  induction l generalizing S with
  | nil => simp
  | cons v vs ih =>
    simp only [List.foldl_cons]
    rw [ih, fillSInner_eq, mem_foldl_emplace, takeWhile_gt_of_sorted a _ (hs v)]
    simp only [List.mem_filter, decide_eq_true_eq, List.mem_cons, exists_eq_or_imp]
    tauto

theorem nodup_foldl_fillSInner (G : Graph) (a : Nat) (l S : List Nat) (hS : S.Nodup) :
    (l.foldl (fun S v => fillSInner a (nbrs G v) S) S).Nodup := by
  induction l generalizing S with
  | nil => simpa
  | cons v vs ih =>
    simp only [List.foldl_cons]
    apply ih
    rw [fillSInner_eq]
    exact nodup_foldl_emplace _ _ hS

theorem mem_buildS (G : Graph) (hs : ∀ u, (nbrs G u).Sorted (fun x y => x > y)) (a b : Nat) :
    b ∈ buildS G a ↔ b > a ∧ ∃ v ∈ nbrs G a, b ∈ nbrs G v := by
  unfold buildS
  rw [mem_foldl_fillSInner G hs]
  simp

theorem nodup_buildS (G : Graph) (a : Nat) : (buildS G a).Nodup :=
  nodup_foldl_fillSInner G a _ _ List.nodup_nil

end TJ

end Induced6

namespace Induced6
open Finset

theorem foldl_u64_gen {α : Type} (F : Nat → α → Nat) (g : α → Nat)
    (hF : ∀ i x, F (u64 i) x = u64 (i + g x)) (l : List α) (init : Nat) :
    l.foldl F (u64 init) = u64 (init + (l.map g).sum) := by
  induction l generalizing init with
  | nil => simp
  | cons x xs ih =>
    simp only [List.foldl_cons, List.map_cons, List.sum_cons]
    rw [hF, ih, Nat.add_assoc]

theorem u64_add_sum_map_u64 {α : Type} (g : α → Nat) (l : List α) (a : Nat) :
    u64 (a + (l.map (fun x => u64 (g x))).sum) = u64 (a + (l.map g).sum) := by
  induction l generalizing a with
  | nil => rfl
  | cons x xs ih =>
    simp only [List.map_cons, List.sum_cons]
    rw [← Nat.add_assoc, ih (a + u64 (g x))]
    unfold u64; omega

theorem u64_sum_map_u64 {α : Type} (g : α → Nat) (l : List α) :
    u64 ((l.map (fun x => u64 (g x))).sum) = u64 ((l.map g).sum) := by
  have := u64_add_sum_map_u64 g l 0
  simpa using this

/-! ## Facts about preprocessed graphs -/

theorem nbrs_of_length_le (G : Graph) (u : Nat) (h : G.length ≤ u) : nbrs G u = [] := by
  unfold nbrs
  rw [List.getD_eq_default _ _ h]

theorem Preprocessed.sorted_all {G : Graph} {vLeft : Nat} (h : Preprocessed G vLeft) (u : Nat) :
    (nbrs G u).Sorted (fun x y => x > y) := by
  by_cases hu : u < G.length
  · exact h.desc u hu
  · rw [nbrs_of_length_le G u (Nat.le_of_not_lt hu)]; exact List.sorted_nil

theorem Preprocessed.nodup {G : Graph} {vLeft : Nat} (h : Preprocessed G vLeft) (u : Nat) :
    (nbrs G u).Nodup := nodup_of_sorted_gt (h.sorted_all u)

theorem Preprocessed.symm_all {G : Graph} {vLeft : Nat} (h : Preprocessed G vLeft) (u v : Nat)
    (huv : v ∈ nbrs G u) : u ∈ nbrs G v := by
  by_cases hu : u < G.length
  · exact h.symm u hu v huv
  · rw [nbrs_of_length_le G u (Nat.le_of_not_lt hu)] at huv; simp at huv

theorem Preprocessed.mem_comm {G : Graph} {vLeft : Nat} (h : Preprocessed G vLeft) (u v : Nat) :
    v ∈ nbrs G u ↔ u ∈ nbrs G v := ⟨h.symm_all u v, h.symm_all v u⟩

theorem adj_iff (G : Graph) (u v : Nat) : adj G u v = true ↔ v ∈ nbrs G u := by
  simp [adj]

theorem EdgeIndex.econtains_eq {G : Graph} {vLeft : Nat} {E : Edges} (hE : EdgeIndex G vLeft E)
    {c : Nat} (hc : c < vLeft) (x : Nat) : econtains E c x = adj G c x := by
  unfold econtains adj
  have := hE c hc
  exact decide_eq_decide.mpr ⟨this.1 x, this.2 x⟩

/-- The exclusive count read off the list of `p` is the exclusive count over the right
vertices. -/
theorem exclL_eq_exclF {G : Graph} {vLeft : Nat} (h : Preprocessed G vLeft) (p q r : Nat)
    (hp : p < vLeft) : exclL G p q r = exclF G vLeft p q r := by
  unfold exclL exclF
  rw [length_filter_eq_card _ (h.nodup p)]
  congr 1
  ext x
  simp only [Finset.mem_filter, List.mem_toFinset, Finset.mem_Ico, Bool.and_eq_true,
    Bool.not_eq_true', adj_iff]
  constructor
  · rintro ⟨hx, hq, hr⟩
    exact ⟨h.left_nbrs p hp x hx, hx, hq, hr⟩
  · rintro ⟨_, hx, hq, hr⟩
    exact ⟨hx, hq, hr⟩

/-- Without a common neighbour the exclusive count is zero. -/
theorem exclL_eq_zero_of_filter_nil (G : Graph) (p q r : Nat)
    (hnil : (nbrs G p).filter (fun x => adj G q x) = []) : exclL G p q r = 0 := by
  unfold exclL
  rw [List.length_eq_zero, List.filter_eq_nil_iff]
  rw [List.filter_eq_nil_iff] at hnil
  intro x hx
  have := hnil x hx
  simp [this]

end Induced6

namespace Induced6
open Finset

theorem u64_sum_congr {α : Type} (l : List α) (f g : α → Nat)
    (h : ∀ x ∈ l, u64 (f x) = u64 (g x)) :
    u64 ((l.map f).sum) = u64 ((l.map g).sum) := by
  induction l with
  | nil => rfl
  | cons x xs ih =>
    simp only [List.map_cons, List.sum_cons]
    have h1 := h x (List.mem_cons_self x xs)
    have h2 := ih (fun y hy => h y (List.mem_cons_of_mem x hy))
    unfold u64 at *
    omega

theorem getD_map_range {β : Type} (f : Nat → β) (n i : Nat) (h : i < n) (d : β) :
    ((List.range n).map f).getD i d = f i := by
  rw [List.getD_eq_getElem?_getD, List.getElem?_map, List.getElem?_range h]
  rfl

namespace TJ

theorem atAB_buildABs (G : Graph) (hs : ∀ u, (nbrs G u).Sorted (fun x y => x > y))
    (vLeft a b : Nat) (ha : a < sub32 vLeft 1) :
    atAB (buildABs G vLeft) a b =
      (nbrs G a).filter (fun u => decide (b ∈ nbrs G u ∧ b > a)) := by
  unfold atAB buildABs
  rw [getD_map_range _ _ _ ha, fillABs_apply G hs]
  by_cases hnil : (nbrs G a).filter (fun u => decide (b ∈ nbrs G u ∧ b > a)) = []
  · rw [if_pos hnil, hnil]; rfl
  · rw [if_neg hnil]; rfl

theorem has_buildABs (G : Graph) (hs : ∀ u, (nbrs G u).Sorted (fun x y => x > y))
    (vLeft b c : Nat) (hb : b < sub32 vLeft 1) :
    ((buildABs G vLeft).getD b HMap.empty).has c =
      decide ((nbrs G b).filter (fun u => decide (c ∈ nbrs G u ∧ c > b)) ≠ []) := by
  unfold buildABs HMap.has
  rw [getD_map_range _ _ _ hb, fillABs_apply G hs]
  by_cases hnil : (nbrs G b).filter (fun u => decide (c ∈ nbrs G u ∧ c > b)) = []
  · rw [if_pos hnil]; exact (decide_eq_false (fun hne => hne hnil)).symm
  · rw [if_neg hnil]; exact (decide_eq_true hnil).symm

/-- A factor of the product: the midpoints between `a` and `b` that are not adjacent
to `c`. -/
theorem ab_c_atAB {G : Graph} {vLeft : Nat} {E : Edges} (h : Preprocessed G vLeft)
    (hE : EdgeIndex G vLeft E) (a b c : Nat) (ha : a < sub32 vLeft 1) (hab : a < b)
    (hc : c < vLeft) :
    ab_c E (atAB (buildABs G vLeft) a b) c = exclL G a b c := by
  rw [ab_c_eq, atAB_buildABs G h.sorted_all vLeft a b ha, List.filter_filter]
  unfold exclL
  congr 1
  apply List.filter_congr
  intro u _
  rw [hE.econtains_eq hc]
  have h1 : decide (b ∈ nbrs G u ∧ b > a) = adj G b u := by
    unfold adj
    apply decide_eq_decide.mpr
    rw [h.mem_comm u b]
    exact ⟨fun hh => hh.1, fun hh => ⟨hh, hab⟩⟩
  rw [h1, Bool.and_comm]

end TJ


theorem foldl_u64_gen0 {α : Type} (F : Nat → α → Nat) (g : α → Nat)
    (hF : ∀ i x, F (u64 i) x = u64 (i + g x)) (l : List α) :
    l.foldl F 0 = u64 ((l.map g).sum) := by
  have h := foldl_u64_gen F g hF l 0
  rw [Nat.zero_add] at h
  exact h

namespace TJ

/-- The term that the loops of the second phase add for the pair `(b, c)`. -/
theorem countAt_fold (G : Graph) (E : Edges) (ABs : List (HMap (List Nat))) (a : Nat) :
    countAt G E ABs a = u64 (((buildS G a).map (fun b => ((buildS G a).map (fun c =>
      if b < c then
        if (ABs.getD b HMap.empty).has c = true then
          u64 (u64 (ab_c E (atAB ABs a b) c * ab_c E (atAB ABs a c) b) * ab_c E (atAB ABs b c) a)
        else 0
      else 0)).sum)).sum) := by
  unfold countAt
  dsimp only
  apply foldl_u64_gen0
  intro i b
  apply foldl_u64_gen
  intro j c
  by_cases hbc : b < c
  · by_cases hhas : (ABs.getD b HMap.empty).has c = true
    · rw [if_pos hbc, if_pos hhas, if_pos hbc, if_pos hhas, u64_u64_add]
    · rw [if_pos hbc, if_neg hhas, if_pos hbc, if_neg hhas, Nat.add_zero]
  · rw [if_neg hbc, if_neg hbc, Nat.add_zero]

end TJ


theorem u64_finset_congr (s : Finset Nat) (f g : Nat → Nat)
    (h : ∀ x ∈ s, u64 (f x) = u64 (g x)) :
    u64 (∑ x in s, f x) = u64 (∑ x in s, g x) := by
  unfold u64 at *
  rw [Finset.sum_nat_mod, Finset.sum_congr rfl h, ← Finset.sum_nat_mod]

namespace TJ

theorem buildS_lt {G : Graph} {vLeft : Nat} (h : Preprocessed G vLeft) (a b : Nat)
    (ha : a < vLeft) (hb : b ∈ buildS G a) : a < b ∧ b < vLeft := by
  rw [mem_buildS G h.sorted_all] at hb
  obtain ⟨hab, v, hv, hbv⟩ := hb
  have hv2 := h.left_nbrs a ha v hv
  exact ⟨hab, h.right_nbrs v hv2.2 hv2.1 b hbv⟩

theorem exclL_eq_zero_of_not_mem_buildS {G : Graph} {vLeft : Nat} (h : Preprocessed G vLeft)
    (a b c : Nat) (hab : a < b) (hb : b ∉ buildS G a) : exclL G a b c = 0 := by
  apply exclL_eq_zero_of_filter_nil
  rw [List.filter_eq_nil_iff]
  intro v hv hadj
  apply hb
  rw [mem_buildS G h.sorted_all]
  exact ⟨hab, v, hv, (h.mem_comm v b).mpr ((adj_iff G b v).mp hadj)⟩

/-- The count of the left vertex `a`, modulo `2^64`: the sum of the products over the pairs
`b < c` above `a`. -/
theorem countAt_mod {G : Graph} {vLeft : Nat} {E : Edges} (h : Preprocessed G vLeft)
    (hE : EdgeIndex G vLeft E) (a : Nat) (ha : a + 2 < vLeft) :
    u64 (countAt G E (buildABs G vLeft) a) =
      u64 (∑ b in range vLeft, ∑ c in range vLeft,
        if a < b ∧ b < c then prodL G a b c else 0) := by
  have hv32 : vLeft < 4294967296 := Nat.lt_of_le_of_lt h.vLeft_le h.size_lt
  have hsub1 : sub32 vLeft 1 = vLeft - 1 := sub32_of_le (by omega) hv32
  have haL : a < vLeft := by omega
  rw [countAt_fold, u64_idem, sum_map_eq_finset_sum _ (nodup_buildS G a)]
  -- the terms of the code are the products, for b and c in S
  have hterm : u64 (∑ b in (buildS G a).toFinset, ((buildS G a).map (fun c =>
      if b < c then
        if ((buildABs G vLeft).getD b HMap.empty).has c = true then
          u64 (u64 (ab_c E (atAB (buildABs G vLeft) a b) c * ab_c E (atAB (buildABs G vLeft) a c) b)
            * ab_c E (atAB (buildABs G vLeft) b c) a)
        else 0
      else 0)).sum)
      = u64 (∑ b in (buildS G a).toFinset, ∑ c in (buildS G a).toFinset,
          if b < c then prodL G a b c else 0) := by
    apply u64_finset_congr
    intro b hb
    rw [sum_map_eq_finset_sum _ (nodup_buildS G a)]
    apply u64_finset_congr
    intro c hc
    rw [List.mem_toFinset] at hb hc
    have hb2 := buildS_lt h a b haL hb
    have hc2 := buildS_lt h a c haL hc
    by_cases hbc : b < c
    · rw [if_pos hbc, if_pos hbc]
      have hbL : b < sub32 vLeft 1 := by omega
      have haL1 : a < sub32 vLeft 1 := by omega
      rw [has_buildABs G h.sorted_all vLeft b c hbL]
      by_cases hnil : (nbrs G b).filter (fun u => decide (c ∈ nbrs G u ∧ c > b)) = []
      · have : exclL G b c a = 0 := by
          apply exclL_eq_zero_of_filter_nil
          rw [List.filter_eq_nil_iff] at hnil ⊢
          intro u hu hadj
          apply hnil u hu
          exact decide_eq_true ⟨(h.mem_comm u c).mpr ((adj_iff G c u).mp hadj), hbc⟩
        rw [if_neg (by rw [decide_eq_true_eq]; exact fun hne => hne hnil)]
        unfold prodL
        rw [this]; simp
      · rw [if_pos (decide_eq_true hnil)]
        rw [ab_c_atAB h hE a b c haL1 hb2.1 hc2.2, ab_c_atAB h hE a c b haL1 hc2.1 hb2.2,
          ab_c_atAB h hE b c a hbL hbc haL, u64_idem, u64_mul_u64]
        unfold prodL
        rw [Nat.mul_right_comm]
    · rw [if_neg hbc, if_neg hbc]
  rw [hterm]
  apply congrArg u64
  -- extend the sums from S to all left vertices
  have hsub : (buildS G a).toFinset ⊆ range vLeft := by
    intro b hb
    rw [List.mem_toFinset] at hb
    exact Finset.mem_range.mpr (buildS_lt h a b haL hb).2
  rw [← Finset.sum_subset hsub]
  · apply Finset.sum_congr rfl
    intro b hb
    rw [List.mem_toFinset] at hb
    have hb2 := buildS_lt h a b haL hb
    rw [← Finset.sum_subset hsub]
    · apply Finset.sum_congr rfl
      intro c _
      simp only [hb2.1, true_and]
    · intro c _ hc
      rw [List.mem_toFinset] at hc
      by_cases hcond : a < b ∧ b < c
      · rw [if_pos hcond]
        unfold prodL
        rw [exclL_eq_zero_of_not_mem_buildS h a c b (by omega) hc, Nat.mul_zero]
      · rw [if_neg hcond]
  · intro b _ hb
    rw [List.mem_toFinset] at hb
    apply Finset.sum_eq_zero
    intro c _
    by_cases hcond : a < b ∧ b < c
    · rw [if_pos hcond]
      unfold prodL
      rw [exclL_eq_zero_of_not_mem_buildS h a b c hcond.1 hb]
      simp
    · rw [if_neg hcond]

end TJ

end Induced6

namespace Induced6
open Finset

/-- The product form with the counts read off the lists. -/
theorem tripleSum_eq_prodL {G : Graph} {vLeft : Nat} (h : Preprocessed G vLeft) :
    tripleSum G vLeft = ∑ a in range vLeft, ∑ b in range vLeft, ∑ c in range vLeft,
      if a < b ∧ b < c then prodL G a b c else 0 := by
  unfold tripleSum
  apply Finset.sum_congr rfl; intro a ha
  apply Finset.sum_congr rfl; intro b hb
  apply Finset.sum_congr rfl; intro c _
  rw [Finset.mem_range] at ha hb
  unfold prodL
  rw [exclL_eq_exclF h a b c ha, exclL_eq_exclF h b c a hb, exclL_eq_exclF h a c b ha]

theorem sum_map_range (f : Nat → Nat) (n : Nat) :
    ((List.range n).map f).sum = ∑ a in range n, f a := by
  rw [sum_map_eq_finset_sum _ (List.nodup_range n)]
  apply Finset.sum_congr _ (fun _ _ => rfl)
  ext x; simp

/-- The outer loop over `a < vLeft - 2` misses no triple. -/
theorem sum_range_sub_two (vLeft : Nat) (f : Nat → Nat → Nat → Nat) :
    (∑ a in range (vLeft - 2), ∑ b in range vLeft, ∑ c in range vLeft,
      if a < b ∧ b < c then f a b c else 0)
    = ∑ a in range vLeft, ∑ b in range vLeft, ∑ c in range vLeft,
      if a < b ∧ b < c then f a b c else 0 := by
  apply Finset.sum_subset
  · intro a; simp only [Finset.mem_range]; omega
  · intro a _ ha
    apply Finset.sum_eq_zero; intro b hb
    apply Finset.sum_eq_zero; intro c hc
    rw [Finset.mem_range] at ha hb hc
    rw [if_neg]; omega

namespace TJ

/-- Strategy C returns the product-form count modulo `2^64`. -/
theorem tj_getCount_mod {G : Graph} {vLeft : Nat} {E : Edges} (h : Preprocessed G vLeft)
    (hE : EdgeIndex G vLeft E) (h3 : 2 ≤ vLeft) :
    getCount G vLeft E = u64 (tripleSum G vLeft) := by
  have hv32 : vLeft < 4294967296 := Nat.lt_of_le_of_lt h.vLeft_le h.size_lt
  have hsub2 : sub32 vLeft 2 = vLeft - 2 := sub32_of_le (by omega) hv32
  unfold getCount
  dsimp only
  rw [reduceCounts_eq, hsub2, sum_map_range, tripleSum_eq_prodL h,
    ← sum_range_sub_two vLeft (prodL G)]
  apply u64_finset_congr
  intro a ha
  rw [Finset.mem_range] at ha
  exact countAt_mod h hE a (by omega)

end TJ

end Induced6

namespace Induced6
open Finset

namespace NJ

theorem two_mul_tri (s : Nat) : 2 * (s * (s + 1) / 2) = s * (s + 1) := by
  have h : 2 ∣ s * (s + 1) := (Nat.even_mul_succ_self s).two_dvd
  exact Nat.mul_div_cancel' h

/-- Below `2^31` no part of the key wraps: it is the triangular number of `v + w` plus the
smaller id. -/
theorem pairKey_eq (v w : Nat) (hv : v < 2147483648) (hw : w < 2147483648) :
    pairKey v w = (v + w) * (v + w + 1) / 2 + min v w := by
  unfold pairKey
  have h1 : u32 (v + w + 1) = v + w + 1 := Nat.mod_eq_of_lt (by omega)
  have hs : v + w ≤ 4294967294 := by omega
  have h2 : (v + w) * (v + w + 1) ≤ 4294967294 * 4294967295 :=
    Nat.mul_le_mul hs (by omega)
  have h3 : u64 ((v + w) * (v + w + 1)) = (v + w) * (v + w + 1) :=
    Nat.mod_eq_of_lt (by omega)
  rw [h1, h3]
  apply Nat.mod_eq_of_lt
  have := Nat.div_le_self ((v + w) * (v + w + 1)) 2
  have : min v w ≤ v := Nat.min_le_left v w
  omega

theorem tri_lt_of_lt (s t m : Nat) (hst : s < t) (hm : 2 * m ≤ s) :
    s * (s + 1) / 2 + m < t * (t + 1) / 2 := by
  have h1 := two_mul_tri s
  have h2 := two_mul_tri t
  have h3 : (s + 1) * (s + 2) ≤ t * (t + 1) := Nat.mul_le_mul (by omega) (by omega)
  have h4 : (s + 1) * (s + 2) = s * (s + 1) + 2 * s + 2 := by ring
  omega

/-- The key determines the unordered pair. -/
theorem pairKey_inj (v w v2 w2 : Nat) (hv : v < 2147483648) (hw : w < 2147483648)
    (hv2 : v2 < 2147483648) (hw2 : w2 < 2147483648) (h : pairKey v w = pairKey v2 w2) :
    (v = v2 ∧ w = w2) ∨ (v = w2 ∧ w = v2) := by
  rw [pairKey_eq v w hv hw, pairKey_eq v2 w2 hv2 hw2] at h
  have hm1 : 2 * min v w ≤ v + w := by
    have := Nat.min_le_left v w; have := Nat.min_le_right v w; omega
  have hm2 : 2 * min v2 w2 ≤ v2 + w2 := by
    have := Nat.min_le_left v2 w2; have := Nat.min_le_right v2 w2; omega
  have hs : v + w = v2 + w2 := by
    rcases Nat.lt_trichotomy (v + w) (v2 + w2) with hlt | heq | hgt
    · have := tri_lt_of_lt (v + w) (v2 + w2) (min v w) hlt hm1
      omega
    · exact heq
    · have := tri_lt_of_lt (v2 + w2) (v + w) (min v2 w2) hgt hm2
      omega
  rw [hs] at h
  have hmin : min v w = min v2 w2 := by omega
  simp only [Nat.min_def] at hmin
  split_ifs at hmin <;> omega

theorem pairKey_comm (v w : Nat) : pairKey v w = pairKey w v := by
  unfold pairKey
  rw [Nat.add_comm v w, Nat.min_comm]

end NJ

end Induced6

namespace Induced6
open Finset

theorem exclF_comm (G : Graph) (vLeft p q r : Nat) :
    exclF G vLeft p q r = exclF G vLeft q p r := by
  unfold exclF
  congr 1
  apply Finset.filter_congr
  intro x _
  tauto

theorem exclL_comm {G : Graph} {vLeft : Nat} (h : Preprocessed G vLeft) (p q r : Nat)
    (hp : p < vLeft) (hq : q < vLeft) : exclL G p q r = exclL G q p r := by
  rw [exclL_eq_exclF h p q r hp, exclL_eq_exclF h q p r hq, exclF_comm]

/-- On a strictly descending list that holds `u`, the scan that stops at `u` sees exactly
the entries above `u`. -/
theorem takeWhile_ne_of_sorted (u : Nat) (l : List Nat) (h : l.Sorted (fun x y => x > y))
    (hu : u ∈ l) :
    l.takeWhile (fun v => decide (v ≠ u)) = l.filter (fun v => decide (v > u)) := by
  induction l with
  | nil => simp at hu
  | cons x xs ih =>
    have hs := List.sorted_cons.mp h
    by_cases hx : x = u
    · subst hx
      have hnil : xs.filter (fun v => decide (v > x)) = [] := by
        rw [List.filter_eq_nil_iff]
        intro b hb
        have := hs.1 b hb
        simp; omega
      simp [List.takeWhile_cons, List.filter_cons, hnil]
    · have hu2 : u ∈ xs := by
        rcases List.mem_cons.mp hu with h1 | h1
        · exact absurd h1.symm hx
        · exact h1
      have hgt : x > u := hs.1 u hu2
      have e1 : decide (x ≠ u) = true := decide_eq_true hx
      have e2 : decide (x > u) = true := decide_eq_true hgt
      rw [List.takeWhile_cons, e1, List.filter_cons, e2]
      simp only [if_true]
      rw [ih hs.2 hu2]

namespace NJ

theorem buildAB_eq (E : Edges) (u b : Nat) (l AB : List Nat) :
    buildAB E u b l AB =
      AB ++ (l.takeWhile (fun v => decide (v ≠ u))).filter (fun v => !econtains E v b) := by
  induction l generalizing AB with
  | nil => simp [buildAB]
  | cons v vs ih =>
    by_cases hv : v = u
    · simp [buildAB, List.takeWhile_cons, hv]
    · by_cases hc : econtains E v b = true
      · simp [buildAB, List.takeWhile_cons, hv, hc, ih, List.filter_cons]
      · simp [buildAB, List.takeWhile_cons, hv, hc, ih, List.filter_cons]

theorem countCommon_eq (E : Edges) (u other : Nat) (l : List Nat) :
    countCommon E u other l =
      (l.filter (fun c => econtains E other c && !econtains E u c)).length := by
  unfold countCommon
  rw [foldl_count (fun c => econtains E other c && !econtains E u c) l 0,
    List.countP_eq_length_filter]
  simp

theorem countCommon_exclL {G : Graph} {vLeft : Nat} {E : Edges}
    (hE : EdgeIndex G vLeft E) (u v w : Nat) (hu : u < vLeft) (hw : w < vLeft) :
    countCommon E u w (nbrs G v) = exclL G v w u := by
  rw [countCommon_eq]
  unfold exclL
  congr 1
  apply List.filter_congr
  intro c _
  rw [hE.econtains_eq hw, hE.econtains_eq hu]

theorem countVW_eq {G : Graph} {vLeft : Nat} {E : Edges} (h : Preprocessed G vLeft)
    (hE : EdgeIndex G vLeft E) (u v w : Nat) (hu : u < vLeft) (hv : v < vLeft)
    (hw : w < vLeft) : countVW G E u v w = exclL G v w u := by
  unfold countVW
  split
  · exact countCommon_exclL hE u v w hu hw
  · rw [countCommon_exclL hE u w v hu hv]
    exact exclL_comm h w v u hw hv

theorem loopV_spec {G : Graph} {vLeft : Nat} {E : Edges} (h : Preprocessed G vLeft)
    (hE : EdgeIndex G vLeft E) (h31 : G.length ≤ 2147483648) (u w : Nat) (hu : u < vLeft)
    (hw : w < vLeft) (AB : List Nat) (hAB : ∀ v ∈ AB, v < vLeft) (st : HMap Nat × Nat)
    (hst : MemoOK G vLeft u st.1) :
    MemoOK G vLeft u (loopV G E u w AB st).1 ∧
      u64 (loopV G E u w AB st).2 = u64 (st.2 + (AB.map (fun v => exclL G v w u)).sum) := by
  unfold loopV
  induction AB generalizing st with
  | nil => exact ⟨hst, by simp⟩
  | cons v vs ih =>
    have hv : v < vLeft := hAB v (List.mem_cons_self v vs)
    have hvs : ∀ x ∈ vs, x < vLeft := fun x hx => hAB x (List.mem_cons_of_mem v hx)
    simp only [List.foldl_cons, List.map_cons, List.sum_cons]
    by_cases hhas : st.1.has (pairKey v w) = true
    · -- memoized
      obtain ⟨n, hn⟩ := Option.isSome_iff_exists.mp hhas
      have hval := hst v w hv hw n hn
      have := ih hvs (st.1, u64 (st.2 + (st.1 (pairKey v w)).getD 0)) hst
      simp only [hhas, Bool.not_true, Bool.false_eq_true, if_false]
      refine ⟨this.1, ?_⟩
      rw [this.2, hn, Option.getD_some, hval, u64_u64_add, Nat.add_assoc]
    · -- first occurrence of the pair
      have hcount := countVW_eq h hE u v w hu hv hw
      have hst2 : MemoOK G vLeft u (st.1.set (pairKey v w) (countVW G E u v w)) := by
        intro v2 w2 hv2 hw2 n hn
        unfold HMap.set at hn
        by_cases hk : pairKey v2 w2 = pairKey v w
        · rw [if_pos hk] at hn
          have hn2 : n = countVW G E u v w := (Option.some.inj hn).symm
          have hvL : vLeft ≤ 2147483648 := Nat.le_trans h.vLeft_le h31
          rcases pairKey_inj v2 w2 v w (by omega) (by omega) (by omega) (by omega) hk with h1 | h1
          · rw [hn2, hcount, h1.1, h1.2]
          · rw [hn2, hcount, h1.1, h1.2]
            exact exclL_comm h v w u hv hw
        · rw [if_neg hk] at hn
          exact hst v2 w2 hv2 hw2 n hn
      have := ih hvs (st.1.set (pairKey v w) (countVW G E u v w),
        u64 (st.2 + countVW G E u v w)) hst2
      simp only [hhas, Bool.not_false, if_true]
      refine ⟨this.1, ?_⟩
      rw [this.2, hcount, u64_u64_add, Nat.add_assoc]

end NJ

end Induced6

namespace Induced6
open Finset

namespace NJ

theorem loopW_spec {G : Graph} {vLeft : Nat} {E : Edges} (h : Preprocessed G vLeft)
    (hE : EdgeIndex G vLeft E) (h31 : G.length ≤ 2147483648) (u a : Nat) (hu : u < vLeft)
    (AB : List Nat) (hAB : ∀ v ∈ AB, v < vLeft) (ws : List Nat) (hws : ∀ w ∈ ws, w < vLeft)
    (st : HMap Nat × Nat) (hst : MemoOK G vLeft u st.1) :
    MemoOK G vLeft u (loopW G E u a AB ws st).1 ∧
      u64 (loopW G E u a AB ws st).2 =
        u64 (st.2 + (((ws.takeWhile (fun w => decide (w ≠ u))).filter
          (fun w => !econtains E w a)).map
            (fun w => (AB.map (fun v => exclL G v w u)).sum)).sum) := by
  induction ws generalizing st with
  | nil => exact ⟨hst, by simp [loopW]⟩
  | cons w rest ih =>
    have hw : w < vLeft := hws w (List.mem_cons_self w rest)
    have hrest : ∀ x ∈ rest, x < vLeft := fun x hx => hws x (List.mem_cons_of_mem w hx)
    by_cases hwu : w = u
    · have e1 : decide (w ≠ u) = false := decide_eq_false (fun hne => hne hwu)
      rw [loopW, if_pos hwu, List.takeWhile_cons, e1]
      exact ⟨hst, by simp⟩
    · have e1 : decide (w ≠ u) = true := decide_eq_true hwu
      rw [loopW, if_neg hwu, List.takeWhile_cons, e1]
      simp only [if_true]
      by_cases hc : econtains E w a = true
      · rw [hc]
        simp only [Bool.not_true, Bool.false_eq_true, if_false, List.filter_cons, hc]
        exact ih hrest st hst
      · have hc2 : econtains E w a = false := by simpa using hc
        rw [hc2]
        simp only [Bool.not_false, if_true, List.filter_cons, hc2, List.map_cons,
          List.sum_cons]
        have hV := loopV_spec h hE h31 u w hu hw AB hAB st hst
        have := ih hrest (loopV G E u w AB st) hV.1
        refine ⟨this.1, ?_⟩
        rw [this.2, ← u64_u64_add, hV.2, u64_u64_add, Nat.add_assoc]

theorem loopW_pairTerm {G : Graph} {vLeft : Nat} {E : Edges} (h : Preprocessed G vLeft)
    (hE : EdgeIndex G vLeft E) (h31 : G.length ≤ 2147483648) (u a b : Nat) (hu : u < vLeft)
    (ha : a ∈ nbrs G u) (hb : b ∈ nbrs G u) (st : HMap Nat × Nat)
    (hst : MemoOK G vLeft u st.1) :
    MemoOK G vLeft u (loopW G E u a (buildAB E u b (nbrs G a) []) (nbrs G b) st).1 ∧
      u64 (loopW G E u a (buildAB E u b (nbrs G a) []) (nbrs G b) st).2 =
        u64 (st.2 + pairTerm G u a b) := by
  have ha2 := h.left_nbrs u hu a ha
  have hb2 := h.left_nbrs u hu b hb
  have hAB : buildAB E u b (nbrs G a) [] =
      ((nbrs G a).filter (fun v => decide (v > u))).filter (fun v => !adj G v b) := by
    rw [buildAB_eq, List.nil_append,
      takeWhile_ne_of_sorted u _ (h.sorted_all a) (h.symm_all u a ha)]
    apply List.filter_congr
    intro v hv
    have hv2 : v < vLeft := h.right_nbrs a ha2.2 ha2.1 v (List.mem_of_mem_filter hv)
    rw [hE.econtains_eq hv2]
  have hABlt : ∀ v ∈ buildAB E u b (nbrs G a) [], v < vLeft := by
    rw [hAB]
    intro v hv
    exact h.right_nbrs a ha2.2 ha2.1 v (List.mem_of_mem_filter (List.mem_of_mem_filter hv))
  have hws : ∀ w ∈ nbrs G b, w < vLeft := h.right_nbrs b hb2.2 hb2.1
  have := loopW_spec h hE h31 u a hu _ hABlt (nbrs G b) hws st hst
  refine ⟨this.1, ?_⟩
  rw [this.2, takeWhile_ne_of_sorted u _ (h.sorted_all b) (h.symm_all u b hb), hAB]
  unfold pairTerm
  congr 4
  apply List.filter_congr
  intro w hw
  rw [hE.econtains_eq (hws w (List.mem_of_mem_filter hw))]

theorem loopB_spec {G : Graph} {vLeft : Nat} {E : Edges} (h : Preprocessed G vLeft)
    (hE : EdgeIndex G vLeft E) (h31 : G.length ≤ 2147483648) (u a : Nat) (hu : u < vLeft)
    (ha : a ∈ nbrs G u) (bs : List Nat) (hbs : ∀ b ∈ bs, b ∈ nbrs G u)
    (st : HMap Nat × Nat) (hst : MemoOK G vLeft u st.1) :
    MemoOK G vLeft u (loopB G E u a bs st).1 ∧
      u64 (loopB G E u a bs st).2 = u64 (st.2 + (bs.map (pairTerm G u a)).sum) := by
  unfold loopB
  induction bs generalizing st with
  | nil => exact ⟨hst, by simp⟩
  | cons b rest ih =>
    simp only [List.foldl_cons, List.map_cons, List.sum_cons]
    have hW := loopW_pairTerm h hE h31 u a b hu ha (hbs b (List.mem_cons_self b rest)) st hst
    have := ih (fun x hx => hbs x (List.mem_cons_of_mem b hx)) _ hW.1
    refine ⟨this.1, ?_⟩
    rw [this.2, ← u64_u64_add, hW.2, u64_u64_add, Nat.add_assoc]

theorem loopA_spec {G : Graph} {vLeft : Nat} {E : Edges} (h : Preprocessed G vLeft)
    (hE : EdgeIndex G vLeft E) (h31 : G.length ≤ 2147483648) (u : Nat) (hu : u < vLeft)
    (l : List Nat) (hl : ∀ a ∈ l, a ∈ nbrs G u) (st : HMap Nat × Nat)
    (hst : MemoOK G vLeft u st.1) :
    MemoOK G vLeft u (loopA G E u l st).1 ∧
      u64 (loopA G E u l st).2 = u64 (st.2 + sumPairs (pairTerm G u) l) := by
  induction l generalizing st with
  | nil => exact ⟨hst, by simp [loopA, sumPairs]⟩
  | cons a rest ih =>
    have hB := loopB_spec h hE h31 u a hu (hl a (List.mem_cons_self a rest)) rest
      (fun x hx => hl x (List.mem_cons_of_mem a hx)) st hst
    have := ih (fun x hx => hl x (List.mem_cons_of_mem a hx)) _ hB.1
    rw [loopA, sumPairs]
    refine ⟨this.1, ?_⟩
    rw [this.2, ← u64_u64_add, hB.2, u64_u64_add, Nat.add_assoc]

/-- The count of the left vertex `u`, modulo `2^64`, as a sum over the pairs of its
neighbours. -/
theorem countAt_pairs {G : Graph} {vLeft : Nat} {E : Edges} (h : Preprocessed G vLeft)
    (hE : EdgeIndex G vLeft E) (h31 : G.length ≤ 2147483648) (u : Nat) (hu : u < vLeft) :
    u64 (countAt G E u) = u64 (sumPairs (pairTerm G u) (nbrs G u)) := by
  unfold countAt
  have hst : MemoOK G vLeft u (HMap.empty, 0).1 := by
    intro v w _ _ n hn
    simp [HMap.empty] at hn
  have := (loopA_spec h hE h31 u hu (nbrs G u) (fun a ha => ha) (HMap.empty, 0) hst).2
  rw [this, Nat.zero_add]

end NJ

end Induced6

namespace Induced6
open Finset

/-- A double sum with zero diagonal, folded onto the pairs `v < w`. -/
theorem sum_sum_split (s : Finset Nat) (F : Nat → Nat → Nat) (hdiag : ∀ v ∈ s, F v v = 0) :
    ∑ v in s, ∑ w in s, F v w = ∑ v in s, ∑ w in s, if v < w then F v w + F w v else 0 := by
  have h1 : ∀ v ∈ s, ∀ w ∈ s, F v w =
      (if v < w then F v w else 0) + (if w < v then F v w else 0) := by
    intro v hv w _
    rcases Nat.lt_trichotomy v w with h | h | h
    · simp [h, Nat.lt_asymm h]
    · subst h; simp [hdiag v hv]
    · simp [h, Nat.lt_asymm h]
  have h2 : ∑ v in s, ∑ w in s, F v w =
      ∑ v in s, ∑ w in s, ((if v < w then F v w else 0) + (if w < v then F v w else 0)) :=
    Finset.sum_congr rfl (fun v hv => Finset.sum_congr rfl (fun w hw => h1 v hv w hw))
  have h3 : (∑ v in s, ∑ w in s, if w < v then F v w else 0)
      = ∑ v in s, ∑ w in s, if v < w then F w v else 0 := Finset.sum_comm
  have h4 : ∀ v w : Nat, (if v < w then F v w + F w v else 0)
      = (if v < w then F v w else 0) + (if v < w then F w v else 0) := by
    intro v w; split <;> simp
  rw [h2]
  simp only [h4, Finset.sum_add_distrib]
  rw [h3]

/-- The sum over the pairs of a strictly descending list, as a double sum. -/
theorem sumPairs_eq (f : Nat → Nat → Nat) (l : List Nat) (hl : l.Sorted (fun x y => x > y)) :
    sumPairs f l = ∑ a in l.toFinset, ∑ b in l.toFinset, if a > b then f a b else 0 := by
  induction l with
  | nil => simp [sumPairs]
  | cons a rest ih =>
    have hs := List.sorted_cons.mp hl
    have hnot : a ∉ rest.toFinset := by
      rw [List.mem_toFinset]; intro hmem; exact Nat.lt_irrefl a (hs.1 a hmem)
    rw [sumPairs, ih hs.2, List.toFinset_cons, Finset.sum_insert hnot]
    have e1 : (∑ b in insert a rest.toFinset, if a > b then f a b else 0)
        = (rest.map (f a)).sum := by
      rw [Finset.sum_insert hnot, sum_map_eq_finset_sum _ (nodup_of_sorted_gt hs.2)]
      simp only [gt_iff_lt, Nat.lt_irrefl, if_false, Nat.zero_add]
      apply Finset.sum_congr rfl
      intro b hb
      rw [List.mem_toFinset] at hb
      rw [if_pos (hs.1 b hb)]
    have e2 : ∀ x ∈ rest.toFinset,
        (∑ b in insert a rest.toFinset, if x > b then f x b else 0)
          = ∑ b in rest.toFinset, if x > b then f x b else 0 := by
      intro x hx
      rw [List.mem_toFinset] at hx
      rw [Finset.sum_insert hnot, if_neg (Nat.lt_asymm (hs.1 x hx)), Nat.zero_add]
    rw [e1, Finset.sum_congr rfl e2]

theorem sum_filter_map (l : List Nat) (hl : l.Nodup) (p : Nat → Bool) (f : Nat → Nat) :
    ((l.filter p).map f).sum = ∑ x in l.toFinset, if p x = true then f x else 0 := by
  rw [sum_map_eq_finset_sum _ (hl.filter p), List.toFinset_filter, Finset.sum_filter]

end Induced6

namespace Induced6
open Finset

/-- The list of a right vertex holds exactly the left vertices adjacent to it. -/
theorem toFinset_nbrs_right {G : Graph} {vLeft : Nat} (h : Preprocessed G vLeft) (x : Nat)
    (hx : x < G.length) (hx2 : vLeft ≤ x) :
    (nbrs G x).toFinset = (range vLeft).filter (fun w => adj G w x = true) := by
  ext w
  simp only [List.mem_toFinset, Finset.mem_filter, Finset.mem_range, adj_iff]
  constructor
  · intro hw
    exact ⟨h.right_nbrs x hx hx2 w hw, h.symm_all x w hw⟩
  · intro hw
    exact h.symm_all w x hw.2

namespace NJ

/-- The term of a pair `(a, b)` of neighbours of `u` as a sum over the pairs of left
vertices. -/
theorem pairTerm_eq {G : Graph} {vLeft : Nat} (h : Preprocessed G vLeft) (u a b : Nat)
    (hu : u < vLeft) (ha : a ∈ nbrs G u) (hb : b ∈ nbrs G u) :
    pairTerm G u a b = ∑ w in range vLeft, ∑ v in range vLeft,
      if u < v ∧ u < w then
        (if (adj G v a && !adj G w a) = true then 1 else 0) *
          (if (adj G w b && !adj G v b) = true then 1 else 0) * exclL G v w u
      else 0 := by
  have ha2 := h.left_nbrs u hu a ha
  have hb2 := h.left_nbrs u hu b hb
  unfold pairTerm
  simp only [List.filter_filter]
  rw [sum_filter_map _ (h.nodup b), toFinset_nbrs_right h b hb2.2 hb2.1,
    Finset.sum_filter]
  apply Finset.sum_congr rfl
  intro w _
  rw [sum_filter_map _ (h.nodup a), toFinset_nbrs_right h a ha2.2 ha2.1,
    Finset.sum_filter]
  by_cases hwb : adj G w b = true
  · by_cases hwa : adj G w a = true
    · simp [hwb, hwa]
    · by_cases hwu : u < w
      · simp only [hwb, hwa, hwu, if_true, Bool.not_true, Bool.not_false, Bool.and_true,
          decide_True, Bool.true_and, and_true, gt_iff_lt]
        apply Finset.sum_congr rfl
        intro v _
        by_cases hva : adj G v a = true <;> by_cases hvb : adj G v b = true <;>
          by_cases hvu : u < v <;> simp [hva, hvb, hvu]
      · simp [hwb, hwa, hwu]
  · simp [hwb]


theorem exclL_eq_sum (G : Graph) (u v w : Nat) (hnd : (nbrs G u).Nodup) :
    exclL G u v w =
      ∑ a in (nbrs G u).toFinset, if (adj G v a && !adj G w a) = true then 1 else 0 := by
  unfold exclL
  rw [length_filter_eq_card _ hnd, Finset.card_filter]

theorem sum4_comm (N L : Finset Nat) (K : Nat → Nat → Nat → Nat → Nat) :
    ∑ a in N, ∑ b in N, ∑ w in L, ∑ v in L, K a b w v =
      ∑ w in L, ∑ v in L, ∑ a in N, ∑ b in N, K a b w v := by
  calc ∑ a in N, ∑ b in N, ∑ w in L, ∑ v in L, K a b w v
      = ∑ a in N, ∑ w in L, ∑ b in N, ∑ v in L, K a b w v :=
        Finset.sum_congr rfl (fun a _ => Finset.sum_comm)
    _ = ∑ w in L, ∑ a in N, ∑ b in N, ∑ v in L, K a b w v := Finset.sum_comm
    _ = ∑ w in L, ∑ a in N, ∑ v in L, ∑ b in N, K a b w v :=
        Finset.sum_congr rfl (fun w _ => Finset.sum_congr rfl (fun a _ => Finset.sum_comm))
    _ = ∑ w in L, ∑ v in L, ∑ a in N, ∑ b in N, K a b w v :=
        Finset.sum_congr rfl (fun w _ => Finset.sum_comm)

/-- The pairs `(a, b)` with `a` in one class and `b` in the other, counted with `a > b`
and with the classes exchanged, are all the pairs of the product. -/
theorem pairs_add (N : Finset Nat) (P Q : Nat → Bool) (hPQ : ∀ a, P a = true → Q a = false) :
    (∑ a in N, ∑ b in N, if a > b then
        (if P a = true then 1 else 0) * (if Q b = true then 1 else 0) else 0) +
      (∑ a in N, ∑ b in N, if a > b then
        (if Q a = true then 1 else 0) * (if P b = true then 1 else 0) else 0)
    = (∑ a in N, if P a = true then 1 else 0) * (∑ b in N, if Q b = true then 1 else 0) := by
  have hsplit := sum_sum_split N
    (fun a b => (if P a = true then 1 else 0) * (if Q b = true then 1 else 0))
    (by
      intro a _
      by_cases hp : P a = true
      · simp [hp, hPQ a hp]
      · simp [hp])
  have hcomm : (∑ a in N, ∑ b in N, if a > b then
        (if P a = true then 1 else 0) * (if Q b = true then 1 else 0) else 0)
      = ∑ a in N, ∑ b in N, if a < b then
        (if P b = true then 1 else 0) * (if Q a = true then 1 else 0) else 0 :=
    Finset.sum_comm
  have hcomm2 : (∑ a in N, ∑ b in N, if a > b then
        (if Q a = true then 1 else 0) * (if P b = true then 1 else 0) else 0)
      = ∑ a in N, ∑ b in N, if a < b then
        (if Q b = true then 1 else 0) * (if P a = true then 1 else 0) else 0 :=
    Finset.sum_comm
  rw [hcomm, hcomm2, Finset.sum_mul_sum, hsplit, ← Finset.sum_add_distrib]
  apply Finset.sum_congr rfl
  intro a _
  rw [← Finset.sum_add_distrib]
  apply Finset.sum_congr rfl
  intro b _
  by_cases hab : a < b
  · simp only [hab, if_true]
    rw [Nat.add_comm, Nat.mul_comm (if Q b = true then 1 else 0)]
  · simp only [hab, if_false]


/-- The sum over the pairs of neighbours of `u`, regrouped by the pair of far endpoints:
every pair `v < w` of left vertices above `u` contributes the product of the three exclusive
counts. -/
theorem sumPairs_pairTerm {G : Graph} {vLeft : Nat} (h : Preprocessed G vLeft) (u : Nat)
    (hu : u < vLeft) :
    sumPairs (pairTerm G u) (nbrs G u) =
      ∑ v in range vLeft, ∑ w in range vLeft,
        if u < v ∧ v < w then prodL G u v w else 0 := by
  -- the term of a pair as a function of the four vertices
  have e1 : sumPairs (pairTerm G u) (nbrs G u) =
      ∑ a in (nbrs G u).toFinset, ∑ b in (nbrs G u).toFinset,
        ∑ w in range vLeft, ∑ v in range vLeft,
          if a > b then
            (if u < v ∧ u < w then
              (if (adj G v a && !adj G w a) = true then 1 else 0) *
                (if (adj G w b && !adj G v b) = true then 1 else 0) * exclL G v w u
            else 0)
          else 0 := by
    rw [sumPairs_eq _ _ (h.sorted_all u)]
    apply Finset.sum_congr rfl; intro a ha
    apply Finset.sum_congr rfl; intro b hb
    rw [List.mem_toFinset] at ha hb
    by_cases hab : a > b
    · rw [if_pos hab, pairTerm_eq h u a b hu ha hb]
      apply Finset.sum_congr rfl; intro w _
      apply Finset.sum_congr rfl; intro v _
      rw [if_pos hab]
    · rw [if_neg hab]
      symm
      apply Finset.sum_eq_zero; intro w _
      apply Finset.sum_eq_zero; intro v _
      rw [if_neg hab]
  rw [e1, sum4_comm]
  -- for fixed far endpoints the sum over the pairs of midpoints factors out
  have e2 : ∀ w ∈ range vLeft, ∀ v ∈ range vLeft,
      (∑ a in (nbrs G u).toFinset, ∑ b in (nbrs G u).toFinset,
          if a > b then
            (if u < v ∧ u < w then
              (if (adj G v a && !adj G w a) = true then 1 else 0) *
                (if (adj G w b && !adj G v b) = true then 1 else 0) * exclL G v w u
            else 0)
          else 0)
      = if u < v ∧ u < w then
          (∑ a in (nbrs G u).toFinset, ∑ b in (nbrs G u).toFinset,
            if a > b then
              (if (adj G v a && !adj G w a) = true then 1 else 0) *
                (if (adj G w b && !adj G v b) = true then 1 else 0)
            else 0) * exclL G v w u
        else 0 := by
    intro w _ v _
    by_cases hc : u < v ∧ u < w
    · rw [if_pos hc, Finset.sum_mul]
      apply Finset.sum_congr rfl; intro a _
      rw [Finset.sum_mul]
      apply Finset.sum_congr rfl; intro b _
      rw [if_pos hc]
      split <;> simp
    · rw [if_neg hc]
      apply Finset.sum_eq_zero; intro a _
      apply Finset.sum_eq_zero; intro b _
      rw [if_neg hc]; simp
  rw [Finset.sum_congr rfl (fun w hw => Finset.sum_congr rfl (fun v hv => e2 w hw v hv)),
    Finset.sum_comm]
  -- fold the ordered pairs (v, w) onto v < w
  rw [sum_sum_split (range vLeft)
    (fun v w => if u < v ∧ u < w then
          (∑ a in (nbrs G u).toFinset, ∑ b in (nbrs G u).toFinset,
            if a > b then
              (if (adj G v a && !adj G w a) = true then 1 else 0) *
                (if (adj G w b && !adj G v b) = true then 1 else 0)
            else 0) * exclL G v w u
        else 0)]
  · apply Finset.sum_congr rfl; intro v hv
    apply Finset.sum_congr rfl; intro w hw
    rw [Finset.mem_range] at hv hw
    by_cases hvw : v < w
    · by_cases huv : u < v
      · have huw : u < w := Nat.lt_trans huv hvw
        have hr : (if u < v ∧ v < w then prodL G u v w else 0) = prodL G u v w :=
          if_pos ⟨huv, hvw⟩
        rw [if_pos hvw, hr]
        simp only [huv, huw, and_self, if_true]
        rw [exclL_comm h w v u hw hv, ← Nat.add_mul]
        have hadd := pairs_add (nbrs G u).toFinset
          (fun a => adj G v a && !adj G w a) (fun a => adj G w a && !adj G v a)
          (by intro a; dsimp only; cases adj G v a <;> cases adj G w a <;> simp)
        dsimp only at hadd
        rw [hadd, ← exclL_eq_sum G u v w (h.nodup u), ← exclL_eq_sum G u w v (h.nodup u)]
        unfold prodL
        ring
      · rw [if_pos hvw, if_neg (fun hh => huv hh.1)]
        simp [huv]
    · rw [if_neg hvw, if_neg (fun hh => hvw hh.2)]
  · intro v _
    by_cases huv : u < v
    · simp only [huv, and_self, if_true]
      have : (∑ a in (nbrs G u).toFinset, ∑ b in (nbrs G u).toFinset,
            if a > b then
              (if (adj G v a && !adj G v a) = true then 1 else 0) *
                (if (adj G v b && !adj G v b) = true then 1 else 0)
            else 0) = 0 := by
        apply Finset.sum_eq_zero; intro a _
        apply Finset.sum_eq_zero; intro b _
        cases adj G v a <;> simp
      rw [this, Nat.zero_mul]
    · simp [huv]

/-- Strategy B returns the product-form count modulo `2^64`. -/
theorem nj_getCount_mod {G : Graph} {vLeft : Nat} {E : Edges} (h : Preprocessed G vLeft)
    (hE : EdgeIndex G vLeft E) (h3 : 2 ≤ vLeft) (h31 : G.length ≤ 2147483648) :
    getCount G vLeft E = u64 (tripleSum G vLeft) := by
  have hv32 : vLeft < 4294967296 := Nat.lt_of_le_of_lt h.vLeft_le h.size_lt
  have hsub2 : sub32 vLeft 2 = vLeft - 2 := sub32_of_le (by omega) hv32
  unfold getCount
  rw [reduceCounts_eq, hsub2, sum_map_range, tripleSum_eq_prodL h,
    ← sum_range_sub_two vLeft (prodL G)]
  apply u64_finset_congr
  intro u hu
  rw [Finset.mem_range] at hu
  have huL : u < vLeft := by omega
  rw [countAt_pairs h hE h31 u huL, sumPairs_pairTerm h u huL]

end NJ

end Induced6

namespace Induced6
open Finset

theorem getD_set_eq {α : Type} (l : List α) (i j : Nat) (a d : α) :
    (l.set i a).getD j d = if i = j ∧ i < l.length then a else l.getD j d := by
  rw [List.getD_eq_getElem?_getD, List.getD_eq_getElem?_getD, List.getElem?_set]
  by_cases hij : i = j
  · subst hij
    by_cases hi : i < l.length
    · simp [hi]
    · simp [hi, List.getElem?_eq_none (Nat.le_of_not_lt hi)]
  · simp [hij]

namespace WJ

/-- The shifting loop on a vector cut as `A ++ x :: S ++ R`: the run `x :: S` moves one
slot to the right, over the first element of `R`, and `x` also stays where it was. -/
theorem shiftRight_append (A : List Wedge) (x : Wedge) (S R : List Wedge) (hR : R ≠ []) :
    shiftRight (A ++ x :: S ++ R) A.length (S.length + 1) = A ++ x :: x :: S ++ R.tail := by
  induction S using List.reverseRecOn generalizing R with
  | nil =>
    cases R with
    | nil => exact absurd rfl hR
    | cons r R2 =>
      have hget : wedgeAt (A ++ [x] ++ r :: R2) (A.length + 0) = x := by
        unfold wedgeAt
        rw [List.getD_eq_getElem?_getD]
        have : (A ++ [x] ++ r :: R2) = A ++ (x :: r :: R2) := by simp
        rw [this, List.getElem?_append_right (by simp)]
        simp
      have hset : (A ++ [x] ++ r :: R2).set (A.length + 0 + 1) x = A ++ x :: x :: R2 := by
        have : (A ++ [x] ++ r :: R2) = (A ++ [x]) ++ (r :: R2) := by simp
        rw [this, List.set_append_right _ _ (by simp)]
        simp
      show shiftRight (A ++ [x] ++ r :: R2) A.length (0 + 1) = _
      rw [shiftRight, hget, hset, shiftRight]
      simp
  | append_singleton S0 y ih =>
    cases R with
    | nil => exact absurd rfl hR
    | cons r R2 =>
      have hlen : (S0 ++ [y]).length + 1 = (S0.length + 1) + 1 := by simp
      rw [hlen, shiftRight]
      have hget : wedgeAt (A ++ x :: (S0 ++ [y]) ++ r :: R2) (A.length + (S0.length + 1)) = y := by
        unfold wedgeAt
        rw [List.getD_eq_getElem?_getD]
        have : (A ++ x :: (S0 ++ [y]) ++ r :: R2) = (A ++ x :: S0) ++ (y :: (r :: R2)) := by simp
        rw [this, List.getElem?_append_right (by simp)]
        simp
      have hset : (A ++ x :: (S0 ++ [y]) ++ r :: R2).set (A.length + (S0.length + 1) + 1) y
          = A ++ x :: S0 ++ (y :: y :: R2) := by
        have : (A ++ x :: (S0 ++ [y]) ++ r :: R2) = (A ++ x :: S0 ++ [y]) ++ (r :: R2) := by simp
        rw [this, List.set_append_right _ _ (by simp; omega)]
        have h0 : A.length + (S0.length + 1) + 1 - (A ++ x :: S0 ++ [y]).length = 0 := by
          simp; omega
        rw [h0]
        simp
      rw [hget, hset, ih (y :: y :: R2) (by simp)]
      simp


theorem length_insWedge (t : Wedge) (S : List Wedge) : (insWedge t S).length = S.length + 1 := by
  induction S with
  | nil => rfl
  | cons x S ih =>
    unfold insWedge
    split
    · simp
    · simp [ih]

/-- The insertion loop on a vector cut as `A ++ S ++ R`, started at the first slot of the
run `S`: the wedge goes to its place in `S` and the first element of `R` is overwritten. -/
theorem insertLoop_append (A S R : List Wedge) (t : Wedge) (p i : Nat)
    (hp : p + i = A.length + S.length) (hR : R ≠ []) :
    insertLoop (A ++ S ++ R) p i t (S.length + 1) A.length = A ++ insWedge t S ++ R.tail := by
  induction S generalizing A with
  | nil =>
    cases R with
    | nil => exact absurd rfl hR
    | cons r R2 =>
      have hw : A.length = p + i := by simpa using hp.symm
      show insertLoop (A ++ [] ++ r :: R2) p i t (0 + 1) A.length = _
      rw [insertLoop, if_pos hw]
      have : (A ++ [] ++ r :: R2) = A ++ (r :: R2) := by simp
      rw [this, List.set_append_right _ _ (Nat.le_refl _)]
      simp [insWedge]
  | cons x S2 ih =>
    have hw : ¬ A.length = p + i := by simp at hp; omega
    have hget : wedgeAt (A ++ x :: S2 ++ R) A.length = x := by
      unfold wedgeAt
      rw [List.getD_eq_getElem?_getD]
      have : (A ++ x :: S2 ++ R) = A ++ (x :: (S2 ++ R)) := by simp
      rw [this, List.getElem?_append_right (Nat.le_refl _)]
      simp
    show insertLoop (A ++ x :: S2 ++ R) p i t ((S2.length + 1) + 1) A.length = _
    rw [insertLoop, if_neg hw, hget]
    by_cases hlt : t.2.1 < x.2.1
    · rw [if_pos hlt]
      have hk : p + i - A.length = S2.length + 1 := by simp at hp; omega
      rw [hk, shiftRight_append A x S2 R hR]
      have : (A ++ x :: x :: S2 ++ R.tail) = A ++ (x :: (x :: S2 ++ R.tail)) := by simp
      rw [this, List.set_append_right _ _ (Nat.le_refl _)]
      simp [insWedge, hlt]
    · rw [if_neg hlt]
      have h1 : (A ++ x :: S2 ++ R) = (A ++ [x]) ++ S2 ++ R := by simp
      have h2 : A.length + 1 = (A ++ [x]).length := by simp
      rw [h1, h2, ih (A ++ [x]) (by simp at hp ⊢; omega)]
      simp [insWedge, hlt]

theorem insertWedge_append (A S R : List Wedge) (t : Wedge) (hR : R ≠ []) :
    insertWedge (A ++ S ++ R) A.length S.length t = A ++ insWedge t S ++ R.tail := by
  unfold insertWedge
  exact insertLoop_append A S R t A.length S.length rfl hR

/-- A run of insertions on a vector cut as `A ++ S ++ R`. -/
theorem foldl_insertWedge (A : List Wedge) (ts : List Wedge) (S R : List Wedge)
    (hlen : ts.length ≤ R.length) :
    ts.foldl (fun st t => (insertWedge st.1 A.length st.2 t, st.2 + 1)) (A ++ S ++ R, S.length)
      = (A ++ ts.foldl (fun S t => insWedge t S) S ++ R.drop ts.length,
          S.length + ts.length) := by
  induction ts generalizing S R with
  | nil => simp
  | cons t ts ih =>
    cases R with
    | nil => simp at hlen
    | cons r R2 =>
      simp only [List.foldl_cons]
      rw [insertWedge_append A S (r :: R2) t (by simp)]
      have := ih (insWedge t S) R2 (by simpa using hlen)
      rw [length_insWedge] at this
      simp only [List.tail_cons]
      rw [this]
      simp [Nat.add_assoc, Nat.add_comm 1]

theorem wedgesInner_eq (p u1 v1 : Nat) (l : List Nat) (st : List Wedge × Nat) :
    wedgesInner p u1 v1 l st =
      ((l.takeWhile (fun u2 => decide (u2 > u1))).map (fun u2 => (u1, u2, v1))).foldl
        (fun st t => (insertWedge st.1 p st.2 t, st.2 + 1)) st := by
  induction l generalizing st with
  | nil => rfl
  | cons u2 rest ih =>
    by_cases h : u2 > u1
    · simp [wedgesInner, List.takeWhile_cons, h, ih]
    · simp [wedgesInner, List.takeWhile_cons, h]

/-- The construction loop for one low endpoint inserts the wedges of `wedgeList` in
turn. -/
theorem wedgesOf_fold (G : Graph) (hs : ∀ u, (nbrs G u).Sorted (fun x y => x > y))
    (partitions : List Nat) (W : List Wedge) (u1 : Nat) :
    wedgesOf G partitions W u1 =
      ((wedgeList G u1).foldl
        (fun st t => (insertWedge st.1 (partitions.getD u1 0) st.2 t, st.2 + 1)) (W, 0)).1 := by
  unfold wedgesOf wedgeList
  congr 1
  generalize (W, 0) = st
  induction nbrs G u1 generalizing st with
  | nil => rfl
  | cons v1 vs ih =>
    simp only [List.foldl_cons, List.flatMap_cons, List.foldl_append]
    rw [wedgesInner_eq, takeWhile_gt_of_sorted u1 _ (hs v1), ih]

theorem wedgesOf_append (G : Graph) (hs : ∀ u, (nbrs G u).Sorted (fun x y => x > y))
    (partitions : List Nat) (A R : List Wedge) (u1 : Nat)
    (hp : partitions.getD u1 0 = A.length) (hlen : (wedgeList G u1).length ≤ R.length) :
    wedgesOf G partitions (A ++ R) u1 =
      A ++ sortedWedges G u1 ++ R.drop (wedgeList G u1).length := by
  rw [wedgesOf_fold G hs, hp]
  have := foldl_insertWedge A (wedgeList G u1) [] R hlen
  simp only [List.append_nil, List.length_nil] at this
  rw [this]
  rfl

end WJ

end Induced6

namespace Induced6
open Finset

namespace WJ

theorem wedgeCount_eq (G : Graph) (u : Nat) :
    wedgeCount G u = u64 (wedgeList G u).length := by
  unfold wedgeCount wedgeList
  rw [foldl_u64_gen0 _ (fun v => ((nbrs G v).filter (fun u2 => decide (u2 > u))).length)]
  · congr 1
    rw [List.length_flatMap]
    congr 1
    apply List.map_congr_left
    intro v _
    simp
  · intro i v
    have := foldl_u64_gen (fun val u2 => if u2 > u then u64 (val + 1) else val)
      (fun u2 => if u2 > u then 1 else 0)
      (by
        intro j u2
        by_cases h : u2 > u
        · simp only [h, if_true]; rw [u64_u64_add]
        · simp only [h, if_false]; rw [Nat.add_zero]) (nbrs G v) i
    rw [this]
    congr 2
    induction nbrs G v with
    | nil => rfl
    | cons x xs ih =>
      by_cases h : x > u
      · simp [List.filter_cons, h, ih]; omega
      · simp [List.filter_cons, h, ih]

theorem rawPartitions_fold (G : Graph) (vLeft m : Nat) (hm : m + 1 ≤ vLeft) :
    (List.range m).foldl (fun p u => p.set (u + 1) (wedgeCount G u)) (List.replicate vLeft 0)
      = 0 :: (List.range m).map (wedgeCount G) ++ List.replicate (vLeft - 1 - m) 0 := by
  induction m with
  | zero =>
    cases vLeft with
    | zero => omega
    | succ n => simp [List.replicate_succ]
  | succ m ih =>
    rw [List.range_succ, List.foldl_append, ih (by omega)]
    simp only [List.foldl_cons, List.foldl_nil, List.map_append, List.map_cons, List.map_nil]
    have hrep : List.replicate (vLeft - 1 - m) 0 = 0 :: List.replicate (vLeft - 1 - (m + 1)) 0 := by
      have : vLeft - 1 - m = (vLeft - 1 - (m + 1)) + 1 := by omega
      rw [this, List.replicate_succ]
    rw [hrep]
    have hl : (0 :: List.map (wedgeCount G) (List.range m)).length = m + 1 := by simp
    rw [List.set_append_right _ _ (by rw [hl]), hl]
    simp

theorem rawPartitions_eq (G : Graph) (vLeft : Nat) (h1 : 1 ≤ vLeft) (h32 : vLeft < 4294967296) :
    rawPartitions G vLeft = 0 :: (List.range (vLeft - 1)).map (wedgeCount G) := by
  unfold rawPartitions
  rw [sub32_of_le h1 h32, rawPartitions_fold G vLeft (vLeft - 1) (by omega)]
  simp

theorem scanSum_length (l : List Nat) (t : Nat) : (scanSum l t).length = l.length := by
  induction l generalizing t with
  | nil => rfl
  | cons x xs ih => simp [scanSum, ih]

theorem scanSum_getD (l : List Nat) (t i : Nat) (hi : i < l.length) :
    (scanSum l (u64 t)).getD i 0 = u64 (t + (l.take (i + 1)).sum) := by
  induction l generalizing t i with
  | nil => simp at hi
  | cons x xs ih =>
    cases i with
    | zero => simp [scanSum, u64_u64_add]
    | succ i =>
      have hi2 : i < xs.length := by simpa using hi
      simp only [scanSum, List.getD_cons_succ, List.take_succ_cons, List.sum_cons]
      rw [u64_u64_add, ih (t + x) i hi2, Nat.add_assoc]

/-- The entries of `partitions`: the number of wedges with a lower low endpoint. -/
theorem buildPartitions_getD (G : Graph) (vLeft u : Nat) (h32 : vLeft < 4294967296)
    (hu : u < vLeft) (hlt : wedgesBelow G vLeft < 18446744073709551616) :
    (buildPartitions [] G vLeft).getD u 0 = wedgesBelow G u := by
  unfold buildPartitions scanBlocks
  rw [rawPartitions_eq G vLeft (by omega) h32]
  have key : (scanSum (0 :: (List.range (vLeft - 1)).map (wedgeCount G)) 0).getD u 0
      = u64 (0 + ((0 :: (List.range (vLeft - 1)).map (wedgeCount G)).take (u + 1)).sum) :=
    scanSum_getD _ 0 u (by simp; omega)
  rw [key]
  simp only [List.take_succ_cons, List.sum_cons, Nat.zero_add]
  rw [← List.map_take, List.take_range, Nat.min_eq_left (by omega)]
  have e : u64 ((List.map (wedgeCount G) (List.range u)).sum) = u64 (wedgesBelow G u) := by
    unfold wedgesBelow
    apply u64_sum_congr
    intro x _
    rw [wedgeCount_eq, u64_idem]
  rw [e]
  apply u64_of_lt
  have hmono : wedgesBelow G u ≤ wedgesBelow G vLeft := by
    unfold wedgesBelow
    have : List.range vLeft = List.range u ++ List.range' u (vLeft - u) := by
      have := List.range_add u (vLeft - u)
      rw [Nat.add_sub_cancel' (Nat.le_of_lt hu)] at this
      rw [this, List.range'_eq_map_range]
    rw [this, List.map_append, List.sum_append]
    omega
  omega

theorem buildPartitions_length (G : Graph) (vLeft : Nat) (h1 : 1 ≤ vLeft)
    (h32 : vLeft < 4294967296) : (buildPartitions [] G vLeft).length = vLeft := by
  unfold buildPartitions scanBlocks
  rw [scanSum_length, rawPartitions_eq G vLeft h1 h32]
  simp; omega

theorem carryInt_of_lt {x : Nat} (h : x < 2147483648) : carryInt x = x := by
  unfold carryInt u32
  rw [Nat.mod_eq_of_lt (by omega), if_pos h]

theorem getLastD_cons_eq {α : Type} (a d : α) (l : List α) :
    (a :: l).getLastD d = l.getLastD a := by
  cases l with
  | nil => rfl
  | cons b l =>
    rw [List.getLastD_eq_getLast?, List.getLastD_eq_getLast?, List.getLast?_cons_cons,
      List.getLast?_eq_getLast _ (List.cons_ne_nil b l)]
    rfl

theorem scanSum_append (l1 l2 : List Nat) (t : Nat) :
    scanSum (l1 ++ l2) t = scanSum l1 t ++ scanSum l2 ((scanSum l1 t).getLastD t) := by
  induction l1 generalizing t with
  | nil => rfl
  | cons x xs ih =>
    rw [List.cons_append, scanSum, scanSum, ih, List.cons_append, getLastD_cons_eq]

theorem scanSum_getLastD (l : List Nat) (t : Nat) (h : t + l.sum < 18446744073709551616) :
    (scanSum l t).getLastD t = t + l.sum := by
  induction l generalizing t with
  | nil => rfl
  | cons x xs ih =>
    rw [List.sum_cons] at h
    have e : u64 (t + x) = t + x := Nat.mod_eq_of_lt (by omega)
    rw [scanSum, e]
    have := ih (t + x) (by omega)
    rw [List.sum_cons, ← Nat.add_assoc, ← this, getLastD_cons_eq]

/-- While the running sum stays below `2^31` the split into blocks does not matter. -/
theorem scanBlocks_eq (cuts l : List Nat) (t : Nat) (h : t + l.sum < 2147483648) :
    scanBlocks cuts l t = scanSum l t := by
  induction cuts generalizing l t with
  | nil => rfl
  | cons k cuts ih =>
    have hs : (l.take k).sum + (l.drop k).sum = l.sum := by
      rw [← List.sum_append, List.take_append_drop]
    have hl : (scanSum (l.take k) t).getLastD t = t + (l.take k).sum :=
      scanSum_getLastD _ _ (by omega)
    rw [scanBlocks, hl, carryInt_of_lt (by omega), ih _ _ (by omega)]
    conv_rhs => rw [← List.take_append_drop k l, scanSum_append, hl]

theorem sum_rawPartitions (G : Graph) (vLeft : Nat) (h1 : 1 ≤ vLeft)
    (h32 : vLeft < 4294967296) : (rawPartitions G vLeft).sum ≤ wedgesBelow G vLeft := by
  rw [rawPartitions_eq G vLeft h1 h32, List.sum_cons, Nat.zero_add]
  have hmono : wedgesBelow G (vLeft - 1) ≤ wedgesBelow G vLeft := by
    unfold wedgesBelow
    have : List.range vLeft = List.range (vLeft - 1) ++ [vLeft - 1] := by
      rw [← List.range_succ]; congr 1; omega
    rw [this, List.map_append, List.sum_append]
    omega
  refine Nat.le_trans ?_ hmono
  unfold wedgesBelow
  apply List.sum_le_sum
  intro u _
  rw [wedgeCount_eq]
  exact Nat.mod_le _ _

/-- With fewer than `2^31` wedges every split of the scan gives the same `partitions`. -/
theorem buildPartitions_cuts (cuts : List Nat) (G : Graph) (vLeft : Nat) (h1 : 1 ≤ vLeft)
    (h32 : vLeft < 4294967296) (hw : wedgesBelow G vLeft < 2147483648) :
    buildPartitions cuts G vLeft = buildPartitions [] G vLeft := by
  unfold buildPartitions
  rw [scanBlocks_eq cuts _ 0 (by have := sum_rawPartitions G vLeft h1 h32; omega)]
  rfl

end WJ

end Induced6

namespace Induced6
open Finset

namespace WJ

theorem wedgesBelow_succ (G : Graph) (m : Nat) :
    wedgesBelow G (m + 1) = wedgesBelow G m + (wedgeList G m).length := by
  unfold wedgesBelow
  rw [List.range_succ, List.map_append, List.sum_append]
  simp

theorem wedgesBelow_mono (G : Graph) {m n : Nat} (h : m ≤ n) :
    wedgesBelow G m ≤ wedgesBelow G n := by
  induction n with
  | zero =>
    have : m = 0 := by omega
    subst this; exact Nat.le_refl _
  | succ n ih =>
    by_cases hm : m = n + 1
    · subst hm; exact Nat.le_refl _
    · have := ih (by omega)
      rw [wedgesBelow_succ]
      omega

theorem length_foldl_insWedge (ts S : List Wedge) :
    (ts.foldl (fun S t => insWedge t S) S).length = S.length + ts.length := by
  induction ts generalizing S with
  | nil => rfl
  | cons t ts ih =>
    simp only [List.foldl_cons, List.length_cons]
    rw [ih, length_insWedge]
    omega

theorem length_sortedWedges (G : Graph) (u : Nat) :
    (sortedWedges G u).length = (wedgeList G u).length := by
  unfold sortedWedges
  rw [length_foldl_insWedge]
  simp

theorem length_flatMap_sortedWedges (G : Graph) (m : Nat) :
    ((List.range m).flatMap (sortedWedges G)).length = wedgesBelow G m := by
  induction m with
  | zero => rfl
  | succ m ih =>
    rw [List.range_succ, List.flatMap_append, List.length_append, ih, wedgesBelow_succ]
    simp [length_sortedWedges]

theorem buildWedges_fold (G : Graph) (hs : ∀ u, (nbrs G u).Sorted (fun x y => x > y))
    (partitions : List Nat) (n m : Nat) (hm : m ≤ n)
    (hp : ∀ u, u < n → partitions.getD u 0 = wedgesBelow G u) (z : Wedge) :
    (List.range m).foldl (wedgesOf G partitions) (List.replicate (wedgesBelow G n) z)
      = (List.range m).flatMap (sortedWedges G) ++
          List.replicate (wedgesBelow G n - wedgesBelow G m) z := by
  induction m with
  | zero =>
    have : wedgesBelow G 0 = 0 := rfl
    simp [this]
  | succ m ih =>
    rw [List.range_succ, List.foldl_append, ih (by omega)]
    simp only [List.foldl_cons, List.foldl_nil]
    have hmono := wedgesBelow_mono G (show m + 1 ≤ n from hm)
    have hsucc := wedgesBelow_succ G m
    rw [wedgesOf_append G hs partitions _ _ m
      (by rw [hp m (by omega), length_flatMap_sortedWedges])
      (by rw [List.length_replicate]; omega)]
    rw [List.flatMap_append]
    simp only [List.flatMap_cons, List.flatMap_nil, List.append_nil, List.drop_replicate]
    congr 2
    omega

/-- The vector `Wedges` after the construction phase: the sorted partitions in the order of
their low endpoints. -/
theorem buildWedges_eq (G : Graph) (hs : ∀ u, (nbrs G u).Sorted (fun x y => x > y))
    (vLeft : Nat) (h1 : 1 ≤ vLeft) (h32 : vLeft < 4294967296) (partitions : List Nat)
    (hp : ∀ u, u < vLeft → partitions.getD u 0 = wedgesBelow G u) :
    buildWedges G vLeft partitions = (List.range (vLeft - 1)).flatMap (sortedWedges G) := by
  unfold buildWedges
  rw [sub32_of_le h1 h32, hp (vLeft - 1) (by omega),
    buildWedges_fold G hs partitions (vLeft - 1) (vLeft - 1) (Nat.le_refl _)
      (fun u hu => hp u (by omega))]
  simp

end WJ

end Induced6

namespace Induced6
open Finset

namespace WJ

theorem insWedge_perm (t : Wedge) (S : List Wedge) : (insWedge t S).Perm (t :: S) := by
  induction S with
  | nil => exact List.Perm.refl _
  | cons x S ih =>
    unfold insWedge
    split
    · exact List.Perm.refl _
    · exact (List.Perm.cons x ih).trans (List.Perm.swap t x S)

theorem insWedge_sorted (t : Wedge) (S : List Wedge)
    (hS : S.Pairwise (fun x y => x.2.1 ≤ y.2.1)) :
    (insWedge t S).Pairwise (fun x y => x.2.1 ≤ y.2.1) := by
  induction S with
  | nil => simp [insWedge]
  | cons x S ih =>
    have hx := List.pairwise_cons.mp hS
    unfold insWedge
    split
    · rename_i hlt
      apply List.pairwise_cons.mpr
      refine ⟨?_, hS⟩
      intro y hy
      rcases List.mem_cons.mp hy with h1 | h1
      · subst h1; omega
      · have := hx.1 y h1; omega
    · rename_i hlt
      apply List.pairwise_cons.mpr
      refine ⟨?_, ih hx.2⟩
      intro y hy
      rcases List.mem_cons.mp ((insWedge_perm t S).mem_iff.mp hy) with h1 | h1
      · subst h1; omega
      · exact hx.1 y h1

theorem foldl_insWedge_perm (ts S : List Wedge) :
    (ts.foldl (fun S t => insWedge t S) S).Perm (S ++ ts) := by
  induction ts generalizing S with
  | nil => simp
  | cons t ts ih =>
    simp only [List.foldl_cons]
    refine (ih (insWedge t S)).trans ?_
    have h1 : (insWedge t S ++ ts).Perm ((t :: S) ++ ts) :=
      List.Perm.append_right ts (insWedge_perm t S)
    refine h1.trans ?_
    have h2 : (t :: S ++ ts).Perm (S ++ t :: ts) := by
      simpa using (@List.perm_middle _ t S ts).symm
    exact h2

theorem foldl_insWedge_sorted (ts S : List Wedge)
    (hS : S.Pairwise (fun x y => x.2.1 ≤ y.2.1)) :
    (ts.foldl (fun S t => insWedge t S) S).Pairwise (fun x y => x.2.1 ≤ y.2.1) := by
  induction ts generalizing S with
  | nil => simpa
  | cons t ts ih =>
    simp only [List.foldl_cons]
    exact ih _ (insWedge_sorted t S hS)

theorem sortedWedges_perm (G : Graph) (u : Nat) : (sortedWedges G u).Perm (wedgeList G u) := by
  unfold sortedWedges
  simpa using foldl_insWedge_perm (wedgeList G u) []

theorem sortedWedges_sorted (G : Graph) (u : Nat) :
    (sortedWedges G u).Pairwise (fun x y => x.2.1 ≤ y.2.1) :=
  foldl_insWedge_sorted _ [] List.Pairwise.nil

theorem mem_wedgeList (G : Graph) (u1 : Nat) (t : Wedge) :
    t ∈ wedgeList G u1 ↔
      t.1 = u1 ∧ t.2.2 ∈ nbrs G u1 ∧ t.2.1 ∈ nbrs G t.2.2 ∧ t.2.1 > u1 := by
  unfold wedgeList
  simp only [List.mem_flatMap, List.mem_map, List.mem_filter, decide_eq_true_eq]
  constructor
  · rintro ⟨v1, hv1, u2, ⟨hu2, hgt⟩, rfl⟩
    exact ⟨rfl, hv1, hu2, hgt⟩
  · rintro ⟨h1, h2, h3, h4⟩
    refine ⟨t.2.2, h2, t.2.1, ⟨h3, h4⟩, ?_⟩
    rw [← h1]

/-- The vector of wedges cut at the partition of `u`. -/
theorem flatMap_split (S : Nat → List Wedge) (n u : Nat) (hu : u < n) :
    (List.range n).flatMap S =
      (List.range u).flatMap S ++ S u ++ (List.range' (u + 1) (n - (u + 1))).flatMap S := by
  have h1 : List.range n = List.range u ++ u :: List.range' (u + 1) (n - (u + 1)) := by
    have := List.range_add u (n - u)
    rw [Nat.add_sub_cancel' (Nat.le_of_lt hu)] at this
    rw [this]
    congr 1
    have h2 : n - u = (n - (u + 1)) + 1 := by omega
    rw [h2, List.range_succ_eq_map, List.map_cons]
    simp only [Nat.add_zero, List.map_map]
    congr 1
    rw [List.range'_eq_map_range]
    apply List.map_congr_left
    intro x _
    simp [Function.comp]; omega
  rw [h1, List.flatMap_append, List.flatMap_cons, List.append_assoc]

theorem wedgeAt_append (A S B : List Wedge) (j : Nat) (hj : j < S.length) :
    wedgeAt (A ++ S ++ B) (A.length + j) = S.getD j (0, 0, 0) := by
  unfold wedgeAt
  rw [List.getD_eq_getElem?_getD, List.getD_eq_getElem?_getD, List.append_assoc,
    List.getElem?_append_right (Nat.le_add_right _ _), Nat.add_sub_cancel_left,
    List.getElem?_append_left hj]

theorem map_wedgeAt_range' (A S B : List Wedge) :
    (List.range' A.length S.length).map (wedgeAt (A ++ S ++ B)) = S := by
  apply List.ext_getElem
  · simp
  · intro i h1 h2
    simp only [List.getElem_map, List.getElem_range']
    have : A.length + 1 * i = A.length + i := by omega
    rw [this, wedgeAt_append A S B i h2, List.getD_eq_getElem?_getD, List.getElem?_eq_getElem h2]
    rfl

end WJ

end Induced6

namespace Induced6
open Finset

namespace WJ

/-- The binary search on a sorted run `[p, e)` whose first wedge lies below `u`: it comes
back, without wrapping, with a hit in the run or with the fact that there is none. -/
theorem getmLoop_spec (W : List Wedge) (u p e : Nat)
    (hsorted : ∀ i j, p ≤ i → i ≤ j → j < e → (wedgeAt W i).2.1 ≤ (wedgeAt W j).2.1)
    (hp : (wedgeAt W p).2.1 < u) (he : e < 2147483648) :
    ∀ fuel l r m0, p ≤ l → r < e →
      (∀ j, p ≤ j → j < l → (wedgeAt W j).2.1 < u) →
      (∀ j, r < j → j < e → (wedgeAt W j).2.1 > u) →
      r + 1 - l < fuel →
      ∃ found m, getmLoop W u fuel l r m0 = some (found, m) ∧
        (found = true → p < m ∧ m < e ∧ (wedgeAt W m).2.1 = u) ∧
        (found = false → ∀ j, p ≤ j → j < e → (wedgeAt W j).2.1 ≠ u) := by
  intro fuel
  induction fuel with
  | zero => intro l r m0 _ _ _ _ hf; omega
  | succ fuel ih =>
    intro l r m0 hl hr hlow hhigh hf
    rw [getmLoop]
    by_cases hlr : l ≤ r
    · rw [if_pos hlr]
      have hm1 : u32 (l + r) / 2 = (l + r) / 2 := by
        unfold u32; rw [Nat.mod_eq_of_lt (by omega)]
      simp only [hm1]
      have hml : l ≤ (l + r) / 2 := by omega
      have hmr : (l + r) / 2 ≤ r := by omega
      by_cases h1 : (wedgeAt W ((l + r) / 2)).2.1 < u
      · rw [if_pos h1]
        have hu32 : u32 ((l + r) / 2 + 1) = (l + r) / 2 + 1 := by
          unfold u32; rw [Nat.mod_eq_of_lt (by omega)]
        rw [hu32]
        apply ih _ _ _ (by omega) hr _ hhigh (by omega)
        intro j hj1 hj2
        have := hsorted j ((l + r) / 2) hj1 (by omega) (by omega)
        omega
      · rw [if_neg h1]
        by_cases h2 : (wedgeAt W ((l + r) / 2)).2.1 > u
        · rw [if_pos h2]
          have hne : (l + r) / 2 ≠ p := by
            intro heq; rw [heq] at h2; omega
          have hsub : sub32 ((l + r) / 2) 1 = (l + r) / 2 - 1 :=
            sub32_of_le (by omega) (by omega)
          rw [hsub]
          apply ih _ _ _ hl (by omega) hlow _ (by omega)
          intro j hj1 hj2
          have := hsorted ((l + r) / 2) j (by omega) (by omega) hj2
          omega
        · rw [if_neg h2]
          refine ⟨true, (l + r) / 2, rfl, ?_, ?_⟩
          · intro _
            refine ⟨?_, by omega, by omega⟩
            have hne : (l + r) / 2 ≠ p := by
              intro heq; rw [heq] at h1 h2; omega
            omega
          · intro hfalse; exact absurd hfalse (by simp)
    · rw [if_neg hlr]
      refine ⟨false, m0, rfl, ?_, ?_⟩
      · intro hfalse; exact absurd hfalse (by simp)
      · intro _ j hj1 hj2
        by_cases hjl : j < l
        · have := hlow j hj1 hjl; omega
        · have := hhigh j (by omega) hj2; omega

theorem getm_spec (W : List Wedge) (u p e m0 : Nat)
    (hsorted : ∀ i j, p ≤ i → i ≤ j → j < e → (wedgeAt W i).2.1 ≤ (wedgeAt W j).2.1)
    (hp : (wedgeAt W p).2.1 < u) (hpe : p < e) (he : e < 2147483648) :
    ∃ found m, getm W p e u m0 = some (found, m) ∧
      (found = true → p < m ∧ m < e ∧ (wedgeAt W m).2.1 = u) ∧
      (found = false → ∀ j, p ≤ j → j < e → (wedgeAt W j).2.1 ≠ u) := by
  unfold getm
  have hsub : sub32 e 1 = e - 1 := sub32_of_le (by omega) (by omega)
  rw [hsub]
  apply getmLoop_spec W u p e hsorted hp he _ _ _ _ (Nat.le_refl _) (by omega)
  · intro j hj1 hj2; omega
  · intro j hj1 hj2; omega
  · omega

/-- The test of the two scans: the wedge at index `j` reaches `u3` and its midpoint is not
adjacent to `u2`. -/
theorem scanFwd_spec (W : List Wedge) (E : Edges) (u2 u3 : Nat) (p e : Nat)
    (hsorted : ∀ i j, p ≤ i → i ≤ j → j < e → (wedgeAt W i).2.1 ≤ (wedgeAt W j).2.1) :
    ∀ n idx c, p ≤ idx → idx + n = e → (∀ j, idx ≤ j → j < e → u3 ≤ (wedgeAt W j).2.1) →
      scanFwd W E u2 u3 e n idx c = c + (List.range' idx n).countP
        (fun j => decide ((wedgeAt W j).2.1 = u3) && !econtains E u2 (wedgeAt W j).2.2) := by
  intro n
  induction n with
  | zero => intro idx c _ _ _; simp [scanFwd]
  | succ n ih =>
    intro idx c hpi hn hge
    rw [scanFwd, if_pos (by omega)]
    by_cases hk : (wedgeAt W idx).2.1 = u3
    · rw [if_neg (by simpa using hk), ih (idx + 1) _ (by omega) (by omega)
        (fun j hj1 hj2 => hge j (by omega) hj2)]
      rw [List.range'_succ, List.countP_cons]
      by_cases hc : econtains E u2 (wedgeAt W idx).2.2 = true
      · simp [hk, hc]
      · simp [hk, hc]; omega
    · rw [if_pos hk]
      have hzero : (List.range' idx (n + 1)).countP
          (fun j => decide ((wedgeAt W j).2.1 = u3) && !econtains E u2 (wedgeAt W j).2.2) = 0 := by
        rw [List.countP_eq_zero]
        intro j hj
        rw [List.mem_range'_1] at hj
        have h1 := hge idx (Nat.le_refl _) (by omega)
        have h2 := hsorted idx j hpi hj.1 (by omega)
        have : (wedgeAt W j).2.1 ≠ u3 := by omega
        simp [this]
      rw [hzero, Nat.add_zero]

theorem scanBack_spec (W : List Wedge) (E : Edges) (u2 u3 minIdx : Nat) (p e : Nat)
    (hsorted : ∀ i j, p ≤ i → i ≤ j → j < e → (wedgeAt W i).2.1 ≤ (wedgeAt W j).2.1)
    (hmin : minIdx ≤ p) (hp : (wedgeAt W p).2.1 ≠ u3) :
    ∀ k c, p + k < e → (∀ j, p ≤ j → j ≤ p + k → (wedgeAt W j).2.1 ≤ u3) →
      scanBack W E u2 u3 minIdx (p + k) c = some (c + (List.range' p (k + 1)).countP
        (fun j => decide ((wedgeAt W j).2.1 = u3) && !econtains E u2 (wedgeAt W j).2.2)) := by
  intro k
  induction k with
  | zero =>
    intro c _ _
    have hcount : (List.range' p 1).countP
        (fun j => decide ((wedgeAt W j).2.1 = u3) && !econtains E u2 (wedgeAt W j).2.2) = 0 := by
      simp [hp]
    rw [hcount, Nat.add_zero, Nat.add_zero]
    cases p with
    | zero =>
      rw [scanBack, if_pos (by omega), if_pos hp]
    | succ p =>
      rw [scanBack, if_pos (by omega), if_pos hp]
  | succ k ih =>
    intro c hk hle
    have hidx : p + (k + 1) = (p + k) + 1 := by omega
    rw [hidx, scanBack, if_pos (by omega)]
    by_cases hkey : (wedgeAt W (p + k + 1)).2.1 = u3
    · rw [if_neg (by simpa using hkey), ih _ (by omega) (fun j hj1 hj2 => hle j hj1 (by omega))]
      congr 1
      have hr : List.range' p (k + 1 + 1) = List.range' p (k + 1) ++ [p + (k + 1)] := by
        rw [List.range'_concat]
        simp
      rw [hr, List.countP_append]
      by_cases hc : econtains E u2 (wedgeAt W (p + k + 1)).2.2 = true
      · simp [hkey, hc, hidx]
      · simp [hkey, hc, hidx]; omega
    · rw [if_pos hkey]
      have hzero : (List.range' p (k + 1 + 1)).countP
          (fun j => decide ((wedgeAt W j).2.1 = u3) && !econtains E u2 (wedgeAt W j).2.2) = 0 := by
        rw [List.countP_eq_zero]
        intro j hj
        rw [List.mem_range'_1] at hj
        have h1 := hle (p + k + 1) (by omega) (by omega)
        have h2 := hsorted j (p + k + 1) hj.1 (by omega) (by omega)
        have : (wedgeAt W j).2.1 ≠ u3 := by omega
        simp [this]
      rw [hzero, Nat.add_zero]

end WJ

end Induced6

namespace Induced6
open Finset

namespace WJ

theorem sorted_index (A S B : List Wedge) (hS : S.Pairwise (fun x y => x.2.1 ≤ y.2.1)) :
    ∀ i j, A.length ≤ i → i ≤ j → j < A.length + S.length →
      (wedgeAt (A ++ S ++ B) i).2.1 ≤ (wedgeAt (A ++ S ++ B) j).2.1 := by
  intro i j hi hij hj
  obtain ⟨i2, rfl⟩ := Nat.exists_eq_add_of_le hi
  obtain ⟨j2, rfl⟩ := Nat.exists_eq_add_of_le (Nat.le_trans hi hij)
  have hi2 : i2 < S.length := by omega
  have hj2 : j2 < S.length := by omega
  rw [wedgeAt_append A S B i2 hi2, wedgeAt_append A S B j2 hj2,
    List.getD_eq_getElem?_getD, List.getD_eq_getElem?_getD,
    List.getElem?_eq_getElem hi2, List.getElem?_eq_getElem hj2]
  simp only [Option.getD_some]
  by_cases hlt : i2 < j2
  · exact List.pairwise_iff_getElem.mp hS i2 j2 hi2 hj2 hlt
  · have : i2 = j2 := by omega
    subst this; exact Nat.le_refl _

theorem countP_index (A S B : List Wedge) (P : Wedge → Bool) :
    (List.range' A.length S.length).countP (fun j => P (wedgeAt (A ++ S ++ B) j))
      = S.countP P := by
  have := List.countP_map P (wedgeAt (A ++ S ++ B)) (List.range' A.length S.length)
  rw [map_wedgeAt_range'] at this
  rw [this]
  rfl

/-- The value of `c` computed for the pair `(u1, u3)`: the number of wedges of the partition
of `u1` that reach `u3` and whose midpoint is not adjacent to `u2`. -/
theorem computeC_spec (partitions : List Nat) (E : Edges) (u1 u2 u3 : Nat)
    (A S B : List Wedge)
    (hp1 : partitions.getD u1 0 = A.length)
    (hp2 : partitions.getD (u1 + 1) 0 = A.length + S.length)
    (hmin : partitions.getD (u1 - 1) 0 ≤ A.length)
    (hS : S.Pairwise (fun x y => x.2.1 ≤ y.2.1))
    (hlow : ∃ t ∈ S, t.2.1 < u3) (he : A.length + S.length < 2147483648) :
    computeC (A ++ S ++ B) partitions E u1 u2 u3 =
      some (S.countP (fun t => decide (t.2.1 = u3) && !econtains E u2 t.2.2)) := by
  have hsorted := sorted_index A S B hS
  obtain ⟨t, ht, htlt⟩ := hlow
  have hSpos : 0 < S.length := List.length_pos_of_mem ht
  have hhead : (wedgeAt (A ++ S ++ B) A.length).2.1 < u3 := by
    obtain ⟨j, hj, hjt⟩ := List.getElem_of_mem ht
    have h1 := hsorted A.length (A.length + j) (Nat.le_refl _) (by omega) (by omega)
    rw [wedgeAt_append A S B j hj, List.getD_eq_getElem?_getD, List.getElem?_eq_getElem hj,
      Option.getD_some, hjt] at h1
    omega
  have hu1 : u32 (partitions.getD u1 0) = A.length := by
    rw [hp1]; exact Nat.mod_eq_of_lt (by omega)
  have hu2 : u32 (partitions.getD (u1 + 1) 0) = A.length + S.length := by
    rw [hp2]; exact Nat.mod_eq_of_lt (by omega)
  obtain ⟨found, m, hget, htrue, hfalse⟩ :=
    getm_spec (A ++ S ++ B) u3 A.length (A.length + S.length) 0 hsorted hhead (by omega) he
  unfold computeC
  rw [hu1, hu2, hget]
  cases found with
  | false =>
    have := hfalse rfl
    simp only
    congr 1
    symm
    rw [List.countP_eq_zero]
    intro x hx
    obtain ⟨j, hj, hjx⟩ := List.getElem_of_mem hx
    have h1 := this (A.length + j) (by omega) (by omega)
    rw [wedgeAt_append A S B j hj, List.getD_eq_getElem?_getD, List.getElem?_eq_getElem hj,
      Option.getD_some, hjx] at h1
    simp [h1]
  | true =>
    obtain ⟨hm1, hm2, hm3⟩ := htrue rfl
    simp only
    rw [hp2]
    have hfw := scanFwd_spec (A ++ S ++ B) E u2 u3 A.length (A.length + S.length) hsorted
      (A.length + S.length - m) m 0 (by omega) (by omega)
      (by
        intro j hj1 hj2
        have := hsorted m j (by omega) hj1 hj2
        omega)
    rw [hfw, Nat.zero_add]
    have hsub : sub32 m 1 = A.length + (m - 1 - A.length) := by
      rw [sub32_of_le (by omega) (by omega)]; omega
    have hminle : (if u1 > 0 then u32 (partitions.getD (u1 - 1) 0) else 0) ≤ A.length := by
      split
      · exact Nat.le_trans (Nat.mod_le _ _) hmin
      · exact Nat.zero_le _
    rw [hsub, scanBack_spec (A ++ S ++ B) E u2 u3 _ A.length (A.length + S.length) hsorted
      hminle (by omega) (m - 1 - A.length) _ (by omega)
      (by
        intro j hj1 hj2
        have := hsorted j m hj1 (by omega) hm2
        omega)]
    apply congrArg some
    rw [← countP_index A S B]
    have hsplit : List.range' A.length S.length =
        List.range' A.length (m - 1 - A.length + 1) ++ List.range' m (A.length + S.length - m) := by
      have := List.range'_append A.length (m - 1 - A.length + 1) (A.length + S.length - m) 1
      have h1 : A.length + 1 * (m - 1 - A.length + 1) = m := by omega
      have h2 : (A.length + S.length - m) + (m - 1 - A.length + 1) = S.length := by omega
      rw [h1, h2] at this
      exact this.symm
    rw [hsplit, List.countP_append, Nat.add_comm]

end WJ

end Induced6

namespace Induced6
open Finset

namespace WJ

/-- One round of the loop over `w2`: the caches `skip` and `idx` do not change what is
added to `count`. -/
theorem stepW2_spec (W : List Wedge) (partitions : List Nat) (E : Edges)
    (u1 u2 v1 vLeft : Nat) (cval : Nat → Nat) (st : Locals) (w2_idx : Nat)
    (hu3 : (wedgeAt W w2_idx).2.1 ≠ vLeft)
    (hC : computeC W partitions E u1 u2 (wedgeAt W w2_idx).2.1 =
      some (cval (wedgeAt W w2_idx).2.1))
    (hidx : st.idx ≠ vLeft → st.c = cval st.idx)
    (hskip : st.skip = true → econtains E st.u3 v1 = true)
    (hcount : st.count < 18446744073709551616) :
    ∃ st2, stepW2 W partitions E u1 u2 v1 st w2_idx = some st2 ∧
      (st2.idx ≠ vLeft → st2.c = cval st2.idx) ∧
      (st2.skip = true → econtains E st2.u3 v1 = true) ∧
      st2.count < 18446744073709551616 ∧
      st2.count = u64 (st.count +
        (if !econtains E u1 (wedgeAt W w2_idx).2.2 && !econtains E (wedgeAt W w2_idx).2.1 v1
          then cval (wedgeAt W w2_idx).2.1 else 0)) := by
  unfold stepW2
  simp only
  by_cases hcont : ((st.skip && decide (st.u3 = (wedgeAt W w2_idx).2.1)) ||
      econtains E u1 (wedgeAt W w2_idx).2.2) = true
  · rw [if_pos hcont]
    refine ⟨st, rfl, hidx, hskip, hcount, ?_⟩
    have hterm : (!econtains E u1 (wedgeAt W w2_idx).2.2 &&
        !econtains E (wedgeAt W w2_idx).2.1 v1) = false := by
      rcases Bool.or_eq_true _ _ |>.mp hcont with h1 | h1
      · rw [Bool.and_eq_true, decide_eq_true_eq] at h1
        have := hskip h1.1
        rw [h1.2] at this
        simp [this]
      · simp [h1]
    rw [hterm]
    simp only [Bool.false_eq_true, if_false, Nat.add_zero]
    exact (u64_of_lt hcount).symm
  · rw [if_neg hcont]
    have hE1 : econtains E u1 (wedgeAt W w2_idx).2.2 = false := by
      cases h : econtains E u1 (wedgeAt W w2_idx).2.2
      · rfl
      · rw [h] at hcont; simp at hcont
    by_cases hsk : econtains E (wedgeAt W w2_idx).2.1 v1 = true
    · -- the new u3 is adjacent to v1
      rw [hsk]
      simp only [Bool.not_true, Bool.false_eq_true, if_false]
      refine ⟨_, rfl, hidx, fun _ => hsk, hcount, ?_⟩
      simp only [Bool.and_false, Bool.false_eq_true, if_false, Nat.add_zero]
      exact (u64_of_lt hcount).symm
    · have hsk2 : econtains E (wedgeAt W w2_idx).2.1 v1 = false := by simpa using hsk
      rw [hsk2]
      simp only [Bool.not_false, if_true, hE1, Bool.and_self]
      by_cases hi : st.idx = (wedgeAt W w2_idx).2.1
      · rw [if_neg (by simpa using hi)]
        refine ⟨_, rfl, hidx, fun h => absurd h (by simp), u64_lt _, ?_⟩
        have := hidx (by rw [hi]; exact hu3)
        simp only
        rw [this, hi]
      · rw [if_pos hi, hC]
        refine ⟨_, rfl, fun _ => rfl, fun h => absurd h (by simp), u64_lt _, rfl⟩

theorem loopW2_spec (W : List Wedge) (partitions : List Nat) (E : Edges)
    (u1 u2 v1 vLeft : Nat) (cval : Nat → Nat) (idxs : List Nat)
    (hu3 : ∀ i ∈ idxs, (wedgeAt W i).2.1 ≠ vLeft)
    (hC : ∀ i ∈ idxs, computeC W partitions E u1 u2 (wedgeAt W i).2.1 =
      some (cval (wedgeAt W i).2.1))
    (st : Locals)
    (hidx : st.idx ≠ vLeft → st.c = cval st.idx)
    (hskip : st.skip = true → econtains E st.u3 v1 = true)
    (hcount : st.count < 18446744073709551616) :
    ∃ st2, loopW2 W partitions E u1 u2 v1 idxs st = some st2 ∧
      st2.count = u64 (st.count + (idxs.map (fun i =>
        if !econtains E u1 (wedgeAt W i).2.2 && !econtains E (wedgeAt W i).2.1 v1
          then cval (wedgeAt W i).2.1 else 0)).sum) := by
  induction idxs generalizing st with
  | nil => exact ⟨st, rfl, by simpa using (u64_of_lt hcount).symm⟩
  | cons i rest ih =>
    obtain ⟨st1, h1, h2, h3, h4, h5⟩ := stepW2_spec W partitions E u1 u2 v1 vLeft cval st i
      (hu3 i (List.mem_cons_self i rest)) (hC i (List.mem_cons_self i rest)) hidx hskip hcount
    obtain ⟨st2, h6, h7⟩ := ih (fun j hj => hu3 j (List.mem_cons_of_mem i hj))
      (fun j hj => hC j (List.mem_cons_of_mem i hj)) st1 h2 h3 h4
    refine ⟨st2, ?_, ?_⟩
    · rw [loopW2, h1]; exact h6
    · rw [h7, h5, List.map_cons, List.sum_cons, u64_u64_add, Nat.add_assoc]

end WJ

end Induced6

namespace Induced6
open Finset

theorem mapM_option_some {α β : Type} (f : α → Option β) (g : α → β) (l : List α)
    (h : ∀ x ∈ l, f x = some (g x)) : l.mapM f = some (l.map g) := by
  induction l with
  | nil => rfl
  | cons x xs ih =>
    rw [List.mapM_cons, h x (List.mem_cons_self x xs),
      ih (fun y hy => h y (List.mem_cons_of_mem x hy))]
    rfl

namespace WJ

/-- The state of strategy D after its construction phase, on a preprocessed graph with
fewer than `2^31` wedges. -/
theorem build_ok {G : Graph} {vLeft : Nat} (h : Preprocessed G vLeft) (h1 : 1 ≤ vLeft)
    (hw : wedgesBelow G vLeft < 2147483648) :
    (∀ u, u < vLeft → (buildPartitions [] G vLeft).getD u 0 = wedgesBelow G u) ∧
      buildWedges G vLeft (buildPartitions [] G vLeft)
        = (List.range (vLeft - 1)).flatMap (sortedWedges G) := by
  have hv32 : vLeft < 4294967296 := Nat.lt_of_le_of_lt h.vLeft_le h.size_lt
  have hp : ∀ u, u < vLeft → (buildPartitions [] G vLeft).getD u 0 = wedgesBelow G u :=
    fun u hu => buildPartitions_getD G vLeft u hv32 hu (by omega)
  exact ⟨hp, buildWedges_eq G h.sorted_all vLeft h1 hv32 _ hp⟩

/-- The vector of wedges cut around the partition of `u`. -/
theorem slice_at (G : Graph) (vLeft u : Nat) (hu : u + 1 < vLeft) :
    ∃ A B, (List.range (vLeft - 1)).flatMap (sortedWedges G) = A ++ sortedWedges G u ++ B ∧
      A.length = wedgesBelow G u := by
  refine ⟨_, _, flatMap_split (sortedWedges G) (vLeft - 1) u (by omega), ?_⟩
  exact length_flatMap_sortedWedges G u

theorem mem_sortedWedges {G : Graph} {vLeft : Nat} (h : Preprocessed G vLeft) (u1 : Nat)
    (hu1 : u1 < vLeft) (t : Wedge) (ht : t ∈ sortedWedges G u1) :
    t.1 = u1 ∧ t.2.2 ∈ nbrs G u1 ∧ t.2.1 ∈ nbrs G t.2.2 ∧ u1 < t.2.1 ∧ t.2.1 < vLeft := by
  have := (mem_wedgeList G u1 t).mp ((sortedWedges_perm G u1).mem_iff.mp ht)
  have hv := h.left_nbrs u1 hu1 t.2.2 this.2.1
  exact ⟨this.1, this.2.1, this.2.2.1, this.2.2.2, h.right_nbrs t.2.2 hv.2 hv.1 t.2.1 this.2.2.1⟩

theorem sortedWedges_last {G : Graph} {vLeft : Nat} (h : Preprocessed G vLeft) (u : Nat)
    (hu : u + 1 = vLeft) : sortedWedges G u = [] := by
  apply List.eq_nil_iff_forall_not_mem.mpr
  intro t ht
  have := mem_sortedWedges h u (by omega) t ht
  omega

theorem computeC_ok {G : Graph} {vLeft : Nat} (E : Edges) (h : Preprocessed G vLeft)
    (h3 : 2 ≤ vLeft) (hw : wedgesBelow G vLeft < 2147483648) (u1 u2 u3 : Nat)
    (hu1 : u1 + 1 < vLeft) (hlow : ∃ t ∈ sortedWedges G u1, t.2.1 < u3) :
    computeC ((List.range (vLeft - 1)).flatMap (sortedWedges G)) (buildPartitions [] G vLeft)
        E u1 u2 u3
      = some ((sortedWedges G u1).countP
          (fun t => decide (t.2.1 = u3) && !econtains E u2 t.2.2)) := by
  have hp := (build_ok h (by omega) hw).1
  obtain ⟨A1, B1, hW1, hA1⟩ := slice_at G vLeft u1 hu1
  rw [hW1]
  apply computeC_spec (buildPartitions [] G vLeft) E u1 u2 u3 A1 (sortedWedges G u1) B1
  · rw [hp _ (by omega), hA1]
  · rw [hp _ (by omega), wedgesBelow_succ, hA1, length_sortedWedges]
  · rw [hp _ (by omega), hA1]
    exact wedgesBelow_mono G (by omega)
  · exact sortedWedges_sorted G u1
  · exact hlow
  · rw [hA1, length_sortedWedges, ← wedgesBelow_succ]
    have := wedgesBelow_mono G (show u1 + 1 ≤ vLeft by omega)
    omega

/-- The count that the counting loop leaves for the wedge at index `i`. -/
theorem countAt_spec {G : Graph} {vLeft : Nat} {E : Edges} (h : Preprocessed G vLeft)
    (h3 : 2 ≤ vLeft) (hw : wedgesBelow G vLeft < 2147483648) (i : Nat)
    (hi : i < ((List.range (vLeft - 1)).flatMap (sortedWedges G)).length) :
    countAt ((List.range (vLeft - 1)).flatMap (sortedWedges G)) (buildPartitions [] G vLeft)
        vLeft E i
      = some (u64 (wedgeTotal G E
          (wedgeAt ((List.range (vLeft - 1)).flatMap (sortedWedges G)) i))) := by
  have hv32 : vLeft < 4294967296 := Nat.lt_of_le_of_lt h.vLeft_le h.size_lt
  have hp := (build_ok h (by omega) hw).1
  -- the wedge w1 and its partition
  have hmemW : wedgeAt ((List.range (vLeft - 1)).flatMap (sortedWedges G)) i ∈
      (List.range (vLeft - 1)).flatMap (sortedWedges G) := by
    unfold wedgeAt
    rw [List.getD_eq_getElem?_getD, List.getElem?_eq_getElem hi]
    exact List.getElem_mem hi
  obtain ⟨u1, hu1r, hw1⟩ := List.mem_flatMap.mp hmemW
  rw [List.mem_range] at hu1r
  obtain ⟨e1, e2, e3, e4, e5⟩ := mem_sortedWedges h u1 (by omega) _ hw1
  unfold countAt
  simp only
  generalize wedgeAt ((List.range (vLeft - 1)).flatMap (sortedWedges G)) i = w1 at *
  by_cases hlast : w1.2.1 = sub32 vLeft 1
  · rw [if_pos hlast]
    have hs : sub32 vLeft 1 = vLeft - 1 := sub32_of_le (by omega) hv32
    unfold wedgeTotal
    rw [sortedWedges_last h w1.2.1 (by omega)]
    rfl
  · rw [if_neg hlast]
    have hs : sub32 vLeft 1 = vLeft - 1 := sub32_of_le (by omega) hv32
    have hu2 : w1.2.1 + 1 < vLeft := by omega
    obtain ⟨A2, B2, hW2, hA2⟩ := slice_at G vLeft w1.2.1 hu2
    have hlo : (buildPartitions [] G vLeft).getD w1.2.1 0 = A2.length := by
      rw [hp _ (by omega), hA2]
    have hhi : (buildPartitions [] G vLeft).getD (w1.2.1 + 1) 0 =
        A2.length + (sortedWedges G w1.2.1).length := by
      rw [hp _ hu2, wedgesBelow_succ, hA2, length_sortedWedges]
    rw [hlo, hhi, Nat.add_sub_cancel_left]
    have hne : ∀ j ∈ List.range' A2.length (sortedWedges G w1.2.1).length,
        (wedgeAt ((List.range (vLeft - 1)).flatMap (sortedWedges G)) j).2.1 ≠ vLeft := by
      intro j hj
      rw [List.mem_range'_1] at hj
      obtain ⟨j2, rfl⟩ := Nat.exists_eq_add_of_le hj.1
      have hj2 : j2 < (sortedWedges G w1.2.1).length := by omega
      rw [hW2, wedgeAt_append A2 _ B2 j2 hj2, List.getD_eq_getElem?_getD,
        List.getElem?_eq_getElem hj2, Option.getD_some]
      have := mem_sortedWedges h w1.2.1 (by omega) _ (List.getElem_mem hj2)
      omega
    have hCall : ∀ j ∈ List.range' A2.length (sortedWedges G w1.2.1).length,
        computeC ((List.range (vLeft - 1)).flatMap (sortedWedges G)) (buildPartitions [] G vLeft)
          E w1.1 w1.2.1 (wedgeAt ((List.range (vLeft - 1)).flatMap (sortedWedges G)) j).2.1
        = some ((sortedWedges G w1.1).countP (fun t =>
            decide (t.2.1 = (wedgeAt ((List.range (vLeft - 1)).flatMap (sortedWedges G)) j).2.1)
              && !econtains E w1.2.1 t.2.2)) := by
      intro j hj
      rw [e1]
      apply computeC_ok E h h3 hw u1 w1.2.1 _ (by omega)
      refine ⟨w1, hw1, ?_⟩
      rw [List.mem_range'_1] at hj
      obtain ⟨j2, rfl⟩ := Nat.exists_eq_add_of_le hj.1
      have hj2 : j2 < (sortedWedges G w1.2.1).length := by omega
      rw [hW2, wedgeAt_append A2 _ B2 j2 hj2, List.getD_eq_getElem?_getD,
        List.getElem?_eq_getElem hj2, Option.getD_some]
      have := mem_sortedWedges h w1.2.1 (by omega) _ (List.getElem_mem hj2)
      omega
    have hloop := loopW2_spec ((List.range (vLeft - 1)).flatMap (sortedWedges G))
      (buildPartitions [] G vLeft) E w1.1 w1.2.1 w1.2.2 vLeft
      (fun u3 => (sortedWedges G w1.1).countP
        (fun t => decide (t.2.1 = u3) && !econtains E w1.2.1 t.2.2))
      (List.range' A2.length (sortedWedges G w1.2.1).length) hne hCall
      ⟨0, 0, vLeft, vLeft, false⟩ (fun hne => absurd rfl hne) (fun hh => absurd hh (by simp))
      (by norm_num)
    obtain ⟨st2, hst2, hcnt⟩ := hloop
    rw [hst2, Option.map_some', hcnt, Nat.zero_add]
    apply congrArg some
    apply congrArg u64
    unfold wedgeTotal pairCount
    have hmap := map_wedgeAt_range' A2 (sortedWedges G w1.2.1) B2
    rw [← hW2] at hmap
    conv_rhs => rw [← hmap]
    rw [List.map_map]
    rfl

end WJ

end Induced6

namespace Induced6
open Finset

theorem sum_map_flatMap {α β : Type} (l : List α) (f : α → List β) (g : β → Nat) :
    ((l.flatMap f).map g).sum = (l.map (fun x => ((f x).map g).sum)).sum := by
  induction l with
  | nil => rfl
  | cons x xs ih => simp [List.flatMap_cons, ih]

/-- The loop over `a < vLeft - 1` misses no triple. -/
theorem sum_range_sub_one (vLeft : Nat) (f : Nat → Nat → Nat → Nat) :
    (∑ a in range (vLeft - 1), ∑ b in range vLeft, ∑ c in range vLeft,
      if a < b ∧ b < c then f a b c else 0)
    = ∑ a in range vLeft, ∑ b in range vLeft, ∑ c in range vLeft,
      if a < b ∧ b < c then f a b c else 0 := by
  apply Finset.sum_subset
  · intro a; simp only [Finset.mem_range]; omega
  · intro a _ ha
    apply Finset.sum_eq_zero; intro b hb
    apply Finset.sum_eq_zero; intro c hc
    rw [Finset.mem_range] at ha hb hc
    rw [if_neg]; omega

namespace WJ

/-- A sum over the wedges of `u` as a sum over the high endpoints and the midpoints. -/
theorem sum_wedgeList {G : Graph} {vLeft : Nat} (h : Preprocessed G vLeft) (u : Nat)
    (hu : u < vLeft) (F : Wedge → Nat) :
    ((wedgeList G u).map F).sum =
      ∑ u2 in range vLeft, ∑ v in (nbrs G u).toFinset,
        if u < u2 ∧ adj G u2 v = true then F (u, u2, v) else 0 := by
  unfold wedgeList
  rw [sum_map_flatMap, sum_map_eq_finset_sum _ (h.nodup u), Finset.sum_comm]
  apply Finset.sum_congr rfl
  intro v hv
  rw [List.mem_toFinset] at hv
  have hv2 := h.left_nbrs u hu v hv
  rw [List.map_map, sum_filter_map _ (h.nodup v), toFinset_nbrs_right h v hv2.2 hv2.1,
    Finset.sum_filter]
  apply Finset.sum_congr rfl
  intro u2 _
  by_cases h1 : adj G u2 v = true
  · by_cases h2 : u < u2
    · simp [h1, h2]
    · simp [h1, h2]
  · simp [h1]

theorem countP_eq_sum_map {α : Type} (P : α → Bool) (l : List α) :
    l.countP P = (l.map (fun t => if P t = true then 1 else 0)).sum := by
  induction l with
  | nil => rfl
  | cons x xs ih =>
    rw [List.countP_cons, ih, List.map_cons, List.sum_cons, Nat.add_comm]

/-- The wedges of `u1` that reach `u3` and whose midpoint is not adjacent to `u2`. -/
theorem countP_sortedWedges {G : Graph} {vLeft : Nat} {E : Edges} (h : Preprocessed G vLeft)
    (hE : EdgeIndex G vLeft E) (u1 u2 u3 : Nat) (hu1 : u1 < vLeft) (hu2 : u2 < vLeft)
    (hu3 : u3 < vLeft) (h13 : u1 < u3) :
    (sortedWedges G u1).countP (fun t => decide (t.2.1 = u3) && !econtains E u2 t.2.2)
      = exclL G u1 u3 u2 := by
  rw [(sortedWedges_perm G u1).countP_eq, countP_eq_sum_map, sum_wedgeList h u1 hu1,
    NJ.exclL_eq_sum G u1 u3 u2 (h.nodup u1),
    Finset.sum_eq_single u3]
  · apply Finset.sum_congr rfl
    intro v _
    rw [hE.econtains_eq hu2]
    by_cases h1 : adj G u3 v = true <;> by_cases h2 : adj G u2 v = true <;> simp [h1, h2, h13]
  · intro u4 _ hne
    apply Finset.sum_eq_zero
    intro v _
    simp [hne]
  · intro hnot
    exact absurd (Finset.mem_range.mpr hu3) hnot

/-- The count of a wedge `(u1, u2, v1)` as a sum over the third left vertex. -/
theorem wedgeTotal_eq {G : Graph} {vLeft : Nat} {E : Edges} (h : Preprocessed G vLeft)
    (hE : EdgeIndex G vLeft E) (u1 u2 v1 : Nat) (hu1 : u1 < vLeft) (hu2 : u2 < vLeft)
    (h12 : u1 < u2) :
    wedgeTotal G E (u1, u2, v1) =
      ∑ u3 in range vLeft, ∑ v2 in (nbrs G u2).toFinset,
        if u2 < u3 then
          (if (adj G u3 v2 && !adj G u1 v2) = true then 1 else 0) *
            (if adj G u3 v1 = true then 0 else 1) * exclL G u1 u3 u2
        else 0 := by
  unfold wedgeTotal
  simp only
  rw [(sortedWedges_perm G u2).map _ |>.sum_eq, sum_wedgeList h u2 hu2]
  apply Finset.sum_congr rfl
  intro u3 hu3
  rw [Finset.mem_range] at hu3
  apply Finset.sum_congr rfl
  intro v2 _
  by_cases h23 : u2 < u3
  · unfold pairCount
    simp only
    rw [hE.econtains_eq hu1, hE.econtains_eq hu3,
      countP_sortedWedges h hE u1 u2 u3 hu1 hu2 hu3 (by omega)]
    by_cases h1 : adj G u3 v2 = true <;> by_cases h2 : adj G u1 v2 = true <;>
      by_cases h3 : adj G u3 v1 = true <;> simp [h1, h2, h3, h23]
  · simp [h23]


/-- The counts of the wedges with low endpoint `u1` add up to the products of the triples
that start at `u1`. -/
theorem sum_wedgeTotal {G : Graph} {vLeft : Nat} {E : Edges} (h : Preprocessed G vLeft)
    (hE : EdgeIndex G vLeft E) (u1 : Nat) (hu1 : u1 < vLeft) :
    ((wedgeList G u1).map (wedgeTotal G E)).sum =
      ∑ u2 in range vLeft, ∑ u3 in range vLeft,
        if u1 < u2 ∧ u2 < u3 then prodL G u1 u2 u3 else 0 := by
  rw [sum_wedgeList h u1 hu1]
  apply Finset.sum_congr rfl
  intro u2 hu2
  rw [Finset.mem_range] at hu2
  by_cases h12 : u1 < u2
  · have e1 : (∑ v1 in (nbrs G u1).toFinset,
          if u1 < u2 ∧ adj G u2 v1 = true then wedgeTotal G E (u1, u2, v1) else 0)
        = ∑ v1 in (nbrs G u1).toFinset, ∑ u3 in range vLeft, ∑ v2 in (nbrs G u2).toFinset,
            if u2 < u3 then
              (if (adj G u2 v1 && !adj G u3 v1) = true then 1 else 0) *
                (if (adj G u3 v2 && !adj G u1 v2) = true then 1 else 0) * exclL G u1 u3 u2
            else 0 := by
      apply Finset.sum_congr rfl
      intro v1 _
      by_cases ha : adj G u2 v1 = true
      · rw [if_pos ⟨h12, ha⟩, wedgeTotal_eq h hE u1 u2 v1 hu1 hu2 h12]
        apply Finset.sum_congr rfl; intro u3 _
        apply Finset.sum_congr rfl; intro v2 _
        by_cases h23 : u2 < u3
        · rw [if_pos h23, if_pos h23]
          by_cases h3 : adj G u3 v1 = true <;> simp [ha, h3]
        · rw [if_neg h23, if_neg h23]
      · rw [if_neg (fun hh => ha hh.2)]
        symm
        apply Finset.sum_eq_zero; intro u3 _
        apply Finset.sum_eq_zero; intro v2 _
        simp [ha]
    rw [e1, Finset.sum_comm]
    apply Finset.sum_congr rfl
    intro u3 _
    by_cases h23 : u2 < u3
    · rw [if_pos ⟨h12, h23⟩]
      unfold prodL
      rw [NJ.exclL_eq_sum G u1 u2 u3 (h.nodup u1), NJ.exclL_eq_sum G u2 u3 u1 (h.nodup u2),
        Finset.sum_mul_sum, Finset.sum_mul]
      apply Finset.sum_congr rfl; intro v1 _
      rw [Finset.sum_mul]
      apply Finset.sum_congr rfl; intro v2 _
      rw [if_pos h23]
    · rw [if_neg (fun hh => h23 hh.2)]
      apply Finset.sum_eq_zero; intro v1 _
      apply Finset.sum_eq_zero; intro v2 _
      rw [if_neg h23]
  · have e1 : (∑ v1 in (nbrs G u1).toFinset,
          if u1 < u2 ∧ adj G u2 v1 = true then wedgeTotal G E (u1, u2, v1) else 0) = 0 := by
      apply Finset.sum_eq_zero; intro v1 _
      rw [if_neg (fun hh => h12 hh.1)]
    rw [e1]
    symm
    apply Finset.sum_eq_zero; intro u3 _
    rw [if_neg (fun hh => h12 hh.1)]

/-- While the sum of the wedge counts stays below `2^31` the result does not depend on the
split of the scan. -/
theorem getCount_cuts (cuts : List Nat) (G : Graph) (nEdge vLeft : Nat) (E : Edges)
    (h : (rawPartitions G vLeft).sum < 2147483648) :
    getCount cuts G nEdge vLeft E = getCount [] G nEdge vLeft E := by
  unfold getCount buildPartitions
  rw [scanBlocks_eq cuts _ 0 (by omega)]
  rfl

/-- Strategy D returns the product-form count modulo `2^64`. -/
theorem wj_getCount_mod {G : Graph} {vLeft : Nat} {E : Edges} (h : Preprocessed G vLeft)
    (hE : EdgeIndex G vLeft E) (h3 : 2 ≤ vLeft) (hw : wedgesBelow G vLeft < 2147483648)
    (nEdge : Nat) (cuts : List Nat) :
    getCount cuts G nEdge vLeft E = some (u64 (tripleSum G vLeft)) := by
  have hv32 : vLeft < 4294967296 := Nat.lt_of_le_of_lt h.vLeft_le h.size_lt
  have hs : sub32 vLeft 1 = vLeft - 1 := sub32_of_le (by omega) hv32
  obtain ⟨hp, hW⟩ := build_ok h (by omega) hw
  unfold getCount
  simp only
  rw [buildPartitions_cuts cuts G vLeft (by omega) hv32 hw]
  rw [hW, hs, hp (vLeft - 1) (by omega), ← length_flatMap_sortedWedges G (vLeft - 1)]
  rw [mapM_option_some _ (fun i => u64 (wedgeTotal G E
      (wedgeAt ((List.range (vLeft - 1)).flatMap (sortedWedges G)) i))) _
    (fun i hi => countAt_spec h h3 hw i (List.mem_range.mp hi))]
  rw [Option.map_some']
  apply congrArg some
  rw [reduceCounts_eq]
  have hmap : (List.range ((List.range (vLeft - 1)).flatMap (sortedWedges G)).length).map
      (fun i => u64 (wedgeTotal G E
        (wedgeAt ((List.range (vLeft - 1)).flatMap (sortedWedges G)) i)))
      = ((List.range (vLeft - 1)).flatMap (sortedWedges G)).map
          (fun t => u64 (wedgeTotal G E t)) := by
    have := map_wedgeAt_range' [] ((List.range (vLeft - 1)).flatMap (sortedWedges G)) []
    simp only [List.nil_append, List.append_nil, List.length_nil, List.range'_eq_map_range,
      Nat.zero_add] at this
    conv_rhs => rw [← this]
    simp [List.map_map, Function.comp_def]
  rw [hmap, u64_sum_map_u64, sum_map_flatMap, tripleSum_eq_prodL h,
    ← sum_range_sub_one vLeft (prodL G), sum_map_range]
  apply congrArg u64
  apply Finset.sum_congr rfl
  intro u1 hu1
  rw [Finset.mem_range] at hu1
  rw [(sortedWedges_perm G u1).map _ |>.sum_eq, sum_wedgeTotal h hE u1 (by omega)]

end WJ

end Induced6

namespace Induced6
open Finset

theorem bigGraph_length (m : Nat) : (bigGraph m).length = 3 + 3 * m := by
  simp [bigGraph]

theorem nbrs_bigGraph (m u : Nat) (hu : u < 3 + 3 * m) : nbrs (bigGraph m) u = bigNbrs m u :=
  getD_map_range _ _ _ hu _

theorem mem_bigNbrs (m u x : Nat) :
    x ∈ bigNbrs m u ↔
      (u = 0 ∧ 3 ≤ x ∧ x < 3 + 3 * m ∧ (x < 3 + m ∨ 3 + 2 * m ≤ x)) ∨
      (u = 1 ∧ 3 ≤ x ∧ x < 3 + 2 * m) ∨
      (u = 2 ∧ 3 + m ≤ x ∧ x < 3 + 3 * m) ∨
      (3 ≤ u ∧ u < 3 + m ∧ (x = 0 ∨ x = 1)) ∨
      (3 + m ≤ u ∧ u < 3 + 2 * m ∧ (x = 1 ∨ x = 2)) ∨
      (3 + 2 * m ≤ u ∧ (x = 0 ∨ x = 2)) := by
  unfold bigNbrs
  split_ifs with h0 h1 h2 h3 h4
  · simp only [List.mem_reverse, List.mem_filter, List.mem_range', decide_eq_true_eq]
    constructor
    · rintro ⟨⟨i, hi, rfl⟩, h⟩; left; omega
    · intro h
      refine ⟨⟨x - 3, ?_, ?_⟩, ?_⟩ <;> omega
  · simp only [List.mem_reverse, List.mem_filter, List.mem_range', decide_eq_true_eq]
    constructor
    · rintro ⟨⟨i, hi, rfl⟩, h⟩; right; left; omega
    · intro h
      refine ⟨⟨x - 3, ?_, ?_⟩, ?_⟩ <;> omega
  · simp only [List.mem_reverse, List.mem_filter, List.mem_range', decide_eq_true_eq]
    constructor
    · rintro ⟨⟨i, hi, rfl⟩, h⟩; right; right; left; omega
    · intro h
      refine ⟨⟨x - 3, ?_, ?_⟩, ?_⟩ <;> omega
  · simp only [List.mem_cons, List.mem_singleton, List.not_mem_nil, or_false]; omega
  · simp only [List.mem_cons, List.mem_singleton, List.not_mem_nil, or_false]; omega
  · simp only [List.mem_cons, List.mem_singleton, List.not_mem_nil, or_false]; omega

theorem sorted_range_filter_reverse (s n : Nat) (p : Nat → Bool) :
    (((List.range' s n).filter p).reverse).Sorted (fun x y => x > y) := by
  unfold List.Sorted
  rw [List.pairwise_reverse]
  apply List.Pairwise.filter
  have := List.pairwise_lt_range' s n
  exact this.imp (fun h => h)

theorem bigNbrs_sorted (m u : Nat) : (bigNbrs m u).Sorted (fun x y => x > y) := by
  unfold bigNbrs
  split_ifs
  · exact sorted_range_filter_reverse _ _ _
  · exact sorted_range_filter_reverse _ _ _
  · exact sorted_range_filter_reverse _ _ _
  · simp [List.Sorted]
  · simp [List.Sorted]
  · simp [List.Sorted]

theorem bigGraph_preprocessed (m : Nat) (hm : 3 + 3 * m < 4294967296) :
    Preprocessed (bigGraph m) 3 where
  vLeft_le := by rw [bigGraph_length]; omega
  size_lt := by rw [bigGraph_length]; exact hm
  left_nbrs := by
    intro a ha x hx
    rw [nbrs_bigGraph m a (by omega), mem_bigNbrs] at hx
    rw [bigGraph_length]; omega
  right_nbrs := by
    intro x hx h3 a ha
    rw [bigGraph_length] at hx
    rw [nbrs_bigGraph m x hx, mem_bigNbrs] at ha
    omega
  symm := by
    intro u hu v hv
    rw [bigGraph_length] at hu
    rw [nbrs_bigGraph m u hu, mem_bigNbrs] at hv
    rw [nbrs_bigGraph m v (by omega), mem_bigNbrs]
    omega
  desc := by
    intro u hu
    rw [bigGraph_length] at hu
    rw [nbrs_bigGraph m u hu]
    exact bigNbrs_sorted m u

theorem bigE_edgeIndex (m : Nat) : EdgeIndex (bigGraph m) 3 (bigE m) := by
  intro a ha
  have h1 : (bigE m).getD a [] = bigNbrs m a := getD_map_range _ _ _ ha _
  rw [h1, nbrs_bigGraph m a (by omega)]
  exact ⟨fun x hx => hx, fun x hx => hx⟩

theorem bigGraph_exclF (m p q r : Nat) (lo : Nat)
    (hlo : lo = 3 ∨ lo = 3 + m ∨ lo = 3 + 2 * m)
    (hp : ∀ x, lo ≤ x → x < lo + m → x ∈ bigNbrs m p)
    (hq : ∀ x, lo ≤ x → x < lo + m → x ∈ bigNbrs m q)
    (hr : ∀ x, lo ≤ x → x < lo + m → x ∉ bigNbrs m r)
    (p3 : p < 3) (q3 : q < 3) (r3 : r < 3) :
    m ≤ exclF (bigGraph m) 3 p q r := by
  unfold exclF
  rw [bigGraph_length]
  have hsub : Ico lo (lo + m) ⊆ (Ico 3 (3 + 3 * m)).filter
      (fun x => adj (bigGraph m) p x = true ∧ adj (bigGraph m) q x = true ∧
        adj (bigGraph m) r x = false) := by
    intro x hx
    rw [Finset.mem_Ico] at hx
    rw [Finset.mem_filter, Finset.mem_Ico, adj_iff, adj_iff, ← Bool.not_eq_true, adj_iff,
      nbrs_bigGraph m p (by omega), nbrs_bigGraph m q (by omega), nbrs_bigGraph m r (by omega)]
    exact ⟨by omega, hp x hx.1 hx.2, hq x hx.1 hx.2, hr x hx.1 hx.2⟩
  have := Finset.card_le_card hsub
  rw [Nat.card_Ico] at this
  omega

theorem bigGraph_tripleSum (m : Nat) : m * m * m ≤ tripleSum (bigGraph m) 3 := by
  have e1 : m ≤ exclF (bigGraph m) 3 0 1 2 :=
    bigGraph_exclF m 0 1 2 3 (Or.inl rfl)
      (fun x h1 h2 => (mem_bigNbrs m 0 x).2 (by omega))
      (fun x h1 h2 => (mem_bigNbrs m 1 x).2 (by omega))
      (fun x h1 h2 h => by have := (mem_bigNbrs m 2 x).1 h; omega)
      (by omega) (by omega) (by omega)
  have e2 : m ≤ exclF (bigGraph m) 3 1 2 0 :=
    bigGraph_exclF m 1 2 0 (3 + m) (Or.inr (Or.inl rfl))
      (fun x h1 h2 => (mem_bigNbrs m 1 x).2 (by omega))
      (fun x h1 h2 => (mem_bigNbrs m 2 x).2 (by omega))
      (fun x h1 h2 h => by have := (mem_bigNbrs m 0 x).1 h; omega)
      (by omega) (by omega) (by omega)
  have e3 : m ≤ exclF (bigGraph m) 3 0 2 1 :=
    bigGraph_exclF m 0 2 1 (3 + 2 * m) (Or.inr (Or.inr rfl))
      (fun x h1 h2 => (mem_bigNbrs m 0 x).2 (by omega))
      (fun x h1 h2 => (mem_bigNbrs m 2 x).2 (by omega))
      (fun x h1 h2 h => by have := (mem_bigNbrs m 1 x).1 h; omega)
      (by omega) (by omega) (by omega)
  have hp : m * m * m ≤ exclF (bigGraph m) 3 0 1 2 * exclF (bigGraph m) 3 1 2 0 *
      exclF (bigGraph m) 3 0 2 1 := Nat.mul_le_mul (Nat.mul_le_mul e1 e2) e3
  refine le_trans hp ?_
  unfold tripleSum
  simp [Finset.sum_range_succ]

theorem length_flatMap_le {α β : Type} (l : List α) (f : α → List β) (k : Nat)
    (h : ∀ x ∈ l, (f x).length ≤ k) : (l.flatMap f).length ≤ l.length * k := by
  induction l with
  | nil => simp
  | cons x xs ih =>
    rw [List.flatMap_cons, List.length_append, List.length_cons, Nat.succ_mul]
    have h1 := h x (List.mem_cons_self _ _)
    have h2 := ih (fun y hy => h y (List.mem_cons_of_mem _ hy))
    omega

theorem bigGraph_wedgesBelow (m : Nat) : WJ.wedgesBelow (bigGraph m) 3 ≤ 18 * m := by
  have hw : ∀ u, u < 3 → (WJ.wedgeList (bigGraph m) u).length ≤ 6 * m := by
    intro u hu
    unfold WJ.wedgeList
    have hl : (nbrs (bigGraph m) u).length ≤ 3 * m := by
      rw [nbrs_bigGraph m u (by omega)]
      unfold bigNbrs
      split_ifs
      · rw [List.length_reverse]
        exact le_trans (List.length_filter_le _ _) (by simp)
      · rw [List.length_reverse]
        exact le_trans (List.length_filter_le _ _) (by simp)
      · rw [List.length_reverse]
        exact le_trans (List.length_filter_le _ _) (by simp)
      · omega
      · omega
      · omega
    refine le_trans (length_flatMap_le _ _ 2 ?_) (by omega)
    intro v hv
    rw [nbrs_bigGraph m u (by omega), mem_bigNbrs] at hv
    rw [List.length_map]
    refine le_trans (List.length_filter_le _ _) ?_
    rw [nbrs_bigGraph m v (by omega)]
    unfold bigNbrs
    split_ifs
    · omega
    · omega
    · omega
    · simp
    · simp
    · simp
  unfold WJ.wedgesBelow
  have h0 := hw 0 (by omega)
  have h1 := hw 1 (by omega)
  have h2 := hw 2 (by omega)
  simp only [List.range_succ, List.range_zero, List.nil_append, List.map_append, List.map_cons,
    List.map_nil, List.sum_append, List.sum_cons, List.sum_nil, List.cons_append]
  omega

theorem hexagonPre_preprocessed : Preprocessed hexagonPre 3 :=
  ⟨by decide, by decide, by decide, by decide, by decide, by decide⟩

theorem hexagonE_edgeIndex : EdgeIndex hexagonPre 3 hexagonE := by
  unfold EdgeIndex; decide

/-- The graph `bigGraph 2642246` has at least `2^64` induced 6-cycles. -/
theorem bigGraph_count :
    18446744073709551616 ≤ countInduced6 (bigGraph 2642246) 3 := by
  rw [countInduced6_eq_tripleSum]
  exact le_trans (by norm_num) (bigGraph_tripleSum 2642246)

end Induced6

namespace Induced6
open Finset

theorem removeVertex_getD (vLeft : Nat) (st : CoreState) (y z : Nat)
    (hy : y < st.newID.length) :
    (removeVertex vLeft st y).newID.getD z 0 = if z = y then 0 else st.newID.getD z 0 := by
  unfold removeVertex
  simp only
  rw [getD_set_eq]
  by_cases h : y = z
  · subst h; simp [hy]
  · have h2 : ¬ z = y := fun e => h e.symm
    simp [h, h2]

theorem aliveL_set (vLeft n : Nat) (ids : List Int) (y : Nat) (hy : y < ids.length) :
    aliveL vLeft n (ids.set y 0) = (aliveL vLeft n ids).erase y := by
  ext z
  unfold aliveL
  rw [Finset.mem_erase, Finset.mem_filter, Finset.mem_filter, getD_set_eq]
  by_cases h : y = z
  · subst h; simp [hy]
  · have h2 : ¬ z = y := fun e => h e.symm
    simp [h, h2]

theorem aliveR_set (vLeft n : Nat) (ids : List Int) (y : Nat) (hy : y < ids.length) :
    aliveR vLeft n (ids.set y 0) = (aliveR vLeft n ids).erase y := by
  ext z
  unfold aliveR
  rw [Finset.mem_erase, Finset.mem_filter, Finset.mem_filter, getD_set_eq]
  by_cases h : y = z
  · subst h; simp [hy]
  · have h2 : ¬ z = y := fun e => h e.symm
    simp [h, h2]

theorem aliveL_card_le (vLeft n : Nat) (ids : List Int) : (aliveL vLeft n ids).card ≤ n := by
  unfold aliveL
  exact le_trans (Finset.card_filter_le _ _) (by simp)

theorem aliveR_card_le (vLeft n : Nat) (ids : List Int) : (aliveR vLeft n ids).card ≤ n := by
  unfold aliveR
  exact le_trans (Finset.card_filter_le _ _) (by simp)

theorem removeVertex_base {G : Graph} {vLeft n : Nat} {st : CoreState}
    (hb : CoreBase G vLeft n st) (hn : n < 4294967296) (y : Nat) (hy : y < n)
    (ha : st.newID.getD y 0 = 1) (hS : ∀ S, MinDeg2 G n S → y ∉ S) :
    CoreBase G vLeft n (removeVertex vLeft st y) ∧
      coreM (removeVertex vLeft st y) = coreM st := by
  have hyl : y < st.newID.length := by rw [hb.len_id]; exact hy
  have hget := removeVertex_getD vLeft st y
  have hq : (removeVertex vLeft st y).deleting_q = st.deleting_q ++ [y] := rfl
  have hid : (removeVertex vLeft st y).newID = st.newID.set y 0 := rfl
  have hynq : y ∉ st.deleting_q := by
    intro hmem
    have := (hb.q_dead y hmem).2
    rw [ha] at this
    exact absurd this (by decide)
  have hL : (removeVertex vLeft st y).newVLeft
      = (aliveL vLeft n (removeVertex vLeft st y).newID).card ∧
      (removeVertex vLeft st y).newVRight
      = (aliveR vLeft n (removeVertex vLeft st y).newID).card ∧
      (removeVertex vLeft st y).newVLeft + (removeVertex vLeft st y).newVRight + 1
      = st.newVLeft + st.newVRight := by
    rw [hid, aliveL_set _ _ _ _ hyl, aliveR_set _ _ _ _ hyl]
    have h1 := aliveL_card_le vLeft n st.newID
    have h2 := aliveR_card_le vLeft n st.newID
    by_cases hlt : y < vLeft
    · have hm : y ∈ aliveL vLeft n st.newID := by
        unfold aliveL; rw [Finset.mem_filter, Finset.mem_range]; exact ⟨hy, hlt, ha⟩
      have hnm : y ∉ aliveR vLeft n st.newID := by
        unfold aliveR; rw [Finset.mem_filter]; intro h; omega
      have hpos : 0 < (aliveL vLeft n st.newID).card := Finset.card_pos.mpr ⟨y, hm⟩
      rw [Finset.card_erase_of_mem hm, Finset.erase_eq_of_not_mem hnm]
      have e1 : (removeVertex vLeft st y).newVLeft = sub32 st.newVLeft 1 := by
        unfold removeVertex; simp [hlt]
      have e2 : (removeVertex vLeft st y).newVRight = st.newVRight := by
        unfold removeVertex; simp [hlt]
      rw [e1, e2, hb.cntL, hb.cntR, sub32_of_le (by omega) (by omega)]
      omega
    · have hm : y ∈ aliveR vLeft n st.newID := by
        unfold aliveR; rw [Finset.mem_filter, Finset.mem_range]; exact ⟨hy, by omega, ha⟩
      have hnm : y ∉ aliveL vLeft n st.newID := by
        unfold aliveL; rw [Finset.mem_filter]; intro h; omega
      have hpos : 0 < (aliveR vLeft n st.newID).card := Finset.card_pos.mpr ⟨y, hm⟩
      rw [Finset.card_erase_of_mem hm, Finset.erase_eq_of_not_mem hnm]
      have e1 : (removeVertex vLeft st y).newVLeft = st.newVLeft := by
        unfold removeVertex; simp [hlt]
      have e2 : (removeVertex vLeft st y).newVRight = sub32 st.newVRight 1 := by
        unfold removeVertex; simp [hlt]
      rw [e1, e2, hb.cntL, hb.cntR, sub32_of_le (by omega) (by omega)]
      omega
  refine ⟨⟨hb.len_deg, ?_, ?_, ?_, ?_, hL.1, hL.2.1, ?_⟩, ?_⟩
  · rw [hid, List.length_set]; exact hb.len_id
  · intro z hz
    rw [hget z hyl]
    by_cases h : z = y
    · simp [h]
    · simp only [h, if_false]; exact hb.flags z hz
  · intro z hz
    rw [hq, List.mem_append, List.mem_singleton] at hz
    rw [hget z hyl]
    rcases hz with hz | hz
    · refine ⟨(hb.q_dead z hz).1, ?_⟩
      by_cases h : z = y
      · simp [h]
      · simp only [h, if_false]; exact (hb.q_dead z hz).2
    · subst hz; exact ⟨hy, by simp⟩
  · rw [hq]
    exact List.Nodup.append hb.q_nodup (List.nodup_singleton y)
      (by intro a ha1 ha2; rw [List.mem_singleton] at ha2; subst ha2; exact hynq ha1)
  · intro S hSm z hz
    have hne : z ≠ y := fun e => hS S hSm (e ▸ hz)
    rw [hget z hyl]
    simp only [hne, if_false]
    exact hb.maxi S hSm z hz
  · unfold coreM
    rw [hq, List.length_append, List.length_singleton]
    omega

theorem length_le_of_nodup_lt (l : List Nat) (n : Nat) (hnd : l.Nodup)
    (hb : ∀ z ∈ l, z < n) : l.length ≤ n := by
  have hsub : l.toFinset ⊆ range n := by
    intro z hz
    rw [List.mem_toFinset] at hz
    exact Finset.mem_range.mpr (hb z hz)
  have := Finset.card_le_card hsub
  rw [List.toFinset_card_of_nodup hnd, Finset.card_range] at this
  exact this

theorem countP_insert_one (l : List Nat) (x : Nat) (p q : Nat → Bool) (hnd : l.Nodup)
    (hx : x ∈ l) (hpx : p x = false) (hqx : q x = true)
    (hpq : ∀ z ∈ l, z ≠ x → p z = q z) : l.countP q = l.countP p + 1 := by
  induction l with
  | nil => exact absurd hx (List.not_mem_nil x)
  | cons a t ih =>
    rw [List.nodup_cons] at hnd
    by_cases hax : a = x
    · subst hax
      have ht : t.countP q = t.countP p := by
        apply List.countP_congr
        intro z hz
        have hne : z ≠ a := fun e => hnd.1 (e ▸ hz)
        rw [hpq z (List.mem_cons_of_mem _ hz) hne]
      rw [List.countP_cons_of_pos _ _ hqx, List.countP_cons_of_neg _ _ (by simp [hpx]), ht]
    · have hxt : x ∈ t := by
        rcases List.mem_cons.mp hx with h | h
        · exact absurd h.symm hax
        · exact h
      have ih2 := ih hnd.2 hxt (fun z hz hne => hpq z (List.mem_cons_of_mem _ hz) hne)
      have hpa := hpq a (List.mem_cons_self _ _) hax
      rw [List.countP_cons, List.countP_cons, ih2, hpa]
      omega

theorem relax_eq (vLeft : Nat) (st : CoreState) (y : Nat) :
    relax vLeft st y =
      if st.newID.getD y 0 = 0 then st
      else if sub32 (st.deg_vec.getD y 0) 1 < 2 then
        removeVertex vLeft { st with deg_vec := st.deg_vec.set y (sub32 (st.deg_vec.getD y 0) 1) } y
      else { st with deg_vec := st.deg_vec.set y (sub32 (st.deg_vec.getD y 0) 1) } := rfl

theorem relax_step {G : Graph} {vLeft n : Nat} {st : CoreState} (hg : SymmSimple G n)
    (hb : CoreBase G vLeft n st) (x y : Nat) (rest : List Nat) (hx : x < n)
    (hx0 : st.newID.getD x 0 = 0) (hxq : x ∉ st.deleting_q) (hy : y ∈ nbrs G x)
    (hyr : y ∉ rest) (hd : DegInv G n st x (y :: rest)) :
    CoreBase G vLeft n (relax vLeft st y) ∧ DegInv G n (relax vLeft st y) x rest ∧
      (relax vLeft st y).newID.getD x 0 = 0 ∧ x ∉ (relax vLeft st y).deleting_q ∧
      coreM (relax vLeft st y) = coreM st := by
  have hyn : y < n := hg.bound x hx y hy
  have hxy : x ∈ nbrs G y := hg.symm x hx y hy
  -- a vertex other than `y` keeps its count when `y` leaves the list of pending visits
  have hother : ∀ y2, y2 ≠ y → ∀ z,
      decide (st.newID.getD z 0 = 1 ∨ z ∈ st.deleting_q ∨ (z = x ∧ y2 ∈ y :: rest))
      = decide (st.newID.getD z 0 = 1 ∨ z ∈ st.deleting_q ∨ (z = x ∧ y2 ∈ rest)) := by
    intro y2 hne z
    apply decide_eq_decide.mpr
    rw [List.mem_cons]
    constructor
    · rintro (h | h | ⟨h1, h2 | h2⟩)
      · exact Or.inl h
      · exact Or.inr (Or.inl h)
      · exact absurd h2 hne
      · exact Or.inr (Or.inr ⟨h1, h2⟩)
    · rintro (h | h | ⟨h1, h2⟩)
      · exact Or.inl h
      · exact Or.inr (Or.inl h)
      · exact Or.inr (Or.inr ⟨h1, Or.inr h2⟩)
  rw [relax_eq]
  by_cases h0 : st.newID.getD y 0 = 0
  · rw [if_pos h0]
    refine ⟨hb, ?_, hx0, hxq, rfl⟩
    intro y2 hy2 ha2
    have hne : y2 ≠ y := by
      intro e; rw [e, h0] at ha2; exact absurd ha2 (by decide)
    have := hd y2 hy2 ha2
    rw [funext (hother y2 hne)] at this
    exact this
  · rw [if_neg h0]
    have h1 : st.newID.getD y 0 = 1 := (hb.flags y hyn).resolve_left h0
    have hdy := hd y hyn h1
    have hlen := length_le_of_nodup_lt _ n (hg.nodup y hyn) (hg.bound y hyn)
    have hcnt : (nbrs G y).countP (fun z =>
          decide (st.newID.getD z 0 = 1 ∨ z ∈ st.deleting_q ∨ (z = x ∧ y ∈ y :: rest)))
        = (nbrs G y).countP (fun z =>
          decide (st.newID.getD z 0 = 1 ∨ z ∈ st.deleting_q ∨ (z = x ∧ y ∈ rest))) + 1 := by
      apply countP_insert_one _ x _ _ (hg.nodup y hyn) hxy
      · apply decide_eq_false
        rintro (h | h | ⟨_, h⟩)
        · rw [hx0] at h; exact absurd h (by decide)
        · exact hxq h
        · exact hyr h
      · apply decide_eq_true
        exact Or.inr (Or.inr ⟨rfl, List.mem_cons_self _ _⟩)
      · intro z _ hzx
        apply decide_eq_decide.mpr
        constructor
        · rintro (h | h | ⟨h, _⟩)
          · exact Or.inl h
          · exact Or.inr (Or.inl h)
          · exact absurd h hzx
        · rintro (h | h | ⟨h, _⟩)
          · exact Or.inl h
          · exact Or.inr (Or.inl h)
          · exact absurd h hzx
    have hle : (nbrs G y).countP (fun z =>
          decide (st.newID.getD z 0 = 1 ∨ z ∈ st.deleting_q ∨ (z = x ∧ y ∈ y :: rest)))
        ≤ (nbrs G y).length := List.countP_le_length _
    have hsub : sub32 (st.deg_vec.getD y 0) 1 = st.deg_vec.getD y 0 - 1 :=
      sub32_of_le (by omega) (by have := hg.size_lt; omega)
    have hylen : y < st.deg_vec.length := by rw [hb.len_deg]; exact hyn
    have hb1 : CoreBase G vLeft n
        { st with deg_vec := st.deg_vec.set y (sub32 (st.deg_vec.getD y 0) 1) } :=
      ⟨by simp only [List.length_set]; exact hb.len_deg, hb.len_id, hb.flags, hb.q_dead,
        hb.q_nodup, hb.cntL, hb.cntR, hb.maxi⟩
    have hxne : x ≠ y := by
      intro e; rw [e, h1] at hx0; exact absurd hx0 (by decide)
    by_cases hd2 : sub32 (st.deg_vec.getD y 0) 1 < 2
    · rw [if_pos hd2]
      have hS : ∀ S, MinDeg2 G n S → y ∉ S := by
        intro S hS hyS
        have h2 := (hS y hyS).2
        have hmono : (nbrs G y).countP (fun z => decide (z ∈ S))
            ≤ (nbrs G y).countP (fun z =>
              decide (st.newID.getD z 0 = 1 ∨ z ∈ st.deleting_q ∨ (z = x ∧ y ∈ rest))) := by
          apply List.countP_mono_left
          intro z _ hz
          rw [decide_eq_true_eq] at hz
          exact decide_eq_true (Or.inl (hb.maxi S hS z hz))
        omega
      have hrem := removeVertex_base hb1 hg.size_lt y hyn h1 hS
      have hyl : y < st.newID.length := by rw [hb.len_id]; exact hyn
      have hget := fun z => removeVertex_getD vLeft
        { st with deg_vec := st.deg_vec.set y (sub32 (st.deg_vec.getD y 0) 1) } y z hyl
      refine ⟨hrem.1, ?_, ?_, ?_, hrem.2⟩
      · intro y2 hy2 ha2
        rw [hget y2] at ha2
        have hne : y2 ≠ y := by
          intro e; simp [e] at ha2
        simp only [hne, if_false] at ha2
        have hold := hd y2 hy2 ha2
        rw [funext (hother y2 hne)] at hold
        have hdeg : (removeVertex vLeft
            { st with deg_vec := st.deg_vec.set y (sub32 (st.deg_vec.getD y 0) 1) } y).deg_vec.getD
              y2 0 = st.deg_vec.getD y2 0 := by
          show (st.deg_vec.set y _).getD y2 0 = _
          rw [getD_set_eq, if_neg (fun e => hne e.1.symm)]
        rw [hdeg]
        refine ⟨?_, hold.2⟩
        rw [hold.1]
        apply List.countP_congr
        intro z _
        rw [decide_eq_true_eq, decide_eq_true_eq, hget z]
        show _ ↔ (_ ∨ z ∈ st.deleting_q ++ [y] ∨ _)
        rw [List.mem_append, List.mem_singleton]
        by_cases hzy : z = y
        · subst hzy
          exact ⟨fun _ => Or.inr (Or.inl (Or.inr rfl)), fun _ => Or.inl h1⟩
        · rw [if_neg hzy]
          constructor
          · rintro (h | h | h)
            · exact Or.inl h
            · exact Or.inr (Or.inl (Or.inl h))
            · exact Or.inr (Or.inr h)
          · rintro (h | (h | h) | h)
            · exact Or.inl h
            · exact Or.inr (Or.inl h)
            · exact absurd h hzy
            · exact Or.inr (Or.inr h)
      · rw [hget x, if_neg hxne]
        exact hx0
      · show x ∉ st.deleting_q ++ [y]
        rw [List.mem_append, List.mem_singleton]
        rintro (h | h)
        · exact hxq h
        · exact hxne h
    · rw [if_neg hd2]
      refine ⟨hb1, ?_, hx0, hxq, rfl⟩
      intro y2 hy2 ha2
      show (st.deg_vec.set y _).getD y2 0 = _ ∧ 2 ≤ (st.deg_vec.set y _).getD y2 0
      rw [getD_set_eq]
      by_cases hne : y2 = y
      · subst hne
        simp only [true_and, hylen, if_true]
        refine ⟨?_, by omega⟩
        rw [hsub, hdy.1, hcnt]
        rfl
      · have hne2 : ¬ (y = y2 ∧ y < st.deg_vec.length) := fun e => hne e.1.symm
        rw [if_neg hne2]
        have hold := hd y2 hy2 ha2
        rw [funext (hother y2 hne)] at hold
        exact hold

theorem relax_all {G : Graph} {vLeft n : Nat} (hg : SymmSimple G n) (x : Nat) (hx : x < n) :
    ∀ (l : List Nat) (st : CoreState), l.Nodup → (∀ y ∈ l, y ∈ nbrs G x) →
      CoreBase G vLeft n st → st.newID.getD x 0 = 0 → x ∉ st.deleting_q →
      DegInv G n st x l →
      CoreBase G vLeft n (l.foldl (relax vLeft) st) ∧
        DegInv G n (l.foldl (relax vLeft) st) x [] ∧
        coreM (l.foldl (relax vLeft) st) = coreM st := by
  intro l
  induction l with
  | nil => intro st _ _ hb _ _ hd; exact ⟨hb, hd, rfl⟩
  | cons y rest ih =>
    intro st hnd hmem hb hx0 hxq hd
    rw [List.nodup_cons] at hnd
    have hstep := relax_step hg hb x y rest hx hx0 hxq (hmem y (List.mem_cons_self _ _))
      hnd.1 hd
    have hrec := ih (relax vLeft st y) hnd.2 (fun z hz => hmem z (List.mem_cons_of_mem _ hz))
      hstep.1 hstep.2.2.1 hstep.2.2.2.1 hstep.2.1
    rw [List.foldl_cons]
    exact ⟨hrec.1, hrec.2.1, hrec.2.2.trans hstep.2.2.2.2⟩

theorem degInv_nil {G : Graph} {n : Nat} {st : CoreState} (x x2 : Nat)
    (hd : DegInv G n st x []) : DegInv G n st x2 [] := by
  intro y hy ha
  have h := hd y hy ha
  refine ⟨?_, h.2⟩
  rw [h.1]
  apply List.countP_congr
  intro z _
  rw [decide_eq_true_eq, decide_eq_true_eq]
  constructor
  · rintro (h | h | ⟨_, h⟩)
    · exact Or.inl h
    · exact Or.inr (Or.inl h)
    · exact absurd h (List.not_mem_nil y)
  · rintro (h | h | ⟨_, h⟩)
    · exact Or.inl h
    · exact Or.inr (Or.inl h)
    · exact absurd h (List.not_mem_nil y)

theorem deleteLoop_nil (G : Graph) (vLeft fuel : Nat) (st : CoreState)
    (h : st.deleting_q = []) : deleteLoop G vLeft (fuel + 1) st = st := by
  simp only [deleteLoop, h]

theorem deleteLoop_cons (G : Graph) (vLeft fuel : Nat) (st : CoreState) (x : Nat)
    (q : List Nat) (h : st.deleting_q = x :: q) :
    deleteLoop G vLeft (fuel + 1) st
      = deleteLoop G vLeft fuel ((nbrs G x).foldl (relax vLeft) { st with deleting_q := q }) := by
  simp only [deleteLoop, h]

theorem deleteLoop_spec {G : Graph} {vLeft n : Nat} (hg : SymmSimple G n) :
    ∀ (fuel : Nat) (st : CoreState), CoreBase G vLeft n st → DegInv G n st 0 [] →
      coreM st < fuel →
      CoreBase G vLeft n (deleteLoop G vLeft fuel st) ∧
        DegInv G n (deleteLoop G vLeft fuel st) 0 [] ∧
        (deleteLoop G vLeft fuel st).deleting_q = [] := by
  intro fuel
  induction fuel with
  | zero => intro st _ _ h; exact absurd h (Nat.not_lt_zero _)
  | succ fuel ih =>
    intro st hb hd hm
    cases hq : st.deleting_q with
    | nil =>
      rw [deleteLoop_nil G vLeft fuel st hq]
      exact ⟨hb, hd, hq⟩
    | cons x q =>
      rw [deleteLoop_cons G vLeft fuel st x q hq]
      have hxq := hb.q_dead x (by rw [hq]; exact List.mem_cons_self _ _)
      have hnd := hb.q_nodup
      rw [hq, List.nodup_cons] at hnd
      have hb1 : CoreBase G vLeft n { st with deleting_q := q } :=
        ⟨hb.len_deg, hb.len_id, hb.flags,
          fun z hz => hb.q_dead z (by rw [hq]; exact List.mem_cons_of_mem _ hz),
          hnd.2, hb.cntL, hb.cntR, hb.maxi⟩
      have hd1 : DegInv G n { st with deleting_q := q } x (nbrs G x) := by
        intro y hy ha
        have h := hd y hy ha
        refine ⟨?_, h.2⟩
        show st.deg_vec.getD y 0 = _
        rw [h.1]
        apply List.countP_congr
        intro z hz
        rw [decide_eq_true_eq, decide_eq_true_eq, hq, List.mem_cons]
        show _ ↔ (_ ∨ z ∈ q ∨ _)
        constructor
        · rintro (h | (h | h) | ⟨_, h⟩)
          · exact Or.inl h
          · refine Or.inr (Or.inr ⟨h, ?_⟩)
            rw [h] at hz
            exact hg.symm y hy x hz
          · exact Or.inr (Or.inl h)
          · exact absurd h (List.not_mem_nil y)
        · rintro (h | h | ⟨h, _⟩)
          · exact Or.inl h
          · exact Or.inr (Or.inl (Or.inr h))
          · exact Or.inr (Or.inl (Or.inl h))
      have hall := relax_all hg x hxq.1 (nbrs G x) { st with deleting_q := q }
        (hg.nodup x hxq.1) (fun y hy => hy) hb1 hxq.2 hnd.1 hd1
      have hm2 : coreM ((nbrs G x).foldl (relax vLeft) { st with deleting_q := q }) < fuel := by
        rw [hall.2.2]
        unfold coreM at hm ⊢
        rw [hq, List.length_cons] at hm
        show q.length + st.newVLeft + st.newVRight < fuel
        omega
      exact ih _ hall.1 (degInv_nil x 0 hall.2.1) hm2

theorem initStep_eq (G : Graph) (vLeft : Nat) (st : CoreState) (x : Nat) :
    initStep G vLeft st x =
      if (nbrs G x).length < 2 then
        removeVertex vLeft { st with deg_vec := st.deg_vec.set x (nbrs G x).length } x
      else { st with deg_vec := st.deg_vec.set x (nbrs G x).length } := rfl

theorem getD_replicate_lt {α : Type} (n i : Nat) (a d : α) (h : i < n) :
    (List.replicate n a).getD i d = a := by
  rw [List.getD_eq_getElem?_getD, List.getElem?_replicate, if_pos h]
  rfl

theorem initStep_spec {G : Graph} {vLeft n : Nat} (hg : SymmSimple G n) (k : Nat)
    (hk : k < n) (st : CoreState) (hb : CoreBase G vLeft n st)
    (h2 : ∀ y, k ≤ y → y < n → st.newID.getD y 0 = 1)
    (h3 : ∀ y, y < k → st.newID.getD y 0 = 1 →
      st.deg_vec.getD y 0 = (nbrs G y).length ∧ 2 ≤ (nbrs G y).length)
    (h4 : ∀ y, y < n → st.newID.getD y 0 = 0 → y ∈ st.deleting_q)
    (h5 : coreM st = n) :
    CoreBase G vLeft n (initStep G vLeft st k) ∧
      (∀ y, k + 1 ≤ y → y < n → (initStep G vLeft st k).newID.getD y 0 = 1) ∧
      (∀ y, y < k + 1 → (initStep G vLeft st k).newID.getD y 0 = 1 →
        (initStep G vLeft st k).deg_vec.getD y 0 = (nbrs G y).length ∧
          2 ≤ (nbrs G y).length) ∧
      (∀ y, y < n → (initStep G vLeft st k).newID.getD y 0 = 0 →
        y ∈ (initStep G vLeft st k).deleting_q) ∧
      coreM (initStep G vLeft st k) = n := by
  have hklen : k < st.deg_vec.length := by rw [hb.len_deg]; exact hk
  have hb1 : CoreBase G vLeft n { st with deg_vec := st.deg_vec.set k (nbrs G k).length } :=
    ⟨by simp only [List.length_set]; exact hb.len_deg, hb.len_id, hb.flags, hb.q_dead,
      hb.q_nodup, hb.cntL, hb.cntR, hb.maxi⟩
  have hdeg : ∀ y, (st.deg_vec.set k (nbrs G k).length).getD y 0
      = if y = k then (nbrs G k).length else st.deg_vec.getD y 0 := by
    intro y
    rw [getD_set_eq]
    by_cases h : y = k
    · subst h; rw [if_pos ⟨rfl, hklen⟩, if_pos rfl]
    · rw [if_neg (fun e => h e.1.symm), if_neg h]
  rw [initStep_eq]
  by_cases hlt : (nbrs G k).length < 2
  · rw [if_pos hlt]
    have hS : ∀ S, MinDeg2 G n S → k ∉ S := by
      intro S hS hkS
      have h := (hS k hkS).2
      have hle : (nbrs G k).countP (fun y => decide (y ∈ S)) ≤ (nbrs G k).length :=
        List.countP_le_length _
      omega
    have hrem := removeVertex_base hb1 hg.size_lt k hk (h2 k (le_refl k) hk) hS
    have hkl : k < st.newID.length := by rw [hb.len_id]; exact hk
    have hget := fun z => removeVertex_getD vLeft
      { st with deg_vec := st.deg_vec.set k (nbrs G k).length } k z hkl
    refine ⟨hrem.1, ?_, ?_, ?_, ?_⟩
    · intro y hy hyn
      rw [hget y, if_neg (by omega)]
      exact h2 y (by omega) hyn
    · intro y hy ha
      rw [hget y] at ha
      have hne : y ≠ k := by
        intro e; rw [if_pos e] at ha; exact absurd ha (by decide)
      rw [if_neg hne] at ha
      have := h3 y (by omega) ha
      refine ⟨?_, this.2⟩
      show (st.deg_vec.set k (nbrs G k).length).getD y 0 = _
      rw [hdeg y, if_neg hne]
      exact this.1
    · intro y hy ha
      show y ∈ st.deleting_q ++ [k]
      rw [List.mem_append, List.mem_singleton]
      by_cases hyk : y = k
      · exact Or.inr hyk
      · rw [hget y, if_neg hyk] at ha
        exact Or.inl (h4 y hy ha)
    · rw [hrem.2]; exact h5
  · rw [if_neg hlt]
    refine ⟨hb1, ?_, ?_, h4, h5⟩
    · intro y hy hyn
      exact h2 y (by omega) hyn
    · intro y hy ha
      show (st.deg_vec.set k (nbrs G k).length).getD y 0 = _ ∧ _
      rw [hdeg y]
      by_cases hyk : y = k
      · subst hyk
        rw [if_pos rfl]
        exact ⟨rfl, by omega⟩
      · rw [if_neg hyk]
        exact h3 y (by omega) ha

theorem init_base (G : Graph) (vLeft vRight : Nat) :
    CoreBase G vLeft (vLeft + vRight)
      { deg_vec := List.replicate (vLeft + vRight) 0,
        newID := List.replicate (vLeft + vRight) 1, deleting_q := [],
        newVLeft := vLeft, newVRight := vRight } := by
  have hflag : ∀ y, y < vLeft + vRight →
      (List.replicate (vLeft + vRight) (1 : Int)).getD y 0 = 1 :=
    fun y hy => getD_replicate_lt _ _ _ _ hy
  refine ⟨by simp, by simp, fun y hy => Or.inr (hflag y hy), ?_, List.nodup_nil, ?_, ?_, ?_⟩
  · intro z hz; exact absurd hz (List.not_mem_nil z)
  · show vLeft = (aliveL vLeft (vLeft + vRight) _).card
    have : aliveL vLeft (vLeft + vRight) (List.replicate (vLeft + vRight) 1) = range vLeft := by
      ext y
      unfold aliveL
      rw [Finset.mem_filter, Finset.mem_range, Finset.mem_range]
      constructor
      · intro h; exact h.2.1
      · intro h; exact ⟨by omega, h, hflag y (by omega)⟩
    rw [this, Finset.card_range]
  · show vRight = (aliveR vLeft (vLeft + vRight) _).card
    have : aliveR vLeft (vLeft + vRight) (List.replicate (vLeft + vRight) 1)
        = Ico vLeft (vLeft + vRight) := by
      ext y
      unfold aliveR
      rw [Finset.mem_filter, Finset.mem_range, Finset.mem_Ico]
      constructor
      · intro h; exact ⟨h.2.1, h.1⟩
      · intro h; exact ⟨h.2, h.1, hflag y h.2⟩
    rw [this, Nat.card_Ico]
    omega
  · intro S hS y hy
    exact hflag y (hS y hy).1

theorem init_spec {G : Graph} {vLeft vRight : Nat} (hg : SymmSimple G (vLeft + vRight)) :
    ∀ k, k ≤ vLeft + vRight →
      CoreBase G vLeft (vLeft + vRight) ((List.range k).foldl (initStep G vLeft)
        { deg_vec := List.replicate (vLeft + vRight) 0,
          newID := List.replicate (vLeft + vRight) 1, deleting_q := [],
          newVLeft := vLeft, newVRight := vRight }) ∧
      (∀ y, k ≤ y → y < vLeft + vRight → ((List.range k).foldl (initStep G vLeft)
        { deg_vec := List.replicate (vLeft + vRight) 0,
          newID := List.replicate (vLeft + vRight) 1, deleting_q := [],
          newVLeft := vLeft, newVRight := vRight }).newID.getD y 0 = 1) ∧
      (∀ y, y < k → ((List.range k).foldl (initStep G vLeft)
        { deg_vec := List.replicate (vLeft + vRight) 0,
          newID := List.replicate (vLeft + vRight) 1, deleting_q := [],
          newVLeft := vLeft, newVRight := vRight }).newID.getD y 0 = 1 →
        ((List.range k).foldl (initStep G vLeft)
        { deg_vec := List.replicate (vLeft + vRight) 0,
          newID := List.replicate (vLeft + vRight) 1, deleting_q := [],
          newVLeft := vLeft, newVRight := vRight }).deg_vec.getD y 0 = (nbrs G y).length ∧
          2 ≤ (nbrs G y).length) ∧
      (∀ y, y < vLeft + vRight → ((List.range k).foldl (initStep G vLeft)
        { deg_vec := List.replicate (vLeft + vRight) 0,
          newID := List.replicate (vLeft + vRight) 1, deleting_q := [],
          newVLeft := vLeft, newVRight := vRight }).newID.getD y 0 = 0 →
        y ∈ ((List.range k).foldl (initStep G vLeft)
        { deg_vec := List.replicate (vLeft + vRight) 0,
          newID := List.replicate (vLeft + vRight) 1, deleting_q := [],
          newVLeft := vLeft, newVRight := vRight }).deleting_q) ∧
      coreM ((List.range k).foldl (initStep G vLeft)
        { deg_vec := List.replicate (vLeft + vRight) 0,
          newID := List.replicate (vLeft + vRight) 1, deleting_q := [],
          newVLeft := vLeft, newVRight := vRight }) = vLeft + vRight := by
  intro k
  induction k with
  | zero =>
    intro _
    refine ⟨init_base G vLeft vRight, ?_, ?_, ?_, ?_⟩
    · intro y _ hy; exact getD_replicate_lt _ _ _ _ hy
    · intro y hy; exact absurd hy (Nat.not_lt_zero y)
    · intro y hy h
      have : (List.replicate (vLeft + vRight) (1 : Int)).getD y 0 = 1 :=
        getD_replicate_lt _ _ _ _ hy
      change (List.replicate (vLeft + vRight) (1 : Int)).getD y 0 = 0 at h
      rw [this] at h
      exact absurd h (by decide)
    · show 0 + vLeft + vRight = vLeft + vRight
      omega
  | succ k ih =>
    intro hk
    have h := ih (by omega)
    rw [List.range_succ, List.foldl_append, List.foldl_cons, List.foldl_nil]
    exact initStep_spec hg k (by omega) _ h.1 h.2.1 h.2.2.1 h.2.2.2.1 h.2.2.2.2

theorem coreLoop_spec {G : Graph} {vLeft vRight : Nat} (hg : SymmSimple G (vLeft + vRight)) :
    CoreBase G vLeft (vLeft + vRight) (coreLoop G vLeft vRight) ∧
      DegInv G (vLeft + vRight) (coreLoop G vLeft vRight) 0 [] ∧
      (coreLoop G vLeft vRight).deleting_q = [] := by
  have hu : u32 (vLeft + vRight) = vLeft + vRight := Nat.mod_eq_of_lt hg.size_lt
  have hi := init_spec hg (vLeft + vRight) (le_refl _)
  unfold coreLoop
  simp only [hu]
  apply deleteLoop_spec hg
  · exact hi.1
  · intro y hy ha
    have h3 := hi.2.2.1 y hy ha
    refine ⟨?_, by omega⟩
    rw [h3.1]
    symm
    rw [List.countP_eq_length]
    intro z hz
    apply decide_eq_true
    have hzn := hg.bound y hy z hz
    rcases hi.1.flags z hzn with h0 | h1
    · exact Or.inr (Or.inl (hi.2.2.2.1 z hzn h0))
    · exact Or.inl h1
  · rw [hi.2.2.2.2]
    exact Nat.lt_succ_self _

end Induced6

namespace Induced6
open Finset

/-- The survivors that `Compute2Core` flags are the 2-core, the flags are 1 for a survivor
and 0 for a removed vertex (less one at entry 0), and the two counts are the numbers of
surviving left and right vertices. -/
theorem compute2Core_spec (G : Graph) (vLeft vRight : Nat)
    (hg : SymmSimple G (vLeft + vRight)) (h0 : 0 < vLeft + vRight) :
    IsTwoCore G (vLeft + vRight)
        (survivors (vLeft + vRight) (Compute2Core G vLeft vRight).2.2) ∧
      (Compute2Core G vLeft vRight).2.2.length = vLeft + vRight ∧
      (∀ x, x < vLeft + vRight → (Compute2Core G vLeft vRight).2.2.getD x 0 =
        (if x ∈ survivors (vLeft + vRight) (Compute2Core G vLeft vRight).2.2 then 1 else 0)
          - (if x = 0 then 1 else 0)) ∧
      (Compute2Core G vLeft vRight).1 =
        ((survivors (vLeft + vRight) (Compute2Core G vLeft vRight).2.2).filter
          (fun x => x < vLeft)).card ∧
      (Compute2Core G vLeft vRight).2.1 =
        ((survivors (vLeft + vRight) (Compute2Core G vLeft vRight).2.2).filter
          (fun x => vLeft ≤ x)).card ∧
      (coreLoop G vLeft vRight).deleting_q = [] := by
  obtain ⟨hb, hd, hq⟩ := coreLoop_spec hg
  have hlen0 : 0 < (coreLoop G vLeft vRight).newID.length := by rw [hb.len_id]; exact h0
  have hflag : ∀ x, (Compute2Core G vLeft vRight).2.2.getD x 0 =
      if x = 0 then (coreLoop G vLeft vRight).newID.getD 0 0 - 1
      else (coreLoop G vLeft vRight).newID.getD x 0 := by
    intro x
    show ((coreLoop G vLeft vRight).newID.set 0 _).getD x 0 = _
    rw [getD_set_eq]
    by_cases hx : x = 0
    · subst hx; rw [if_pos ⟨rfl, hlen0⟩, if_pos rfl]
    · rw [if_neg (fun e => hx e.1.symm), if_neg hx]
  have hmem : ∀ x, x ∈ survivors (vLeft + vRight) (Compute2Core G vLeft vRight).2.2 ↔
      x < vLeft + vRight ∧ (coreLoop G vLeft vRight).newID.getD x 0 = 1 := by
    intro x
    unfold survivors
    rw [Finset.mem_filter, Finset.mem_range, hflag x]
    by_cases hx : x = 0
    · subst hx
      rw [if_pos rfl, if_pos rfl]
      constructor
      · intro h; exact ⟨h.1, by omega⟩
      · intro h; exact ⟨h.1, by omega⟩
    · rw [if_neg hx, if_neg hx]
  refine ⟨⟨?_, ?_⟩, ?_, ?_, ?_, ?_, hq⟩
  · intro x hx
    have hx2 := (hmem x).1 hx
    refine ⟨hx2.1, ?_⟩
    have h := hd x hx2.1 hx2.2
    have hle : (nbrs G x).countP (fun z => decide ((coreLoop G vLeft vRight).newID.getD z 0 = 1
          ∨ z ∈ (coreLoop G vLeft vRight).deleting_q ∨ (z = 0 ∧ x ∈ ([] : List Nat))))
        ≤ (nbrs G x).countP (fun y =>
          decide (y ∈ survivors (vLeft + vRight) (Compute2Core G vLeft vRight).2.2)) := by
      apply List.countP_mono_left
      intro z hz hp
      rw [decide_eq_true_eq] at hp
      apply decide_eq_true
      rw [hmem z]
      refine ⟨hg.bound x hx2.1 z hz, ?_⟩
      rcases hp with hp | hp | ⟨_, hp⟩
      · exact hp
      · rw [hq] at hp; exact absurd hp (List.not_mem_nil z)
      · exact absurd hp (List.not_mem_nil x)
    omega
  · intro S hS x hx
    rw [hmem x]
    exact ⟨(hS x hx).1, hb.maxi S hS x hx⟩
  · show ((coreLoop G vLeft vRight).newID.set 0 _).length = _
    rw [List.length_set]; exact hb.len_id
  · intro x hx
    rw [hflag x]
    by_cases hs : x ∈ survivors (vLeft + vRight) (Compute2Core G vLeft vRight).2.2
    · rw [if_pos hs]
      have h1 := ((hmem x).1 hs).2
      by_cases hx0 : x = 0
      · subst hx0; rw [if_pos rfl, if_pos rfl, h1]
      · rw [if_neg hx0, if_neg hx0, h1]; rfl
    · rw [if_neg hs]
      have h1 : (coreLoop G vLeft vRight).newID.getD x 0 = 0 := by
        rcases hb.flags x hx with h | h
        · exact h
        · exact absurd ((hmem x).2 ⟨hx, h⟩) hs
      by_cases hx0 : x = 0
      · subst hx0; rw [if_pos rfl, if_pos rfl, h1]
      · rw [if_neg hx0, if_neg hx0, h1]; rfl
  · show (coreLoop G vLeft vRight).newVLeft = _
    rw [hb.cntL]
    congr 1
    ext x
    unfold aliveL
    rw [Finset.mem_filter, Finset.mem_filter, Finset.mem_range, hmem x]
    constructor
    · intro h; exact ⟨⟨h.1, h.2.2⟩, h.2.1⟩
    · intro h; exact ⟨h.1.1, h.2, h.1.2⟩
  · show (coreLoop G vLeft vRight).newVRight = _
    rw [hb.cntR]
    congr 1
    ext x
    unfold aliveR
    rw [Finset.mem_filter, Finset.mem_filter, Finset.mem_range, hmem x]
    constructor
    · intro h; exact ⟨⟨h.1, h.2.2⟩, h.2.1⟩
    · intro h; exact ⟨h.1.1, h.2, h.1.2⟩

end Induced6

namespace Induced6

open Finset

namespace BTJ

theorem interLoop_spec : ∀ (fuel : Nat) (xs ys : List Nat) (r : Nat),
    xs.Sorted (fun x y => x > y) → ys.Sorted (fun x y => x > y) →
    xs.length + ys.length ≤ fuel →
    r + (xs.filter (fun x => decide (x ∈ ys))).length < 18446744073709551616 →
    interLoop fuel xs ys r = r + (xs.filter (fun x => decide (x ∈ ys))).length := by
  intro fuel
  induction fuel with
  | zero =>
    intro xs ys r _ _ hf _
    have hx : xs = [] := List.length_eq_zero.mp (by omega)
    subst hx
    rfl
  | succ fuel ih =>
    intro xs ys r hxs hys hf hr
    cases xs with
    | nil => rfl
    | cons x xs =>
      cases ys with
      | nil => simp [interLoop]
      | cons y ys =>
        have hxs2 := List.sorted_cons.mp hxs
        have hys2 := List.sorted_cons.mp hys
        rw [List.length_cons, List.length_cons] at hf
        unfold interLoop
        by_cases hxy : x > y
        · rw [if_pos hxy]
          have hnot : x ∉ y :: ys := by
            intro hm
            rcases List.mem_cons.mp hm with h | h
            · omega
            · have := hys2.1 x h; omega
          have hfil : (x :: xs).filter (fun x => decide (x ∈ y :: ys))
              = xs.filter (fun x => decide (x ∈ y :: ys)) := by
            rw [List.filter_cons_of_neg]
            simpa using hnot
          rw [hfil] at hr ⊢
          exact ih xs (y :: ys) r hxs2.2 hys (by rw [List.length_cons]; omega) hr
        · rw [if_neg hxy]
          by_cases hyx : y > x
          · rw [if_pos hyx]
            have hfil : (x :: xs).filter (fun z => decide (z ∈ y :: ys))
                = (x :: xs).filter (fun z => decide (z ∈ ys)) := by
              apply List.filter_congr
              intro z hz
              apply decide_eq_decide.mpr
              rw [List.mem_cons]
              constructor
              · rintro (h | h)
                · exfalso
                  rcases List.mem_cons.mp hz with h2 | h2
                  · omega
                  · have := hxs2.1 z h2; omega
                · exact h
              · intro h; exact Or.inr h
            rw [hfil] at hr ⊢
            exact ih (x :: xs) ys r hxs hys2.2 (by rw [List.length_cons]; omega) hr
          · rw [if_neg hyx]
            have hxe : x = y := by omega
            subst hxe
            have hfil : (x :: xs).filter (fun z => decide (z ∈ x :: ys))
                = x :: xs.filter (fun z => decide (z ∈ ys)) := by
              rw [List.filter_cons_of_pos (by simp)]
              congr 1
              apply List.filter_congr
              intro z hz
              apply decide_eq_decide.mpr
              rw [List.mem_cons]
              constructor
              · rintro (h | h)
                · have := hxs2.1 z hz; omega
                · exact h
              · intro h; exact Or.inr h
            rw [hfil, List.length_cons] at hr ⊢
            have hu : u64 (r + 1) = r + 1 := u64_of_lt (by omega)
            rw [hu, ih xs ys (r + 1) hxs2.2 hys2.2 (by omega) (by omega)]
            omega

theorem intersection_size_spec (s1 s2 : List Nat) (h1 : s1.Sorted (fun x y => x > y))
    (h2 : s2.Sorted (fun x y => x > y)) (hl : s1.length < 18446744073709551616) :
    intersection_size s1 s2 = (s1.filter (fun x => decide (x ∈ s2))).length := by
  unfold intersection_size
  have hle := List.length_filter_le (fun x => decide (x ∈ s2)) s1
  rw [interLoop_spec _ s1 s2 0 h1 h2 (le_refl _) (by omega)]
  omega

theorem fillACInner_spec (a cs : Nat) : ∀ (l : List Nat) (m : HMap Nat),
    l.Sorted (fun x y => x > y) → ∀ k,
    fillACInner a cs l m k =
      if k ∈ l ∧ a < k ∧ cs ≤ k then some ((m k).getD 0 + 1) else m k := by
  intro l
  induction l with
  | nil => intro m _ k; simp [fillACInner]
  | cons c rest ih =>
    intro m hs k
    have hs2 := List.sorted_cons.mp hs
    unfold fillACInner
    by_cases hc : c > a ∧ c ≥ cs
    · rw [if_pos hc, ih _ hs2.2 k]
      by_cases hk : k = c
      · subst hk
        have hnr : k ∉ rest := fun hm => by have := hs2.1 k hm; omega
        rw [if_neg (fun h => hnr h.1), if_pos ⟨List.mem_cons_self _ _, hc.1, hc.2⟩]
        simp [HMap.set]
      · have hset : m.set c ((m c).getD 0 + 1) k = m k := by simp [HMap.set, hk]
        rw [hset]
        by_cases hkr : k ∈ rest ∧ a < k ∧ cs ≤ k
        · rw [if_pos hkr, if_pos ⟨List.mem_cons_of_mem _ hkr.1, hkr.2⟩]
        · rw [if_neg hkr, if_neg]
          rintro ⟨hm, h2⟩
          rcases List.mem_cons.mp hm with h | h
          · exact hk h
          · exact hkr ⟨h, h2⟩
    · rw [if_neg hc, if_neg]
      rintro ⟨hm, h2, h3⟩
      apply hc
      rcases List.mem_cons.mp hm with h | h
      · subst h; exact ⟨h2, h3⟩
      · have := hs2.1 k h; exact ⟨by omega, by omega⟩

theorem fillAC_fold (G : Graph) (a cs : Nat)
    (hs : ∀ u, (nbrs G u).Sorted (fun x y => x > y)) :
    ∀ (us : List Nat) (m : HMap Nat) (k : Nat),
    us.foldl (fun m u => fillACInner a cs (nbrs G u) m) m k =
      if a < k ∧ cs ≤ k ∧ 0 < us.countP (fun u => decide (k ∈ nbrs G u)) then
        some ((m k).getD 0 + us.countP (fun u => decide (k ∈ nbrs G u)))
      else m k := by
  intro us
  induction us with
  | nil => intro m k; simp
  | cons u rest ih =>
    intro m k
    rw [List.foldl_cons, ih, fillACInner_spec a cs _ m (hs u) k, List.countP_cons]
    by_cases hk : k ∈ nbrs G u
    · have hd : decide (k ∈ nbrs G u) = true := decide_eq_true hk
      rw [hd]
      simp only [if_true]
      by_cases h2 : a < k ∧ cs ≤ k
      · have hA : k ∈ nbrs G u ∧ a < k ∧ cs ≤ k := ⟨hk, h2⟩
        have hB : a < k ∧ cs ≤ k ∧
            0 < rest.countP (fun u => decide (k ∈ nbrs G u)) + 1 := ⟨h2.1, h2.2, Nat.succ_pos _⟩
        simp only [if_pos hA, if_pos hB, Option.getD_some]
        by_cases h0 : 0 < rest.countP (fun u => decide (k ∈ nbrs G u))
        · have hC : a < k ∧ cs ≤ k ∧ 0 < rest.countP (fun u => decide (k ∈ nbrs G u)) :=
            ⟨h2.1, h2.2, h0⟩
          simp only [if_pos hC]
          apply congrArg some; omega
        · have hC : ¬ (a < k ∧ cs ≤ k ∧ 0 < rest.countP (fun u => decide (k ∈ nbrs G u))) :=
            fun h => h0 h.2.2
          simp only [if_neg hC]
          apply congrArg some; omega
      · have hA : ¬ (k ∈ nbrs G u ∧ a < k ∧ cs ≤ k) := fun h => h2 h.2
        have hB : ¬ (a < k ∧ cs ≤ k ∧
            0 < rest.countP (fun u => decide (k ∈ nbrs G u)) + 1) := fun h => h2 ⟨h.1, h.2.1⟩
        have hC : ¬ (a < k ∧ cs ≤ k ∧ 0 < rest.countP (fun u => decide (k ∈ nbrs G u))) :=
          fun h => h2 ⟨h.1, h.2.1⟩
        simp only [if_neg hA, if_neg hB, if_neg hC]
    · have hd : decide (k ∈ nbrs G u) = false := decide_eq_false hk
      have hA : ¬ (k ∈ nbrs G u ∧ a < k ∧ cs ≤ k) := fun h => hk h.1
      rw [hd]
      simp only [if_neg hA, Bool.false_eq_true, if_false, Nat.add_zero]

theorem foldl_set_range {α : Type} (f : Nat → α → α) (d : α) : ∀ (n : Nat) (A : List α),
    ((List.range n).foldl (fun A a => A.set a (f a (A.getD a d))) A).length = A.length ∧
    ∀ i, ((List.range n).foldl (fun A a => A.set a (f a (A.getD a d))) A).getD i d =
      if i < n ∧ i < A.length then f i (A.getD i d) else A.getD i d := by
  intro n
  induction n with
  | zero => intro A; exact ⟨rfl, fun i => by simp⟩
  | succ n ih =>
    intro A
    rw [List.range_succ, List.foldl_append, List.foldl_cons, List.foldl_nil]
    obtain ⟨hl, hg⟩ := ih A
    refine ⟨by rw [List.length_set, hl], ?_⟩
    intro i
    rw [getD_set_eq, hl, hg n, hg i]
    by_cases hin : n = i
    · subst hin
      by_cases hA : n < A.length
      · rw [if_pos ⟨rfl, hA⟩, if_neg (fun h => Nat.lt_irrefl n h.1), if_pos ⟨Nat.lt_succ_self n, hA⟩]
      · rw [if_neg (fun h => hA h.2), if_neg (fun h => hA h.2), if_neg (fun h => hA h.2)]
    · rw [if_neg (fun h => hin h.1)]
      by_cases h1 : i < n ∧ i < A.length
      · rw [if_pos h1, if_pos ⟨by omega, h1.2⟩]
      · rw [if_neg h1, if_neg (fun h => h1 ⟨by omega, h.2⟩)]

theorem updateAC_eq (G : Graph) (bs cs : Nat) (ACs : List (HMap Nat)) (a : Nat) :
    updateAC G bs cs ACs a = ACs.set a ((fun a m =>
      if a < sub32 bs 1 then (fun k => if k < cs then none else m k)
      else (nbrs G a).foldl (fun m u => fillACInner a cs (nbrs G u) m) m)
      a (ACs.getD a HMap.empty)) := by
  unfold updateAC
  by_cases h : a < sub32 bs 1
  · simp only [if_pos h]
  · simp only [if_neg h]

/-- The first `parallel_for` of a batch brings the maps of all vertices up to `a_end` to
the wedge counts for the keys from `cs` on. -/
theorem updateAC_fold {G : Graph} {vLeft : Nat} (h : Preprocessed G vLeft)
    (bs cs a_end : Nat) (ACs : List (HMap Nat)) (hbs : 1 ≤ bs) (hbs2 : bs < 4294967296)
    (hinv : ACsInv G vLeft bs cs ACs) (hba : bs ≤ a_end + 2) :
    ACsInv G vLeft (a_end + 2) cs
      ((List.range (a_end + 1)).foldl (updateAC G bs cs) ACs) := by
  have hfun : updateAC G bs cs = fun A a => A.set a ((fun a m =>
      if a < sub32 bs 1 then (fun k => if k < cs then none else m k)
      else (nbrs G a).foldl (fun m u => fillACInner a cs (nbrs G u) m) m)
      a (A.getD a HMap.empty)) := by
    funext A a; exact updateAC_eq G bs cs A a
  rw [hfun]
  obtain ⟨hl, hg⟩ := foldl_set_range (fun a m =>
      if a < sub32 bs 1 then (fun k => if k < cs then none else m k)
      else (nbrs G a).foldl (fun m u => fillACInner a cs (nbrs G u) m) m) HMap.empty
      (a_end + 1) ACs
  have hsub : sub32 bs 1 = bs - 1 := sub32_of_le hbs hbs2
  refine ⟨by rw [hl]; exact hinv.1, ?_⟩
  intro a ha
  rw [hg a, hinv.1]
  constructor
  · intro ha2 k hk
    have hpos : a < a_end + 1 ∧ a < vLeft - 2 := ⟨by omega, ha⟩
    rw [if_pos hpos, hsub]
    by_cases hold : a < bs - 1
    · rw [if_pos hold, if_neg (by omega)]
      exact (hinv.2 a ha).1 (by omega) k hk
    · rw [if_neg hold, fillAC_fold G a cs h.sorted_all]
      have hem := (hinv.2 a ha).2 (by omega) k
      rw [hem]
      unfold wedgeMap wedges
      by_cases hw : a < k ∧ 0 < (nbrs G a).countP (fun u => decide (k ∈ nbrs G u))
      · rw [if_pos ⟨hw.1, hk, hw.2⟩, if_pos hw]
        simp
      · rw [if_neg (fun hh => hw ⟨hh.1, hh.2.2⟩), if_neg hw]
  · intro ha2 k
    have hneg : ¬ (a < a_end + 1 ∧ a < vLeft - 2) := fun hh => by omega
    rw [if_neg hneg]
    exact (hinv.2 a ha).2 (by omega) k

end BTJ

end Induced6

namespace Induced6

open Finset

namespace BTJ

theorem Rep2.swap {gs size : Nat} {P : List (Nat × Nat)} {o1 o2 : Nat} {L1 L2 : List Nat}
    {s : Scratch} (h : Rep2 gs size P o1 L1 o2 L2 s) : Rep2 gs size P o2 L2 o1 L1 s :=
  ⟨h.len_abc, h.len_cnt, h.len_loc, h.len_rev, h.loc2, h.loc1,
    fun i hi => h.loc0 i (fun v hv => hi v hv.symm), h.rev2, h.rev1, h.abc2, h.abc1,
    fun i h2 h1 => h.abc0 i h1 h2, h.cnt⟩

theorem cont_append (P : List (Nat × Nat)) (u c v : Nat) :
    cont (P ++ [(u, c)]) v = if v = c then cont P v ++ [u] else cont P v := by
  unfold cont
  rw [List.filter_append, List.map_append]
  by_cases h : v = c
  · subst h
    rw [if_pos rfl, List.filter_cons_of_pos (by simp)]
    rfl
  · rw [if_neg h, List.filter_cons_of_neg (by simpa using fun e => h e.symm)]
    simp

theorem getD_mem_of_lt (L : List Nat) (k : Nat) (hk : k < L.length) : L.getD k 0 ∈ L := by
  rw [List.getD_eq_getElem _ _ hk]
  exact List.getElem_mem hk

theorem getD_inj_of_nodup (L : List Nat) (hnd : L.Nodup) (k1 k2 : Nat) (h1 : k1 < L.length)
    (h2 : k2 < L.length) (he : L.getD k1 0 = L.getD k2 0) : k1 = k2 := by
  rw [List.getD_eq_getElem _ _ h1, List.getD_eq_getElem _ _ h2] at he
  exact (List.Nodup.getElem_inj_iff hnd).mp he

theorem exists_getD_of_mem (L : List Nat) (c : Nat) (hc : c ∈ L) :
    ∃ k, k < L.length ∧ L.getD k 0 = c := by
  obtain ⟨k, hk, he⟩ := List.getElem_of_mem hc
  exact ⟨k, hk, by rw [List.getD_eq_getElem _ _ hk]; exact he⟩

/-- The statement `ABCs[slot].emplace_back(u); ABCs_counts[slot] += 1;` for the slot of a
vertex that has its local id. -/
theorem record_rep {gs size : Nat} {P : List (Nat × Nat)} {o1 o2 : Nat} {L1 L2 : List Nat}
    {s : Scratch} (hr : Rep2 gs size P o1 L1 o2 L2 s) (c u k0 : Nat) (hnd : L1.Nodup)
    (hk0 : k0 < L1.length) (hc : L1.getD k0 0 = c) (h12 : c ∉ L2)
    (hsl : gs + o1 + k0 < size) (hdis : ∀ k2, k2 < L2.length → o1 + k0 ≠ o2 + k2) :
    Rep2 gs size (P ++ [(u, c)]) o1 L1 o2 L2 (record s (gs + o1 + k0) u) := by
  have habc : ∀ i, (record s (gs + o1 + k0) u).ABCs.getD i []
      = if i = gs + o1 + k0 then s.ABCs.getD i [] ++ [u] else s.ABCs.getD i [] := by
    intro i
    show (s.ABCs.set _ _).getD i [] = _
    rw [getD_set_eq, hr.len_abc]
    by_cases hi : i = gs + o1 + k0
    · subst hi; rw [if_pos ⟨rfl, hsl⟩, if_pos rfl]
    · rw [if_neg (fun e => hi e.1.symm), if_neg hi]
  have hcnt : ∀ i, (record s (gs + o1 + k0) u).ABCs_counts.getD i 0
      = if i = gs + o1 + k0 then s.ABCs_counts.getD i 0 + 1 else s.ABCs_counts.getD i 0 := by
    intro i
    show (s.ABCs_counts.set _ _).getD i 0 = _
    rw [getD_set_eq, hr.len_cnt]
    by_cases hi : i = gs + o1 + k0
    · subst hi; rw [if_pos ⟨rfl, hsl⟩, if_pos rfl]
    · rw [if_neg (fun e => hi e.1.symm), if_neg hi]
  refine ⟨?_, ?_, hr.len_loc, hr.len_rev, hr.loc1, hr.loc2, hr.loc0, hr.rev1, hr.rev2,
    ?_, ?_, ?_, ?_⟩
  · show (s.ABCs.set _ _).length = size
    rw [List.length_set]; exact hr.len_abc
  · show (s.ABCs_counts.set _ _).length = size
    rw [List.length_set]; exact hr.len_cnt
  · intro k hk
    rw [habc, cont_append]
    by_cases hkk : k = k0
    · subst hkk
      rw [if_pos rfl, if_pos hc, hr.abc1 k hk]
    · have hne : L1.getD k 0 ≠ c := by
        intro e
        exact hkk (getD_inj_of_nodup L1 hnd k k0 hk hk0 (e.trans hc.symm))
      rw [if_neg (by omega), if_neg hne]
      exact hr.abc1 k hk
  · intro k hk
    rw [habc, cont_append]
    have hne : L2.getD k 0 ≠ c := fun e => h12 (e ▸ getD_mem_of_lt L2 k hk)
    have := hdis k hk
    rw [if_neg (by omega), if_neg hne]
    exact hr.abc2 k hk
  · intro i h1 h2
    rw [habc, if_neg (h1 k0 hk0)]
    exact hr.abc0 i h1 h2
  · intro i
    rw [habc, hcnt]
    by_cases hi : i = gs + o1 + k0
    · rw [if_pos hi, if_pos hi, List.length_append, hr.cnt i]; rfl
    · rw [if_neg hi, if_neg hi]; exact hr.cnt i

theorem getD_append_one (L : List Nat) (c k : Nat) (hk : k < (L ++ [c]).length) :
    (L ++ [c]).getD k 0 = if k < L.length then L.getD k 0 else c := by
  rw [List.length_append, List.length_singleton] at hk
  by_cases h : k < L.length
  · rw [if_pos h, List.getD_append _ _ _ _ h]
  · rw [if_neg h, List.getD_append_right _ _ _ _ (by omega)]
    have : k - L.length = 0 := by omega
    rw [this]
    rfl

/-- The block that gives a new vertex its local id. -/
theorem extend_rep {gs size : Nat} {P : List (Nat × Nat)} {o1 o2 : Nat} {L1 L2 : List Nat}
    {s : Scratch} (hr : Rep2 gs size P o1 L1 o2 L2 s) (c : Nat) (hc1 : c ∉ L1)
    (hc2 : c ∉ L2) (hfresh : cont P c = []) (hcs : gs + c < size)
    (hsl : gs + o1 + L1.length < size)
    (hdis : ∀ k2, k2 < L2.length → o1 + L1.length ≠ o2 + k2) :
    Rep2 gs size P o1 (L1 ++ [c]) o2 L2
      { s with localIDs := s.localIDs.set (gs + c) (L1.length + 1),
               reverseIDs := s.reverseIDs.set (gs + o1 + (L1.length + 1) - 1) c } := by
  have hidx : gs + o1 + (L1.length + 1) - 1 = gs + o1 + L1.length := by omega
  rw [hidx]
  have hloc : ∀ i, (s.localIDs.set (gs + c) (L1.length + 1)).getD i 0
      = if i = gs + c then L1.length + 1 else s.localIDs.getD i 0 := by
    intro i
    rw [getD_set_eq, hr.len_loc]
    by_cases hi : i = gs + c
    · subst hi; rw [if_pos ⟨rfl, hcs⟩, if_pos rfl]
    · rw [if_neg (fun e => hi e.1.symm), if_neg hi]
  have hrev : ∀ i, (s.reverseIDs.set (gs + o1 + L1.length) c).getD i 0
      = if i = gs + o1 + L1.length then c else s.reverseIDs.getD i 0 := by
    intro i
    rw [getD_set_eq, hr.len_rev]
    by_cases hi : i = gs + o1 + L1.length
    · subst hi; rw [if_pos ⟨rfl, hsl⟩, if_pos rfl]
    · rw [if_neg (fun e => hi e.1.symm), if_neg hi]
  have hlen : (L1 ++ [c]).length = L1.length + 1 := by
    rw [List.length_append, List.length_singleton]
  refine ⟨hr.len_abc, hr.len_cnt, ?_, ?_, ?_, ?_, ?_, ?_, ?_, ?_, hr.abc2, ?_, hr.cnt⟩
  · show (s.localIDs.set _ _).length = size
    rw [List.length_set]; exact hr.len_loc
  · show (s.reverseIDs.set _ _).length = size
    rw [List.length_set]; exact hr.len_rev
  · intro k hk
    show (s.localIDs.set _ _).getD _ 0 = _
    rw [hloc, getD_append_one L1 c k hk]
    rw [hlen] at hk
    by_cases h : k < L1.length
    · rw [if_pos h]
      have hne : L1.getD k 0 ≠ c := fun e => hc1 (e ▸ getD_mem_of_lt L1 k h)
      rw [if_neg (by omega)]
      exact hr.loc1 k h
    · rw [if_neg h, if_pos rfl]; omega
  · intro k hk
    show (s.localIDs.set _ _).getD _ 0 = _
    have hne : L2.getD k 0 ≠ c := fun e => hc2 (e ▸ getD_mem_of_lt L2 k hk)
    rw [hloc, if_neg (by omega)]
    exact hr.loc2 k hk
  · intro i hi
    show (s.localIDs.set _ _).getD _ 0 = _
    have hne : i ≠ gs + c := hi c (Or.inl (List.mem_append_right _ (List.mem_singleton_self c)))
    rw [hloc, if_neg hne]
    exact hr.loc0 i (fun v hv => hi v (hv.imp (fun h => List.mem_append_left _ h) id))
  · intro k hk
    show (s.reverseIDs.set _ _).getD _ 0 = _
    rw [hrev, getD_append_one L1 c k hk]
    rw [hlen] at hk
    by_cases h : k < L1.length
    · rw [if_pos h, if_neg (by omega)]
      exact hr.rev1 k h
    · have hk2 : k = L1.length := by omega
      rw [if_neg h, hk2, if_pos rfl]
  · intro k hk
    show (s.reverseIDs.set _ _).getD _ 0 = _
    have := hdis k hk
    rw [hrev, if_neg (by omega)]
    exact hr.rev2 k hk
  · intro k hk
    show s.ABCs.getD _ [] = _
    rw [getD_append_one L1 c k hk]
    rw [hlen] at hk
    by_cases h : k < L1.length
    · rw [if_pos h]; exact hr.abc1 k h
    · have hk2 : k = L1.length := by omega
      rw [if_neg h, hk2, hfresh]
      apply hr.abc0
      · intro k1 hk1; omega
      · intro k2 hk2; have := hdis k2 hk2; omega
  · intro i h1 h2
    show s.ABCs.getD _ [] = _
    apply hr.abc0 i _ h2
    intro k hk
    exact h1 k (by rw [hlen]; omega)

theorem sideStep_old (gs off : Nat) (s : Scratch) (n c u : Nat)
    (h : s.localIDs.getD (gs + c) 0 ≠ 0) :
    sideStep gs off s n c u
      = (record s (gs + off + s.localIDs.getD (gs + c) 0 - 1) u, n) := by
  unfold sideStep
  simp only [if_neg h]

theorem sideStep_new (gs off : Nat) (s : Scratch) (n c u : Nat)
    (h : s.localIDs.getD (gs + c) 0 = 0) :
    sideStep gs off s n c u
      = (record { s with localIDs := s.localIDs.set (gs + c) (n + 1),
                         reverseIDs := s.reverseIDs.set (gs + off + (n + 1) - 1) c }
          (gs + off + (s.localIDs.set (gs + c) (n + 1)).getD (gs + c) 0 - 1) u, n + 1) := by
  unfold sideStep
  simp only [if_pos h]

theorem sideStep_rep {gs size : Nat} {P : List (Nat × Nat)} {o1 o2 : Nat} {L1 L2 : List Nat}
    {s : Scratch} (hr : Rep2 gs size P o1 L1 o2 L2 s) (c u : Nat) (hnd : L1.Nodup)
    (hc2 : c ∉ L2) (hcs : gs + c < size) (hfresh : c ∉ L1 → cont P c = [])
    (hsl : ∀ k, k < (emplace L1 c).length →
      gs + o1 + k < size ∧ ∀ k2, k2 < L2.length → o1 + k ≠ o2 + k2) :
    Rep2 gs size (P ++ [(u, c)]) o1 (emplace L1 c) o2 L2
        (sideStep gs o1 s L1.length c u).1 ∧
      (sideStep gs o1 s L1.length c u).2 = (emplace L1 c).length ∧
      (emplace L1 c).Nodup := by
  by_cases hmem : c ∈ L1
  · have hem : emplace L1 c = L1 := by unfold emplace; rw [if_pos hmem]
    rw [hem] at hsl ⊢
    obtain ⟨k0, hk0, hck⟩ := exists_getD_of_mem L1 c hmem
    have hloc : s.localIDs.getD (gs + c) 0 = k0 + 1 := by
      rw [← hck]; exact hr.loc1 k0 hk0
    rw [sideStep_old gs o1 s L1.length c u (by rw [hloc]; omega), hloc]
    have hidx : gs + o1 + (k0 + 1) - 1 = gs + o1 + k0 := by omega
    rw [hidx]
    exact ⟨record_rep hr c u k0 hnd hk0 hck hc2 (hsl k0 hk0).1 (hsl k0 hk0).2, rfl, hnd⟩
  · have hem : emplace L1 c = L1 ++ [c] := by unfold emplace; rw [if_neg hmem]
    rw [hem] at hsl ⊢
    have hlen : (L1 ++ [c]).length = L1.length + 1 := by
      rw [List.length_append, List.length_singleton]
    have hloc : s.localIDs.getD (gs + c) 0 = 0 := by
      apply hr.loc0
      intro v hv e
      have : v = c := by omega
      subst this
      rcases hv with h | h
      · exact hmem h
      · exact hc2 h
    have hs := hsl L1.length (by rw [hlen]; omega)
    have hext := extend_rep hr c hmem hc2 (hfresh hmem) hcs hs.1 hs.2
    have hnd2 : (L1 ++ [c]).Nodup :=
      List.Nodup.append hnd (List.nodup_singleton c)
        (by intro a ha1 ha2; rw [List.mem_singleton] at ha2; subst ha2; exact hmem ha1)
    have hget : (s.localIDs.set (gs + c) (L1.length + 1)).getD (gs + c) 0 = L1.length + 1 := by
      rw [getD_set_eq, hr.len_loc, if_pos ⟨rfl, hcs⟩]
    rw [sideStep_new gs o1 s L1.length c u hloc, hget]
    have hidx : gs + o1 + (L1.length + 1) - 1 = gs + o1 + L1.length := by omega
    rw [hidx] at hext ⊢
    have hgetc : (L1 ++ [c]).getD L1.length 0 = c := by
      rw [getD_append_one L1 c L1.length (by rw [hlen]; omega), if_neg (Nat.lt_irrefl _)]
    refine ⟨?_, hlen.symm, hnd2⟩
    exact record_rep hext c u L1.length hnd2 (by rw [hlen]; omega) hgetc hc2 hs.1 hs.2

theorem groupStep_eq (gs b u : Nat) (st : GroupState) (c : Nat) :
    groupStep gs b u st c =
      if c > b then
        ((sideStep gs b st.1 st.2.2 c u).1, st.2.1, (sideStep gs b st.1 st.2.2 c u).2)
      else if b > c then
        ((sideStep gs 0 st.1 st.2.1 c u).1, (sideStep gs 0 st.1 st.2.1 c u).2, st.2.2)
      else st := by
  unfold groupStep sideStep
  by_cases h1 : c > b
  · simp only [if_pos h1]
    by_cases h0 : st.1.localIDs.getD (gs + c) 0 = 0
    · simp only [if_pos h0]
    · simp only [if_neg h0]
  · simp only [if_neg h1]
    by_cases h2 : b > c
    · simp only [if_pos h2]
      by_cases h0 : st.1.localIDs.getD (gs + c) 0 = 0
      · simp only [if_pos h0, Nat.add_zero]
      · simp only [if_neg h0, Nat.add_zero]
    · simp only [if_neg h2]

theorem length_le_of_nodup_Ico (L : List Nat) (lo hi : Nat) (hnd : L.Nodup)
    (hb : ∀ v ∈ L, lo ≤ v ∧ v < hi) : L.length ≤ hi - lo := by
  have hsub : L.toFinset ⊆ Ico lo hi := by
    intro z hz
    rw [List.mem_toFinset] at hz
    exact Finset.mem_Ico.mpr (hb z hz)
  have := Finset.card_le_card hsub
  rw [List.toFinset_card_of_nodup hnd, Nat.card_Ico] at this
  exact this

theorem Rep2.congr_cont {gs size : Nat} {P P2 : List (Nat × Nat)} {o1 o2 : Nat}
    {L1 L2 : List Nat} {s : Scratch} (h : Rep2 gs size P o1 L1 o2 L2 s)
    (hc : ∀ v, v ∈ L1 ∨ v ∈ L2 → cont P2 v = cont P v) : Rep2 gs size P2 o1 L1 o2 L2 s :=
  ⟨h.len_abc, h.len_cnt, h.len_loc, h.len_rev, h.loc1, h.loc2, h.loc0, h.rev1, h.rev2,
    fun k hk => by rw [hc _ (Or.inl (getD_mem_of_lt L1 k hk))]; exact h.abc1 k hk,
    fun k hk => by rw [hc _ (Or.inr (getD_mem_of_lt L2 k hk))]; exact h.abc2 k hk,
    h.abc0, h.cnt⟩

theorem cont_eq_nil (P : List (Nat × Nat)) (v : Nat) (h : v ∉ P.map Prod.snd) :
    cont P v = [] := by
  unfold cont
  rw [List.map_eq_nil_iff, List.filter_eq_nil_iff]
  intro p hp hpv
  rw [decide_eq_true_eq] at hpv
  exact h (List.mem_map.mpr ⟨p, hp, hpv⟩)

theorem mem_emplace (L : List Nat) (c v : Nat) : v ∈ emplace L c ↔ v ∈ L ∨ v = c := by
  unfold emplace
  by_cases h : c ∈ L
  · rw [if_pos h]
    constructor
    · intro hv; exact Or.inl hv
    · rintro (hv | hv)
      · exact hv
      · subst hv; exact h
  · rw [if_neg h, List.mem_append, List.mem_singleton]

theorem nodup_emplace (L : List Nat) (c : Nat) (h : L.Nodup) : (emplace L c).Nodup := by
  unfold emplace
  by_cases hm : c ∈ L
  · rw [if_pos hm]; exact h
  · rw [if_neg hm]
    exact List.Nodup.append h (List.nodup_singleton c)
      (by intro a ha1 ha2; rw [List.mem_singleton] at ha2; subst ha2; exact hm ha1)

theorem groupStep_inv {gs b size vLeft : Nat} {P : List (Nat × Nat)} {st : GroupState}
    (hb : b < vLeft) (hsz : gs + vLeft ≤ size) (hi : GroupInv gs b size vLeft P st)
    (u c : Nat) (hc : c < vLeft) :
    GroupInv gs b size vLeft (P ++ [(u, c)]) (groupStep gs b u st c) := by
  obtain ⟨As, Cs, hr, hnA, hnC, hndA, hndC, hmA, hmC, hCv⟩ := hi
  have hAlen : As.length ≤ b := by
    have := length_le_of_nodup_Ico As 0 b hndA (fun v hv => ⟨Nat.zero_le _, ((hmA v).1 hv).1⟩)
    omega
  have hClen : Cs.length ≤ vLeft - (b + 1) :=
    length_le_of_nodup_Ico Cs (b + 1) vLeft hndC (fun v hv => ⟨((hmC v).1 hv).1, hCv v hv⟩)
  have hsnd : ∀ v, v ∈ (P ++ [(u, c)]).map Prod.snd ↔ v ∈ P.map Prod.snd ∨ v = c := by
    intro v
    rw [List.map_append, List.mem_append]
    simp
  rw [groupStep_eq]
  by_cases h1 : c > b
  · rw [if_pos h1]
    have hcA : c ∉ As := fun hm => by have := ((hmA c).1 hm).1; omega
    have hm2 : ∀ v, v ∈ emplace Cs c ↔ b < v ∧ v ∈ (P ++ [(u, c)]).map Prod.snd := by
      intro v
      rw [mem_emplace, hsnd, hmC]
      constructor
      · rintro (h | h)
        · exact ⟨h.1, Or.inl h.2⟩
        · subst h; exact ⟨h1, Or.inr rfl⟩
      · rintro ⟨h2, h | h⟩
        · exact Or.inl ⟨h2, h⟩
        · exact Or.inr h
    have hv2 : ∀ v ∈ emplace Cs c, v < vLeft := by
      intro v hv
      rw [mem_emplace] at hv
      rcases hv with h | h
      · exact hCv v h
      · subst h; exact hc
    have hClen2 : (emplace Cs c).length ≤ vLeft - (b + 1) :=
      length_le_of_nodup_Ico _ (b + 1) vLeft (nodup_emplace Cs c hndC)
        (fun v hv => ⟨((hm2 v).1 hv).1, hv2 v hv⟩)
    have hstep := sideStep_rep hr.swap c u hndC hcA (by omega)
      (fun hn => cont_eq_nil P c (fun hm => hn ((hmC c).2 ⟨h1, hm⟩)))
      (fun k hk => ⟨by omega, fun k2 hk2 => by omega⟩)
    rw [← hnC] at hstep
    refine ⟨As, emplace Cs c, hstep.1.swap, hnA, hstep.2.1, hndA, hstep.2.2, ?_, hm2, hv2⟩
    intro a
    rw [hmA, hsnd]
    constructor
    · rintro ⟨h2, h3⟩; exact ⟨h2, Or.inl h3⟩
    · rintro ⟨h2, h3 | h3⟩
      · exact ⟨h2, h3⟩
      · omega
  · rw [if_neg h1]
    by_cases h2 : b > c
    · rw [if_pos h2]
      have hcC : c ∉ Cs := fun hm => by have := ((hmC c).1 hm).1; omega
      have hm2 : ∀ v, v ∈ emplace As c ↔ v < b ∧ v ∈ (P ++ [(u, c)]).map Prod.snd := by
        intro v
        rw [mem_emplace, hsnd, hmA]
        constructor
        · rintro (h | h)
          · exact ⟨h.1, Or.inl h.2⟩
          · subst h; exact ⟨h2, Or.inr rfl⟩
        · rintro ⟨h3, h | h⟩
          · exact Or.inl ⟨h3, h⟩
          · exact Or.inr h
      have hAlen2 : (emplace As c).length ≤ b := by
        have := length_le_of_nodup_Ico _ 0 b (nodup_emplace As c hndA)
          (fun v hv => ⟨Nat.zero_le _, ((hm2 v).1 hv).1⟩)
        omega
      have hstep := sideStep_rep hr c u hndA hcC (by omega)
        (fun hn => cont_eq_nil P c (fun hm => hn ((hmA c).2 ⟨h2, hm⟩)))
        (fun k hk => ⟨by omega, fun k2 hk2 => by omega⟩)
      rw [← hnA] at hstep
      refine ⟨emplace As c, Cs, hstep.1, hstep.2.1, hnC, hstep.2.2, hndC, hm2, ?_, hCv⟩
      intro v
      rw [hmC, hsnd]
      constructor
      · rintro ⟨h3, h4⟩; exact ⟨h3, Or.inl h4⟩
      · rintro ⟨h3, h4 | h4⟩
        · exact ⟨h3, h4⟩
        · omega
    · rw [if_neg h2]
      have hcb : c = b := by omega
      refine ⟨As, Cs, hr.congr_cont ?_, hnA, hnC, hndA, hndC, ?_, ?_, hCv⟩
      · intro v hv
        rw [cont_append, if_neg]
        rcases hv with h | h
        · have := ((hmA v).1 h).1; omega
        · have := ((hmC v).1 h).1; omega
      · intro a
        rw [hmA, hsnd]
        constructor
        · rintro ⟨h3, h4⟩; exact ⟨h3, Or.inl h4⟩
        · rintro ⟨h3, h4 | h4⟩
          · exact ⟨h3, h4⟩
          · omega
      · intro v
        rw [hmC, hsnd]
        constructor
        · rintro ⟨h3, h4⟩; exact ⟨h3, Or.inl h4⟩
        · rintro ⟨h3, h4 | h4⟩
          · exact ⟨h3, h4⟩
          · omega

end BTJ

end Induced6

namespace Induced6

open Finset

namespace BTJ

theorem Rep2.toJRep {gs size : Nat} {P : List (Nat × Nat)} {o1 o2 : Nat} {L1 L2 : List Nat}
    {s : Scratch} (h : Rep2 gs size P o1 L1 o2 L2 s) : JRep gs size P o1 L1 o2 L2 s :=
  ⟨h.len_abc, h.len_cnt, h.len_loc, h.len_rev, h.loc0, h.rev1, h.rev2, h.abc1, h.abc2,
    h.abc0, h.cnt⟩

theorem JRep.flip {gs size : Nat} {P : List (Nat × Nat)} {o1 o2 : Nat} {L1 L2 : List Nat}
    {s : Scratch} (h : JRep gs size P o1 L1 o2 L2 s) : JRep gs size P o2 L2 o1 L1 s :=
  ⟨h.len_abc, h.len_cnt, h.len_loc, h.len_rev,
    fun i hi => h.loc0 i (fun v hv => hi v hv.symm), h.rev2, h.rev1, h.abc2, h.abc1,
    fun i h2 h1 => h.abc0 i h1 h2, h.cnt⟩

theorem Clean.toRep2 {size : Nat} {s : Scratch} (h : Clean size s) (gs b : Nat) :
    Rep2 gs size [] 0 [] b [] s :=
  ⟨h.len_abc, h.len_cnt, h.len_loc, h.len_rev,
    fun k hk => absurd hk (Nat.not_lt_zero k), fun k hk => absurd hk (Nat.not_lt_zero k),
    fun i _ => h.loc i,
    fun k hk => absurd hk (Nat.not_lt_zero k), fun k hk => absurd hk (Nat.not_lt_zero k),
    fun k hk => absurd hk (Nat.not_lt_zero k), fun k hk => absurd hk (Nat.not_lt_zero k),
    fun i _ _ => h.abc i, fun i => by rw [h.cnt i, h.abc i]; rfl⟩

theorem JRep.toClean {gs size : Nat} {P : List (Nat × Nat)} {o1 o2 : Nat} {s : Scratch}
    (h : JRep gs size P o1 [] o2 [] s) : Clean size s :=
  ⟨h.len_abc, h.len_cnt, h.len_loc, h.len_rev,
    fun i => h.abc0 i (fun k hk => absurd hk (Nat.not_lt_zero k))
      (fun k hk => absurd hk (Nat.not_lt_zero k)),
    fun i => by
      rw [h.cnt i, h.abc0 i (fun k hk => absurd hk (Nat.not_lt_zero k))
        (fun k hk => absurd hk (Nat.not_lt_zero k))]; rfl,
    fun i => h.loc0 i (fun v hv => by
      rcases hv with hv | hv
      · exact absurd hv (List.not_mem_nil v)
      · exact absurd hv (List.not_mem_nil v))⟩

/-- Clearing the first slot of a side leaves the representation of the rest. -/
theorem clearSlot_rep {gs size : Nat} {P : List (Nat × Nat)} {o1 o2 : Nat} {a : Nat}
    {rest L2 : List Nat} {s : Scratch} (hr : JRep gs size P o1 (a :: rest) o2 L2 s)
    (hsl : gs + o1 < size) (hdis : ∀ k2, k2 < L2.length → o1 ≠ o2 + k2) :
    JRep gs size P (o1 + 1) rest o2 L2 (clearSlot gs s o1) := by
  have hra : s.reverseIDs.getD (gs + o1) 0 = a := hr.rev1 0 (Nat.succ_pos _)
  have habc : ∀ i, (clearSlot gs s o1).ABCs.getD i []
      = if i = gs + o1 then [] else s.ABCs.getD i [] := by
    intro i
    show (s.ABCs.set _ _).getD i [] = _
    rw [getD_set_eq, hr.len_abc]
    by_cases hi : i = gs + o1
    · subst hi; rw [if_pos ⟨rfl, hsl⟩, if_pos rfl]
    · rw [if_neg (fun e => hi e.1.symm), if_neg hi]
  have hcnt : ∀ i, (clearSlot gs s o1).ABCs_counts.getD i 0
      = if i = gs + o1 then 0 else s.ABCs_counts.getD i 0 := by
    intro i
    show (s.ABCs_counts.set _ _).getD i 0 = _
    rw [getD_set_eq, hr.len_cnt]
    by_cases hi : i = gs + o1
    · subst hi; rw [if_pos ⟨rfl, hsl⟩, if_pos rfl]
    · rw [if_neg (fun e => hi e.1.symm), if_neg hi]
  have hloc : ∀ i, (clearSlot gs s o1).localIDs.getD i 0
      = if gs + a = i ∧ gs + a < size then 0 else s.localIDs.getD i 0 := by
    intro i
    show (s.localIDs.set _ _).getD i 0 = _
    rw [getD_set_eq, hr.len_loc, hra]
  refine ⟨?_, ?_, ?_, hr.len_rev, ?_, ?_, hr.rev2, ?_, ?_, ?_, ?_⟩
  · show (s.ABCs.set _ _).length = size
    rw [List.length_set]; exact hr.len_abc
  · show (s.ABCs_counts.set _ _).length = size
    rw [List.length_set]; exact hr.len_cnt
  · show (s.localIDs.set _ _).length = size
    rw [List.length_set]; exact hr.len_loc
  · intro i hi
    rw [hloc]
    by_cases h : gs + a = i ∧ gs + a < size
    · rw [if_pos h]
    · rw [if_neg h]
      by_cases hia : i = gs + a
      · subst hia
        have hsz : ¬ gs + a < size := fun h2 => h ⟨rfl, h2⟩
        rw [List.getD_eq_default]
        rw [hr.len_loc]; omega
      · apply hr.loc0
        intro v hv
        rcases hv with hv | hv
        · rcases List.mem_cons.mp hv with h1 | h1
          · subst h1; exact hia
          · exact hi v (Or.inl h1)
        · exact hi v (Or.inr hv)
  · intro k hk
    have := hr.rev1 (k + 1) (by rw [List.length_cons]; omega)
    have hidx : gs + o1 + (k + 1) = gs + (o1 + 1) + k := by omega
    rw [hidx] at this
    exact this
  · intro k hk
    have := hr.abc1 (k + 1) (by rw [List.length_cons]; omega)
    have hidx : gs + o1 + (k + 1) = gs + (o1 + 1) + k := by omega
    rw [hidx] at this
    rw [habc, if_neg (by omega)]
    exact this
  · intro k hk
    have := hdis k hk
    rw [habc, if_neg (by omega)]
    exact hr.abc2 k hk
  · intro i h1 h2
    rw [habc]
    by_cases hi : i = gs + o1
    · rw [if_pos hi]
    · rw [if_neg hi]
      apply hr.abc0 i _ h2
      intro k hk
      rw [List.length_cons] at hk
      cases k with
      | zero => exact hi
      | succ k => have := h1 k (by omega); omega
  · intro i
    rw [hcnt, habc]
    by_cases hi : i = gs + o1
    · rw [if_pos hi, if_pos hi]; rfl
    · rw [if_neg hi, if_neg hi]; exact hr.cnt i

theorem group_inner {gs b size vLeft : Nat} (hb : b < vLeft) (hsz : gs + vLeft ≤ size)
    (u : Nat) : ∀ (cs : List Nat) (P : List (Nat × Nat)) (st : GroupState),
    GroupInv gs b size vLeft P st → (∀ c ∈ cs, c < vLeft) →
    GroupInv gs b size vLeft (P ++ cs.map (fun c => (u, c)))
      (cs.foldl (groupStep gs b u) st) := by
  intro cs
  induction cs with
  | nil => intro P st hi _; simpa using hi
  | cons c rest ih =>
    intro P st hi hc
    have h1 := groupStep_inv hb hsz hi u c (hc c (List.mem_cons_self _ _))
    have h2 := ih _ _ h1 (fun x hx => hc x (List.mem_cons_of_mem _ hx))
    rw [List.foldl_cons, List.map_cons]
    rw [List.append_assoc] at h2
    exact h2

theorem group_outer {G : Graph} {gs b size vLeft : Nat} (hb : b < vLeft)
    (hsz : gs + vLeft ≤ size) : ∀ (us : List Nat) (P : List (Nat × Nat)) (st : GroupState),
    GroupInv gs b size vLeft P st → (∀ u ∈ us, ∀ c ∈ nbrs G u, c < vLeft) →
    GroupInv gs b size vLeft (P ++ us.flatMap (fun u => (nbrs G u).map (fun c => (u, c))))
      (us.foldl (fun st u => (nbrs G u).foldl (groupStep gs b u) st) st) := by
  intro us
  induction us with
  | nil => intro P st hi _; simpa using hi
  | cons u rest ih =>
    intro P st hi hc
    have h1 := group_inner hb hsz u (nbrs G u) P st hi (hc u (List.mem_cons_self _ _))
    have h2 := ih _ _ h1 (fun x hx => hc x (List.mem_cons_of_mem _ hx))
    rw [List.foldl_cons, List.flatMap_cons]
    rw [List.append_assoc] at h2
    exact h2

theorem group_inv {G : Graph} {vLeft : Nat} (h : Preprocessed G vLeft) {gs b size : Nat}
    (hb : b < vLeft) (hsz : gs + vLeft ≤ size) (s : Scratch) (hs : Clean size s) :
    GroupInv gs b size vLeft (pairsOf G b) (group G gs b s) := by
  have h0 : GroupInv gs b size vLeft [] (s, 0, 0) :=
    ⟨[], [], hs.toRep2 gs b, rfl, rfl, List.nodup_nil, List.nodup_nil,
      fun a => by simp, fun c => by simp, fun c hc => absurd hc (List.not_mem_nil c)⟩
  have := group_outer (G := G) hb hsz (nbrs G b) [] (s, 0, 0) h0 (by
    intro u hu c hc
    have hu2 := h.left_nbrs b hb u hu
    exact h.right_nbrs u hu2.2 hu2.1 c hc)
  rw [List.nil_append] at this
  exact this

theorem cont_app (P Q : List (Nat × Nat)) (v : Nat) : cont (P ++ Q) v = cont P v ++ cont Q v := by
  unfold cont
  rw [List.filter_append, List.map_append]

theorem cont_map (u v : Nat) : ∀ (l : List Nat), l.Nodup →
    cont (l.map (fun c => (u, c))) v = if v ∈ l then [u] else [] := by
  intro l
  induction l with
  | nil => intro _; rfl
  | cons c rest ih =>
    intro hnd
    rw [List.nodup_cons] at hnd
    have e : (c :: rest).map (fun c => (u, c)) = [(u, c)] ++ rest.map (fun c => (u, c)) := rfl
    rw [e, cont_app, ih hnd.2]
    by_cases hvc : v = c
    · subst hvc
      rw [if_neg hnd.1, if_pos (List.mem_cons_self _ _)]
      simp [cont]
    · have e2 : cont [(u, c)] v = [] := by
        unfold cont
        rw [List.filter_cons_of_neg (by simpa using fun e => hvc e.symm)]
        rfl
      rw [e2, List.nil_append]
      by_cases hv : v ∈ rest
      · rw [if_pos hv, if_pos (List.mem_cons_of_mem _ hv)]
      · rw [if_neg hv, if_neg]
        intro hm
        rcases List.mem_cons.mp hm with h | h
        · exact hvc h
        · exact hv h

theorem cont_flatMap (G : Graph) (hnd : ∀ u, (nbrs G u).Nodup) (v : Nat) :
    ∀ (us : List Nat), cont (us.flatMap (fun u => (nbrs G u).map (fun c => (u, c)))) v
      = us.filter (fun u => decide (v ∈ nbrs G u)) := by
  intro us
  induction us with
  | nil => rfl
  | cons u rest ih =>
    rw [List.flatMap_cons, cont_app, ih, cont_map u v _ (hnd u)]
    by_cases hv : v ∈ nbrs G u
    · rw [if_pos hv, List.filter_cons_of_pos (by simpa using hv)]
      rfl
    · rw [if_neg hv, List.filter_cons_of_neg (by simpa using hv)]
      rfl

theorem cont_pairsOf {G : Graph} {vLeft : Nat} (h : Preprocessed G vLeft) (b v : Nat) :
    cont (pairsOf G b) v = common G b v :=
  cont_flatMap G h.nodup v (nbrs G b)

theorem map_getD_range (L : List Nat) : (List.range L.length).map (fun j => L.getD j 0) = L := by
  apply List.ext_getElem (by simp)
  intro i h1 h2
  simp [List.getD_eq_getElem, h2]

theorem joinC_eq {gs size : Nat} {P : List (Nat × Nat)} {i b a : Nat} {rest Cs : List Nat}
    {s : Scratch} (hr : JRep gs size P i (a :: rest) b Cs s) (ACs : List (HMap Nat))
    (acc : Nat) :
    joinC ACs s gs b i (List.range Cs.length) (u64 acc) =
      u64 (acc + (Cs.map (fun c =>
        joinTerm (ACs.getD a HMap.empty) (cont P a) (cont P c) c)).sum) := by
  have hra : s.reverseIDs.getD (gs + i) 0 = a := hr.rev1 0 (Nat.succ_pos _)
  have hab : s.ABCs.getD (gs + i) [] = cont P a := hr.abc1 0 (Nat.succ_pos _)
  have hcn : s.ABCs_counts.getD (gs + i) 0 = (cont P a).length := by rw [hr.cnt, hab]
  unfold joinC
  simp only [hra, hab, hcn]
  refine Eq.trans (List.foldl_ext _ (fun acc j =>
    joinAdd (ACs.getD a HMap.empty) (cont P a) P acc (Cs.getD j 0)) _ ?_) ?_
  · intro acc j hj
    rw [List.mem_range] at hj
    have h1 : s.reverseIDs.getD (gs + b + j) 0 = Cs.getD j 0 := hr.rev2 j hj
    have h2 : s.ABCs.getD (gs + b + j) [] = cont P (Cs.getD j 0) := hr.abc2 j hj
    have h3 : s.ABCs_counts.getD (gs + b + j) 0 = (cont P (Cs.getD j 0)).length := by
      rw [hr.cnt, h2]
    simp only [h1, h2, h3]
    cases hS : ACs.getD a HMap.empty (Cs.getD j 0) with
    | none => unfold joinAdd; rw [hS]
    | some v => unfold joinAdd; rw [hS]
  · rw [← List.foldl_map (fun j => Cs.getD j 0)
      (joinAdd (ACs.getD a HMap.empty) (cont P a) P), map_getD_range]
    apply foldl_u64_gen
    intro k c
    unfold joinAdd joinTerm
    cases ACs.getD a HMap.empty c with
    | none => simp only [Nat.add_zero]
    | some v => simp only; rw [u64_u64_add]

theorem joinA_eq (ACs : List (HMap Nat)) (gs b numCs : Nat) (st : Scratch × Nat) (a : Nat) :
    joinA ACs gs b numCs st a
      = (clearSlot gs st.1 a, joinC ACs st.1 gs b a (List.range numCs) st.2) := rfl

theorem joinA_fold {gs size b : Nat} {P : List (Nat × Nat)} {Cs : List Nat}
    (ACs : List (HMap Nat)) (hsz : gs + b ≤ size) :
    ∀ (A2 : List Nat) (i : Nat) (s : Scratch) (acc : Nat),
      JRep gs size P i A2 b Cs s → i + A2.length ≤ b →
      JRep gs size P (i + A2.length) [] b Cs
          ((List.range' i A2.length).foldl (joinA ACs gs b Cs.length) (s, u64 acc)).1 ∧
        ((List.range' i A2.length).foldl (joinA ACs gs b Cs.length) (s, u64 acc)).2
          = u64 (acc + (A2.map (fun a => (Cs.map (fun c =>
              joinTerm (ACs.getD a HMap.empty) (cont P a) (cont P c) c)).sum)).sum) := by
  intro A2
  induction A2 with
  | nil => intro i s acc hr _; exact ⟨hr, rfl⟩
  | cons a rest ih =>
    intro i s acc hr hb
    rw [List.length_cons] at hb
    rw [List.length_cons, List.range'_succ, List.foldl_cons, joinA_eq]
    simp only
    rw [joinC_eq hr ACs acc]
    have hcl := clearSlot_rep hr (by omega) (fun k2 _ => by omega)
    have := ih (i + 1) _ (acc + (Cs.map (fun c =>
      joinTerm (ACs.getD a HMap.empty) (cont P a) (cont P c) c)).sum) hcl (by omega)
    have hidx : i + 1 + rest.length = i + (rest.length + 1) := by omega
    rw [hidx] at this
    refine ⟨this.1, ?_⟩
    rw [this.2, List.map_cons, List.sum_cons, Nat.add_assoc]

theorem clearC_eq (gs b : Nat) (s : Scratch) (c : Nat) :
    clearC gs b s c = clearSlot gs s (b + c) := by
  unfold clearC clearSlot
  rw [Nat.add_assoc]

theorem clear_fold {gs size oA : Nat} {P : List (Nat × Nat)} :
    ∀ (C2 : List Nat) (o : Nat) (s : Scratch),
      JRep gs size P o C2 oA [] s → gs + o + C2.length ≤ size →
      JRep gs size P (o + C2.length) [] oA []
        ((List.range' o C2.length).foldl (clearSlot gs) s) := by
  intro C2
  induction C2 with
  | nil => intro o s hr _; exact hr
  | cons c rest ih =>
    intro o s hr hb
    rw [List.length_cons] at hb
    rw [List.length_cons, List.range'_succ, List.foldl_cons]
    have hcl := clearSlot_rep hr (by omega) (fun k2 hk2 => absurd hk2 (Nat.not_lt_zero k2))
    have := ih (o + 1) _ hcl (by omega)
    have hidx : o + 1 + rest.length = o + (rest.length + 1) := by omega
    rw [hidx] at this
    exact this

theorem clearC_fold (gs b n : Nat) (s : Scratch) :
    (List.range n).foldl (clearC gs b) s = (List.range' b n).foldl (clearSlot gs) s := by
  have hf : clearC gs b = fun s c => clearSlot gs s (b + c) := by
    funext s c; exact clearC_eq gs b s c
  rw [hf, List.range'_eq_map_range, List.foldl_map]

/-- The body of the second `parallel_for` for one `b`: the scratch vectors are clean again
and `counts[b - 1]` has grown by the sum of the join terms. -/
theorem processB_spec {G : Graph} {vLeft : Nat} (h : Preprocessed G vLeft)
    (ACs : List (HMap Nat)) (pid size b : Nat) (st : Scratch × List Nat) (acc0 : Nat)
    (hb2 : b < vLeft) (hsz : pid * vLeft + vLeft ≤ size) (hsz2 : size < 4294967296)
    (hs : Clean size st.1) (hacc : st.2.getD (b - 1) 0 = u64 acc0) :
    ∃ As Cs : List Nat, As.Nodup ∧ Cs.Nodup ∧
      (∀ a, a ∈ As ↔ a < b ∧ a ∈ (pairsOf G b).map Prod.snd) ∧
      (∀ c, c ∈ Cs ↔ b < c ∧ c ∈ (pairsOf G b).map Prod.snd) ∧
      Clean size (processB G vLeft ACs pid st b).1 ∧
      (processB G vLeft ACs pid st b).2 = st.2.set (b - 1)
        (u64 (acc0 + (As.map (fun a => (Cs.map (fun c =>
          joinTerm (ACs.getD a HMap.empty) (common G b a) (common G b c) c)).sum)).sum)) := by
  have hgs : u32 (pid * vLeft) = pid * vLeft := Nat.mod_eq_of_lt (by omega)
  obtain ⟨As, Cs, hr, hnA, hnC, hndA, hndC, hmA, hmC, hCv⟩ :=
    group_inv h hb2 hsz st.1 hs
  have hAlen : As.length ≤ b := by
    have := length_le_of_nodup_Ico As 0 b hndA (fun v hv => ⟨Nat.zero_le _, ((hmA v).1 hv).1⟩)
    omega
  have hClen : Cs.length ≤ vLeft - (b + 1) :=
    length_le_of_nodup_Ico Cs (b + 1) vLeft hndC (fun v hv => ⟨((hmC v).1 hv).1, hCv v hv⟩)
  refine ⟨As, Cs, hndA, hndC, hmA, hmC, ?_⟩
  unfold processB
  simp only [hgs, hnA, hnC, hacc]
  have hj := joinA_fold ACs (show pid * vLeft + b ≤ size by omega)
    As 0 (group G (pid * vLeft) b st.1).1 acc0 hr.toJRep (by omega)
  rw [← List.range_eq_range'] at hj
  rw [Nat.zero_add] at hj
  rw [clearC_fold]
  have hc := clear_fold Cs b _ hj.1.flip (by omega)
  refine ⟨hc.flip.toClean, ?_⟩
  have hcont : cont (pairsOf G b) = common G b := funext (cont_pairsOf h b)
  rw [hj.2, hcont]

end BTJ

end Induced6

namespace Induced6

open Finset

namespace BTJ

theorem length_filter_split {α : Type} (l : List α) (p q : α → Bool) :
    (l.filter p).length = (l.filter (fun x => p x && q x)).length
      + (l.filter (fun x => p x && !q x)).length := by
  induction l with
  | nil => rfl
  | cons x xs ih =>
    simp only [List.filter_cons]
    cases hp : p x <;> cases hq : q x <;> simp [ih] <;> omega

theorem triple_rot {G : Graph} {vLeft : Nat} (h : Preprocessed G vLeft) (a b c : Nat) :
    triple G b a c = triple G a c b := by
  unfold triple
  rw [length_filter_eq_card _ (h.nodup b), length_filter_eq_card _ (h.nodup a)]
  congr 1
  ext u
  simp only [Finset.mem_filter, List.mem_toFinset, Bool.and_eq_true, decide_eq_true_eq]
  rw [h.mem_comm b u, h.mem_comm a u]
  tauto

theorem common_length {G : Graph} {vLeft : Nat} (h : Preprocessed G vLeft) (b a c : Nat) :
    (common G b a).length = triple G b a c + exclL G b a c := by
  unfold common triple exclL
  rw [length_filter_split _ (fun u => decide (a ∈ nbrs G u)) (fun u => decide (c ∈ nbrs G u))]
  congr 2
  apply List.filter_congr
  intro u _
  unfold adj
  rw [decide_eq_decide.mpr (h.mem_comm a u), decide_eq_decide.mpr (h.mem_comm c u)]

theorem wedges_eq {G : Graph} {vLeft : Nat} (h : Preprocessed G vLeft) (a c b : Nat) :
    wedges G a c = triple G a c b + exclL G a c b := by
  unfold wedges
  rw [List.countP_eq_length_filter]
  exact common_length h a c b

theorem common_sorted {G : Graph} {vLeft : Nat} (h : Preprocessed G vLeft) (b a : Nat) :
    (common G b a).Sorted (fun x y => x > y) :=
  List.Pairwise.filter _ (h.sorted_all b)

theorem inter_common {G : Graph} {vLeft : Nat} (h : Preprocessed G vLeft) (b a c : Nat)
    (hb : b < vLeft) :
    intersection_size (common G b a) (common G b c) = triple G b a c := by
  have hlen : (nbrs G b).length ≤ G.length :=
    length_le_of_nodup_lt _ _ (h.nodup b) (fun z hz => (h.left_nbrs b hb z hz).2)
  have hl2 : (common G b a).length ≤ (nbrs G b).length := List.length_filter_le _ _
  have hsz := h.size_lt
  rw [intersection_size_spec _ _ (common_sorted h b a) (common_sorted h b c) (by omega)]
  unfold triple common
  rw [List.filter_filter]
  congr 1
  apply List.filter_congr
  intro u hu
  rw [Bool.and_comm]
  congr 1
  apply decide_eq_decide.mpr
  rw [List.mem_filter, decide_eq_true_eq]
  exact ⟨fun hh => hh.2, fun hh => ⟨hu, hh⟩⟩

theorem joinTerm_eq {G : Graph} {vLeft : Nat} (h : Preprocessed G vLeft) (a b c : Nat)
    (hab : a < b) (hbc : b < c) (hc : c < vLeft) (S : HMap Nat)
    (hS : S c = wedgeMap G a c) :
    joinTerm S (common G b a) (common G b c) c = u64 (prodL G a b c) := by
  have hsz := h.size_lt
  have hlb : (nbrs G b).length ≤ G.length :=
    length_le_of_nodup_lt _ _ (h.nodup b) (fun z hz => (h.left_nbrs b (by omega) z hz).2)
  have hla : (nbrs G a).length ≤ G.length :=
    length_le_of_nodup_lt _ _ (h.nodup a) (fun z hz => (h.left_nbrs a (by omega) z hz).2)
  have ht : triple G b a c ≤ (nbrs G b).length := List.length_filter_le _ _
  have hAB := common_length h b a c
  have hBC := common_length h b c a
  have hABle : (common G b a).length ≤ (nbrs G b).length := List.length_filter_le _ _
  have hBCle : (common G b c).length ≤ (nbrs G b).length := List.length_filter_le _ _
  have hW := wedges_eq h a c b
  have hWle : wedges G a c ≤ (nbrs G a).length := List.countP_le_length _
  have hinter := inter_common h b a c (by omega)
  have ht2 : triple G b c a = triple G b a c := by
    unfold triple
    congr 1
    apply List.filter_congr
    intro u _
    rw [Bool.and_comm]
  rw [ht2] at hBC
  rw [← triple_rot h a b c] at hW
  have hu32 : u32 (triple G b a c) = triple G b a c := Nat.mod_eq_of_lt (by omega)
  have hprod : prodL G a b c = exclL G b a c * exclL G a c b * exclL G b c a := by
    unfold prodL
    rw [exclL_comm h a b c (by omega) (by omega)]
    ring
  unfold joinTerm
  rw [hS]
  unfold wedgeMap
  by_cases hw : a < c ∧ 0 < wedges G a c
  · rw [if_pos hw]
    simp only
    rw [hinter, hu32, hAB, hBC, hW]
    have e1 : u64 (triple G b a c + exclL G b a c + 18446744073709551616 - triple G b a c)
        = exclL G b a c := by
      unfold u64; omega
    have e2 : sub32 (triple G b a c + exclL G a c b) (triple G b a c) = exclL G a c b := by
      rw [sub32_of_le (by omega) (by omega)]; omega
    have e3 : sub32 (triple G b a c + exclL G b c a) (triple G b a c) = exclL G b c a := by
      rw [sub32_of_le (by omega) (by omega)]; omega
    rw [e1, e2, e3, u64_mul_u64, hprod]
  · rw [if_neg hw]
    have h0 : wedges G a c = 0 := by
      by_contra hne
      exact hw ⟨by omega, Nat.pos_of_ne_zero hne⟩
    have h1 : exclL G a c b = 0 := by omega
    rw [hprod, h1]
    simp [u64]

theorem mem_pairsOf_snd (G : Graph) (b v : Nat) :
    v ∈ (pairsOf G b).map Prod.snd ↔ ∃ u ∈ nbrs G b, v ∈ nbrs G u := by
  unfold pairsOf
  simp only [List.mem_map, List.mem_flatMap]
  constructor
  · rintro ⟨p, ⟨u, hu, c, hc, rfl⟩, rfl⟩
    exact ⟨u, hu, hc⟩
  · rintro ⟨u, hu, hv⟩
    exact ⟨(u, v), ⟨u, hu, v, hv, rfl⟩, rfl⟩

theorem exclL_zero_of_not_pair {G : Graph} {vLeft : Nat} (h : Preprocessed G vLeft)
    (b v r : Nat) (hv : v ∉ (pairsOf G b).map Prod.snd) : exclL G b v r = 0 := by
  have hc : common G b v = [] := by
    unfold common
    rw [List.filter_eq_nil_iff]
    intro u hu hm
    rw [decide_eq_true_eq] at hm
    exact hv ((mem_pairsOf_snd G b v).2 ⟨u, hu, hm⟩)
  have := common_length h b v r
  rw [hc, List.length_nil] at this
  omega

theorem u64_add_congr (a x y : Nat) (h : u64 x = u64 y) : u64 (a + x) = u64 (a + y) := by
  unfold u64 at *
  omega

theorem join_total {G : Graph} {vLeft : Nat} (h : Preprocessed G vLeft) (b : Nat)
    (hb2 : b < vLeft) (As Cs : List Nat) (hndA : As.Nodup) (hndC : Cs.Nodup)
    (hmA : ∀ a, a ∈ As ↔ a < b ∧ a ∈ (pairsOf G b).map Prod.snd)
    (hmC : ∀ c, c ∈ Cs ↔ b < c ∧ c ∈ (pairsOf G b).map Prod.snd)
    (ACs : List (HMap Nat))
    (hACs : ∀ a c, a < b → b < c → c < vLeft → ACs.getD a HMap.empty c = wedgeMap G a c)
    (acc0 : Nat) :
    u64 (acc0 + (As.map (fun a => (Cs.map (fun c =>
        joinTerm (ACs.getD a HMap.empty) (common G b a) (common G b c) c)).sum)).sum)
      = u64 (acc0 + totalB G vLeft b) := by
  have hCv : ∀ c ∈ Cs, c < vLeft := by
    intro c hc
    obtain ⟨u, hu, hcu⟩ := (mem_pairsOf_snd G b c).1 ((hmC c).1 hc).2
    have hu2 := h.left_nbrs b hb2 u hu
    exact h.right_nbrs u hu2.2 hu2.1 c hcu
  apply u64_add_congr
  have e1 : (As.map (fun a => (Cs.map (fun c =>
        joinTerm (ACs.getD a HMap.empty) (common G b a) (common G b c) c)).sum))
      = As.map (fun a => (Cs.map (fun c => u64 (prodL G a b c))).sum) := by
    apply List.map_congr_left
    intro a ha
    apply congrArg
    apply List.map_congr_left
    intro c hc
    have ha2 := ((hmA a).1 ha).1
    have hc2 := ((hmC c).1 hc).1
    exact joinTerm_eq h a b c ha2 hc2 (hCv c hc) _ (hACs a c ha2 hc2 (hCv c hc))
  rw [e1]
  have e2 : u64 ((As.map (fun a => (Cs.map (fun c => u64 (prodL G a b c))).sum)).sum)
      = u64 ((As.map (fun a => (Cs.map (fun c => prodL G a b c)).sum)).sum) := by
    apply u64_sum_congr
    intro a _
    exact u64_sum_map_u64 _ _
  rw [e2]
  apply congrArg
  rw [sum_map_eq_finset_sum _ hndA]
  unfold totalB
  have hsubA : As.toFinset ⊆ range vLeft := by
    intro a ha
    rw [List.mem_toFinset] at ha
    have := ((hmA a).1 ha).1
    exact Finset.mem_range.mpr (by omega)
  have hsubC : Cs.toFinset ⊆ range vLeft := by
    intro c hc
    rw [List.mem_toFinset] at hc
    exact Finset.mem_range.mpr (hCv c hc)
  rw [← Finset.sum_subset hsubA]
  · apply Finset.sum_congr rfl
    intro a ha
    rw [List.mem_toFinset] at ha
    have ha2 := ((hmA a).1 ha).1
    rw [sum_map_eq_finset_sum _ hndC, ← Finset.sum_subset hsubC]
    · apply Finset.sum_congr rfl
      intro c hc
      rw [List.mem_toFinset] at hc
      rw [if_pos ⟨ha2, ((hmC c).1 hc).1⟩]
    · intro c hc hnc
      rw [List.mem_toFinset] at hnc
      by_cases hbc : a < b ∧ b < c
      · rw [if_pos hbc]
        have hz : exclL G b c a = 0 :=
          exclL_zero_of_not_pair h b c a (fun hm => hnc ((hmC c).2 ⟨hbc.2, hm⟩))
        unfold prodL
        rw [hz]; simp
      · rw [if_neg hbc]
  · intro a ha hna
    rw [List.mem_toFinset] at hna
    apply Finset.sum_eq_zero
    intro c hc
    rw [Finset.mem_range] at ha hc
    by_cases hbc : a < b ∧ b < c
    · rw [if_pos hbc]
      have hz : exclL G b a c = 0 :=
        exclL_zero_of_not_pair h b a c (fun hm => hna ((hmA a).2 ⟨hbc.1, hm⟩))
      unfold prodL
      rw [exclL_comm h a b c ha hb2, hz]; simp
    · rw [if_neg hbc]

end BTJ

end Induced6

namespace Induced6

open Finset

namespace BTJ

/-- The second `parallel_for` of a batch, from `b` on for `n` vertices. -/
theorem processB_fold {G : Graph} {vLeft : Nat} (h : Preprocessed G vLeft)
    (ACs : List (HMap Nat)) (pid : Nat → Nat) (num_threads : Nat)
    (hpid : ∀ b, pid b < num_threads) (hsz : num_threads * vLeft < 4294967296) :
    ∀ (n b : Nat) (r : Scratch × List Nat), 1 ≤ b → b + n ≤ vLeft - 1 →
      Clean (num_threads * vLeft) r.1 → CountsInv G vLeft b r.2 →
      (∀ b2 a c, b ≤ b2 → b2 < b + n → a < b2 → b2 < c → c < vLeft →
        ACs.getD a HMap.empty c = wedgeMap G a c) →
      Clean (num_threads * vLeft)
          ((List.range' b n).foldl (fun r b => processB G vLeft ACs (pid b) r b) r).1 ∧
        CountsInv G vLeft (b + n)
          ((List.range' b n).foldl (fun r b => processB G vLeft ACs (pid b) r b) r).2 := by
  intro n
  induction n with
  | zero => intro b r _ _ hc hi _; exact ⟨hc, hi⟩
  | succ n ih =>
    intro b r hb1 hbn hc hi hACs
    rw [List.range'_succ, List.foldl_cons]
    have hszb : pid b * vLeft + vLeft ≤ num_threads * vLeft := by
      have h1 : (pid b + 1) * vLeft ≤ num_threads * vLeft :=
        Nat.mul_le_mul_right vLeft (hpid b)
      rw [Nat.succ_mul] at h1
      exact h1
    have hacc : r.2.getD (b - 1) 0 = u64 0 := by
      rw [hi.2 (b - 1) (by omega), if_neg (by omega)]
      rfl
    obtain ⟨As, Cs, hndA, hndC, hmA, hmC, hcl, hcnt⟩ :=
      processB_spec h ACs (pid b) (num_threads * vLeft) b r 0 (by omega) hszb hsz hc hacc
    rw [join_total h b (by omega) As Cs hndA hndC hmA hmC ACs
      (fun a c ha hc2 hc3 => hACs b a c (le_refl b) (by omega) ha hc2 hc3) 0,
      Nat.zero_add] at hcnt
    have hi2 : CountsInv G vLeft (b + 1) (processB G vLeft ACs (pid b) r b).2 := by
      rw [hcnt]
      refine ⟨by rw [List.length_set]; exact hi.1, ?_⟩
      intro i hi3
      rw [getD_set_eq, hi.1]
      by_cases hib : b - 1 = i
      · have hpos : b - 1 = i ∧ b - 1 < vLeft - 2 := ⟨hib, by omega⟩
        have hlt : i + 1 < b + 1 := by omega
        have hbe : i + 1 = b := by omega
        rw [if_pos hpos, if_pos hlt, hbe]
      · rw [if_neg (fun hh => hib hh.1), hi.2 i hi3]
        by_cases hlt : i + 1 < b
        · rw [if_pos hlt, if_pos (by omega)]
        · rw [if_neg hlt, if_neg (by omega)]
    have := ih (b + 1) _ (by omega) (by omega) hcl hi2
      (fun b2 a c h1 h2 => hACs b2 a c (by omega) (by omega))
    have hidx : b + 1 + n = b + (n + 1) := by omega
    rw [hidx] at this
    exact this

theorem batchStep_inv {G : Graph} {vLeft : Nat} (h : Preprocessed G vLeft) (h3 : 3 ≤ vLeft)
    (ps : Nat) (hps : 1 ≤ ps) (hwrap : ps + vLeft ≤ 4294967296) (pid : Nat → Nat)
    (num_threads : Nat) (hpid : ∀ b, pid b < num_threads)
    (hsz : num_threads * vLeft < 4294967296) (st : Batch)
    (hi : BInv G vLeft ps (num_threads * vLeft) st) (hb : st.b_start ≤ vLeft - 2) :
    BInv G vLeft ps (num_threads * vLeft) (batchStep G vLeft ps pid st) ∧
      (batchStep G vLeft ps pid st).b_start = st.b_start + ps := by
  have hae := hi.ae_eq
  have hbe := hi.be_eq
  have hcs := hi.cs_eq
  have hbs := hi.bs_pos
  have hae2 : st.a_end ≤ vLeft - 3 := by rw [hae]; exact Nat.min_le_right _ _
  have hae3 : st.b_start ≤ st.a_end + 2 := by rw [hae, Nat.min_def]; split_ifs <;> omega
  have hbe2 : st.b_end ≤ vLeft - 2 := by rw [hbe]; exact Nat.min_le_right _ _
  have hbe3 : st.b_end ≤ st.a_end + 1 := by rw [hbe]; exact Nat.min_le_left _ _
  have hbe4 : st.b_start ≤ st.b_end := by rw [hbe, Nat.min_def]; split_ifs <;> omega
  have hu1 : u32 (st.a_end + 1) = st.a_end + 1 := Nat.mod_eq_of_lt (by omega)
  have hu2 : u32 (st.b_end + 1) = st.b_end + 1 := Nat.mod_eq_of_lt (by omega)
  have hu3 : u32 (st.a_end + ps) = st.a_end + ps := Nat.mod_eq_of_lt (by omega)
  have hu4 : u32 (st.b_start + ps) = st.b_start + ps := Nat.mod_eq_of_lt (by omega)
  have hu5 : u32 (st.b_start + ps + 1) = st.b_start + ps + 1 := Nat.mod_eq_of_lt (by omega)
  have hs3 : sub32 vLeft 3 = vLeft - 3 := sub32_of_le h3 (by omega)
  have hs2 : sub32 vLeft 2 = vLeft - 2 := sub32_of_le (by omega) (by omega)
  have hacs := updateAC_fold h st.b_start st.c_start st.a_end st.ACs hbs (by omega) hi.acs
    hae3
  have hfold := processB_fold h
    ((List.range (st.a_end + 1)).foldl (updateAC G st.b_start st.c_start) st.ACs)
    pid num_threads hpid hsz (st.b_end + 1 - st.b_start) st.b_start (st.scratch, st.counts)
    hbs (by omega) hi.clean hi.counts (by
      intro b2 a c h1 h2 ha hc hcv
      exact (hacs.2 a (by omega)).1 (by omega) c (by omega))
  have hnew : st.b_start + (st.b_end + 1 - st.b_start) = st.b_end + 1 := by omega
  rw [hnew] at hfold
  have hmin : min (st.a_end + ps) (vLeft - 3) ≤ vLeft - 3 := Nat.min_le_right _ _
  have hu6 : u32 (min (st.a_end + ps) (vLeft - 3) + 1) = min (st.a_end + ps) (vLeft - 3) + 1 :=
    Nat.mod_eq_of_lt (by omega)
  have f1 : (batchStep G vLeft ps pid st).b_start = st.b_start + ps := by
    show u32 (st.b_start + ps) = _
    exact hu4
  have f2 : (batchStep G vLeft ps pid st).c_start = st.b_start + ps + 1 := by
    show u32 (u32 (st.b_start + ps) + 1) = _
    rw [hu4, hu5]
  have f3 : (batchStep G vLeft ps pid st).a_end = min (st.a_end + ps) (vLeft - 3) := by
    show min (u32 (st.a_end + ps)) (sub32 vLeft 3) = _
    rw [hu3, hs3]
  have f4 : (batchStep G vLeft ps pid st).b_end
      = min (min (st.a_end + ps) (vLeft - 3) + 1) (vLeft - 2) := by
    show min (u32 (min (u32 (st.a_end + ps)) (sub32 vLeft 3) + 1)) (sub32 vLeft 2) = _
    rw [hu3, hs3, hu6, hs2]
  have f5 : (batchStep G vLeft ps pid st).ACs
      = (List.range (st.a_end + 1)).foldl (updateAC G st.b_start st.c_start) st.ACs := by
    show (List.range (u32 (st.a_end + 1))).foldl _ _ = _
    rw [hu1]
  have f6 : (batchStep G vLeft ps pid st).scratch
      = ((List.range' st.b_start (st.b_end + 1 - st.b_start)).foldl
        (fun r b => processB G vLeft
          ((List.range (st.a_end + 1)).foldl (updateAC G st.b_start st.c_start) st.ACs)
          (pid b) r b) (st.scratch, st.counts)).1 := by
    show ((List.range' st.b_start (u32 (st.b_end + 1) - st.b_start)).foldl
        (fun r b => processB G vLeft
          ((List.range (u32 (st.a_end + 1))).foldl (updateAC G st.b_start st.c_start) st.ACs)
          (pid b) r b) (st.scratch, st.counts)).1 = _
    rw [hu1, hu2]
  have f7 : (batchStep G vLeft ps pid st).counts
      = ((List.range' st.b_start (st.b_end + 1 - st.b_start)).foldl
        (fun r b => processB G vLeft
          ((List.range (st.a_end + 1)).foldl (updateAC G st.b_start st.c_start) st.ACs)
          (pid b) r b) (st.scratch, st.counts)).2 := by
    show ((List.range' st.b_start (u32 (st.b_end + 1) - st.b_start)).foldl
        (fun r b => processB G vLeft
          ((List.range (u32 (st.a_end + 1))).foldl (updateAC G st.b_start st.c_start) st.ACs)
          (pid b) r b) (st.scratch, st.counts)).2 = _
    rw [hu1, hu2]
  have hmn : st.a_end = min (st.b_start + ps - 2) (vLeft - 3) := hae
  have hmn2 : st.b_end = min (st.a_end + 1) (vLeft - 2) := hbe
  rw [Nat.min_def] at hmn hmn2
  generalize batchStep G vLeft ps pid st = st2 at f1 f2 f3 f4 f5 f6 f7 ⊢
  clear hu1 hu2 hu3 hu4 hu5 hu6 hs2 hs3
  refine ⟨⟨by rw [f1]; omega, by rw [f2, f1], ?_, by rw [f4, f3], ?_, by rw [f6]; exact hfold.1,
    ?_⟩, f1⟩
  · rw [f3, f1]
    clear hfold hacs f5 f6 f7
    simp only [Nat.min_def]
    split_ifs at hmn ⊢ <;> omega
  · rw [f1, f2, f5]
    refine ⟨hacs.1, ?_⟩
    intro a ha
    constructor
    · intro ha2 k hk
      exact (hacs.2 a ha).1 (by split_ifs at hmn <;> omega) k (by omega)
    · intro ha2 k
      exact (hacs.2 a ha).2 (by split_ifs at hmn <;> omega) k
  · rw [f1, f7]
    refine ⟨hfold.2.1, ?_⟩
    intro i hi2
    rw [hfold.2.2 i hi2]
    by_cases hlt : i + 1 < st.b_start + ps
    · rw [if_pos hlt, if_pos (by split_ifs at hmn hmn2 <;> omega)]
    · rw [if_neg hlt, if_neg (by split_ifs at hmn hmn2 <;> omega)]

theorem batchLoop_spec {G : Graph} {vLeft : Nat} (h : Preprocessed G vLeft) (h3 : 3 ≤ vLeft)
    (ps : Nat) (hps : 1 ≤ ps) (hwrap : ps + vLeft ≤ 4294967296) (pid : Nat → Nat)
    (num_threads : Nat) (hpid : ∀ b, pid b < num_threads)
    (hsz : num_threads * vLeft < 4294967296) :
    ∀ (fuel : Nat) (st : Batch), BInv G vLeft ps (num_threads * vLeft) st →
      vLeft - 1 - st.b_start < fuel →
      ∃ st2, batchLoop G vLeft ps pid fuel st = some st2 ∧
        BInv G vLeft ps (num_threads * vLeft) st2 ∧ vLeft - 2 < st2.b_start := by
  have hs2 : sub32 vLeft 2 = vLeft - 2 := sub32_of_le (by omega) (by omega)
  intro fuel
  induction fuel with
  | zero => intro st _ hf; exact absurd hf (Nat.not_lt_zero _)
  | succ fuel ih =>
    intro st hi hf
    unfold batchLoop
    rw [hs2]
    by_cases hb : st.b_start ≤ vLeft - 2
    · rw [if_pos hb]
      have hstep := batchStep_inv h h3 ps hps hwrap pid num_threads hpid hsz st hi hb
      exact ih _ hstep.1 (by rw [hstep.2]; omega)
    · rw [if_neg hb]
      exact ⟨st, rfl, hi, by omega⟩

theorem getD_replicate_self {α : Type} (n i : Nat) (a : α) :
    (List.replicate n a).getD i a = a := by
  by_cases h : i < n
  · exact getD_replicate_lt n i a a h
  · rw [List.getD_eq_default]
    rw [List.length_replicate]; omega

theorem sum_eq_range_getD (l : List Nat) :
    l.sum = ∑ i in range l.length, l.getD i 0 := by
  rw [← sum_map_range, map_getD_range]

theorem totalB_sum {G : Graph} {vLeft : Nat} (h : Preprocessed G vLeft) (h3 : 3 ≤ vLeft) :
    ∑ i in range (vLeft - 2), totalB G vLeft (i + 1) = tripleSum G vLeft := by
  have h0 : totalB G vLeft 0 = 0 := by
    unfold totalB
    apply Finset.sum_eq_zero; intro a _
    apply Finset.sum_eq_zero; intro c _
    rw [if_neg]; omega
  have hlast : totalB G vLeft (vLeft - 2 + 1) = 0 := by
    unfold totalB
    apply Finset.sum_eq_zero; intro a _
    apply Finset.sum_eq_zero; intro c hc
    rw [Finset.mem_range] at hc
    rw [if_neg]; omega
  have hv : range vLeft = range (vLeft - 2 + 1 + 1) := by
    congr 1; omega
  have e : ∑ b in range vLeft, totalB G vLeft b
      = ∑ i in range (vLeft - 2), totalB G vLeft (i + 1) := by
    rw [hv, Finset.sum_range_succ, Finset.sum_range_succ', hlast, h0]
    rfl
  rw [← e, tripleSum_eq_prodL h]
  unfold totalB
  rw [Finset.sum_comm]

/-- Strategy A returns the product-form count modulo `2^64`, for every batch width that
does not make `b_start` wrap. -/
theorem btj_getCount_mod {G : Graph} {vLeft : Nat} (h : Preprocessed G vLeft)
    (h3 : 3 ≤ vLeft) (ps : Nat) (hps : 1 ≤ ps) (hwrap : ps + vLeft ≤ 4294967296)
    (pid : Nat → Nat) (num_threads : Nat) (hpid : ∀ b, pid b < num_threads)
    (hsz : num_threads * vLeft < 4294967296) :
    getCount num_threads pid G vLeft ps = some (u64 (tripleSum G vLeft)) := by
  have hs3 : sub32 vLeft 3 = vLeft - 3 := sub32_of_le h3 (by omega)
  have hs2 : sub32 vLeft 2 = vLeft - 2 := sub32_of_le (by omega) (by omega)
  have hs1 : sub32 ps 1 = ps - 1 := sub32_of_le hps (by omega)
  have hsize : u32 (num_threads * vLeft) = num_threads * vLeft := Nat.mod_eq_of_lt hsz
  have hinit : BInv G vLeft ps (num_threads * vLeft)
      { a_end := min (ps - 1) (vLeft - 3), b_start := 1, b_end := min ps (vLeft - 2),
        c_start := 2, ACs := List.replicate (vLeft - 2) HMap.empty,
        scratch := ⟨List.replicate (num_threads * vLeft) [],
          List.replicate (num_threads * vLeft) 0, List.replicate (num_threads * vLeft) 0,
          List.replicate (num_threads * vLeft) 0⟩,
        counts := List.replicate (vLeft - 2) 0 } := by
    refine ⟨le_refl 1, rfl, ?_, ?_, ?_, ?_, ?_⟩
    · show min (ps - 1) (vLeft - 3) = min (1 + ps - 2) (vLeft - 3)
      have : 1 + ps - 2 = ps - 1 := by omega
      rw [this]
    · show min ps (vLeft - 2) = min (min (ps - 1) (vLeft - 3) + 1) (vLeft - 2)
      simp only [Nat.min_def]
      split_ifs <;> omega
    · refine ⟨List.length_replicate _ _, ?_⟩
      intro a _
      constructor
      · intro (ha : a + 1 < 1); exact absurd ha (by omega)
      · intro _ k
        show (List.replicate (vLeft - 2) HMap.empty).getD a HMap.empty k = none
        rw [getD_replicate_self]
        rfl
    · exact ⟨List.length_replicate _ _, List.length_replicate _ _, List.length_replicate _ _,
        List.length_replicate _ _, fun i => getD_replicate_self _ _ _,
        fun i => getD_replicate_self _ _ _, fun i => getD_replicate_self _ _ _⟩
    · refine ⟨List.length_replicate _ _, ?_⟩
      intro i _
      show (List.replicate (vLeft - 2) 0).getD i 0 = _
      rw [getD_replicate_self, if_neg (show ¬ (i + 1 < 1) by omega)]
  obtain ⟨st2, hloop, hinv, hdone⟩ := batchLoop_spec h h3 ps hps hwrap pid num_threads hpid hsz
    4294967297 _ hinit (by show vLeft - 1 - 1 < 4294967297; omega)
  unfold getCount
  simp only [hs3, hs2, hs1, hsize]
  rw [hloop]
  show some (reduceCounts st2.counts) = _
  apply congrArg some
  rw [reduceCounts_eq, sum_eq_range_getD, hinv.counts.1, ← totalB_sum h h3]
  have e : ∑ i in range (vLeft - 2), st2.counts.getD i 0
      = ∑ i in range (vLeft - 2), u64 (totalB G vLeft (i + 1)) := by
    apply Finset.sum_congr rfl
    intro i hi
    rw [Finset.mem_range] at hi
    rw [hinv.counts.2 i hi, if_pos (by omega)]
  rw [e]
  apply u64_finset_congr
  intro i _
  exact u64_idem _

end BTJ

end Induced6

namespace Induced6
open Finset

/-- For a symmetric `F`, the sum over the triples of pairwise distinct elements is six
times the sum over the sorted triples. -/
theorem distinct_sum_six (s : Finset Nat) (F : Nat → Nat → Nat → Nat)
    (h12 : ∀ a b c, F a b c = F b a c) (h23 : ∀ a b c, F a b c = F a c b) :
    (∑ a in s, ∑ b in s, ∑ c in s, if a ≠ b ∧ a ≠ c ∧ b ≠ c then F a b c else 0)
      = 6 * ∑ a in s, ∑ b in s, ∑ c in s, if a < b ∧ b < c then F a b c else 0 := by
  have hsplit : ∀ p q r, (if p ≠ q ∧ p ≠ r ∧ q ≠ r then F p q r else 0) =
      (if p < q ∧ q < r then F p q r else 0) + (if p < r ∧ r < q then F p q r else 0) +
      (if q < p ∧ p < r then F p q r else 0) + (if r < p ∧ p < q then F p q r else 0) +
      (if q < r ∧ r < p then F p q r else 0) + (if r < q ∧ q < p then F p q r else 0) := by
    intro p q r
    by_cases hd : p ≠ q ∧ p ≠ r ∧ q ≠ r
    · rw [if_pos hd]
      obtain ⟨hpq, hpr, hqr⟩ := hd
      rcases Nat.lt_or_gt_of_ne hpq with h1 | h1 <;> rcases Nat.lt_or_gt_of_ne hpr with h2 | h2 <;>
        rcases Nat.lt_or_gt_of_ne hqr with h3 | h3 <;>
        simp [h1, h2, h3, Nat.lt_asymm h1, Nat.lt_asymm h2, Nat.lt_asymm h3] <;> omega
    · rw [if_neg hd]
      have e1 : ¬ (p < q ∧ q < r) := fun h => hd ⟨by omega, by omega, by omega⟩
      have e2 : ¬ (p < r ∧ r < q) := fun h => hd ⟨by omega, by omega, by omega⟩
      have e3 : ¬ (q < p ∧ p < r) := fun h => hd ⟨by omega, by omega, by omega⟩
      have e4 : ¬ (r < p ∧ p < q) := fun h => hd ⟨by omega, by omega, by omega⟩
      have e5 : ¬ (q < r ∧ r < p) := fun h => hd ⟨by omega, by omega, by omega⟩
      have e6 : ¬ (r < q ∧ q < p) := fun h => hd ⟨by omega, by omega, by omega⟩
      rw [if_neg e1, if_neg e2, if_neg e3, if_neg e4, if_neg e5, if_neg e6]
  rw [tsum_congr s _ _ hsplit]
  simp only [Finset.sum_add_distrib]
  have e2 : (∑ p in s, ∑ q in s, ∑ r in s, if p < r ∧ r < q then F p q r else 0)
      = ∑ x in s, ∑ y in s, ∑ z in s, if x < y ∧ y < z then F x y z else 0 := by
    rw [tsum_swap23 s (fun p q r => if p < r ∧ r < q then F p q r else 0)]
    exact tsum_congr s _ _ (fun x y z => by rw [h23 x z y])
  have e3 : (∑ p in s, ∑ q in s, ∑ r in s, if q < p ∧ p < r then F p q r else 0)
      = ∑ x in s, ∑ y in s, ∑ z in s, if x < y ∧ y < z then F x y z else 0 := by
    rw [tsum_swap12 s (fun p q r => if q < p ∧ p < r then F p q r else 0)]
    exact tsum_congr s _ _ (fun x y z => by rw [h12 y x z])
  have e4 : (∑ p in s, ∑ q in s, ∑ r in s, if r < p ∧ p < q then F p q r else 0)
      = ∑ x in s, ∑ y in s, ∑ z in s, if x < y ∧ y < z then F x y z else 0 := by
    rw [tsum_swap23 s (fun p q r => if r < p ∧ p < q then F p q r else 0)]
    rw [tsum_swap12 s (fun p r q => if r < p ∧ p < q then F p q r else 0)]
    exact tsum_congr s _ _ (fun x y z => by rw [h23 y z x, h12 y x z])
  have e5 : (∑ p in s, ∑ q in s, ∑ r in s, if q < r ∧ r < p then F p q r else 0)
      = ∑ x in s, ∑ y in s, ∑ z in s, if x < y ∧ y < z then F x y z else 0 := by
    rw [tsum_swap12 s (fun p q r => if q < r ∧ r < p then F p q r else 0)]
    rw [tsum_swap23 s (fun q p r => if q < r ∧ r < p then F p q r else 0)]
    exact tsum_congr s _ _ (fun x y z => by rw [h12 z x y, h23 x z y])
  have e6 : (∑ p in s, ∑ q in s, ∑ r in s, if r < q ∧ q < p then F p q r else 0)
      = ∑ x in s, ∑ y in s, ∑ z in s, if x < y ∧ y < z then F x y z else 0 := by
    rw [tsum_swap12 s (fun p q r => if r < q ∧ q < p then F p q r else 0)]
    rw [tsum_swap23 s (fun q p r => if r < q ∧ q < p then F p q r else 0)]
    rw [tsum_swap12 s (fun q r p => if r < q ∧ q < p then F p q r else 0)]
    exact tsum_congr s _ _ (fun x y z => by rw [h12 z y x, h23 y z x, h12 y x z])
  rw [e2, e3, e4, e5, e6]
  ring

/-- The sum over the distinct triples of an image under a map that is injective there. -/
theorem distinct_sum_image (s : Finset Nat) (f : Nat → Nat) (F : Nat → Nat → Nat → Nat)
    (hinj : ∀ x ∈ s, ∀ y ∈ s, f x = f y → x = y) :
    (∑ a in s.image f, ∑ b in s.image f, ∑ c in s.image f,
      if a ≠ b ∧ a ≠ c ∧ b ≠ c then F a b c else 0)
      = ∑ a in s, ∑ b in s, ∑ c in s,
        if a ≠ b ∧ a ≠ c ∧ b ≠ c then F (f a) (f b) (f c) else 0 := by
  rw [Finset.sum_image hinj]
  apply Finset.sum_congr rfl; intro a ha
  rw [Finset.sum_image hinj]
  apply Finset.sum_congr rfl; intro b hb
  rw [Finset.sum_image hinj]
  apply Finset.sum_congr rfl; intro c hc
  have e1 : f a ≠ f b ↔ a ≠ b := ⟨fun h e => h (e ▸ rfl), fun h e => h (hinj a ha b hb e)⟩
  have e2 : f a ≠ f c ↔ a ≠ c := ⟨fun h e => h (e ▸ rfl), fun h e => h (hinj a ha c hc e)⟩
  have e3 : f b ≠ f c ↔ b ≠ c := ⟨fun h e => h (e ▸ rfl), fun h e => h (hinj b hb c hc e)⟩
  simp only [e1, e2, e3]

/-- A triple sum over a subset, when the terms outside the subset vanish. -/
theorem tsum_subset (s t : Finset Nat) (hst : s ⊆ t) (g : Nat → Nat → Nat → Nat)
    (h0 : ∀ a ∈ t, ∀ b ∈ t, ∀ c ∈ t, (a ∉ s ∨ b ∉ s ∨ c ∉ s) → g a b c = 0) :
    ∑ a in s, ∑ b in s, ∑ c in s, g a b c = ∑ a in t, ∑ b in t, ∑ c in t, g a b c := by
  rw [← Finset.sum_subset hst]
  · apply Finset.sum_congr rfl; intro a ha
    rw [← Finset.sum_subset hst]
    · apply Finset.sum_congr rfl; intro b hb
      rw [← Finset.sum_subset hst]
      intro c hc hnc
      exact h0 a (hst ha) b (hst hb) c hc (Or.inr (Or.inr hnc))
    · intro b hb hnb
      apply Finset.sum_eq_zero; intro c hc
      exact h0 a (hst ha) b hb c hc (Or.inr (Or.inl hnb))
  · intro a ha hna
    apply Finset.sum_eq_zero; intro b hb
    apply Finset.sum_eq_zero; intro c hc
    exact h0 a ha b hb c hc (Or.inl hna)

theorem exclProd_symm12 (G : Graph) (vL a b c : Nat) :
    exclF G vL a b c * exclF G vL b c a * exclF G vL a c b
      = exclF G vL b a c * exclF G vL a c b * exclF G vL b c a := by
  rw [exclF_comm G vL b a c]
  ring

theorem exclProd_symm23 (G : Graph) (vL a b c : Nat) :
    exclF G vL a b c * exclF G vL b c a * exclF G vL a c b
      = exclF G vL a c b * exclF G vL c b a * exclF G vL a b c := by
  rw [exclF_comm G vL c b a]
  ring

/-- The count is invariant under a relabelling that keeps the sides: `f` maps the part
`SL` of the left side onto the new left side and the part `SR` of the right side onto the new
right side, keeps the edges between them, every common neighbour of two vertices of `SL` is
in `SR`, and a left triple with a vertex outside `SL` contributes nothing. -/
theorem tripleSum_iso (G G2 : Graph) (vL vL2 : Nat) (SL SR : Finset Nat) (f : Nat → Nat)
    (hSL : SL ⊆ range vL) (hSR : SR ⊆ Ico vL G.length)
    (hinjL : ∀ x ∈ SL, ∀ y ∈ SL, f x = f y → x = y)
    (hinjR : ∀ x ∈ SR, ∀ y ∈ SR, f x = f y → x = y)
    (himL : SL.image f = range vL2) (himR : SR.image f = Ico vL2 G2.length)
    (hadj : ∀ a ∈ SL, ∀ x ∈ SR, adj G2 (f a) (f x) = adj G a x)
    (hcl1 : ∀ p ∈ SL, ∀ q ∈ SL, p ≠ q → ∀ x ∈ Ico vL G.length,
      adj G p x = true → adj G q x = true → x ∈ SR)
    (hcl2 : ∀ a b c, a < vL → b < vL → c < vL → a ≠ b → a ≠ c → b ≠ c →
      (a ∉ SL ∨ b ∉ SL ∨ c ∉ SL) →
      exclF G vL a b c * exclF G vL b c a * exclF G vL a c b = 0) :
    tripleSum G2 vL2 = tripleSum G vL := by
  have hex : ∀ p ∈ SL, ∀ q ∈ SL, ∀ r ∈ SL, p ≠ q →
      exclF G2 vL2 (f p) (f q) (f r) = exclF G vL p q r := by
    intro p hp q hq r hr hpq
    unfold exclF
    rw [← himR, Finset.filter_image, Finset.card_image_of_injOn]
    · congr 1
      ext x
      simp only [Finset.mem_filter]
      constructor
      · rintro ⟨hx, h1, h2, h3⟩
        rw [hadj p hp x hx] at h1
        rw [hadj q hq x hx] at h2
        rw [hadj r hr x hx] at h3
        exact ⟨hSR hx, h1, h2, h3⟩
      · rintro ⟨hx, h1, h2, h3⟩
        have hxs := hcl1 p hp q hq hpq x hx h1 h2
        rw [hadj p hp x hxs, hadj q hq x hxs, hadj r hr x hxs]
        exact ⟨hxs, h1, h2, h3⟩
    · intro x hx y hy hxy
      rw [Finset.coe_filter] at hx hy
      exact hinjR x hx.1 y hy.1 hxy
  have h6 : 6 * tripleSum G2 vL2 = 6 * tripleSum G vL := by
    unfold tripleSum
    rw [← distinct_sum_six (range vL2) _ (exclProd_symm12 G2 vL2) (exclProd_symm23 G2 vL2),
      ← distinct_sum_six (range vL) _ (exclProd_symm12 G vL) (exclProd_symm23 G vL),
      ← himL, distinct_sum_image SL f _ hinjL,
      ← tsum_subset SL (range vL) hSL]
    · apply Finset.sum_congr rfl; intro a ha
      apply Finset.sum_congr rfl; intro b hb
      apply Finset.sum_congr rfl; intro c hc
      by_cases hd : a ≠ b ∧ a ≠ c ∧ b ≠ c
      · rw [if_pos hd, if_pos hd, hex a ha b hb c hc hd.1, hex b hb c hc a ha hd.2.2,
          hex a ha c hc b hb hd.2.1]
      · rw [if_neg hd, if_neg hd]
    · intro a ha b hb c hc hn
      rw [Finset.mem_range] at ha hb hc
      by_cases hd : a ≠ b ∧ a ≠ c ∧ b ≠ c
      · rw [if_pos hd]
        exact hcl2 a b c ha hb hc hd.1 hd.2.1 hd.2.2 hn
      · rw [if_neg hd]
  omega

end Induced6

namespace Induced6
open Finset

theorem induced6_transpose (G G2 : Graph) (a b c x y z a1 b1 c1 x1 y1 z1 : Nat)
    (hax : adj G2 x1 a1 = adj G a x) (hay : adj G2 y1 a1 = adj G a y)
    (haz : adj G2 z1 a1 = adj G a z) (hbx : adj G2 x1 b1 = adj G b x)
    (hby : adj G2 y1 b1 = adj G b y) (hbz : adj G2 z1 b1 = adj G b z)
    (hcx : adj G2 x1 c1 = adj G c x) (hcy : adj G2 y1 c1 = adj G c y)
    (hcz : adj G2 z1 c1 = adj G c z) :
    induced6 G2 x1 y1 z1 a1 b1 c1 = induced6 G a b c x y z := by
  unfold induced6 isCycle6
  rw [hax, hay, haz, hbx, hby, hbz, hcx, hcy, hcz]
  cases adj G a x <;> cases adj G a y <;> cases adj G a z <;> cases adj G b x <;>
    cases adj G b y <;> cases adj G b z <;> cases adj G c x <;> cases adj G c y <;>
    cases adj G c z <;> rfl

theorem sum4_out (R L : Finset Nat) (H : Nat → Nat → Nat → Nat → Nat) :
    ∑ x in R, ∑ y in R, ∑ z in R, ∑ a in L, H x y z a
      = ∑ a in L, ∑ x in R, ∑ y in R, ∑ z in R, H x y z a := by
  have e1 : ∑ x in R, ∑ y in R, ∑ z in R, ∑ a in L, H x y z a
      = ∑ x in R, ∑ y in R, ∑ a in L, ∑ z in R, H x y z a :=
    Finset.sum_congr rfl (fun x _ => Finset.sum_congr rfl (fun y _ => Finset.sum_comm))
  have e2 : ∑ x in R, ∑ y in R, ∑ a in L, ∑ z in R, H x y z a
      = ∑ x in R, ∑ a in L, ∑ y in R, ∑ z in R, H x y z a :=
    Finset.sum_congr rfl (fun x _ => Finset.sum_comm)
  rw [e1, e2]
  exact Finset.sum_comm

theorem tsum_comm3 (R L : Finset Nat) (K : Nat → Nat → Nat → Nat → Nat → Nat → Nat) :
    ∑ x in R, ∑ y in R, ∑ z in R, ∑ a in L, ∑ b in L, ∑ c in L, K a b c x y z
      = ∑ a in L, ∑ b in L, ∑ c in L, ∑ x in R, ∑ y in R, ∑ z in R, K a b c x y z := by
  rw [sum4_out R L (fun x y z a => ∑ b in L, ∑ c in L, K a b c x y z)]
  apply Finset.sum_congr rfl; intro a _
  rw [sum4_out R L (fun x y z b => ∑ c in L, K a b c x y z)]
  apply Finset.sum_congr rfl; intro b _
  rw [sum4_out R L (fun x y z c => K a b c x y z)]

theorem sum_range_shift (vL vR : Nat) (g : Nat → Nat) :
    ∑ x in range vR, g x = ∑ x in Ico vL (vL + vR), g (x - vL) := by
  rw [Finset.sum_Ico_eq_sum_range]
  have : vL + vR - vL = vR := by omega
  rw [this]
  apply Finset.sum_congr rfl
  intro k _
  congr 1
  omega

theorem sum_Ico_shift (vL vR : Nat) (g : Nat → Nat) :
    ∑ a in Ico vR (vR + vL), g a = ∑ a in range vL, g (a + vR) := by
  rw [Finset.sum_Ico_eq_sum_range]
  have : vR + vL - vR = vL := by omega
  rw [this]
  apply Finset.sum_congr rfl
  intro k _
  congr 1
  omega

/-- The count does not change when the two sides are exchanged. -/
theorem count_swap (G G2 : Graph) (vL vR : Nat) (hlen : G.length = vL + vR)
    (hlen2 : G2.length = vR + vL)
    (hadj : ∀ a x, a < vL → vL ≤ x → x < vL + vR → adj G2 (x - vL) (a + vR) = adj G a x) :
    countInduced6 G2 vR = countInduced6 G vL := by
  unfold countInduced6
  rw [hlen, hlen2]
  -- shift the six index sets
  have hstep : (∑ a in range vR, ∑ b in range vR, ∑ c in range vR,
      ∑ x in Ico vR (vR + vL), ∑ y in Ico vR (vR + vL), ∑ z in Ico vR (vR + vL),
        if a < b ∧ b < c ∧ x < y ∧ y < z ∧ induced6 G2 a b c x y z = true then 1 else 0)
      = ∑ x in Ico vL (vL + vR), ∑ y in Ico vL (vL + vR), ∑ z in Ico vL (vL + vR),
        ∑ a in range vL, ∑ b in range vL, ∑ c in range vL,
          if x - vL < y - vL ∧ y - vL < z - vL ∧ a + vR < b + vR ∧ b + vR < c + vR ∧
            induced6 G2 (x - vL) (y - vL) (z - vL) (a + vR) (b + vR) (c + vR) = true
          then 1 else 0 := by
    rw [sum_range_shift vL vR]
    apply Finset.sum_congr rfl; intro x _
    rw [sum_range_shift vL vR]
    apply Finset.sum_congr rfl; intro y _
    rw [sum_range_shift vL vR]
    apply Finset.sum_congr rfl; intro z _
    rw [sum_Ico_shift vL vR]
    apply Finset.sum_congr rfl; intro a _
    rw [sum_Ico_shift vL vR]
    apply Finset.sum_congr rfl; intro b _
    rw [sum_Ico_shift vL vR]
  rw [hstep, tsum_comm3 (Ico vL (vL + vR)) (range vL)
    (fun a b c x y z => if x - vL < y - vL ∧ y - vL < z - vL ∧ a + vR < b + vR ∧
      b + vR < c + vR ∧
      induced6 G2 (x - vL) (y - vL) (z - vL) (a + vR) (b + vR) (c + vR) = true
      then 1 else 0)]
  apply Finset.sum_congr rfl; intro a ha
  apply Finset.sum_congr rfl; intro b hb
  apply Finset.sum_congr rfl; intro c hc
  apply Finset.sum_congr rfl; intro x hx
  apply Finset.sum_congr rfl; intro y hy
  apply Finset.sum_congr rfl; intro z hz
  rw [Finset.mem_range] at ha hb hc
  rw [Finset.mem_Ico] at hx hy hz
  rw [induced6_transpose G G2 a b c x y z (a + vR) (b + vR) (c + vR) (x - vL) (y - vL)
    (z - vL) (hadj a x ha hx.1 hx.2) (hadj a y ha hy.1 hy.2) (hadj a z ha hz.1 hz.2)
    (hadj b x hb hx.1 hx.2) (hadj b y hb hy.1 hy.2) (hadj b z hb hz.1 hz.2)
    (hadj c x hc hx.1 hx.2) (hadj c y hc hy.1 hy.2) (hadj c z hc hz.1 hz.2)]
  have e : (x - vL < y - vL ∧ y - vL < z - vL ∧ a + vR < b + vR ∧ b + vR < c + vR ∧
      induced6 G a b c x y z = true) ↔
      (a < b ∧ b < c ∧ x < y ∧ y < z ∧ induced6 G a b c x y z = true) := by
    constructor
    · rintro ⟨h1, h2, h3, h4, h5⟩; exact ⟨by omega, by omega, by omega, by omega, h5⟩
    · rintro ⟨h1, h2, h3, h4, h5⟩; exact ⟨by omega, by omega, by omega, by omega, h5⟩
  simp only [e]

end Induced6

namespace Induced6
open Finset


theorem Bip.bound {G : Graph} {vLeft vRight : Nat} (h : Bip G vLeft vRight) (u : Nat)
    (hu : u < vLeft + vRight) : ∀ v ∈ nbrs G u, v < vLeft + vRight := by
  intro v hv
  by_cases hl : u < vLeft
  · exact (h.left_nbrs u hl v hv).2
  · have := h.right_nbrs u (by omega) hu v hv
    omega

theorem Bip.symmSimple {G : Graph} {vLeft vRight : Nat} (h : Bip G vLeft vRight) :
    SymmSimple G (vLeft + vRight) :=
  ⟨h.size_lt, h.bound, h.symm, h.nodup⟩

theorem appendAt_getD (A : Graph) (i : Nat) (l : List Nat) (k : Nat) :
    (appendAt A i l).getD k [] = if i = k ∧ i < A.length then A.getD i [] ++ l
      else A.getD k [] := by
  unfold appendAt
  rw [getD_set_eq]

/-- A loop that appends `val u` to the list number `key u` for the `u` that pass the test
`p`, when the keys of these `u` are distinct. -/
theorem foldl_appendAt (m : Nat) (p : Nat → Bool) (key : Nat → Nat) (val : Nat → List Nat) :
    ∀ n, (∀ u, u < n → p u = true → key u < m) →
      (∀ u v, u < n → v < n → p u = true → p v = true → key u = key v → u = v) →
      ((List.range n).foldl (fun A u => if p u = true then appendAt A (key u) (val u) else A)
        (List.replicate m [])).length = m ∧
      (∀ u, u < n → p u = true →
        ((List.range n).foldl (fun A u => if p u = true then appendAt A (key u) (val u) else A)
          (List.replicate m [])).getD (key u) [] = val u) ∧
      (∀ k, (∀ u, u < n → p u = true → key u ≠ k) →
        ((List.range n).foldl (fun A u => if p u = true then appendAt A (key u) (val u) else A)
          (List.replicate m [])).getD k [] = []) := by
  intro n
  induction n with
  | zero =>
    intro _ _
    refine ⟨List.length_replicate _ _, fun u hu => absurd hu (Nat.not_lt_zero u), ?_⟩
    intro k _
    exact BTJ.getD_replicate_self m k []
  | succ n ih =>
    intro hkey hinj
    obtain ⟨hl, h1, h0⟩ := ih (fun u hu hp => hkey u (by omega) hp)
      (fun u v hu hv => hinj u v (by omega) (by omega))
    rw [List.range_succ, List.foldl_append, List.foldl_cons, List.foldl_nil]
    by_cases hp : p n = true
    · rw [if_pos hp]
      have hkn := hkey n (Nat.lt_succ_self n) hp
      have hempty := h0 (key n) (fun u hu hpu e =>
        absurd (hinj u n (by omega) (Nat.lt_succ_self n) hpu hp e) (by omega))
      refine ⟨?_, ?_, ?_⟩
      · unfold appendAt; rw [List.length_set]; exact hl
      · intro u hu hpu
        rw [appendAt_getD, hl]
        by_cases hun : u = n
        · subst hun
          rw [if_pos ⟨rfl, hkn⟩, hempty, List.nil_append]
        · have hne : key n ≠ key u := fun e =>
            hun (hinj u n hu (Nat.lt_succ_self n) hpu hp e.symm)
          rw [if_neg (fun hh => hne hh.1)]
          exact h1 u (by omega) hpu
      · intro k hk
        rw [appendAt_getD, if_neg (fun hh => hk n (Nat.lt_succ_self n) hp hh.1)]
        exact h0 k (fun u hu hpu => hk u (by omega) hpu)
    · rw [if_neg hp]
      refine ⟨hl, ?_, ?_⟩
      · intro u hu hpu
        have hun : u ≠ n := fun e => hp (e ▸ hpu)
        exact h1 u (by omega) hpu
      · intro k hk
        apply h0 k
        intro u hu hpu
        exact hk u (by omega) hpu

/-- A relabelled copy of a part of a symmetric simple graph is a simple symmetric bipartite
graph when the relabelling `f` is one-to-one from the part `q` onto the new ids, the new
list of `f u` is a rearrangement of the images of the neighbours of `u` in the part, and
neighbours go to opposite sides. -/
theorem bip_of_iso (G G2 : Graph) (n n2 vL2 : Nat) (q : Nat → Bool) (f : Nat → Nat)
    (hbound : ∀ u, u < n → ∀ v ∈ nbrs G u, v < n)
    (hsymm : ∀ u, u < n → ∀ v ∈ nbrs G u, u ∈ nbrs G v)
    (hnodup : ∀ u, u < n → (nbrs G u).Nodup)
    (hf : ∀ u, u < n → q u = true → f u < n2)
    (hinj : ∀ u v, u < n → v < n → q u = true → q v = true → f u = f v → u = v)
    (hsurj : ∀ k, k < n2 → ∃ u, u < n ∧ q u = true ∧ f u = k)
    (hlen : G2.length = n2)
    (hlist : ∀ u, u < n → q u = true →
      (nbrs G2 (f u)).Perm (((nbrs G u).filter q).map f))
    (hside : ∀ u, u < n → q u = true → ∀ v ∈ nbrs G u, q v = true →
      (f u < vL2 ↔ vL2 ≤ f v))
    (hvL2 : vL2 ≤ n2) (hn2 : n2 < 4294967296) :
    Bip G2 vL2 (n2 - vL2) ∧
      ∀ u v, u < n → v < n → q u = true → q v = true →
        adj G2 (f u) (f v) = adj G u v := by
  have hmem : ∀ u, u < n → q u = true → ∀ k,
      k ∈ nbrs G2 (f u) ↔ ∃ v, v ∈ nbrs G u ∧ q v = true ∧ f v = k := by
    intro u hu hq k
    rw [(hlist u hu hq).mem_iff, List.mem_map]
    constructor
    · rintro ⟨v, hv, rfl⟩
      rw [List.mem_filter] at hv
      exact ⟨v, hv.1, hv.2, rfl⟩
    · rintro ⟨v, hv, hqv, rfl⟩
      exact ⟨v, List.mem_filter.mpr ⟨hv, hqv⟩, rfl⟩
  have hsum : vL2 + (n2 - vL2) = n2 := by omega
  refine ⟨⟨by rw [hlen, hsum], by rw [hsum]; exact hn2, ?_, ?_, ?_, ?_⟩, ?_⟩
  · intro a ha x hx
    obtain ⟨u, hu, hq, rfl⟩ := hsurj a (by omega)
    obtain ⟨v, hv, hqv, rfl⟩ := (hmem u hu hq x).1 hx
    have h1 := (hside u hu hq v hv hqv).1 ha
    have h2 := hf v (hbound u hu v hv) hqv
    omega
  · intro x hx1 hx2 a ha
    rw [hsum] at hx2
    obtain ⟨u, hu, hq, rfl⟩ := hsurj x hx2
    obtain ⟨v, hv, hqv, rfl⟩ := (hmem u hu hq a).1 ha
    have h1 := hside u hu hq v hv hqv
    by_contra hcon
    have := h1.2 (by omega)
    omega
  · intro u2 hu2 v2 hv2
    rw [hsum] at hu2
    obtain ⟨u, hu, hq, rfl⟩ := hsurj u2 hu2
    obtain ⟨v, hv, hqv, rfl⟩ := (hmem u hu hq v2).1 hv2
    exact (hmem v (hbound u hu v hv) hqv (f u)).2 ⟨u, hsymm u hu v hv, hq, rfl⟩
  · intro u2 hu2
    rw [hsum] at hu2
    obtain ⟨u, hu, hq, rfl⟩ := hsurj u2 hu2
    rw [(hlist u hu hq).nodup_iff]
    apply List.Nodup.map_on
    · intro x hx y hy hxy
      rw [List.mem_filter] at hx hy
      exact hinj x y (hbound u hu x hx.1) (hbound u hu y hy.1) hx.2 hy.2 hxy
    · exact (hnodup u hu).filter _
  · intro u v hu hv hq hqv
    unfold adj
    apply decide_eq_decide.mpr
    rw [hmem u hu hq (f v)]
    constructor
    · rintro ⟨w, hw, hqw, hfw⟩
      have := hinj w v (hbound u hu w hw) hv hqw hqv hfw
      rw [← this]; exact hw
    · intro hv2
      exact ⟨v, hv2, hqv, rfl⟩

end Induced6

namespace Induced6
open Finset

/-- A loop that replaces the entry number `key u` by a function of its old value, for keys
that are distinct. -/
theorem foldl_update {α : Type} (m : Nat) (d : α) (key : Nat → Nat) (F : Nat → α → α) :
    ∀ n, (∀ u, u < n → key u < m) →
      (∀ u v, u < n → v < n → key u = key v → u = v) →
      ((List.range n).foldl (fun A u => A.set (key u) (F u (A.getD (key u) d)))
        (List.replicate m d)).length = m ∧
      (∀ u, u < n →
        ((List.range n).foldl (fun A u => A.set (key u) (F u (A.getD (key u) d)))
          (List.replicate m d)).getD (key u) d = F u d) ∧
      (∀ k, (∀ u, u < n → key u ≠ k) →
        ((List.range n).foldl (fun A u => A.set (key u) (F u (A.getD (key u) d)))
          (List.replicate m d)).getD k d = d) := by
  intro n
  induction n with
  | zero =>
    intro _ _
    refine ⟨List.length_replicate _ _, fun u hu => absurd hu (Nat.not_lt_zero u), ?_⟩
    intro k _
    exact BTJ.getD_replicate_self m k d
  | succ n ih =>
    intro hkey hinj
    obtain ⟨hl, h1, h0⟩ := ih (fun u hu => hkey u (by omega))
      (fun u v hu hv => hinj u v (by omega) (by omega))
    rw [List.range_succ, List.foldl_append, List.foldl_cons, List.foldl_nil]
    have hkn := hkey n (Nat.lt_succ_self n)
    have hempty := h0 (key n) (fun u hu e =>
      absurd (hinj u n (by omega) (Nat.lt_succ_self n) e) (by omega))
    refine ⟨?_, ?_, ?_⟩
    · rw [List.length_set]; exact hl
    · intro u hu
      rw [getD_set_eq, hl]
      by_cases hun : u = n
      · subst hun
        rw [if_pos ⟨rfl, hkn⟩, hempty]
      · have hne : key n ≠ key u := fun e =>
          hun (hinj u n hu (Nat.lt_succ_self n) e.symm)
        rw [if_neg (fun hh => hne hh.1)]
        exact h1 u (by omega)
    · intro k hk
      rw [getD_set_eq, if_neg (fun hh => hk n (Nat.lt_succ_self n) hh.1)]
      exact h0 k (fun u hu => hk u (by omega))

/-- The vector `rank` inverts the index vector `idx` when `idx` is a rearrangement of
`0 .. vLeft - 1`. -/
theorem rankOf_spec (idx : List Nat) (vLeft : Nat) (hp : idx.Perm (List.range vLeft)) :
    (∀ i, i < vLeft → idx.getD i 0 < vLeft ∧ (rankOf idx vLeft).getD (idx.getD i 0) 0 = i) ∧
    (∀ u, u < vLeft → (rankOf idx vLeft).getD u 0 < vLeft ∧
      idx.getD ((rankOf idx vLeft).getD u 0) 0 = u) := by
  have hlen : idx.length = vLeft := by rw [hp.length_eq, List.length_range]
  have hnd : idx.Nodup := hp.nodup_iff.mpr (List.nodup_range vLeft)
  have hlt : ∀ i, i < vLeft → idx.getD i 0 < vLeft := by
    intro i hi
    have := BTJ.getD_mem_of_lt idx i (by omega)
    exact List.mem_range.mp (hp.mem_iff.mp this)
  have hfold := foldl_update vLeft 0 (fun i => idx.getD i 0) (fun i _ => i) vLeft hlt
    (fun u v hu hv e => BTJ.getD_inj_of_nodup idx hnd u v (by omega) (by omega) e)
  have h1 : ∀ i, i < vLeft → idx.getD i 0 < vLeft ∧
      (rankOf idx vLeft).getD (idx.getD i 0) 0 = i :=
    fun i hi => ⟨hlt i hi, hfold.2.1 i hi⟩
  refine ⟨h1, ?_⟩
  intro u hu
  have hmem : u ∈ idx := hp.mem_iff.mpr (List.mem_range.mpr hu)
  obtain ⟨i, hi, he⟩ := BTJ.exists_getD_of_mem idx u hmem
  have := (h1 i (by omega)).2
  rw [he] at this
  rw [this]
  exact ⟨by omega, he⟩

end Induced6

namespace Induced6
open Finset

theorem sortDesc_perm (l : List Nat) : (sortDesc l).Perm l :=
  List.perm_insertionSort _ _

theorem sortDesc_sorted (l : List Nat) (hnd : l.Nodup) :
    (sortDesc l).Sorted (fun x y => x > y) := by
  have hs := @List.sorted_insertionSort Nat (fun a b => b ≤ a) _
    ⟨fun a b => Nat.le_total b a⟩ ⟨fun a b c hab hbc => Nat.le_trans hbc hab⟩ l
  have hnd2 : (sortDesc l).Nodup := (sortDesc_perm l).nodup_iff.mpr hnd
  unfold List.Sorted at hs ⊢
  have hboth := hs.and hnd2
  exact hboth.imp (fun h => by
    obtain ⟨h1, h2⟩ := h
    omega)

theorem nbrs_map_sortDesc (A : Graph) (k : Nat) :
    nbrs (A.map sortDesc) k = sortDesc (nbrs A k) := by
  unfold nbrs
  have : ([] : List Nat) = sortDesc [] := rfl
  rw [this, List.getD_map]
  rfl

/-- The relabelling by two-path rank: the new graph is in preprocessed form, has the same
count, and the edge index holds the neighbours of every left vertex. -/
theorem relabel_spec (G : Graph) (vL vR : Nat) (hb : Bip G vL vR) (idx : List Nat)
    (hp : idx.Perm (List.range vL)) :
    Preprocessed (((List.range (vL + vR)).foldl (relabelStep G (rankOf idx vL) vL)
        (List.replicate (vL + vR) [])).map sortDesc) vL ∧
      (((List.range (vL + vR)).foldl (relabelStep G (rankOf idx vL) vL)
        (List.replicate (vL + vR) [])).map sortDesc).length = vL + vR ∧
      tripleSum (((List.range (vL + vR)).foldl (relabelStep G (rankOf idx vL) vL)
        (List.replicate (vL + vR) [])).map sortDesc) vL = tripleSum G vL ∧
      EdgeIndex (((List.range (vL + vR)).foldl (relabelStep G (rankOf idx vL) vL)
        (List.replicate (vL + vR) [])).map sortDesc) vL
        ((List.range vL).foldl (fun E u => emplaceAll E ((rankOf idx vL).getD u 0) (nbrs G u))
          (List.replicate vL [])) := by
  obtain ⟨hr1, hr2⟩ := rankOf_spec idx vL hp
  -- the relabelling as one map
  obtain ⟨ρ, hρ⟩ : ∃ ρ : Nat → Nat, ∀ u, ρ u = if u < vL then (rankOf idx vL).getD u 0 else u :=
    ⟨_, fun _ => rfl⟩
  have hρL : ∀ u, u < vL → ρ u = (rankOf idx vL).getD u 0 := fun u hu => by
    rw [hρ, if_pos hu]
  have hρR : ∀ u, vL ≤ u → ρ u = u := fun u hu => by rw [hρ, if_neg (by omega)]
  have hρinj : ∀ u v, u < vL + vR → v < vL + vR → ρ u = ρ v → u = v := by
    intro u v hu hv e
    by_cases h1 : u < vL <;> by_cases h2 : v < vL
    · rw [hρL u h1, hρL v h2] at e
      have e1 := (hr2 u h1).2
      have e2 := (hr2 v h2).2
      rw [e] at e1
      exact e1.symm.trans e2
    · rw [hρL u h1, hρR v (by omega)] at e
      have := (hr2 u h1).1
      omega
    · rw [hρR u (by omega), hρL v h2] at e
      have := (hr2 v h2).1
      omega
    · rw [hρR u (by omega), hρR v (by omega)] at e
      exact e
  have hval : ∀ u, u < vL + vR →
      (if u < vL then nbrs G u else (nbrs G u).map (fun v => (rankOf idx vL).getD v 0))
        = (nbrs G u).map ρ := by
    intro u hu
    by_cases h1 : u < vL
    · rw [if_pos h1]
      symm
      have : (nbrs G u).map ρ = (nbrs G u).map id := by
        apply List.map_congr_left
        intro x hx
        exact hρR x (hb.left_nbrs u h1 x hx).1
      rw [this, List.map_id]
    · rw [if_neg h1]
      apply List.map_congr_left
      intro a ha
      exact (hρL a (hb.right_nbrs u (by omega) hu a ha)).symm
  have hstep : relabelStep G (rankOf idx vL) vL = fun A u =>
      if (fun _ => true) u = true then
        appendAt A (ρ u) (if u < vL then nbrs G u
          else (nbrs G u).map (fun v => (rankOf idx vL).getD v 0))
      else A := by
    funext A u
    unfold relabelStep
    by_cases h1 : u < vL
    · simp only [if_pos h1, hρL u h1, if_true]
    · simp only [if_neg h1, hρR u (by omega), if_true]
  have hρlt : ∀ u, u < vL + vR → ρ u < vL + vR := by
    intro u hu
    by_cases h1 : u < vL
    · rw [hρL u h1]; have := (hr2 u h1).1; omega
    · rw [hρR u (by omega)]; exact hu
  obtain ⟨hlen, hget, _⟩ := foldl_appendAt (vL + vR) (fun _ => true) ρ
    (fun u => if u < vL then nbrs G u
      else (nbrs G u).map (fun v => (rankOf idx vL).getD v 0)) (vL + vR)
    (fun u hu _ => hρlt u hu) (fun u v hu hv _ _ e => hρinj u v hu hv e)
  rw [← hstep] at hlen hget
  generalize ((List.range (vL + vR)).foldl (relabelStep G (rankOf idx vL) vL)
    (List.replicate (vL + vR) [])) = newG at hlen hget ⊢
  have hG3len : (newG.map sortDesc).length = vL + vR := by rw [List.length_map, hlen]
  have hnb : ∀ u, u < vL + vR →
      nbrs (newG.map sortDesc) (ρ u) = sortDesc ((nbrs G u).map ρ) := by
    intro u hu
    rw [nbrs_map_sortDesc]
    show sortDesc (newG.getD (ρ u) []) = _
    rw [hget u hu rfl, hval u hu]
  have hiso := bip_of_iso G (newG.map sortDesc) (vL + vR) (vL + vR) vL (fun _ => true) ρ
    hb.bound hb.symm hb.nodup (fun u hu _ => hρlt u hu)
    (fun u v hu hv _ _ e => hρinj u v hu hv e)
    (fun k hk => by
      by_cases h1 : k < vL
      · refine ⟨idx.getD k 0, by have := (hr1 k h1).1; omega, rfl, ?_⟩
        rw [hρL _ (hr1 k h1).1]
        exact (hr1 k h1).2
      · exact ⟨k, hk, rfl, hρR k (by omega)⟩)
    hG3len
    (fun u hu _ => by
      rw [hnb u hu]
      have : (nbrs G u).filter (fun _ => true) = nbrs G u := List.filter_true _
      rw [this]
      exact sortDesc_perm _)
    (fun u hu _ v hv _ => by
      by_cases h1 : u < vL
      · have hv2 := hb.left_nbrs u h1 v hv
        rw [hρL u h1, hρR v hv2.1]
        have := (hr2 u h1).1
        constructor
        · intro _; exact hv2.1
        · intro _; exact this
      · have hv2 := hb.right_nbrs u (by omega) hu v hv
        rw [hρR u (by omega), hρL v hv2]
        have := (hr2 v hv2).1
        constructor
        · intro h; omega
        · intro h; omega)
    (by omega) hb.size_lt
  obtain ⟨hbip, hadj⟩ := hiso
  have hsub : vL + vR - vL = vR := by omega
  rw [hsub] at hbip
  have hdesc : ∀ k, k < vL + vR → (nbrs (newG.map sortDesc) k).Sorted (fun x y => x > y) := by
    intro k hk
    rw [nbrs_map_sortDesc] at *
    apply sortDesc_sorted
    have := hbip.nodup k hk
    rw [nbrs_map_sortDesc] at this
    exact (sortDesc_perm _).nodup_iff.mp this
  have hpre : Preprocessed (newG.map sortDesc) vL :=
    ⟨by rw [hG3len]; omega, by rw [hG3len]; exact hb.size_lt,
      fun a ha x hx => by rw [hG3len]; exact hbip.left_nbrs a ha x hx,
      fun x hx hx2 a ha => hbip.right_nbrs x hx2 (by rw [← hG3len]; exact hx) a ha,
      fun u hu v hv => hbip.symm u (by rw [← hG3len]; exact hu) v hv,
      fun u hu => hdesc u (by rw [← hG3len]; exact hu)⟩
  refine ⟨hpre, hG3len, ?_, ?_⟩
  · apply tripleSum_iso G (newG.map sortDesc) vL vL (range vL) (Ico vL (vL + vR)) ρ
      (fun _ h => h) (by rw [hb.length_eq])
    · intro x hx y hy e
      rw [Finset.mem_range] at hx hy
      exact hρinj x y (by omega) (by omega) e
    · intro x hx y hy e
      rw [Finset.mem_Ico] at hx hy
      exact hρinj x y hx.2 hy.2 e
    · ext k
      rw [Finset.mem_image, Finset.mem_range]
      constructor
      · rintro ⟨u, hu, rfl⟩
        rw [Finset.mem_range] at hu
        rw [hρL u hu]; exact (hr2 u hu).1
      · intro hk
        refine ⟨idx.getD k 0, Finset.mem_range.mpr (hr1 k hk).1, ?_⟩
        rw [hρL _ (hr1 k hk).1]
        exact (hr1 k hk).2
    · rw [hG3len]
      ext k
      rw [Finset.mem_image, Finset.mem_Ico]
      constructor
      · rintro ⟨u, hu, rfl⟩
        rw [Finset.mem_Ico] at hu
        rw [hρR u hu.1]; exact hu
      · intro hk
        exact ⟨k, Finset.mem_Ico.mpr hk, hρR k hk.1⟩
    · intro a ha x hx
      rw [Finset.mem_range] at ha
      rw [Finset.mem_Ico] at hx
      exact hadj a x (by omega) hx.2 rfl rfl
    · intro p _ q _ _ x hx _ _
      rw [hb.length_eq] at hx
      exact hx
    · intro a b c ha hb2 hc _ _ _ hn
      exfalso
      rcases hn with h | h | h
      · exact h (Finset.mem_range.mpr ha)
      · exact h (Finset.mem_range.mpr hb2)
      · exact h (Finset.mem_range.mpr hc)
  · -- the edge index
    have hE := foldl_update vL ([] : List Nat) (fun u => (rankOf idx vL).getD u 0)
      (fun u old => (nbrs G u).foldl emplace old) vL (fun u hu => (hr2 u hu).1)
      (fun u v hu hv e => by
        have e0 : (rankOf idx vL).getD u 0 = (rankOf idx vL).getD v 0 := e
        have e1 := (hr2 u hu).2
        have e2 := (hr2 v hv).2
        rw [e0] at e1
        exact e1.symm.trans e2)
    intro a ha
    have hu := hr1 a ha
    have hEa : ((List.range vL).foldl (fun E u =>
        emplaceAll E ((rankOf idx vL).getD u 0) (nbrs G u)) (List.replicate vL [])).getD a []
        = (nbrs G (idx.getD a 0)).foldl emplace [] := by
      have h2 : ((List.range vL).foldl (fun E u =>
          emplaceAll E ((rankOf idx vL).getD u 0) (nbrs G u)) (List.replicate vL [])).getD
          ((rankOf idx vL).getD (idx.getD a 0) 0) []
          = (nbrs G (idx.getD a 0)).foldl emplace [] := hE.2.1 (idx.getD a 0) hu.1
      rw [hu.2] at h2
      exact h2
    have hna : nbrs (newG.map sortDesc) a = sortDesc ((nbrs G (idx.getD a 0)).map ρ) := by
      have := hnb (idx.getD a 0) (by omega)
      rw [hρL _ hu.1, hu.2] at this
      exact this
    have hmapid : (nbrs G (idx.getD a 0)).map ρ = nbrs G (idx.getD a 0) := by
      have : (nbrs G (idx.getD a 0)).map ρ = (nbrs G (idx.getD a 0)).map id := by
        apply List.map_congr_left
        intro x hx
        exact hρR x (hb.left_nbrs _ hu.1 x hx).1
      rw [this, List.map_id]
    rw [hEa, hna, hmapid]
    constructor
    · intro x hx
      rw [mem_foldl_emplace] at hx
      rcases hx with hx | hx
      · exact absurd hx (List.not_mem_nil x)
      · exact (sortDesc_perm _).mem_iff.mpr hx
    · intro x hx
      rw [mem_foldl_emplace]
      exact Or.inr ((sortDesc_perm _).mem_iff.mp hx)

end Induced6

namespace Induced6
open Finset

theorem adj_comm_of_bip {G : Graph} {vL vR : Nat} (hb : Bip G vL vR) (u v : Nat)
    (hu : u < vL + vR) (hv : v < vL + vR) : adj G u v = adj G v u := by
  unfold adj
  apply decide_eq_decide.mpr
  exact ⟨fun h => hb.symm u hu v h, fun h => hb.symm v hv u h⟩

/-- The side swap gives a simple symmetric bipartite graph with the same count. -/
theorem balance_spec (G : Graph) (vL vR : Nat) (hb : Bip G vL vR) :
    Bip (balance (G, vL, vR)).1 (balance (G, vL, vR)).2.1 (balance (G, vL, vR)).2.2 ∧
      countInduced6 (balance (G, vL, vR)).1 (balance (G, vL, vR)).2.1
        = countInduced6 G vL := by
  by_cases hgt : vL > vR
  · have hu32 : u32 (vL + vR) = vL + vR := Nat.mod_eq_of_lt hb.size_lt
    have hbal : balance (G, vL, vR) = ((List.range (vL + vR)).foldl (swapStep G vL vR)
        (List.replicate (vL + vR) []), vR, vL) := by
      unfold balance
      simp only [if_pos hgt, hu32]
    rw [hbal]
    simp only
    obtain ⟨ψ, hψ⟩ : ∃ ψ : Nat → Nat, ∀ u, ψ u = if u < vL then u32 (u + vR) else sub32 u vL :=
      ⟨_, fun _ => rfl⟩
    have hsz := hb.size_lt
    have hψL : ∀ u, u < vL → ψ u = u + vR := fun u hu => by
      rw [hψ, if_pos hu]; exact Nat.mod_eq_of_lt (by omega)
    have hψR : ∀ u, vL ≤ u → u < vL + vR → ψ u = u - vL := fun u hu hu2 => by
      rw [hψ, if_neg (by omega)]; exact sub32_of_le hu (by omega)
    have hψinj : ∀ u v, u < vL + vR → v < vL + vR → ψ u = ψ v → u = v := by
      intro u v hu hv e
      by_cases h1 : u < vL <;> by_cases h2 : v < vL
      · rw [hψL u h1, hψL v h2] at e; omega
      · rw [hψL u h1, hψR v (by omega) hv] at e; omega
      · rw [hψR u (by omega) hu, hψL v h2] at e; omega
      · rw [hψR u (by omega) hu, hψR v (by omega) hv] at e; omega
    have hψlt : ∀ u, u < vL + vR → ψ u < vL + vR := by
      intro u hu
      by_cases h1 : u < vL
      · rw [hψL u h1]; omega
      · rw [hψR u (by omega) hu]; omega
    have hval : ∀ u, u < vL + vR →
        (if u < vL then (nbrs G u).map (fun n => sub32 n vL)
          else (nbrs G u).map (fun n => u32 (n + vR))) = (nbrs G u).map ψ := by
      intro u hu
      by_cases h1 : u < vL
      · rw [if_pos h1]
        apply List.map_congr_left
        intro x hx
        have hx2 := hb.left_nbrs u h1 x hx
        rw [hψR x hx2.1 hx2.2]
        exact sub32_of_le hx2.1 (by omega)
      · rw [if_neg h1]
        apply List.map_congr_left
        intro a ha
        have ha2 := hb.right_nbrs u (by omega) hu a ha
        rw [hψL a ha2]
        exact Nat.mod_eq_of_lt (by omega)
    have hstep : swapStep G vL vR = fun A u =>
        if (fun _ => true) u = true then
          appendAt A (ψ u) (if u < vL then (nbrs G u).map (fun n => sub32 n vL)
            else (nbrs G u).map (fun n => u32 (n + vR)))
        else A := by
      funext A u
      unfold swapStep
      by_cases h1 : u < vL
      · simp only [if_pos h1, hψ u, if_true]
      · simp only [if_neg h1, hψ u, if_true]
    obtain ⟨hlen, hget, _⟩ := foldl_appendAt (vL + vR) (fun _ => true) ψ
      (fun u => if u < vL then (nbrs G u).map (fun n => sub32 n vL)
        else (nbrs G u).map (fun n => u32 (n + vR))) (vL + vR)
      (fun u hu _ => hψlt u hu) (fun u v hu hv _ _ e => hψinj u v hu hv e)
    rw [← hstep] at hlen hget
    generalize ((List.range (vL + vR)).foldl (swapStep G vL vR)
      (List.replicate (vL + vR) [])) = G2 at hlen hget ⊢
    have hiso := bip_of_iso G G2 (vL + vR) (vL + vR) vR (fun _ => true) ψ
      hb.bound hb.symm hb.nodup (fun u hu _ => hψlt u hu)
      (fun u v hu hv _ _ e => hψinj u v hu hv e)
      (fun k hk => by
        by_cases h1 : k < vR
        · exact ⟨k + vL, by omega, rfl, by rw [hψR (k + vL) (by omega) (by omega)]; omega⟩
        · exact ⟨k - vR, by omega, rfl, by rw [hψL (k - vR) (by omega)]; omega⟩)
      hlen
      (fun u hu _ => by
        show (G2.getD (ψ u) []).Perm _
        rw [hget u hu rfl, hval u hu, List.filter_true])
      (fun u hu _ v hv _ => by
        by_cases h1 : u < vL
        · have hv2 := hb.left_nbrs u h1 v hv
          rw [hψL u h1, hψR v hv2.1 hv2.2]
          constructor
          · intro h; omega
          · intro h; omega
        · have hv2 := hb.right_nbrs u (by omega) hu v hv
          rw [hψR u (by omega) hu, hψL v hv2]
          constructor
          · intro h; omega
          · intro h; omega)
      (by omega) hb.size_lt
    obtain ⟨hbip, hadj⟩ := hiso
    have hsub : vL + vR - vR = vL := by omega
    rw [hsub] at hbip
    refine ⟨hbip, ?_⟩
    apply count_swap G G2 vL vR hb.length_eq (by rw [hlen]; omega)
    intro a x ha hx1 hx2
    have := hadj x a hx2 (by omega) rfl rfl
    rw [hψR x hx1 hx2, hψL a ha] at this
    rw [this]
    exact adj_comm_of_bip hb x a hx2 (by omega)
  · have hbal : balance (G, vL, vR) = (G, vL, vR) := by
      unfold balance
      simp only [if_neg hgt]
    rw [hbal]
    exact ⟨hb, rfl⟩

end Induced6

namespace Induced6
open Finset

theorem scanIDs_length : ∀ (l : List Int) (tmp : Nat), (scanIDs l tmp).length = l.length := by
  intro l
  induction l with
  | nil => intro tmp; rfl
  | cons x xs ih => intro tmp; simp only [scanIDs, List.length_cons, ih]

theorem scanIDs_getD : ∀ (l : List Int) (tmp i : Nat), i < l.length →
    (scanIDs l tmp).getD i 0
      = (((tmp : Int) + (l.take (i + 1)).sum) % 4294967296).toNat := by
  intro l
  induction l with
  | nil => intro tmp i hi; exact absurd hi (Nat.not_lt_zero i)
  | cons x xs ih =>
    intro tmp i hi
    have ht : ((((tmp : Int) + x) % 4294967296).toNat : Int) = ((tmp : Int) + x) % 4294967296 :=
      Int.toNat_of_nonneg (Int.emod_nonneg _ (by norm_num))
    cases i with
    | zero =>
      simp only [scanIDs]
      show (((tmp : Int) + x) % 4294967296).toNat = _
      simp
    | succ j =>
      simp only [scanIDs]
      show (scanIDs xs _).getD j 0 = _
      rw [ih _ j (by rw [List.length_cons] at hi; omega), ht]
      have e : (x :: xs).take (j + 1 + 1) = x :: xs.take (j + 1) := rfl
      rw [e, List.sum_cons]
      congr 1
      omega


theorem cntUpTo_zero (C : Finset Nat) : cntUpTo C 0 = if 0 ∈ C then 1 else 0 := by
  unfold cntUpTo
  by_cases h : 0 ∈ C
  · rw [if_pos h]
    have : (range (0 + 1)).filter (fun y => y ∈ C) = {0} := by
      ext y; simp only [Finset.mem_filter, Finset.mem_range, Finset.mem_singleton]
      constructor
      · intro hh; omega
      · intro hh; subst hh; exact ⟨by omega, h⟩
    rw [this, Finset.card_singleton]
  · rw [if_neg h]
    have : (range (0 + 1)).filter (fun y => y ∈ C) = ∅ := by
      ext y; simp only [Finset.mem_filter, Finset.mem_range, Finset.not_mem_empty, iff_false]
      intro hh
      have : y = 0 := by omega
      subst this
      exact h hh.2
    rw [this, Finset.card_empty]

theorem cntUpTo_succ (C : Finset Nat) (i : Nat) :
    cntUpTo C (i + 1) = cntUpTo C i + if i + 1 ∈ C then 1 else 0 := by
  unfold cntUpTo
  rw [Finset.range_succ, Finset.filter_insert]
  by_cases h : i + 1 ∈ C
  · rw [if_pos h, if_pos h, Finset.card_insert_of_not_mem]
    rw [Finset.mem_filter, Finset.mem_range]
    intro hh; omega
  · rw [if_neg h, if_neg h]; rfl

theorem cntUpTo_le (C : Finset Nat) (i : Nat) : cntUpTo C i ≤ i + 1 := by
  unfold cntUpTo
  exact le_trans (Finset.card_filter_le _ _) (by rw [Finset.card_range])

theorem cntUpTo_mono (C : Finset Nat) (i j : Nat) (h : i ≤ j) : cntUpTo C i ≤ cntUpTo C j := by
  unfold cntUpTo
  apply Finset.card_le_card
  intro y
  simp only [Finset.mem_filter, Finset.mem_range]
  intro hy
  exact ⟨by omega, hy.2⟩

theorem cntUpTo_lt (C : Finset Nat) (i j : Nat) (h : i < j) (hj : j ∈ C) :
    cntUpTo C i < cntUpTo C j := by
  cases j with
  | zero => exact absurd h (Nat.not_lt_zero i)
  | succ k =>
    have h1 := cntUpTo_mono C i k (by omega)
    have h2 := cntUpTo_succ C k
    rw [if_pos hj] at h2
    omega

theorem cntUpTo_pos (C : Finset Nat) (i : Nat) (hi : i ∈ C) : 0 < cntUpTo C i := by
  unfold cntUpTo
  apply Finset.card_pos.mpr
  exact ⟨i, by rw [Finset.mem_filter, Finset.mem_range]; exact ⟨by omega, hi⟩⟩

/-- The prefix sums of the flags of `Compute2Core`. -/
theorem flags_prefix (flags : List Int) (n : Nat) (C : Finset Nat) (hlen : flags.length = n)
    (hflag : ∀ x, x < n → flags.getD x 0 =
      (if x ∈ C then 1 else 0) - (if x = 0 then 1 else 0)) :
    ∀ i, i < n → (flags.take (i + 1)).sum = (cntUpTo C i : Int) - 1 := by
  intro i
  induction i with
  | zero =>
    intro h0
    have e : flags.take 1 = [flags.getD 0 0] := by
      cases flags with
      | nil => rw [List.length_nil] at hlen; omega
      | cons x xs => rfl
    rw [e, hflag 0 h0, cntUpTo_zero]
    by_cases h : 0 ∈ C
    · simp [h]
    · simp [h]
  | succ i ih =>
    intro hi
    have e : flags.take (i + 1 + 1) = flags.take (i + 1) ++ [flags.getD (i + 1) 0] := by
      rw [List.take_succ, List.getD_eq_getElem?_getD]
      congr 1
      rw [List.getElem?_eq_getElem (by omega)]
      rfl
    rw [e, List.sum_append, ih (by omega), hflag (i + 1) hi, cntUpTo_succ]
    by_cases h : i + 1 ∈ C
    · simp [h]
    · simp [h]

end Induced6

namespace Induced6
open Finset

theorem ids_value (flags : List Int) (n : Nat) (C : Finset Nat) (hlen : flags.length = n)
    (hn : n < 4294967296)
    (hflag : ∀ x, x < n → flags.getD x 0 =
      (if x ∈ C then 1 else 0) - (if x = 0 then 1 else 0)) (x : Nat) (hx : x < n) :
    (scanIDs flags 0).getD x 0
      = if cntUpTo C x = 0 then 4294967295 else cntUpTo C x - 1 := by
  rw [scanIDs_getD flags 0 x (by omega), flags_prefix flags n C hlen hflag x hx]
  have hle := cntUpTo_le C x
  by_cases h0 : cntUpTo C x = 0
  · rw [if_pos h0, h0]
    rfl
  · rw [if_neg h0]
    have : ((0 : Nat) : Int) + ((cntUpTo C x : Int) - 1) = ((cntUpTo C x - 1 : Nat) : Int) := by
      omega
    rw [this, Int.emod_eq_of_lt (by omega) (by omega)]
    rfl

theorem isSurvivor_iff (flags : List Int) (n : Nat) (C : Finset Nat) (hlen : flags.length = n)
    (hn : n < 4294967296)
    (hflag : ∀ x, x < n → flags.getD x 0 =
      (if x ∈ C then 1 else 0) - (if x = 0 then 1 else 0)) (x : Nat) (hx : x < n) :
    isSurvivor (scanIDs flags 0) x = decide (x ∈ C) := by
  unfold isSurvivor
  have hv := ids_value flags n C hlen hn hflag
  cases x with
  | zero =>
    rw [hv 0 hx, cntUpTo_zero]
    by_cases h : 0 ∈ C
    · simp [h]
    · simp [h]
  | succ k =>
    have hk : k < n := by omega
    have e : k + 1 - 1 = k := by omega
    rw [e, hv (k + 1) hx, hv k hk, cntUpTo_succ]
    have hle := cntUpTo_le C k
    have h1 : decide (k + 1 = 0) = false := decide_eq_false (by omega)
    have h2 : decide (k + 1 > 0) = true := decide_eq_true (by omega)
    rw [h1, h2, Bool.false_and, Bool.false_or, Bool.true_and]
    apply decide_eq_decide.mpr
    by_cases h : k + 1 ∈ C
    · rw [if_pos h]
      constructor
      · intro _; exact h
      · intro _
        rw [if_neg (Nat.succ_ne_zero _)]
        by_cases hc : cntUpTo C k = 0
        · rw [if_pos hc]; omega
        · rw [if_neg hc]; omega
    · rw [if_neg h, Nat.add_zero]
      constructor
      · intro hh; exact absurd rfl hh
      · intro hh; exact absurd hh h

theorem ids_of_mem (flags : List Int) (n : Nat) (C : Finset Nat) (hlen : flags.length = n)
    (hn : n < 4294967296)
    (hflag : ∀ x, x < n → flags.getD x 0 =
      (if x ∈ C then 1 else 0) - (if x = 0 then 1 else 0)) (x : Nat) (hx : x < n)
    (hC : x ∈ C) : (scanIDs flags 0).getD x 0 = cntUpTo C x - 1 := by
  rw [ids_value flags n C hlen hn hflag x hx, if_neg]
  have := cntUpTo_pos C x hC
  omega

end Induced6

namespace Induced6
open Finset

theorem countP_ge_two (l : List Nat) (P : Nat → Bool) (p q : Nat) (hp : p ∈ l) (hq : q ∈ l)
    (hne : p ≠ q) (hPp : P p = true) (hPq : P q = true) : 2 ≤ l.countP P := by
  rw [List.countP_eq_length_filter]
  have h1 : p ∈ l.filter P := List.mem_filter.mpr ⟨hp, hPp⟩
  have h2 : q ∈ l.filter P := List.mem_filter.mpr ⟨hq, hPq⟩
  generalize l.filter P = m at h1 h2
  match m, h1, h2 with
  | [], h1, _ => exact absurd h1 (List.not_mem_nil p)
  | [a], h1, h2 =>
    rw [List.mem_singleton] at h1 h2
    exact absurd (h1.trans h2.symm) hne
  | _ :: _ :: _, _, _ => simp

/-- A vertex with two neighbours in the 2-core is in the 2-core. -/
theorem core_closed {G : Graph} {n : Nat} {C : Finset Nat} (hC : IsTwoCore G n C)
    (x p q : Nat) (hx : x < n) (hp : p ∈ nbrs G x) (hq : q ∈ nbrs G x) (hne : p ≠ q)
    (hpC : p ∈ C) (hqC : q ∈ C) : x ∈ C := by
  have hS : MinDeg2 G n (insert x C) := by
    intro y hy
    rw [Finset.mem_insert] at hy
    rcases hy with hy | hy
    · subst hy
      exact ⟨hx, countP_ge_two _ _ p q hp hq hne
        (decide_eq_true (Finset.mem_insert_of_mem hpC))
        (decide_eq_true (Finset.mem_insert_of_mem hqC))⟩
    · refine ⟨(hC.1 y hy).1, le_trans (hC.1 y hy).2 ?_⟩
      apply List.countP_mono_left
      intro z _ hz
      rw [decide_eq_true_eq] at hz
      exact decide_eq_true (Finset.mem_insert_of_mem hz)
  exact hC.2 _ hS (Finset.mem_insert_self x C)

/-- The six vertices of an induced 6-cycle are in the 2-core. -/
theorem cycle_in_core {G : Graph} {vL vR : Nat} {C : Finset Nat} (hb : Bip G vL vR)
    (hC : IsTwoCore G (vL + vR) C) (a b c : Nat) (ha : a < vL) (hb2 : b < vL) (hc : c < vL)
    (hab : a ≠ b) (hac : a ≠ c) (hbc : b ≠ c)
    (hpos : exclF G vL a b c * exclF G vL b c a * exclF G vL a c b ≠ 0) :
    a ∈ C ∧ b ∈ C ∧ c ∈ C := by
  have h1 : exclF G vL a b c ≠ 0 := fun h => hpos (by rw [h]; simp)
  have h2 : exclF G vL b c a ≠ 0 := fun h => hpos (by rw [h]; simp)
  have h3 : exclF G vL a c b ≠ 0 := fun h => hpos (by rw [h]; simp)
  have hget : ∀ p q r, exclF G vL p q r ≠ 0 → ∃ x, vL ≤ x ∧ x < vL + vR ∧
      x ∈ nbrs G p ∧ x ∈ nbrs G q ∧ x ∉ nbrs G r := by
    intro p q r h
    unfold exclF at h
    obtain ⟨x, hx⟩ := Finset.card_pos.mp (Nat.pos_of_ne_zero h)
    rw [Finset.mem_filter, Finset.mem_Ico, hb.length_eq, adj_iff, adj_iff,
      ← Bool.not_eq_true, adj_iff] at hx
    exact ⟨x, hx.1.1, hx.1.2, hx.2.1, hx.2.2.1, hx.2.2.2⟩
  obtain ⟨x, hx1, hx2, hxa, hxb, hxc⟩ := hget a b c h1
  obtain ⟨y, hy1, hy2, hyb, hyc, hya⟩ := hget b c a h2
  obtain ⟨z, hz1, hz2, hza, hzc, hzb⟩ := hget a c b h3
  have hxy : x ≠ y := fun e => hya (e ▸ hxa)
  have hxz : x ≠ z := fun e => hxc (e ▸ hzc)
  have hyz : y ≠ z := fun e => hzb (e ▸ hyb)
  have hS : MinDeg2 G (vL + vR) {a, b, c, x, y, z} := by
    have hmemS : ∀ v, v = a ∨ v = b ∨ v = c ∨ v = x ∨ v = y ∨ v = z →
        decide (v ∈ ({a, b, c, x, y, z} : Finset Nat)) = true := by
      intro v hv
      apply decide_eq_true
      simp only [Finset.mem_insert, Finset.mem_singleton]
      exact hv
    intro v hv
    simp only [Finset.mem_insert, Finset.mem_singleton] at hv
    rcases hv with hv | hv | hv | hv | hv | hv
    · subst hv
      exact ⟨by omega, countP_ge_two _ _ x z hxa hza hxz (hmemS x (by simp)) (hmemS z (by simp))⟩
    · subst hv
      exact ⟨by omega, countP_ge_two _ _ x y hxb hyb hxy (hmemS x (by simp)) (hmemS y (by simp))⟩
    · subst hv
      exact ⟨by omega, countP_ge_two _ _ y z hyc hzc hyz (hmemS y (by simp)) (hmemS z (by simp))⟩
    · subst hv
      exact ⟨hx2, countP_ge_two _ _ a b (hb.symm a (by omega) v hxa)
        (hb.symm b (by omega) v hxb) hab (hmemS a (by simp)) (hmemS b (by simp))⟩
    · subst hv
      exact ⟨hy2, countP_ge_two _ _ b c (hb.symm b (by omega) v hyb)
        (hb.symm c (by omega) v hyc) hbc (hmemS b (by simp)) (hmemS c (by simp))⟩
    · subst hv
      exact ⟨hz2, countP_ge_two _ _ a c (hb.symm a (by omega) v hza)
        (hb.symm c (by omega) v hzc) hac (hmemS a (by simp)) (hmemS c (by simp))⟩
  have hsub := hC.2 _ hS
  refine ⟨hsub ?_, hsub ?_, hsub ?_⟩ <;> simp

end Induced6


namespace Induced6
open Finset

/-- The compaction loop of `Obtain2Core`, given flags that mark the 2-core `C`: the new
graph is a simple symmetric bipartite graph on the survivors, with the same count. -/
theorem compact_spec (G : Graph) (vL vR : Nat) (hb : Bip G vL vR) (flags : List Int)
    (C : Finset Nat) (nL nR : Nat) (hC : IsTwoCore G (vL + vR) C)
    (hlen : flags.length = vL + vR)
    (hflag : ∀ x, x < vL + vR → flags.getD x 0 =
      (if x ∈ C then 1 else 0) - (if x = 0 then 1 else 0))
    (hnL : nL = (C.filter (fun x => x < vL)).card)
    (hnR : nR = (C.filter (fun x => vL ≤ x)).card) :
    Bip ((List.range (u32 (vL + vR))).foldl (compactStep G (scanIDs flags 0))
        (List.replicate (u32 (nL + nR)) [])) nL nR ∧
      tripleSum ((List.range (u32 (vL + vR))).foldl (compactStep G (scanIDs flags 0))
        (List.replicate (u32 (nL + nR)) [])) nL = tripleSum G vL := by
  have hn : vL + vR < 4294967296 := hb.size_lt
  have hCn : ∀ x ∈ C, x < vL + vR := fun x hx => (hC.1 x hx).1
  have hcard : C.card = nL + nR := by
    rw [hnL, hnR, ← Finset.filter_card_add_filter_neg_card_eq_card (fun x => x < vL)]
    congr 2
    apply Finset.filter_congr
    intro x _
    exact not_lt
  have hcardle : C.card ≤ vL + vR := by
    have : C ⊆ range (vL + vR) := fun x hx => Finset.mem_range.mpr (hCn x hx)
    have h2 := Finset.card_le_card this
    rwa [Finset.card_range] at h2
  have hu1 : u32 (vL + vR) = vL + vR := Nat.mod_eq_of_lt hn
  have hu2 : u32 (nL + nR) = nL + nR := Nat.mod_eq_of_lt (by omega)
  rw [hu1, hu2]
  have hS : ∀ x, x < vL + vR → isSurvivor (scanIDs flags 0) x = decide (x ∈ C) :=
    isSurvivor_iff flags (vL + vR) C hlen hn hflag
  have hSt : ∀ x, x < vL + vR → (isSurvivor (scanIDs flags 0) x = true ↔ x ∈ C) := by
    intro x hx
    rw [hS x hx, decide_eq_true_eq]
  obtain ⟨φ, hφdef⟩ : ∃ φ : Nat → Nat, ∀ x, φ x = (scanIDs flags 0).getD x 0 :=
    ⟨_, fun _ => rfl⟩
  have hφ : ∀ x ∈ C, φ x = cntUpTo C x - 1 := fun x hx =>
    (hφdef x).trans (ids_of_mem flags (vL + vR) C hlen hn hflag x (hCn x hx) hx)
  have hpos : ∀ x ∈ C, 0 < cntUpTo C x := fun x hx => cntUpTo_pos C x hx
  have hφlt : ∀ x ∈ C, φ x < nL + nR := by
    intro x hx
    have h1 : cntUpTo C x ≤ C.card := by
      unfold cntUpTo
      apply Finset.card_le_card
      intro y hy
      exact (Finset.mem_filter.mp hy).2
    have := hpos x hx
    rw [hφ x hx]
    omega
  have hinj : ∀ x ∈ C, ∀ y ∈ C, φ x = φ y → x = y := by
    intro x hx y hy h
    rw [hφ x hx, hφ y hy] at h
    have h1 := hpos x hx
    have h2 := hpos y hy
    rcases Nat.lt_trichotomy x y with hlt | heq | hgt
    · have := cntUpTo_lt C x y hlt hy; omega
    · exact heq
    · have := cntUpTo_lt C y x hgt hx; omega
  have hφL : ∀ x ∈ C, x < vL → φ x < nL := by
    intro x hx hxl
    have h1 : cntUpTo C x ≤ nL := by
      rw [hnL]
      unfold cntUpTo
      apply Finset.card_le_card
      intro y hy
      rw [Finset.mem_filter, Finset.mem_range] at hy
      exact Finset.mem_filter.mpr ⟨hy.2, by omega⟩
    have := hpos x hx
    rw [hφ x hx]
    omega
  have hφR : ∀ x ∈ C, vL ≤ x → nL ≤ φ x := by
    intro x hx hxr
    have h1 : nL + 1 ≤ cntUpTo C x := by
      have hnot : x ∉ C.filter (fun y => y < vL) := by
        intro h
        have := (Finset.mem_filter.mp h).2
        omega
      rw [hnL, ← Finset.card_insert_of_not_mem hnot]
      unfold cntUpTo
      apply Finset.card_le_card
      intro y hy
      rw [Finset.mem_insert, Finset.mem_filter] at hy
      rw [Finset.mem_filter, Finset.mem_range]
      rcases hy with hy | hy
      · subst hy; exact ⟨by omega, hx⟩
      · exact ⟨by omega, hy.1⟩
    rw [hφ x hx]
    omega
  have himg : C.image φ = range (nL + nR) := by
    apply Finset.eq_of_subset_of_card_le
    · intro k hk
      obtain ⟨x, hx, rfl⟩ := Finset.mem_image.mp hk
      exact Finset.mem_range.mpr (hφlt x hx)
    · rw [Finset.card_range, Finset.card_image_of_injOn (fun x hx y hy h => hinj x hx y hy h),
        hcard]
  have hsurj : ∀ k, k < nL + nR → ∃ u, u < vL + vR ∧
      isSurvivor (scanIDs flags 0) u = true ∧ φ u = k := by
    intro k hk
    have : k ∈ C.image φ := by rw [himg]; exact Finset.mem_range.mpr hk
    obtain ⟨u, hu, rfl⟩ := Finset.mem_image.mp this
    exact ⟨u, hCn u hu, (hSt u (hCn u hu)).2 hu, rfl⟩
  have hstep : compactStep G (scanIDs flags 0) = fun A u =>
      if isSurvivor (scanIDs flags 0) u = true then
        appendAt A (φ u) (((nbrs G u).filter (isSurvivor (scanIDs flags 0))).map φ)
      else A := by
    funext A u
    have e : φ = fun y => (scanIDs flags 0).getD y 0 := funext hφdef
    rw [e]
    rfl
  rw [hstep]
  obtain ⟨hf1, hf2, -⟩ := foldl_appendAt (nL + nR) (isSurvivor (scanIDs flags 0)) φ
    (fun u => ((nbrs G u).filter (isSurvivor (scanIDs flags 0))).map φ) (vL + vR)
    (fun u hu hp => hφlt u ((hSt u hu).1 hp))
    (fun u v hu hv hpu hpv h => hinj u ((hSt u hu).1 hpu) v ((hSt v hv).1 hpv) h)
  generalize (List.range (vL + vR)).foldl (fun A u =>
      if isSurvivor (scanIDs flags 0) u = true then
        appendAt A (φ u) (((nbrs G u).filter (isSurvivor (scanIDs flags 0))).map φ)
      else A) (List.replicate (nL + nR) []) = newG at hf1 hf2 ⊢
  obtain ⟨hbip, hadj⟩ := bip_of_iso G newG (vL + vR) (nL + nR) nL
    (isSurvivor (scanIDs flags 0)) φ hb.bound hb.symm hb.nodup
    (fun u hu hp => hφlt u ((hSt u hu).1 hp))
    (fun u v hu hv hpu hpv h => hinj u ((hSt u hu).1 hpu) v ((hSt v hv).1 hpv) h)
    hsurj hf1
    (fun u hu hp => by
      have := hf2 u hu hp
      unfold nbrs
      rw [this]
      exact List.Perm.refl _)
    (fun u hu hp v hv hq => by
      have huC := (hSt u hu).1 hp
      have hvn := hb.bound u hu v hv
      have hvC := (hSt v hvn).1 hq
      by_cases hl : u < vL
      · have h1 := hφL u huC hl
        have h2 := hφR v hvC (hb.left_nbrs u hl v hv).1
        constructor
        · intro _; exact h2
        · intro _; exact h1
      · have h1 := hφR u huC (by omega)
        have h2 := hφL v hvC (hb.right_nbrs u (by omega) hu v hv)
        constructor
        · intro h; omega
        · intro h; omega)
    (by omega) (by omega)
  rw [Nat.add_sub_cancel_left] at hbip
  refine ⟨hbip, ?_⟩
  apply tripleSum_iso G newG vL nL (C.filter (fun x => x < vL)) (C.filter (fun x => vL ≤ x)) φ
  · intro x hx
    exact Finset.mem_range.mpr (Finset.mem_filter.mp hx).2
  · intro x hx
    rw [Finset.mem_filter] at hx
    rw [Finset.mem_Ico, hb.length_eq]
    exact ⟨hx.2, hCn x hx.1⟩
  · intro x hx y hy h
    exact hinj x (Finset.mem_filter.mp hx).1 y (Finset.mem_filter.mp hy).1 h
  · intro x hx y hy h
    exact hinj x (Finset.mem_filter.mp hx).1 y (Finset.mem_filter.mp hy).1 h
  · apply Finset.eq_of_subset_of_card_le
    · intro k hk
      obtain ⟨x, hx, rfl⟩ := Finset.mem_image.mp hk
      rw [Finset.mem_filter] at hx
      exact Finset.mem_range.mpr (hφL x hx.1 hx.2)
    · rw [Finset.card_range, Finset.card_image_of_injOn
        (fun x hx y hy h => hinj x (Finset.mem_filter.mp hx).1 y (Finset.mem_filter.mp hy).1 h),
        hnL]
  · apply Finset.eq_of_subset_of_card_le
    · intro k hk
      obtain ⟨x, hx, rfl⟩ := Finset.mem_image.mp hk
      rw [Finset.mem_filter] at hx
      rw [Finset.mem_Ico, hf1]
      exact ⟨hφR x hx.1 hx.2, hφlt x hx.1⟩
    · rw [Nat.card_Ico, hf1, Nat.add_sub_cancel_left, Finset.card_image_of_injOn
        (fun x hx y hy h => hinj x (Finset.mem_filter.mp hx).1 y (Finset.mem_filter.mp hy).1 h),
        hnR]
  · intro a ha x hx
    rw [Finset.mem_filter] at ha hx
    exact hadj a x (hCn a ha.1) (hCn x hx.1) ((hSt a (hCn a ha.1)).2 ha.1)
      ((hSt x (hCn x hx.1)).2 hx.1)
  · intro p hp q hq hne x hx hpx hqx
    rw [Finset.mem_filter] at hp hq
    rw [Finset.mem_Ico, hb.length_eq] at hx
    rw [adj_iff] at hpx hqx
    rw [Finset.mem_filter]
    refine ⟨core_closed hC x p q hx.2 ?_ ?_ hne hp.1 hq.1, hx.1⟩
    · exact hb.symm p (hCn p hp.1) x hpx
    · exact hb.symm q (hCn q hq.1) x hqx
  · intro a b c ha hb2 hc hab hac hbc hout
    by_contra hne
    obtain ⟨h1, h2, h3⟩ := cycle_in_core hb hC a b c ha hb2 hc hab hac hbc hne
    rcases hout with h | h | h
    · exact h (Finset.mem_filter.mpr ⟨h1, ha⟩)
    · exact h (Finset.mem_filter.mpr ⟨h2, hb2⟩)
    · exact h (Finset.mem_filter.mpr ⟨h3, hc⟩)

/-- The function `Obtain2Core` on a simple symmetric bipartite graph with at least one vertex:
the result is a simple symmetric bipartite graph with the same count. -/
theorem obtain2Core_spec (G : Graph) (vL vR : Nat) (hb : Bip G vL vR) (h0 : 0 < vL + vR) :
    Bip (Obtain2Core G vL vR).1 (Obtain2Core G vL vR).2.1 (Obtain2Core G vL vR).2.2 ∧
      tripleSum (Obtain2Core G vL vR).1 (Obtain2Core G vL vR).2.1 = tripleSum G vL := by
  obtain ⟨hC, hlen, hflag, hnL, hnR, -⟩ := compute2Core_spec G vL vR hb.symmSimple h0
  exact compact_spec G vL vR hb _ _ _ _ hC hlen hflag hnL hnR

end Induced6

namespace Induced6
open Finset

/-- The part of the preprocessing after the 2-core, on a simple symmetric bipartite graph:
the result is in preprocessed form, it has one list per vertex, the count is the count of
the input, and the edge index built beside it holds the neighbours of the left vertices. -/
theorem reorder_spec (sort : Sorter) (hs : sort.Valid) (G : Graph) (vL vR : Nat)
    (hb : Bip G vL vR) :
    Preprocessed (reorder sort (G, vL, vR)).1 (reorder sort (G, vL, vR)).2.1 ∧
      (reorder sort (G, vL, vR)).1.length
        = (reorder sort (G, vL, vR)).2.1 + (reorder sort (G, vL, vR)).2.2 ∧
      countInduced6 (reorder sort (G, vL, vR)).1 (reorder sort (G, vL, vR)).2.1
        = countInduced6 G vL ∧
      EdgeIndex (reorder sort (G, vL, vR)).1 (reorder sort (G, vL, vR)).2.1
        (buildE sort (G, vL, vR)) := by
  obtain ⟨hbb, hcnt⟩ := balance_spec G vL vR hb
  have hR : reorder sort (G, vL, vR) =
      (((List.range (u32 ((balance (G, vL, vR)).2.1 + (balance (G, vL, vR)).2.2))).foldl
        (relabelStep (balance (G, vL, vR)).1
          (rankOf (sort (path2Cnts (balance (G, vL, vR)).1 (balance (G, vL, vR)).2.1))
            (balance (G, vL, vR)).2.1) (balance (G, vL, vR)).2.1)
        (List.replicate (u32 ((balance (G, vL, vR)).2.1 + (balance (G, vL, vR)).2.2)) [])).map
          sortDesc, (balance (G, vL, vR)).2.1, (balance (G, vL, vR)).2.2) := rfl
  have hE : buildE sort (G, vL, vR) =
      (List.range (balance (G, vL, vR)).2.1).foldl (fun E u => emplaceAll E
        ((rankOf (sort (path2Cnts (balance (G, vL, vR)).1 (balance (G, vL, vR)).2.1))
            (balance (G, vL, vR)).2.1).getD u 0) (nbrs (balance (G, vL, vR)).1 u))
        (List.replicate (balance (G, vL, vR)).2.1 []) := rfl
  rw [hR, hE]
  generalize (balance (G, vL, vR)).1 = G2 at hbb hcnt ⊢
  generalize (balance (G, vL, vR)).2.1 = wL at hbb hcnt ⊢
  generalize (balance (G, vL, vR)).2.2 = wR at hbb hcnt ⊢
  have hu : u32 (wL + wR) = wL + wR := Nat.mod_eq_of_lt hbb.size_lt
  rw [hu]
  have hp : (sort (path2Cnts G2 wL)).Perm (List.range wL) := by
    have h1 := (hs (path2Cnts G2 wL)).1
    have h2 : (path2Cnts G2 wL).length = wL := by
      unfold path2Cnts
      rw [List.length_map, List.length_range]
    rwa [h2] at h1
  obtain ⟨r1, r2, r3, r4⟩ := relabel_spec G2 wL wR hbb (sort (path2Cnts G2 wL)) hp
  refine ⟨r1, r2, ?_, r4⟩
  show countInduced6 _ wL = _
  rw [countInduced6_eq_tripleSum, r3, ← countInduced6_eq_tripleSum, hcnt]

/-- The function `preProcessing(G, vLeft, vRight, E)` on a simple symmetric bipartite graph
with at least one vertex: the result is in preprocessed form, it has one list per vertex,
the edge index holds the neighbours of the left vertices, and the count is the count of the
input. -/
theorem preProcessingE_spec (sort : Sorter) (hs : sort.Valid) (G : Graph) (vL vR : Nat)
    (hb : Bip G vL vR) (h0 : 0 < vL + vR) :
    Preprocessed (preProcessingE sort G vL vR).1 (preProcessingE sort G vL vR).2.1 ∧
      (preProcessingE sort G vL vR).1.length
        = (preProcessingE sort G vL vR).2.1 + (preProcessingE sort G vL vR).2.2.1 ∧
      countInduced6 (preProcessingE sort G vL vR).1 (preProcessingE sort G vL vR).2.1
        = countInduced6 G vL ∧
      EdgeIndex (preProcessingE sort G vL vR).1 (preProcessingE sort G vL vR).2.1
        (preProcessingE sort G vL vR).2.2.2 := by
  obtain ⟨hb1, hc1⟩ := obtain2Core_spec G vL vR hb h0
  obtain ⟨r1, r2, r3, r4⟩ := reorder_spec sort hs _ _ _ hb1
  refine ⟨r1, r2, ?_, r4⟩
  rw [← countInduced6_eq_tripleSum, ← countInduced6_eq_tripleSum] at hc1
  exact r3.trans hc1

theorem preProcessing_eq (sort : Sorter) (G : Graph) (vL vR : Nat) :
    preProcessing sort G vL vR = ((preProcessingE sort G vL vR).1,
      (preProcessingE sort G vL vR).2.1, (preProcessingE sort G vL vR).2.2.1) := rfl

/-- After the preprocessing the left side is not the larger one. -/
theorem reorder_sides (sort : Sorter) (g : Graph × Nat × Nat) :
    (reorder sort g).2.1 ≤ (reorder sort g).2.2 := by
  show (balance g).2.1 ≤ (balance g).2.2
  unfold balance
  by_cases h : g.2.1 > g.2.2
  · rw [if_pos h]
    exact Nat.le_of_lt h
  · rw [if_neg h]
    exact Nat.le_of_not_gt h

end Induced6

namespace Induced6
open Finset

theorem cntUpTo_eq_card (C : Finset Nat) (x : Nat) (hx : x ∈ C) :
    cntUpTo C x = (C.filter (fun y => y < x)).card + 1 := by
  unfold cntUpTo
  have e : (range (x + 1)).filter (fun y => y ∈ C) = insert x (C.filter (fun y => y < x)) := by
    ext y
    simp only [Finset.mem_filter, Finset.mem_range, Finset.mem_insert]
    constructor
    · intro h
      by_cases e : y = x
      · exact Or.inl e
      · exact Or.inr ⟨h.2, by omega⟩
    · rintro (e | h)
      · subst e; exact ⟨by omega, hx⟩
      · exact ⟨by omega, h.1⟩
  rw [e, Finset.card_insert_of_not_mem]
  intro h
  have := (Finset.mem_filter.mp h).2
  omega

/-- The compaction loop of `Obtain2Core`, given flags that mark the members of `C`: the new
id of a member is the number of members below it, the members below `vL` get the ids below
`nL`, every id below `nL + nR` is taken, and the list of a member holds the new ids of the
members on its old list, in the old order. -/
theorem compact_lists (G : Graph) (vL vR : Nat) (hn : vL + vR < 4294967296)
    (flags : List Int) (C : Finset Nat) (nL nR : Nat) (hCn : ∀ x ∈ C, x < vL + vR)
    (hlen : flags.length = vL + vR)
    (hflag : ∀ x, x < vL + vR → flags.getD x 0 =
      (if x ∈ C then 1 else 0) - (if x = 0 then 1 else 0))
    (hnL : nL = (C.filter (fun x => x < vL)).card)
    (hnR : nR = (C.filter (fun x => vL ≤ x)).card) :
    C.card = nL + nR ∧
      ((List.range (u32 (vL + vR))).foldl (compactStep G (scanIDs flags 0))
        (List.replicate (u32 (nL + nR)) [])).length = nL + nR ∧
      (∀ x, x < vL + vR → isSurvivor (scanIDs flags 0) x = decide (x ∈ C)) ∧
      (∀ x ∈ C, (scanIDs flags 0).getD x 0 = (C.filter (fun y => y < x)).card) ∧
      (∀ x ∈ C, (x < vL → (scanIDs flags 0).getD x 0 < nL) ∧
        (vL ≤ x → nL ≤ (scanIDs flags 0).getD x 0)) ∧
      (∀ k, k < nL + nR → ∃ x ∈ C, (scanIDs flags 0).getD x 0 = k) ∧
      (∀ x ∈ C, ((List.range (u32 (vL + vR))).foldl (compactStep G (scanIDs flags 0))
          (List.replicate (u32 (nL + nR)) [])).getD ((scanIDs flags 0).getD x 0) []
        = ((nbrs G x).filter (isSurvivor (scanIDs flags 0))).map
            (fun y => (scanIDs flags 0).getD y 0)) := by
  have hcard : C.card = nL + nR := by
    rw [hnL, hnR, ← Finset.filter_card_add_filter_neg_card_eq_card (fun x => x < vL)]
    congr 2
    apply Finset.filter_congr
    intro x _
    exact not_lt
  have hcardle : C.card ≤ vL + vR := by
    have : C ⊆ range (vL + vR) := fun x hx => Finset.mem_range.mpr (hCn x hx)
    have h2 := Finset.card_le_card this
    rwa [Finset.card_range] at h2
  have hu1 : u32 (vL + vR) = vL + vR := Nat.mod_eq_of_lt hn
  have hu2 : u32 (nL + nR) = nL + nR := Nat.mod_eq_of_lt (by omega)
  rw [hu1, hu2]
  have hS : ∀ x, x < vL + vR → isSurvivor (scanIDs flags 0) x = decide (x ∈ C) :=
    isSurvivor_iff flags (vL + vR) C hlen hn hflag
  have hSt : ∀ x, x < vL + vR → (isSurvivor (scanIDs flags 0) x = true ↔ x ∈ C) := by
    intro x hx
    rw [hS x hx, decide_eq_true_eq]
  have hφ : ∀ x ∈ C, (scanIDs flags 0).getD x 0 = (C.filter (fun y => y < x)).card := by
    intro x hx
    rw [ids_of_mem flags (vL + vR) C hlen hn hflag x (hCn x hx) hx, cntUpTo_eq_card C x hx]
    rfl
  have hφ2 : ∀ x ∈ C, (scanIDs flags 0).getD x 0 = cntUpTo C x - 1 := fun x hx =>
    ids_of_mem flags (vL + vR) C hlen hn hflag x (hCn x hx) hx
  have hpos : ∀ x ∈ C, 0 < cntUpTo C x := fun x hx => cntUpTo_pos C x hx
  have hφlt : ∀ x ∈ C, (scanIDs flags 0).getD x 0 < nL + nR := by
    intro x hx
    rw [hφ x hx, ← hcard]
    apply Finset.card_lt_card
    refine ⟨Finset.filter_subset _ _, fun h => ?_⟩
    have := (Finset.mem_filter.mp (h hx)).2
    omega
  have hinj : ∀ x ∈ C, ∀ y ∈ C,
      (scanIDs flags 0).getD x 0 = (scanIDs flags 0).getD y 0 → x = y := by
    intro x hx y hy h
    rw [hφ2 x hx, hφ2 y hy] at h
    have h1 := hpos x hx
    have h2 := hpos y hy
    rcases Nat.lt_trichotomy x y with hlt | heq | hgt
    · have := cntUpTo_lt C x y hlt hy; omega
    · exact heq
    · have := cntUpTo_lt C y x hgt hx; omega
  have hφL : ∀ x ∈ C, x < vL → (scanIDs flags 0).getD x 0 < nL := by
    intro x hx hxl
    rw [hφ x hx, hnL]
    apply Finset.card_lt_card
    refine ⟨fun y hy => ?_, fun h => ?_⟩
    · rw [Finset.mem_filter] at hy ⊢
      exact ⟨hy.1, by omega⟩
    · have := (Finset.mem_filter.mp (h (Finset.mem_filter.mpr ⟨hx, hxl⟩))).2
      omega
  have hφR : ∀ x ∈ C, vL ≤ x → nL ≤ (scanIDs flags 0).getD x 0 := by
    intro x hx hxr
    rw [hφ x hx, hnL]
    apply Finset.card_le_card
    intro y hy
    rw [Finset.mem_filter] at hy ⊢
    exact ⟨hy.1, by omega⟩
  have himg : C.image (fun x => (scanIDs flags 0).getD x 0) = range (nL + nR) := by
    apply Finset.eq_of_subset_of_card_le
    · intro k hk
      obtain ⟨x, hx, rfl⟩ := Finset.mem_image.mp hk
      exact Finset.mem_range.mpr (hφlt x hx)
    · rw [Finset.card_range, Finset.card_image_of_injOn (fun x hx y hy h => hinj x hx y hy h),
        hcard]
  have hstep : compactStep G (scanIDs flags 0) = fun A u =>
      if isSurvivor (scanIDs flags 0) u = true then
        appendAt A ((fun y => (scanIDs flags 0).getD y 0) u)
          ((fun u => ((nbrs G u).filter (isSurvivor (scanIDs flags 0))).map
            (fun y => (scanIDs flags 0).getD y 0)) u)
      else A := rfl
  rw [hstep]
  obtain ⟨hf1, hf2, -⟩ := foldl_appendAt (nL + nR) (isSurvivor (scanIDs flags 0))
    (fun y => (scanIDs flags 0).getD y 0)
    (fun u => ((nbrs G u).filter (isSurvivor (scanIDs flags 0))).map
      (fun y => (scanIDs flags 0).getD y 0)) (vL + vR)
    (fun u hu hp => hφlt u ((hSt u hu).1 hp))
    (fun u v hu hv hpu hpv h => hinj u ((hSt u hu).1 hpu) v ((hSt v hv).1 hpv) h)
  refine ⟨hcard, hf1, hS, hφ, fun x hx => ⟨hφL x hx, hφR x hx⟩, ?_, ?_⟩
  · intro k hk
    have : k ∈ C.image (fun x => (scanIDs flags 0).getD x 0) := by
      rw [himg]; exact Finset.mem_range.mpr hk
    obtain ⟨u, hu, e⟩ := Finset.mem_image.mp this
    exact ⟨u, hu, e⟩
  · intro x hx
    exact hf2 x (hCn x hx) ((hSt x (hCn x hx)).2 hx)

end Induced6

namespace Induced6
open Finset

/-- The side swap, list by list: the left vertex `l` moves to `l + vR` and the right vertex
`r` to `r - vL`, and the entries of their lists move the same way. -/
theorem balance_lists (G : Graph) (vL vR : Nat) (hb : Bip G vL vR) (hgt : vR < vL) :
    (balance (G, vL, vR)).2.1 = vR ∧ (balance (G, vL, vR)).2.2 = vL ∧
      (balance (G, vL, vR)).1.length = vL + vR ∧
      (∀ l, l < vL → nbrs (balance (G, vL, vR)).1 (l + vR)
        = (nbrs G l).map (fun r => r - vL)) ∧
      (∀ r, vL ≤ r → r < vL + vR → nbrs (balance (G, vL, vR)).1 (r - vL)
        = (nbrs G r).map (fun l => l + vR)) := by
  have hu32 : u32 (vL + vR) = vL + vR := Nat.mod_eq_of_lt hb.size_lt
  have hbal : balance (G, vL, vR) = ((List.range (vL + vR)).foldl (swapStep G vL vR)
      (List.replicate (vL + vR) []), vR, vL) := by
    unfold balance
    simp only [if_pos hgt, hu32]
  rw [hbal]
  simp only
  obtain ⟨ψ, hψ⟩ : ∃ ψ : Nat → Nat, ∀ u, ψ u = if u < vL then u32 (u + vR) else sub32 u vL :=
    ⟨_, fun _ => rfl⟩
  have hsz := hb.size_lt
  have hψL : ∀ u, u < vL → ψ u = u + vR := fun u hu => by
    rw [hψ, if_pos hu]; exact Nat.mod_eq_of_lt (by omega)
  have hψR : ∀ u, vL ≤ u → u < vL + vR → ψ u = u - vL := fun u hu hu2 => by
    rw [hψ, if_neg (by omega)]; exact sub32_of_le hu (by omega)
  have hψinj : ∀ u v, u < vL + vR → v < vL + vR → ψ u = ψ v → u = v := by
    intro u v hu hv e
    by_cases h1 : u < vL <;> by_cases h2 : v < vL
    · rw [hψL u h1, hψL v h2] at e; omega
    · rw [hψL u h1, hψR v (by omega) hv] at e; omega
    · rw [hψR u (by omega) hu, hψL v h2] at e; omega
    · rw [hψR u (by omega) hu, hψR v (by omega) hv] at e; omega
  have hψlt : ∀ u, u < vL + vR → ψ u < vL + vR := by
    intro u hu
    by_cases h1 : u < vL
    · rw [hψL u h1]; omega
    · rw [hψR u (by omega) hu]; omega
  have hstep : swapStep G vL vR = fun A u =>
      if (fun _ => true) u = true then
        appendAt A (ψ u) (if u < vL then (nbrs G u).map (fun n => sub32 n vL)
          else (nbrs G u).map (fun n => u32 (n + vR)))
      else A := by
    funext A u
    unfold swapStep
    by_cases h1 : u < vL
    · simp only [if_pos h1, hψ u, if_true]
    · simp only [if_neg h1, hψ u, if_true]
  obtain ⟨hlen, hget, _⟩ := foldl_appendAt (vL + vR) (fun _ => true) ψ
    (fun u => if u < vL then (nbrs G u).map (fun n => sub32 n vL)
      else (nbrs G u).map (fun n => u32 (n + vR))) (vL + vR)
    (fun u hu _ => hψlt u hu) (fun u v hu hv _ _ e => hψinj u v hu hv e)
  rw [← hstep] at hlen hget
  generalize ((List.range (vL + vR)).foldl (swapStep G vL vR)
    (List.replicate (vL + vR) [])) = G2 at hlen hget ⊢
  refine ⟨trivial, trivial, hlen, ?_, ?_⟩
  · intro l hl
    have h := hget l (by omega) rfl
    rw [hψL l hl, if_pos hl] at h
    show G2.getD (l + vR) [] = _
    rw [h]
    apply List.map_congr_left
    intro x hx
    have hx2 := hb.left_nbrs l hl x hx
    exact sub32_of_le hx2.1 (by omega)
  · intro r hr1 hr2
    have h := hget r hr2 rfl
    rw [hψR r hr1 hr2, if_neg (by omega)] at h
    show G2.getD (r - vL) [] = _
    rw [h]
    apply List.map_congr_left
    intro a ha
    have ha2 := hb.right_nbrs r hr1 hr2 a ha
    exact Nat.mod_eq_of_lt (by omega)

/-- The side swap keeps the edges: the pair of the new ids of a left and a right vertex is an
edge, on both lists, exactly when the pair was one. -/
theorem balance_adj (G : Graph) (vL vR : Nat) (hb : Bip G vL vR) (hgt : vR < vL)
    (l r : Nat) (hl : l < vL) (hr1 : vL ≤ r) (hr2 : r < vL + vR) :
    adj (balance (G, vL, vR)).1 (r - vL) (l + vR) = adj G l r ∧
      adj (balance (G, vL, vR)).1 (l + vR) (r - vL) = adj G l r := by
  obtain ⟨-, -, -, hL, hR⟩ := balance_lists G vL vR hb hgt
  constructor
  · unfold adj
    rw [hR r hr1 hr2]
    apply decide_eq_decide.mpr
    rw [List.mem_map]
    constructor
    · rintro ⟨a, ha, e⟩
      have : a = l := by omega
      subst this
      exact hb.symm r hr2 a ha
    · intro h
      exact ⟨l, hb.symm l (by omega) r h, rfl⟩
  · unfold adj
    rw [hL l hl]
    apply decide_eq_decide.mpr
    rw [List.mem_map]
    constructor
    · rintro ⟨x, hx, e⟩
      have hx2 := hb.left_nbrs l hl x hx
      have : x = r := by omega
      subst this
      exact hx
    · intro h
      exact ⟨r, h, rfl⟩

theorem balance_of_le (G : Graph) (vL vR : Nat) (h : vL ≤ vR) :
    balance (G, vL, vR) = (G, vL, vR) := by
  unfold balance
  rw [if_neg (by simp only; omega)]

end Induced6

namespace Induced6
open Finset

/-- The relabelling loop and the sort of the lists, list by list: the list of the left
vertex `u` goes to position `rank[u]`, the list of a right vertex stays in place with its
entries replaced by their ranks, and each list is then sorted. -/
theorem relabel_lists (G : Graph) (vL vR : Nat) (idx : List Nat)
    (hp : idx.Perm (List.range vL)) :
    (∀ u, u < vL → nbrs (((List.range (vL + vR)).foldl (relabelStep G (rankOf idx vL) vL)
        (List.replicate (vL + vR) [])).map sortDesc) ((rankOf idx vL).getD u 0)
        = sortDesc (nbrs G u)) ∧
      (∀ x, vL ≤ x → x < vL + vR →
        nbrs (((List.range (vL + vR)).foldl (relabelStep G (rankOf idx vL) vL)
          (List.replicate (vL + vR) [])).map sortDesc) x
        = sortDesc ((nbrs G x).map (fun v => (rankOf idx vL).getD v 0))) := by
  obtain ⟨hr1, hr2⟩ := rankOf_spec idx vL hp
  obtain ⟨ρ, hρ⟩ : ∃ ρ : Nat → Nat, ∀ u, ρ u = if u < vL then (rankOf idx vL).getD u 0 else u :=
    ⟨_, fun _ => rfl⟩
  have hρL : ∀ u, u < vL → ρ u = (rankOf idx vL).getD u 0 := fun u hu => by
    rw [hρ, if_pos hu]
  have hρR : ∀ u, vL ≤ u → ρ u = u := fun u hu => by rw [hρ, if_neg (by omega)]
  have hρinj : ∀ u v, u < vL + vR → v < vL + vR → ρ u = ρ v → u = v := by
    intro u v hu hv e
    by_cases h1 : u < vL <;> by_cases h2 : v < vL
    · rw [hρL u h1, hρL v h2] at e
      have e1 := (hr2 u h1).2
      have e2 := (hr2 v h2).2
      rw [e] at e1
      exact e1.symm.trans e2
    · rw [hρL u h1, hρR v (by omega)] at e
      have := (hr2 u h1).1
      omega
    · rw [hρR u (by omega), hρL v h2] at e
      have := (hr2 v h2).1
      omega
    · rw [hρR u (by omega), hρR v (by omega)] at e
      exact e
  have hstep : relabelStep G (rankOf idx vL) vL = fun A u =>
      if (fun _ => true) u = true then
        appendAt A (ρ u) (if u < vL then nbrs G u
          else (nbrs G u).map (fun v => (rankOf idx vL).getD v 0))
      else A := by
    funext A u
    unfold relabelStep
    by_cases h1 : u < vL
    · simp only [if_pos h1, hρL u h1, if_true]
    · simp only [if_neg h1, hρR u (by omega), if_true]
  have hρlt : ∀ u, u < vL + vR → ρ u < vL + vR := by
    intro u hu
    by_cases h1 : u < vL
    · rw [hρL u h1]; have := (hr2 u h1).1; omega
    · rw [hρR u (by omega)]; exact hu
  obtain ⟨hlen, hget, _⟩ := foldl_appendAt (vL + vR) (fun _ => true) ρ
    (fun u => if u < vL then nbrs G u
      else (nbrs G u).map (fun v => (rankOf idx vL).getD v 0)) (vL + vR)
    (fun u hu _ => hρlt u hu) (fun u v hu hv _ _ e => hρinj u v hu hv e)
  rw [← hstep] at hlen hget
  generalize ((List.range (vL + vR)).foldl (relabelStep G (rankOf idx vL) vL)
    (List.replicate (vL + vR) [])) = newG at hlen hget ⊢
  constructor
  · intro u hu
    rw [nbrs_map_sortDesc]
    show sortDesc (newG.getD _ []) = _
    have h := hget u (by omega) rfl
    rw [hρL u hu, if_pos hu] at h
    rw [h]
  · intro x hx1 hx2
    rw [nbrs_map_sortDesc]
    show sortDesc (newG.getD _ []) = _
    have h := hget x hx2 rfl
    rw [hρR x hx1, if_neg (by omega)] at h
    rw [h]

/-- The steps of `preProcessing` after the 2-core, list by list: with `B` the balanced
2-core and `rank` the rank vector, the sizes are those of `B`, `rank` is a permutation of the
left ids, and the returned lists are the sorted lists of `B`, moved and renamed by `rank`. -/
theorem preProcessing_lists (sort : Sorter) (hs : sort.Valid) (G : Graph) (vL vR : Nat)
    (hb : Bip G vL vR) (h0 : 0 < vL + vR) :
    Bip (balance (Obtain2Core G vL vR)).1 (balance (Obtain2Core G vL vR)).2.1
        (balance (Obtain2Core G vL vR)).2.2 ∧
      (preProcessing sort G vL vR).2.1 = (balance (Obtain2Core G vL vR)).2.1 ∧
      (preProcessing sort G vL vR).2.2 = (balance (Obtain2Core G vL vR)).2.2 ∧
      (sort (path2Cnts (balance (Obtain2Core G vL vR)).1
        (balance (Obtain2Core G vL vR)).2.1)).Perm
          (List.range (balance (Obtain2Core G vL vR)).2.1) ∧
      (∀ u, u < (balance (Obtain2Core G vL vR)).2.1 →
        nbrs (preProcessing sort G vL vR).1
          ((rankOf (sort (path2Cnts (balance (Obtain2Core G vL vR)).1
            (balance (Obtain2Core G vL vR)).2.1))
            (balance (Obtain2Core G vL vR)).2.1).getD u 0)
          = sortDesc (nbrs (balance (Obtain2Core G vL vR)).1 u)) ∧
      (∀ x, (balance (Obtain2Core G vL vR)).2.1 ≤ x →
        x < (balance (Obtain2Core G vL vR)).2.1 + (balance (Obtain2Core G vL vR)).2.2 →
        nbrs (preProcessing sort G vL vR).1 x
          = sortDesc ((nbrs (balance (Obtain2Core G vL vR)).1 x).map
            (fun v => (rankOf (sort (path2Cnts (balance (Obtain2Core G vL vR)).1
              (balance (Obtain2Core G vL vR)).2.1))
              (balance (Obtain2Core G vL vR)).2.1).getD v 0))) := by
  obtain ⟨hb1, -⟩ := obtain2Core_spec G vL vR hb h0
  obtain ⟨hbb, -⟩ := balance_spec _ _ _ hb1
  have hbb2 : Bip (balance (Obtain2Core G vL vR)).1 (balance (Obtain2Core G vL vR)).2.1
      (balance (Obtain2Core G vL vR)).2.2 := hbb
  have hR : preProcessing sort G vL vR =
      (((List.range (u32 ((balance (Obtain2Core G vL vR)).2.1
          + (balance (Obtain2Core G vL vR)).2.2))).foldl
        (relabelStep (balance (Obtain2Core G vL vR)).1
          (rankOf (sort (path2Cnts (balance (Obtain2Core G vL vR)).1
            (balance (Obtain2Core G vL vR)).2.1))
            (balance (Obtain2Core G vL vR)).2.1) (balance (Obtain2Core G vL vR)).2.1)
        (List.replicate (u32 ((balance (Obtain2Core G vL vR)).2.1
          + (balance (Obtain2Core G vL vR)).2.2)) [])).map
          sortDesc, (balance (Obtain2Core G vL vR)).2.1,
          (balance (Obtain2Core G vL vR)).2.2) := rfl
  rw [hR]
  clear hR hbb
  generalize (balance (Obtain2Core G vL vR)).1 = G2 at hbb2 ⊢
  generalize (balance (Obtain2Core G vL vR)).2.1 = wL at hbb2 ⊢
  generalize (balance (Obtain2Core G vL vR)).2.2 = wR at hbb2 ⊢
  have hu : u32 (wL + wR) = wL + wR := Nat.mod_eq_of_lt hbb2.size_lt
  rw [hu]
  have hp : (sort (path2Cnts G2 wL)).Perm (List.range wL) := by
    have h1 := (hs (path2Cnts G2 wL)).1
    have h2 : (path2Cnts G2 wL).length = wL := by
      unfold path2Cnts
      rw [List.length_map, List.length_range]
    rwa [h2] at h1
  obtain ⟨r1, r2⟩ := relabel_lists G2 wL wR (sort (path2Cnts G2 wL)) hp
  exact ⟨hbb2, rfl, rfl, hp, r1, r2⟩

end Induced6

namespace Induced6
open Finset

/-- The loop that computes `path2Cnts[i]` does not wrap: on a simple symmetric bipartite graph
its result is the two-path count. -/
theorem path2Cnt_eq_twoPath (G : Graph) (vL vR : Nat) (hb : Bip G vL vR) (u : Nat)
    (hu : u < vL + vR) : path2Cnt G u = twoPath G u := by
  have hlenle : ∀ v, v < vL + vR → (nbrs G v).length ≤ vL + vR := fun v hv =>
    length_le_of_nodup_lt _ _ (hb.nodup v hv) (hb.bound v hv)
  have hsz := hb.size_lt
  have h1 : path2Cnt G u = u64 (((nbrs G u).map
      (fun v => u64 ((nbrs G v).length + 18446744073709551616 - 1))).sum) := by
    unfold path2Cnt
    exact foldl_u64_gen0 _ _ (fun i x => u64_u64_add _ _) _
  have h2 : (nbrs G u).map (fun v => u64 ((nbrs G v).length + 18446744073709551616 - 1))
      = (nbrs G u).map (fun v => (nbrs G v).length - 1) := by
    apply List.map_congr_left
    intro v hv
    have hvn := hb.bound u hu v hv
    have hpos : 0 < (nbrs G v).length := List.length_pos_of_mem (hb.symm u hu v hv)
    have := hlenle v hvn
    unfold u64
    omega
  have h3 : ((nbrs G u).map (fun v => (nbrs G v).length - 1)).sum
      ≤ ((nbrs G u).map (fun v => (nbrs G v).length - 1)).length • 4294967296 := by
    apply List.sum_le_card_nsmul
    intro x hx
    obtain ⟨v, hv, rfl⟩ := List.mem_map.mp hx
    have := hlenle v (hb.bound u hu v hv)
    omega
  rw [List.length_map, smul_eq_mul] at h3
  have h4 := hlenle u hu
  rw [h1, h2]
  unfold twoPath
  apply u64_of_lt
  have : (nbrs G u).length * 4294967296 ≤ 4294967295 * 4294967296 :=
    Nat.mul_le_mul_right _ (by omega)
  omega

/-- The sort leaves the index vector in ascending order of the keys. -/
theorem sort_ascending (sort : Sorter) (hs : sort.Valid) (keys : List Nat) (i j : Nat)
    (hij : i < j) (hj : j < keys.length) :
    keys.getD ((sort keys).getD i 0) 0 ≤ keys.getD ((sort keys).getD j 0) 0 := by
  obtain ⟨hp, hpw⟩ := hs keys
  have hl : (sort keys).length = keys.length := by
    rw [hp.length_eq, List.length_range]
  rw [List.pairwise_iff_getElem] at hpw
  have := hpw i j (by omega) (by omega) hij
  rw [List.getD_eq_getElem _ _ (by omega : i < (sort keys).length),
    List.getD_eq_getElem _ _ (by omega : j < (sort keys).length)]
  omega

/-- In the graph returned by `preProcessing` the two-path counts of the left vertices
ascend with the id. -/
theorem twoPath_ascending (sort : Sorter) (hs : sort.Valid) (G : Graph) (vL vR : Nat)
    (hb : Bip G vL vR) (h0 : 0 < vL + vR) (i j : Nat) (hij : i < j)
    (hj : j < (preProcessing sort G vL vR).2.1) :
    twoPath (preProcessing sort G vL vR).1 i ≤ twoPath (preProcessing sort G vL vR).1 j := by
  obtain ⟨hbb, e1, e2, hp, hL, hR⟩ := preProcessing_lists sort hs G vL vR hb h0
  rw [e1] at hj
  generalize (preProcessing sort G vL vR).1 = G3 at hL hR ⊢
  generalize (balance (Obtain2Core G vL vR)).1 = B at hbb hp hL hR
  generalize (balance (Obtain2Core G vL vR)).2.1 = wL at hbb hp hL hR hj
  generalize (balance (Obtain2Core G vL vR)).2.2 = wR at hbb hR
  obtain ⟨hr1, hr2⟩ := rankOf_spec _ wL hp
  have hkl : (path2Cnts B wL).length = wL := by
    unfold path2Cnts
    rw [List.length_map, List.length_range]
  have hkey : ∀ u, u < wL → (path2Cnts B wL).getD u 0 = twoPath B u := by
    intro u hu
    unfold path2Cnts
    rw [List.getD_eq_getElem _ _ (by rw [List.length_map, List.length_range]; exact hu),
      List.getElem_map, List.getElem_range]
    exact path2Cnt_eq_twoPath B wL wR hbb u (by omega)
  have htp : ∀ k, k < wL →
      twoPath G3 k = twoPath B ((sort (path2Cnts B wL)).getD k 0) := by
    intro k hk
    obtain ⟨hu, hru⟩ := hr1 k hk
    have hl := hL _ hu
    rw [hru] at hl
    unfold twoPath
    rw [hl, ((sortDesc_perm _).map _).sum_eq]
    congr 1
    apply List.map_congr_left
    intro x hx
    have hx2 := hbb.left_nbrs _ hu x hx
    rw [hR x hx2.1 hx2.2, (sortDesc_perm _).length_eq, List.length_map]
  rw [htp i (by omega), htp j hj, ← hkey _ (hr1 i (by omega)).1, ← hkey _ (hr1 j hj).1]
  exact sort_ascending sort hs (path2Cnts B wL) i j hij (by omega)

end Induced6

namespace Induced6
open Finset

/-- The function `Obtain2Core` on a symmetric simple graph with at least one vertex: the
survivors are the 2-core, the new id of a survivor is the number of survivors below it, the
left survivors get the ids below the new `vLeft`, every new id is taken, and the new list of
a survivor holds the new ids of the survivors on its old list, in the old order. -/
theorem obtain2Core_lists (G : Graph) (vL vR : Nat) (hg : SymmSimple G (vL + vR))
    (h0 : 0 < vL + vR) :
    IsTwoCore G (vL + vR) (coreSet G vL vR) ∧
      (Obtain2Core G vL vR).2.1 = ((coreSet G vL vR).filter (fun x => x < vL)).card ∧
      (Obtain2Core G vL vR).2.2 = ((coreSet G vL vR).filter (fun x => vL ≤ x)).card ∧
      (coreSet G vL vR).card = (Obtain2Core G vL vR).2.1 + (Obtain2Core G vL vR).2.2 ∧
      (Obtain2Core G vL vR).1.length
        = (Obtain2Core G vL vR).2.1 + (Obtain2Core G vL vR).2.2 ∧
      (∀ x ∈ coreSet G vL vR,
        compactID G vL vR x = ((coreSet G vL vR).filter (fun y => y < x)).card) ∧
      (∀ x ∈ coreSet G vL vR,
        (x < vL → compactID G vL vR x < (Obtain2Core G vL vR).2.1) ∧
        (vL ≤ x → (Obtain2Core G vL vR).2.1 ≤ compactID G vL vR x)) ∧
      (∀ k, k < (Obtain2Core G vL vR).2.1 + (Obtain2Core G vL vR).2.2 →
        ∃ x ∈ coreSet G vL vR, compactID G vL vR x = k) ∧
      (∀ x ∈ coreSet G vL vR, nbrs (Obtain2Core G vL vR).1 (compactID G vL vR x)
        = ((nbrs G x).filter (fun y => decide (y ∈ coreSet G vL vR))).map
            (compactID G vL vR)) := by
  obtain ⟨hC, hlen, hflag, hnL, hnR, -⟩ := compute2Core_spec G vL vR hg h0
  have hCn : ∀ x ∈ coreSet G vL vR, x < vL + vR := fun x hx => (hC.1 x hx).1
  obtain ⟨c1, c2, c3, c4, c5, c6, c7⟩ := compact_lists G vL vR hg.size_lt
    (Compute2Core G vL vR).2.2 (coreSet G vL vR) (Compute2Core G vL vR).1
    (Compute2Core G vL vR).2.1 hCn hlen hflag hnL hnR
  refine ⟨hC, hnL, hnR, c1, c2, c4, c5, c6, ?_⟩
  intro x hx
  have h := c7 x hx
  have hf : (nbrs G x).filter (isSurvivor (scanIDs (Compute2Core G vL vR).2.2 0))
      = (nbrs G x).filter (fun y => decide (y ∈ coreSet G vL vR)) := by
    apply List.filter_congr
    intro y hy
    exact c3 y (hg.bound x (hCn x hx) y hy)
  rw [hf] at h
  exact h

/-- After `Obtain2Core` every vertex has at least 2 neighbours. -/
theorem obtain2Core_mindeg (G : Graph) (vL vR : Nat) (hg : SymmSimple G (vL + vR))
    (h0 : 0 < vL + vR) (k : Nat)
    (hk : k < (Obtain2Core G vL vR).2.1 + (Obtain2Core G vL vR).2.2) :
    2 ≤ (nbrs (Obtain2Core G vL vR).1 k).length := by
  obtain ⟨hC, -, -, -, -, -, -, hsurj, hl⟩ := obtain2Core_lists G vL vR hg h0
  obtain ⟨x, hx, rfl⟩ := hsurj k hk
  rw [hl x hx, List.length_map, ← List.countP_eq_length_filter]
  exact (hC.1 x hx).2

/-- The side swap keeps the degrees. -/
theorem balance_mindeg (G : Graph) (vL vR : Nat) (hb : Bip G vL vR)
    (hd : ∀ k, k < vL + vR → 2 ≤ (nbrs G k).length) (k : Nat)
    (hk : k < (balance (G, vL, vR)).2.1 + (balance (G, vL, vR)).2.2) :
    2 ≤ (nbrs (balance (G, vL, vR)).1 k).length := by
  by_cases hgt : vR < vL
  · obtain ⟨e1, e2, -, hL, hR⟩ := balance_lists G vL vR hb hgt
    rw [e1, e2] at hk
    by_cases h1 : k < vR
    · have := hR (k + vL) (by omega) (by omega)
      rw [Nat.add_sub_cancel] at this
      rw [this, List.length_map]
      exact hd _ (by omega)
    · have := hL (k - vR) (by omega)
      rw [Nat.sub_add_cancel (by omega)] at this
      rw [this, List.length_map]
      exact hd _ (by omega)
  · rw [balance_of_le G vL vR (by omega)] at hk ⊢
    exact hd k hk

/-- In the graph returned by `preProcessing` every vertex has at least 2 neighbours. -/
theorem preProcessing_mindeg (sort : Sorter) (hs : sort.Valid) (G : Graph) (vL vR : Nat)
    (hb : Bip G vL vR) (h0 : 0 < vL + vR) (k : Nat)
    (hk : k < (preProcessing sort G vL vR).2.1 + (preProcessing sort G vL vR).2.2) :
    2 ≤ (nbrs (preProcessing sort G vL vR).1 k).length := by
  obtain ⟨hbb, e1, e2, hp, hL, hR⟩ := preProcessing_lists sort hs G vL vR hb h0
  obtain ⟨hb1, -⟩ := obtain2Core_spec G vL vR hb h0
  have hd := balance_mindeg _ _ _ hb1 (obtain2Core_mindeg G vL vR hb.symmSimple h0)
  have hd2 : ∀ k, k < (balance (Obtain2Core G vL vR)).2.1
      + (balance (Obtain2Core G vL vR)).2.2 →
      2 ≤ (nbrs (balance (Obtain2Core G vL vR)).1 k).length := hd
  rw [e1, e2] at hk
  clear hd
  generalize (preProcessing sort G vL vR).1 = G3 at hL hR ⊢
  generalize (balance (Obtain2Core G vL vR)).1 = B at hbb hp hL hR hd2
  generalize (balance (Obtain2Core G vL vR)).2.1 = wL at hbb hp hL hR hd2 hk
  generalize (balance (Obtain2Core G vL vR)).2.2 = wR at hbb hR hd2 hk
  obtain ⟨hr1, hr2⟩ := rankOf_spec _ wL hp
  by_cases h1 : k < wL
  · obtain ⟨hu, hru⟩ := hr1 k h1
    have hl := hL _ hu
    rw [hru] at hl
    rw [hl, (sortDesc_perm _).length_eq]
    exact hd2 _ (by omega)
  · rw [hR k (by omega) hk, (sortDesc_perm _).length_eq, List.length_map]
    exact hd2 k hk

end Induced6

namespace Induced6
open Finset

theorem list_ext_getD {α : Type} (d : α) (l1 l2 : List α) (hl : l1.length = l2.length)
    (h : ∀ k, k < l1.length → l1.getD k d = l2.getD k d) : l1 = l2 := by
  apply List.ext_getElem hl
  intro i h1 h2
  have := h i h1
  rwa [List.getD_eq_getElem _ _ h1, List.getD_eq_getElem _ _ h2] at this

/-- A simple symmetric bipartite graph in which every vertex has at least 2 neighbours is
left unchanged by `Obtain2Core`. -/
theorem obtain2Core_fixed (G : Graph) (vL vR : Nat) (hb : Bip G vL vR) (h0 : 0 < vL + vR)
    (hd : ∀ k, k < vL + vR → 2 ≤ (nbrs G k).length) :
    Obtain2Core G vL vR = (G, vL, vR) := by
  obtain ⟨hC, hnL, hnR, hcard, hlen, hid, -, -, hl⟩ :=
    obtain2Core_lists G vL vR hb.symmSimple h0
  have hS : coreSet G vL vR = range (vL + vR) := by
    apply Finset.Subset.antisymm
    · intro x hx
      exact Finset.mem_range.mpr (hC.1 x hx).1
    · apply hC.2
      intro x hx
      rw [Finset.mem_range] at hx
      refine ⟨hx, ?_⟩
      have : (nbrs G x).countP (fun y => decide (y ∈ range (vL + vR))) = (nbrs G x).length := by
        rw [List.countP_eq_length]
        intro y hy
        exact decide_eq_true (Finset.mem_range.mpr (hb.bound x hx y hy))
      rw [this]
      exact hd x hx
  rw [hS] at hnL hnR hcard hid hl
  have e1 : (Obtain2Core G vL vR).2.1 = vL := by
    rw [hnL]
    have : (range (vL + vR)).filter (fun x => x < vL) = range vL := by
      ext x
      rw [Finset.mem_filter, Finset.mem_range, Finset.mem_range]
      omega
    rw [this, Finset.card_range]
  have e2 : (Obtain2Core G vL vR).2.2 = vR := by
    rw [Finset.card_range, e1] at hcard
    omega
  have hidx : ∀ x, x < vL + vR → compactID G vL vR x = x := by
    intro x hx
    rw [hid x (Finset.mem_range.mpr hx)]
    have : (range (vL + vR)).filter (fun y => y < x) = range x := by
      ext y
      rw [Finset.mem_filter, Finset.mem_range, Finset.mem_range]
      omega
    rw [this, Finset.card_range]
  have e3 : (Obtain2Core G vL vR).1 = G := by
    apply list_ext_getD []
    · rw [hlen, e1, e2, hb.length_eq]
    · intro k hk
      rw [hlen, e1, e2] at hk
      have h := hl k (Finset.mem_range.mpr hk)
      rw [hidx k hk] at h
      show nbrs (Obtain2Core G vL vR).1 k = nbrs G k
      rw [h]
      have hf : (nbrs G k).filter (fun y => decide (y ∈ range (vL + vR))) = nbrs G k := by
        rw [List.filter_eq_self]
        intro y hy
        exact decide_eq_true (Finset.mem_range.mpr (hb.bound k hk y hy))
      rw [hf]
      have hm : (nbrs G k).map (compactID G vL vR) = (nbrs G k).map id := by
        apply List.map_congr_left
        intro y hy
        exact hidx y (hb.bound k hk y hy)
      rw [hm, List.map_id]
  exact Prod.ext e3 (Prod.ext e1 e2)

/-- On a simple symmetric bipartite graph whose 2-core is not empty, a second run of
`Obtain2Core` returns what the first run returned. -/
theorem obtain2Core_idem (G : Graph) (vL vR : Nat) (hb : Bip G vL vR) (h0 : 0 < vL + vR)
    (hne : 0 < (Obtain2Core G vL vR).2.1 + (Obtain2Core G vL vR).2.2) :
    Obtain2Core (Obtain2Core G vL vR).1 (Obtain2Core G vL vR).2.1 (Obtain2Core G vL vR).2.2
      = Obtain2Core G vL vR := by
  obtain ⟨hb1, -⟩ := obtain2Core_spec G vL vR hb h0
  exact obtain2Core_fixed _ _ _ hb1 hne (obtain2Core_mindeg G vL vR hb.symmSimple h0)

/-- The index 0 of `--newID[0]` is in bounds when the graph has a vertex. -/
theorem obtain2CoreChecked_eq (G : Graph) (vL vR : Nat) (hg : SymmSimple G (vL + vR))
    (h0 : 0 < vL + vR) : Obtain2CoreChecked G vL vR = some (Obtain2Core G vL vR) := by
  obtain ⟨hb, -, -⟩ := coreLoop_spec hg
  unfold Obtain2CoreChecked
  rw [if_pos (by rw [hb.len_id]; exact h0)]

end Induced6

namespace Induced6
open Finset

theorem exists_two_of_countP (l : List Nat) (P : Nat → Bool) (hnd : l.Nodup)
    (h : 2 ≤ l.countP P) :
    ∃ p q, p ∈ l ∧ q ∈ l ∧ p ≠ q ∧ P p = true ∧ P q = true := by
  rw [List.countP_eq_length_filter] at h
  have hnd2 : (l.filter P).Nodup := hnd.filter _
  have hmem : ∀ x ∈ l.filter P, x ∈ l ∧ P x = true := fun x hx => List.mem_filter.mp hx
  generalize l.filter P = m at h hnd2 hmem
  match m, h, hnd2, hmem with
  | a :: b :: _, _, hnd2, hmem =>
    refine ⟨a, b, (hmem a (by simp)).1, (hmem b (by simp)).1, ?_, (hmem a (by simp)).2,
      (hmem b (by simp)).2⟩
    intro e
    rw [List.nodup_cons] at hnd2
    exact hnd2.1 (by rw [e]; simp)

theorem twoCore_unique {G : Graph} {n : Nat} {C C2 : Finset Nat} (h : IsTwoCore G n C)
    (h2 : IsTwoCore G n C2) : C = C2 :=
  Finset.Subset.antisymm (h2.2 C h.1) (h.2 C2 h2.1)

/-- A vertex set of minimum degree 2 is carried to one by a map that keeps the edges. -/
theorem mindeg_image (G G2 : Graph) (n : Nat) (hg : SymmSimple G n) (f : Nat → Nat)
    (hf : ∀ u, u < n → f u < n)
    (hinj : ∀ u, u < n → ∀ v, v < n → f u = f v → u = v)
    (hadj : ∀ u v, u < n → v < n → adj G2 (f u) (f v) = adj G u v)
    (S : Finset Nat) (hS : MinDeg2 G n S) : MinDeg2 G2 n (S.image f) := by
  intro y hy
  obtain ⟨x, hx, rfl⟩ := Finset.mem_image.mp hy
  obtain ⟨hxn, hc⟩ := hS x hx
  obtain ⟨p, q, hp, hq, hne, hPp, hPq⟩ := exists_two_of_countP _ _ (hg.nodup x hxn) hc
  rw [decide_eq_true_eq] at hPp hPq
  have hpn := hg.bound x hxn p hp
  have hqn := hg.bound x hxn q hq
  refine ⟨hf x hxn, countP_ge_two _ _ (f p) (f q) ?_ ?_ ?_ ?_ ?_⟩
  · rw [← adj_iff, hadj x p hxn hpn, adj_iff]; exact hp
  · rw [← adj_iff, hadj x q hxn hqn, adj_iff]; exact hq
  · exact fun e => hne (hinj p hpn q hqn e)
  · exact decide_eq_true (Finset.mem_image_of_mem f hPp)
  · exact decide_eq_true (Finset.mem_image_of_mem f hPq)

theorem surj_of_inj (n : Nat) (f : Nat → Nat) (hf : ∀ u, u < n → f u < n)
    (hinj : ∀ u, u < n → ∀ v, v < n → f u = f v → u = v) (k : Nat) (hk : k < n) :
    ∃ u, u < n ∧ f u = k := by
  have himg : (range n).image f = range n := by
    apply Finset.eq_of_subset_of_card_le
    · intro y hy
      obtain ⟨x, hx, rfl⟩ := Finset.mem_image.mp hy
      exact Finset.mem_range.mpr (hf x (Finset.mem_range.mp hx))
    · rw [Finset.card_image_of_injOn]
      intro x hx y hy e
      exact hinj x (Finset.mem_range.mp hx) y (Finset.mem_range.mp hy) e
  have : k ∈ (range n).image f := by rw [himg]; exact Finset.mem_range.mpr hk
  obtain ⟨u, hu, e⟩ := Finset.mem_image.mp this
  exact ⟨u, Finset.mem_range.mp hu, e⟩

/-- The 2-core of a relabelled graph is the image of the 2-core. -/
theorem twoCore_image (G G2 : Graph) (n : Nat) (hg : SymmSimple G n) (hg2 : SymmSimple G2 n)
    (f : Nat → Nat) (hf : ∀ u, u < n → f u < n)
    (hinj : ∀ u, u < n → ∀ v, v < n → f u = f v → u = v)
    (hadj : ∀ u v, u < n → v < n → adj G2 (f u) (f v) = adj G u v)
    (C : Finset Nat) (hC : IsTwoCore G n C) : IsTwoCore G2 n (C.image f) := by
  refine ⟨mindeg_image G G2 n hg f hf hinj hadj C hC.1, ?_⟩
  intro S2 hS2
  have hS : MinDeg2 G n ((range n).filter (fun x => f x ∈ S2)) := by
    intro x hx
    rw [Finset.mem_filter, Finset.mem_range] at hx
    obtain ⟨hxn, hfx⟩ := hx
    obtain ⟨-, hc⟩ := hS2 (f x) hfx
    obtain ⟨p2, q2, hp, hq, hne, hPp, hPq⟩ :=
      exists_two_of_countP _ _ (hg2.nodup _ (hf x hxn)) hc
    rw [decide_eq_true_eq] at hPp hPq
    obtain ⟨p, hpn, rfl⟩ := surj_of_inj n f hf hinj p2 (hg2.bound _ (hf x hxn) p2 hp)
    obtain ⟨q, hqn, rfl⟩ := surj_of_inj n f hf hinj q2 (hg2.bound _ (hf x hxn) q2 hq)
    refine ⟨hxn, countP_ge_two _ _ p q ?_ ?_ ?_ ?_ ?_⟩
    · rw [← adj_iff, ← hadj x p hxn hpn, adj_iff]; exact hp
    · rw [← adj_iff, ← hadj x q hxn hqn, adj_iff]; exact hq
    · exact fun e => hne (by rw [e])
    · exact decide_eq_true (Finset.mem_filter.mpr ⟨Finset.mem_range.mpr hpn, hPp⟩)
    · exact decide_eq_true (Finset.mem_filter.mpr ⟨Finset.mem_range.mpr hqn, hPq⟩)
  have hsub := hC.2 _ hS
  intro y hy
  obtain ⟨x, hxn, rfl⟩ := surj_of_inj n f hf hinj y (hS2 y hy).1
  exact Finset.mem_image_of_mem f
    (hsub (Finset.mem_filter.mpr ⟨Finset.mem_range.mpr hxn, hy⟩))

theorem card_filter_image (C : Finset Nat) (f : Nat → Nat) (P1 P2 : Nat → Prop)
    [DecidablePred P1] [DecidablePred P2]
    (hinj : ∀ x ∈ C, ∀ y ∈ C, f x = f y → x = y) (hP : ∀ x ∈ C, (P2 (f x) ↔ P1 x)) :
    ((C.image f).filter P2).card = (C.filter P1).card := by
  have e : (C.image f).filter P2 = (C.filter P1).image f := by
    ext y
    rw [Finset.mem_filter, Finset.mem_image, Finset.mem_image]
    constructor
    · rintro ⟨⟨x, hx, rfl⟩, hy⟩
      exact ⟨x, Finset.mem_filter.mpr ⟨hx, (hP x hx).1 hy⟩, rfl⟩
    · rintro ⟨x, hx, rfl⟩
      rw [Finset.mem_filter] at hx
      exact ⟨⟨x, hx.1, rfl⟩, (hP x hx.1).2 hx.2⟩
  rw [e, Finset.card_image_of_injOn]
  intro x hx y hy h
  exact hinj x (Finset.mem_filter.mp hx).1 y (Finset.mem_filter.mp hy).1 h

theorem Bip.adj_same_side {G : Graph} {vL vR : Nat} (hb : Bip G vL vR) (u v : Nat)
    (hu : u < vL + vR) (hs : u < vL ↔ v < vL) : adj G u v = false := by
  rw [← Bool.not_eq_true, adj_iff]
  intro h
  by_cases h1 : u < vL
  · have := (hb.left_nbrs u h1 v h).1
    have := hs.1 h1
    omega
  · have := hb.right_nbrs u (by omega) hu v h
    have := hs.2 this
    omega

/-- A map between two simple symmetric bipartite graphs that keeps the left-right edges and
sends vertices of one side to one side keeps all edges. -/
theorem adj_iso_full (G G2 : Graph) (vL vR vL2 vR2 : Nat) (hb : Bip G vL vR)
    (hb2 : Bip G2 vL2 vR2) (hsum : vL2 + vR2 = vL + vR) (f : Nat → Nat)
    (hf : ∀ u, u < vL + vR → f u < vL + vR)
    (hside : ∀ u v, u < vL + vR → v < vL + vR → ((u < vL ↔ v < vL) ↔ (f u < vL2 ↔ f v < vL2)))
    (hadj : ∀ l r, l < vL → vL ≤ r → r < vL + vR → adj G2 (f l) (f r) = adj G l r) :
    ∀ u v, u < vL + vR → v < vL + vR → adj G2 (f u) (f v) = adj G u v := by
  intro u v hu hv
  by_cases hs : (u < vL ↔ v < vL)
  · rw [hb.adj_same_side u v hu hs,
      hb2.adj_same_side (f u) (f v) (by rw [hsum]; exact hf u hu) ((hside u v hu hv).1 hs)]
  · by_cases h1 : u < vL
    · exact hadj u v h1 (by omega) hv
    · have h2 : v < vL := by omega
      rw [adj_comm_of_bip hb2 (f u) (f v) (by rw [hsum]; exact hf u hu)
        (by rw [hsum]; exact hf v hv), hadj v u h2 (by omega) hu,
        adj_comm_of_bip hb v u hv hu]

end Induced6

namespace Induced6
open Finset

/-- The survivors of `Obtain2Core` on a relabelled graph are the images of the survivors. -/
theorem coreSet_image (G G2 : Graph) (vL vR vL2 vR2 : Nat) (hb : Bip G vL vR)
    (hb2 : Bip G2 vL2 vR2) (hsum : vL2 + vR2 = vL + vR) (h0 : 0 < vL + vR) (f : Nat → Nat)
    (hf : ∀ u, u < vL + vR → f u < vL + vR)
    (hinj : ∀ u, u < vL + vR → ∀ v, v < vL + vR → f u = f v → u = v)
    (hadj : ∀ u v, u < vL + vR → v < vL + vR → adj G2 (f u) (f v) = adj G u v) :
    coreSet G2 vL2 vR2 = (coreSet G vL vR).image f := by
  obtain ⟨hC, -⟩ := compute2Core_spec G vL vR hb.symmSimple h0
  obtain ⟨hC2, -⟩ := compute2Core_spec G2 vL2 vR2 hb2.symmSimple (by omega)
  have hg2 := hb2.symmSimple
  have hC3 : IsTwoCore G2 (vL2 + vR2) (coreSet G2 vL2 vR2) := hC2
  rw [hsum] at hC3 hg2
  exact twoCore_unique hC3 (twoCore_image G G2 (vL + vR) hb.symmSimple hg2 f hf hinj hadj _ hC)

theorem pre_vLeft_eq (sort : Sorter) (G : Graph) (vL vR : Nat) :
    (preProcessing sort G vL vR).2.1
      = min (Obtain2Core G vL vR).2.1 (Obtain2Core G vL vR).2.2 := by
  show (balance (Obtain2Core G vL vR)).2.1 = _
  unfold balance
  by_cases h : (Obtain2Core G vL vR).2.1 > (Obtain2Core G vL vR).2.2
  · rw [if_pos h]
    simp only
    omega
  · rw [if_neg h]
    omega

theorem pos_of_core (G : Graph) (vL vR : Nat) (hb : Bip G vL vR)
    (h : 0 < (Obtain2Core G vL vR).2.1) : 0 < vL + vR := by
  by_contra hn
  have h1 : vL = 0 := by omega
  have h2 : vR = 0 := by omega
  subst h1 h2
  have h3 : G = [] := List.length_eq_zero.mp hb.length_eq
  subst h3
  exact absurd h (by decide)

/-- The program TJ returns the number of induced 6-cycles of its input modulo `2^64` when the
preprocessed graph has at least 3 left vertices. -/
theorem tj_main_count (sort : Sorter) (hs : sort.Valid) (G : Graph) (vL vR : Nat)
    (hb : Bip G vL vR) (h0 : 0 < vL + vR) (h3 : 3 ≤ (preProcessing sort G vL vR).2.1) :
    TJ.main sort G vL vR = u64 (countInduced6 G vL) := by
  obtain ⟨hpre, -, hcnt, hE⟩ := preProcessingE_spec sort hs G vL vR hb h0
  have e2 : (preProcessing sort G vL vR).2.1 = (preProcessingE sort G vL vR).2.1 := rfl
  have eT : TJ.main sort G vL vR = TJ.getCount (preProcessingE sort G vL vR).1
      (preProcessingE sort G vL vR).2.1 (preProcessingE sort G vL vR).2.2.2 := rfl
  rw [e2] at h3
  rw [eT, ← hcnt, countInduced6_eq_tripleSum]
  generalize (preProcessingE sort G vL vR).2.2.2 = E at hE ⊢
  generalize (preProcessingE sort G vL vR).2.1 = wL at hpre hE h3 ⊢
  generalize (preProcessingE sort G vL vR).1 = G2 at hpre hE ⊢
  exact TJ.tj_getCount_mod hpre hE (by omega)

/-- Relabelling the left vertices by one permutation and the right vertices by another
changes neither the sizes of the 2-core nor the count. -/
theorem relabel_invariant (G G2 : Graph) (vL vR : Nat) (hb : Bip G vL vR)
    (hb2 : Bip G2 vL vR) (h0 : 0 < vL + vR) (f : Nat → Nat)
    (hfL : ∀ l, l < vL → f l < vL)
    (hfR : ∀ r, vL ≤ r → r < vL + vR → vL ≤ f r ∧ f r < vL + vR)
    (hinj : ∀ u, u < vL + vR → ∀ v, v < vL + vR → f u = f v → u = v)
    (hadj : ∀ l r, l < vL → vL ≤ r → r < vL + vR → adj G2 (f l) (f r) = adj G l r) :
    (Obtain2Core G2 vL vR).2.1 = (Obtain2Core G vL vR).2.1 ∧
      (Obtain2Core G2 vL vR).2.2 = (Obtain2Core G vL vR).2.2 ∧
      countInduced6 G2 vL = countInduced6 G vL := by
  have hf : ∀ u, u < vL + vR → f u < vL + vR := by
    intro u hu
    by_cases h1 : u < vL
    · have := hfL u h1; omega
    · exact (hfR u (by omega) hu).2
  have hfs : ∀ u, u < vL + vR → (f u < vL ↔ u < vL) := by
    intro u hu
    by_cases h1 : u < vL
    · exact ⟨fun _ => h1, fun _ => hfL u h1⟩
    · have := (hfR u (by omega) hu).1
      exact ⟨fun h => by omega, fun h => by omega⟩
  have hfull := adj_iso_full G G2 vL vR vL vR hb hb2 rfl f hf
    (fun u v hu hv => by rw [hfs u hu, hfs v hv]) hadj
  have hcs := coreSet_image G G2 vL vR vL vR hb hb2 rfl h0 f hf hinj hfull
  obtain ⟨hC, a1, a2, -⟩ := obtain2Core_lists G vL vR hb.symmSimple h0
  obtain ⟨-, b1, b2, -⟩ := obtain2Core_lists G2 vL vR hb2.symmSimple h0
  have hCn : ∀ x ∈ coreSet G vL vR, x < vL + vR := fun x hx => (hC.1 x hx).1
  have hinjC : ∀ x ∈ coreSet G vL vR, ∀ y ∈ coreSet G vL vR, f x = f y → x = y :=
    fun x hx y hy e => hinj x (hCn x hx) y (hCn y hy) e
  refine ⟨?_, ?_, ?_⟩
  · rw [b1, a1, hcs]
    exact card_filter_image _ f _ _ hinjC (fun x hx => hfs x (hCn x hx))
  · rw [b2, a2, hcs]
    exact card_filter_image _ f _ _ hinjC (fun x hx => by
      have := hfs x (hCn x hx)
      omega)
  · rw [countInduced6_eq_tripleSum, countInduced6_eq_tripleSum]
    apply tripleSum_iso G G2 vL vL (range vL) (Ico vL (vL + vR)) f
      (fun _ h => h) (by rw [hb.length_eq])
    · intro x hx y hy e
      rw [Finset.mem_range] at hx hy
      exact hinj x (by omega) y (by omega) e
    · intro x hx y hy e
      rw [Finset.mem_Ico] at hx hy
      exact hinj x hx.2 y hy.2 e
    · apply Finset.eq_of_subset_of_card_le
      · intro k hk
        obtain ⟨x, hx, rfl⟩ := Finset.mem_image.mp hk
        exact Finset.mem_range.mpr (hfL x (Finset.mem_range.mp hx))
      · rw [Finset.card_image_of_injOn]
        intro x hx y hy e
        have hx2 := Finset.mem_range.mp hx
        have hy2 := Finset.mem_range.mp hy
        exact hinj x (by omega) y (by omega) e
    · rw [hb2.length_eq]
      apply Finset.eq_of_subset_of_card_le
      · intro k hk
        obtain ⟨x, hx, rfl⟩ := Finset.mem_image.mp hk
        rw [Finset.mem_Ico] at hx ⊢
        exact hfR x hx.1 hx.2
      · rw [Finset.card_image_of_injOn]
        intro x hx y hy e
        have hx2 := Finset.mem_Ico.mp hx
        have hy2 := Finset.mem_Ico.mp hy
        exact hinj x hx2.2 y hy2.2 e
    · intro a ha x hx
      rw [Finset.mem_range] at ha
      rw [Finset.mem_Ico] at hx
      exact hadj a x ha hx.1 hx.2
    · intro p _ q _ _ x hx _ _
      rw [hb.length_eq] at hx
      exact hx
    · intro a b c ha hb3 hc _ _ _ hn
      exfalso
      rcases hn with h | h | h
      · exact h (Finset.mem_range.mpr ha)
      · exact h (Finset.mem_range.mpr hb3)
      · exact h (Finset.mem_range.mpr hc)

/-- Exchanging the roles of the two sides exchanges the sizes of the 2-core and keeps the
count. -/
theorem reverse_invariant (G G2 : Graph) (vL vR : Nat) (hb : Bip G vL vR)
    (hb2 : Bip G2 vR vL) (h0 : 0 < vL + vR)
    (hrev : ∀ l r, l < vL → vL ≤ r → r < vL + vR →
      adj G2 (r - vL) (l + vR) = adj G l r) :
    (Obtain2Core G2 vR vL).2.1 = (Obtain2Core G vL vR).2.2 ∧
      (Obtain2Core G2 vR vL).2.2 = (Obtain2Core G vL vR).2.1 ∧
      countInduced6 G2 vR = countInduced6 G vL := by
  obtain ⟨f, hfdef⟩ : ∃ f : Nat → Nat, ∀ u, f u = if u < vL then u + vR else u - vL :=
    ⟨_, fun _ => rfl⟩
  have hfL : ∀ u, u < vL → f u = u + vR := fun u hu => by rw [hfdef, if_pos hu]
  have hfR : ∀ u, vL ≤ u → f u = u - vL := fun u hu => by rw [hfdef, if_neg (by omega)]
  have hf : ∀ u, u < vL + vR → f u < vL + vR := by
    intro u hu
    by_cases h1 : u < vL
    · rw [hfL u h1]; omega
    · rw [hfR u (by omega)]; omega
  have hfs : ∀ u, u < vL + vR → (f u < vR ↔ vL ≤ u) := by
    intro u hu
    by_cases h1 : u < vL
    · rw [hfL u h1]; omega
    · rw [hfR u (by omega)]; omega
  have hinj : ∀ u, u < vL + vR → ∀ v, v < vL + vR → f u = f v → u = v := by
    intro u hu v hv e
    by_cases h1 : u < vL <;> by_cases h2 : v < vL
    · rw [hfL u h1, hfL v h2] at e; omega
    · rw [hfL u h1, hfR v (by omega)] at e; omega
    · rw [hfR u (by omega), hfL v h2] at e; omega
    · rw [hfR u (by omega), hfR v (by omega)] at e; omega
  have hfull := adj_iso_full G G2 vL vR vR vL hb hb2 (Nat.add_comm vR vL) f hf
    (fun u v hu hv => by rw [hfs u hu, hfs v hv]; omega)
    (fun l r hl hr1 hr2 => by
      rw [hfL l hl, hfR r hr1, adj_comm_of_bip hb2 _ _ (by omega) (by omega)]
      exact hrev l r hl hr1 hr2)
  have hcs := coreSet_image G G2 vL vR vR vL hb hb2 (Nat.add_comm vR vL) h0 f hf hinj hfull
  obtain ⟨hC, a1, a2, -⟩ := obtain2Core_lists G vL vR hb.symmSimple h0
  obtain ⟨-, b1, b2, -⟩ := obtain2Core_lists G2 vR vL hb2.symmSimple (by omega)
  have hCn : ∀ x ∈ coreSet G vL vR, x < vL + vR := fun x hx => (hC.1 x hx).1
  have hinjC : ∀ x ∈ coreSet G vL vR, ∀ y ∈ coreSet G vL vR, f x = f y → x = y :=
    fun x hx y hy e => hinj x (hCn x hx) y (hCn y hy) e
  refine ⟨?_, ?_, ?_⟩
  · rw [b1, a2, hcs]
    exact card_filter_image _ f _ _ hinjC (fun x hx => hfs x (hCn x hx))
  · rw [b2, a1, hcs]
    exact card_filter_image _ f _ _ hinjC (fun x hx => by
      have := hfs x (hCn x hx)
      omega)
  · exact count_swap G G2 vL vR hb.length_eq hb2.length_eq
      (fun a x ha hx1 hx2 => hrev a x ha hx1 hx2)

end Induced6

namespace Induced6

open Finset

theorem relabelStepE_fst (G : Graph) (rank : List Nat) (vLeft : Nat) (l : List Nat)
    (st : Graph × Edges) :
    (l.foldl (relabelStepE G rank vLeft) st).1 = l.foldl (relabelStep G rank vLeft) st.1 := by
  induction l generalizing st with
  | nil => rfl
  | cons u us ih =>
    rw [List.foldl_cons, List.foldl_cons, ih]
    congr 1
    unfold relabelStepE relabelStep
    by_cases h : u < vLeft
    · rw [if_pos h, if_pos h]
    · rw [if_neg h, if_neg h]

theorem relabelStepE_snd_left (G : Graph) (rank : List Nat) (vLeft : Nat) (l : List Nat)
    (hl : ∀ u ∈ l, u < vLeft) (st : Graph × Edges) :
    (l.foldl (relabelStepE G rank vLeft) st).2
      = l.foldl (fun E u => emplaceAll E (rank.getD u 0) (nbrs G u)) st.2 := by
  induction l generalizing st with
  | nil => rfl
  | cons u us ih =>
    rw [List.foldl_cons, List.foldl_cons, ih (fun x hx => hl x (List.mem_cons_of_mem _ hx))]
    congr 1
    unfold relabelStepE
    rw [if_pos (hl u (List.mem_cons_self _ _))]

theorem relabelStepE_snd_right (G : Graph) (rank : List Nat) (vLeft : Nat) (l : List Nat)
    (hl : ∀ u ∈ l, vLeft ≤ u) (st : Graph × Edges) :
    (l.foldl (relabelStepE G rank vLeft) st).2 = st.2 := by
  induction l generalizing st with
  | nil => rfl
  | cons u us ih =>
    rw [List.foldl_cons, ih (fun x hx => hl x (List.mem_cons_of_mem _ hx))]
    unfold relabelStepE
    have := hl u (List.mem_cons_self _ _)
    rw [if_neg (by omega)]

/-- The loop that builds `newG` and `E` together builds the `E` of the loop over the left
vertices alone, when the loop bound does not wrap below `vLeft`. -/
theorem relabelStepE_snd (G : Graph) (rank : List Nat) (vLeft n : Nat) (hn : vLeft ≤ n)
    (st : Graph × Edges) :
    ((List.range n).foldl (relabelStepE G rank vLeft) st).2
      = (List.range vLeft).foldl (fun E u => emplaceAll E (rank.getD u 0) (nbrs G u)) st.2 := by
  have hr : List.range n = List.range vLeft ++ List.range' vLeft (n - vLeft) := by
    rw [List.range_eq_range', List.range_eq_range']
    have h := @List.range'_append_1 0 vLeft (n - vLeft)
    rw [Nat.zero_add] at h
    rw [h]
    congr 1
    omega
  rw [hr, List.foldl_append, relabelStepE_snd_right G rank vLeft _
    (fun u hu => (List.mem_range'_1.mp hu).1),
    relabelStepE_snd_left G rank vLeft _ (fun u hu => List.mem_range.mp hu)]

end Induced6

namespace Induced6

open Finset

namespace WJ

/-- The binary search on a sorted run `[p, e)` that starts above index 0 or at a wedge not
above `u`: it comes back, reads only inside the run, and reports a hit exactly when there is
one. -/
theorem getmLoop_full (W : List Wedge) (u p e : Nat)
    (hsorted : ∀ i j, p ≤ i → i ≤ j → j < e → (wedgeAt W i).2.1 ≤ (wedgeAt W j).2.1)
    (hp : 0 < p ∨ (wedgeAt W p).2.1 ≤ u) (he : e ≤ 2147483648) :
    ∀ fuel l r m0, p ≤ l → r < e →
      (∀ j, p ≤ j → j < l → (wedgeAt W j).2.1 < u) →
      (∀ j, r < j → j < e → (wedgeAt W j).2.1 > u) →
      r + 1 - l < fuel →
      ∃ found m, getmLoop W u fuel l r m0 = some (found, m) ∧
        (∀ i ∈ getmReads W u fuel l r, p ≤ i ∧ i < e) ∧
        (found = true → p ≤ m ∧ m < e ∧ (wedgeAt W m).2.1 = u) ∧
        (found = false → ∀ j, p ≤ j → j < e → (wedgeAt W j).2.1 ≠ u) := by
  intro fuel
  induction fuel with
  | zero => intro l r m0 _ _ _ _ hf; omega
  | succ fuel ih =>
    intro l r m0 hl hr hlow hhigh hf
    rw [getmLoop, getmReads]
    by_cases hlr : l ≤ r
    · rw [if_pos hlr, if_pos hlr]
      have hm1 : u32 (l + r) / 2 = (l + r) / 2 := by
        unfold u32; rw [Nat.mod_eq_of_lt (by omega)]
      simp only [hm1]
      have hml : l ≤ (l + r) / 2 := by omega
      have hmr : (l + r) / 2 ≤ r := by omega
      by_cases h1 : (wedgeAt W ((l + r) / 2)).2.1 < u
      · rw [if_pos h1, if_pos h1]
        have hu32 : u32 ((l + r) / 2 + 1) = (l + r) / 2 + 1 := by
          unfold u32; rw [Nat.mod_eq_of_lt (by omega)]
        rw [hu32]
        obtain ⟨found, m, e1, e2, e3, e4⟩ := ih ((l + r) / 2 + 1) r ((l + r) / 2) (by omega) hr
          (by
            intro j hj1 hj2
            have := hsorted j ((l + r) / 2) hj1 (by omega) (by omega)
            omega) hhigh (by omega)
        refine ⟨found, m, e1, ?_, e3, e4⟩
        intro i hi
        rw [List.mem_cons] at hi
        rcases hi with hi | hi
        · omega
        · exact e2 i hi
      · rw [if_neg h1, if_neg h1]
        by_cases h2 : (wedgeAt W ((l + r) / 2)).2.1 > u
        · rw [if_pos h2, if_pos h2]
          have hne : 0 < (l + r) / 2 := by
            rcases hp with hp | hp
            · omega
            · by_contra hcon
              have h0 : (l + r) / 2 = p := by omega
              rw [h0] at h2; omega
          have hsub : sub32 ((l + r) / 2) 1 = (l + r) / 2 - 1 :=
            sub32_of_le (by omega) (by omega)
          rw [hsub]
          obtain ⟨found, m, e1, e2, e3, e4⟩ := ih l ((l + r) / 2 - 1) ((l + r) / 2) hl (by omega)
            hlow (by
              intro j hj1 hj2
              have := hsorted ((l + r) / 2) j (by omega) (by omega) hj2
              omega) (by omega)
          refine ⟨found, m, e1, ?_, e3, e4⟩
          intro i hi
          rw [List.mem_cons] at hi
          rcases hi with hi | hi
          · omega
          · exact e2 i hi
        · rw [if_neg h2, if_neg h2]
          refine ⟨true, (l + r) / 2, rfl, ?_, ?_, ?_⟩
          · intro i hi
            rw [List.mem_singleton] at hi
            omega
          · intro _
            exact ⟨by omega, by omega, by omega⟩
          · intro hfalse; exact absurd hfalse (by simp)
    · rw [if_neg hlr, if_neg hlr]
      refine ⟨false, m0, rfl, ?_, ?_, ?_⟩
      · intro i hi; exact absurd hi (List.not_mem_nil i)
      · intro hfalse; exact absurd hfalse (by simp)
      · intro _ j hj1 hj2
        by_cases hjl : j < l
        · have := hlow j hj1 hjl; omega
        · have := hhigh j (by omega) hj2; omega

theorem sortedWedges_fst (G : Graph) (u : Nat) (t : Wedge) (ht : t ∈ sortedWedges G u) :
    t.1 = u :=
  ((mem_wedgeList G u t).mp ((sortedWedges_perm G u).mem_iff.mp ht)).1

/-- The number of wedges of the first `n` partitions whose low endpoint is below `u`. -/
theorem countP_below (G : Graph) (u n : Nat) :
    ((List.range n).flatMap (sortedWedges G)).countP (fun t => decide (t.1 < u))
      = wedgesBelow G (min u n) := by
  induction n with
  | zero => rw [Nat.min_zero]; rfl
  | succ n ih =>
    rw [List.range_succ, List.flatMap_append, List.countP_append, ih]
    simp only [List.flatMap_cons, List.flatMap_nil, List.append_nil]
    by_cases hn : n < u
    · have e : (sortedWedges G n).countP (fun t => decide (t.1 < u))
          = (sortedWedges G n).length := by
        rw [List.countP_eq_length]
        intro t ht
        rw [sortedWedges_fst G n t ht]
        exact decide_eq_true hn
      rw [e, Nat.min_eq_right (by omega), Nat.min_eq_right (by omega), wedgesBelow_succ,
        length_sortedWedges]
    · have e : (sortedWedges G n).countP (fun t => decide (t.1 < u)) = 0 := by
        rw [List.countP_eq_zero]
        intro t ht
        rw [sortedWedges_fst G n t ht]
        simpa using hn
      rw [e, Nat.min_eq_left (by omega), Nat.min_eq_left (by omega), Nat.add_zero]

theorem wedgeList_nodup (G : Graph) (hnd : ∀ u, (nbrs G u).Nodup) (u1 : Nat) :
    (wedgeList G u1).Nodup := by
  unfold wedgeList
  rw [List.nodup_flatMap]
  constructor
  · intro v1 _
    apply List.Nodup.map
    · intro a b hab
      simp only [Prod.mk.injEq] at hab
      exact hab.2.1
    · exact List.Nodup.filter _ (hnd v1)
  · apply List.Pairwise.imp_of_mem _ (hnd u1)
    intro a b _ _ hab
    simp only [Function.onFun, List.disjoint_left]
    intro t hta htb
    rw [List.mem_map] at hta htb
    obtain ⟨x, _, rfl⟩ := hta
    obtain ⟨y, _, hy⟩ := htb
    simp only [Prod.mk.injEq] at hy
    exact hab hy.2.2.symm

theorem flatMap_sortedWedges_nodup (G : Graph) (hnd : ∀ u, (nbrs G u).Nodup) (n : Nat) :
    ((List.range n).flatMap (sortedWedges G)).Nodup := by
  rw [List.nodup_flatMap]
  constructor
  · intro u _
    exact (sortedWedges_perm G u).nodup_iff.mpr (wedgeList_nodup G hnd u)
  · apply List.Pairwise.imp_of_mem _ (List.nodup_range n)
    intro a b _ _ hab
    simp only [Function.onFun, List.disjoint_left]
    intro t hta htb
    exact hab ((sortedWedges_fst G a t hta).symm.trans (sortedWedges_fst G b t htb))

/-- Every index below the number of wedges of the first `n` partitions lies in the index
range of one of them. -/
theorem locate_partition (G : Graph) (n i : Nat) (hi : i < wedgesBelow G n) :
    ∃ u, u < n ∧ wedgesBelow G u ≤ i ∧ i < wedgesBelow G (u + 1) := by
  induction n with
  | zero => exact absurd hi (Nat.not_lt_zero _)
  | succ n ih =>
    by_cases h : i < wedgesBelow G n
    · obtain ⟨u, hu, h1, h2⟩ := ih h
      exact ⟨u, by omega, h1, h2⟩
    · exact ⟨n, by omega, by omega, hi⟩

/-- The wedge at an index of the range of the partition of `u` is a wedge of that
partition. -/
theorem wedgeAt_partition (G : Graph) (n u i : Nat) (hu : u < n) (h1 : wedgesBelow G u ≤ i)
    (h2 : i < wedgesBelow G (u + 1)) :
    wedgeAt ((List.range n).flatMap (sortedWedges G)) i ∈ sortedWedges G u := by
  rw [flatMap_split (sortedWedges G) n u hu]
  have hA := length_flatMap_sortedWedges G u
  obtain ⟨j, rfl⟩ := Nat.exists_eq_add_of_le h1
  rw [wedgesBelow_succ, ← length_sortedWedges] at h2
  have hj : j < (sortedWedges G u).length := by omega
  rw [← hA, wedgeAt_append _ _ _ j hj, List.getD_eq_getElem _ _ hj]
  exact List.getElem_mem hj

theorem getmDecs_sub (W : List Wedge) (u : Nat) :
    ∀ fuel l r, ∀ m ∈ getmDecs W u fuel l r,
      m ∈ getmReads W u fuel l r ∧ (wedgeAt W m).2.1 > u := by
  intro fuel
  induction fuel with
  | zero => intro l r m hm; exact absurd hm (List.not_mem_nil m)
  | succ fuel ih =>
    intro l r m hm
    rw [getmDecs] at hm
    rw [getmReads]
    by_cases hlr : l ≤ r
    · rw [if_pos hlr] at hm
      rw [if_pos hlr]
      simp only at hm ⊢
      by_cases h1 : (wedgeAt W (u32 (l + r) / 2)).2.1 < u
      · rw [if_pos h1] at hm
        rw [if_pos h1]
        have := ih _ _ m hm
        exact ⟨List.mem_cons_of_mem _ this.1, this.2⟩
      · rw [if_neg h1] at hm
        rw [if_neg h1]
        by_cases h2 : (wedgeAt W (u32 (l + r) / 2)).2.1 > u
        · rw [if_pos h2] at hm
          rw [if_pos h2]
          rw [List.mem_cons] at hm
          rcases hm with hm | hm
          · rw [hm]; exact ⟨List.mem_cons_self _ _, h2⟩
          · have := ih _ _ m hm
            exact ⟨List.mem_cons_of_mem _ this.1, this.2⟩
        · rw [if_neg h2] at hm
          exact absurd hm (List.not_mem_nil m)
    · rw [if_neg hlr] at hm
      exact absurd hm (List.not_mem_nil m)

theorem scanFwdReads_range (W : List Wedge) (u3 bound : Nat) :
    ∀ fuel idx, ∀ j ∈ scanFwdReads W u3 bound fuel idx, idx ≤ j ∧ j < bound := by
  intro fuel
  induction fuel with
  | zero => intro idx j hj; exact absurd hj (List.not_mem_nil j)
  | succ fuel ih =>
    intro idx j hj
    rw [scanFwdReads] at hj
    by_cases hb : idx < bound
    · rw [if_pos hb] at hj
      by_cases hk : (wedgeAt W idx).2.1 ≠ u3
      · rw [if_pos hk, List.mem_singleton] at hj
        omega
      · rw [if_neg hk, List.mem_cons] at hj
        rcases hj with hj | hj
        · omega
        · have := ih _ j hj
          omega
    · rw [if_neg hb] at hj
      exact absurd hj (List.not_mem_nil j)

theorem scanBackReads_range (W : List Wedge) (u3 minIdx p : Nat)
    (hp : (wedgeAt W p).2.1 ≠ u3) :
    ∀ k, ∀ j ∈ scanBackReads W u3 minIdx (p + k), p ≤ j ∧ j ≤ p + k := by
  intro k
  induction k with
  | zero =>
    intro j hj
    rw [Nat.add_zero] at hj ⊢
    cases p with
    | zero =>
      rw [scanBackReads] at hj
      split at hj
      · rw [List.mem_singleton] at hj; omega
      · exact absurd hj (List.not_mem_nil j)
    | succ p =>
      rw [scanBackReads] at hj
      split at hj
      · rw [List.mem_singleton] at hj; omega
      · exact absurd hj (List.not_mem_nil j)
  | succ k ih =>
    intro j hj
    have e : p + (k + 1) = (p + k) + 1 := by omega
    rw [e, scanBackReads] at hj
    split at hj
    · split at hj
      · rw [List.mem_singleton] at hj; omega
      · rw [List.mem_cons] at hj
        rcases hj with hj | hj
        · omega
        · have := ih j hj
          omega
    · exact absurd hj (List.not_mem_nil j)

theorem scanBackDecs_sub (W : List Wedge) (u3 minIdx : Nat) :
    ∀ idx, ∀ d ∈ scanBackDecs W u3 minIdx idx,
      d ∈ scanBackReads W u3 minIdx idx ∧ (wedgeAt W d).2.1 = u3 := by
  intro idx
  induction idx with
  | zero =>
    intro d hd
    rw [scanBackDecs] at hd
    rw [scanBackReads]
    split at hd
    · rename_i h0
      rw [if_pos h0]
      split at hd
      · exact absurd hd (List.not_mem_nil d)
      · rename_i hk
        rw [List.mem_singleton] at hd
        rw [hd]
        exact ⟨List.mem_singleton.mpr rfl, by simpa using hk⟩
    · exact absurd hd (List.not_mem_nil d)
  | succ idx ih =>
    intro d hd
    rw [scanBackDecs] at hd
    rw [scanBackReads]
    split at hd
    · rename_i h0
      rw [if_pos h0]
      split at hd
      · exact absurd hd (List.not_mem_nil d)
      · rename_i hk
        rw [if_neg hk]
        rw [List.mem_cons] at hd
        rcases hd with hd | hd
        · rw [hd]
          exact ⟨List.mem_cons_self _ _, by simpa using hk⟩
        · have := ih d hd
          exact ⟨List.mem_cons_of_mem _ this.1, this.2⟩
    · exact absurd hd (List.not_mem_nil d)

/-- The reads of the block for the pair `(u1, u3)` on a vector of wedges cut around the
sorted partition `S` of `u1`, when some wedge of `S` lies below `u3`. -/
theorem computeC_reads (partitions : List Nat) (u1 u3 : Nat)
    (A S B : List Wedge)
    (hp1 : partitions.getD u1 0 = A.length)
    (hp2 : partitions.getD (u1 + 1) 0 = A.length + S.length)
    (hS : S.Pairwise (fun x y => x.2.1 ≤ y.2.1))
    (hlow : ∃ t ∈ S, t.2.1 < u3) (he : A.length + S.length < 2147483648) :
    (∀ m ∈ getmDecs (A ++ S ++ B) u3 18446744073709551616 (u32 (partitions.getD u1 0))
        (sub32 (u32 (partitions.getD (u1 + 1) 0)) 1), A.length < m) ∧
    (∀ found m, getm (A ++ S ++ B) (u32 (partitions.getD u1 0))
        (u32 (partitions.getD (u1 + 1) 0)) u3 0 = some (found, m) → found = true →
        A.length < m ∧ m < A.length + S.length) ∧
    (∀ j ∈ computeCReads (A ++ S ++ B) partitions u1 u3,
      A.length ≤ j ∧ j < A.length + S.length) ∧
    (∀ d ∈ computeCDecs (A ++ S ++ B) partitions u1 u3, A.length < d) := by
  have hsorted := sorted_index A S B hS
  obtain ⟨t, ht, htlt⟩ := hlow
  have hSpos : 0 < S.length := List.length_pos_of_mem ht
  have hhead : (wedgeAt (A ++ S ++ B) A.length).2.1 < u3 := by
    obtain ⟨j, hj, hjt⟩ := List.getElem_of_mem ht
    have h1 := hsorted A.length (A.length + j) (Nat.le_refl _) (by omega) (by omega)
    rw [wedgeAt_append A S B j hj, List.getD_eq_getElem?_getD, List.getElem?_eq_getElem hj,
      Option.getD_some, hjt] at h1
    omega
  have hu1 : u32 (partitions.getD u1 0) = A.length := by
    rw [hp1]; exact Nat.mod_eq_of_lt (by omega)
  have hu2 : u32 (partitions.getD (u1 + 1) 0) = A.length + S.length := by
    rw [hp2]; exact Nat.mod_eq_of_lt (by omega)
  have hsub : sub32 (A.length + S.length) 1 = A.length + S.length - 1 :=
    sub32_of_le (by omega) (by omega)
  obtain ⟨found, m, e1, e2, e3, e4⟩ := getmLoop_full (A ++ S ++ B) u3 A.length
    (A.length + S.length) hsorted (Or.inr (Nat.le_of_lt hhead)) (by omega)
    18446744073709551616 A.length (A.length + S.length - 1) 0 (Nat.le_refl _) (by omega)
    (fun j hj1 hj2 => by omega) (fun j hj1 hj2 => by omega) (by omega)
  have hget : getm (A ++ S ++ B) A.length (A.length + S.length) u3 0 = some (found, m) := by
    unfold getm; rw [hsub]; exact e1
  have hm : found = true → A.length < m ∧ m < A.length + S.length := by
    intro hf
    obtain ⟨g1, g2, g3⟩ := e3 hf
    refine ⟨?_, g2⟩
    by_contra hcon
    have : m = A.length := by omega
    rw [this] at g3; omega
  rw [hu1, hu2, hsub]
  refine ⟨?_, ?_, ?_, ?_⟩
  · intro d hd
    obtain ⟨g1, g2⟩ := getmDecs_sub _ _ _ _ _ d hd
    have := e2 d g1
    by_contra hcon
    have : d = A.length := by omega
    rw [this] at g2; omega
  · intro f2 m2 hg hf
    rw [hget] at hg
    simp only [Option.some.injEq, Prod.mk.injEq] at hg
    rw [← hg.2]
    exact hm (by rw [hg.1]; exact hf)
  · intro j hj
    unfold computeCReads at hj
    rw [hu1, hu2, hget] at hj
    unfold getmTrace at hj
    rw [hsub] at hj
    rw [List.mem_append] at hj
    rcases hj with hj | hj
    · exact e2 j hj
    · cases found with
      | false => exact absurd hj (List.not_mem_nil j)
      | true =>
        obtain ⟨g1, g2⟩ := hm rfl
        simp only at hj
        rw [List.mem_append] at hj
        rcases hj with hj | hj
        · have := scanFwdReads_range _ _ _ _ _ j hj
          omega
        · have hs1 : sub32 m 1 = A.length + (m - 1 - A.length) := by
            rw [sub32_of_le (by omega) (by omega)]; omega
          rw [hs1] at hj
          have := scanBackReads_range (A ++ S ++ B) u3 _ A.length (by omega) _ j hj
          omega
  · intro d hd
    unfold computeCDecs at hd
    rw [hu1, hu2, hget] at hd
    cases found with
    | false => exact absurd hd (List.not_mem_nil d)
    | true =>
      obtain ⟨g1, g2⟩ := hm rfl
      simp only at hd
      have hs1 : sub32 m 1 = A.length + (m - 1 - A.length) := by
        rw [sub32_of_le (by omega) (by omega)]; omega
      rw [hs1] at hd
      obtain ⟨k1, k2⟩ := scanBackDecs_sub _ _ _ _ d hd
      have := scanBackReads_range (A ++ S ++ B) u3 _ A.length (by omega) _ d k1
      by_contra hcon
      have : d = A.length := by omega
      rw [this] at k2; omega

end WJ

end Induced6

namespace Induced6

open Finset

namespace BTJ

theorem getCount_initBatch (num_threads : Nat) (pid : Nat → Nat) (G : Graph)
    (vLeft ps : Nat) :
    getCount num_threads pid G vLeft ps
      = (batchLoop G vLeft ps pid 4294967297 (initBatch num_threads vLeft ps)).map
          (fun st => reduceCounts st.counts) := rfl

theorem batchStep_ACs (G : Graph) (vLeft ps : Nat) (pid : Nat → Nat) (st : Batch) :
    (batchStep G vLeft ps pid st).ACs = countingACs G st := rfl

/-- After the first `parallel_for` of a batch no map of a vertex up to `a_end` holds a key
below `cs`. -/
theorem updateAC_fold_low {G : Graph} {vLeft : Nat} (h : Preprocessed G vLeft)
    (bs cs a_end : Nat) (ACs : List (HMap Nat)) (hbs : 1 ≤ bs) (hbs2 : bs < 4294967296)
    (hinv : ACsInv G vLeft bs cs ACs) (a : Nat) (ha : a ≤ a_end) (ha2 : a < vLeft - 2)
    (k : Nat) (hk : k < cs) :
    ((List.range (a_end + 1)).foldl (updateAC G bs cs) ACs).getD a HMap.empty k = none := by
  have hfun : updateAC G bs cs = fun A a => A.set a ((fun a m =>
      if a < sub32 bs 1 then (fun k => if k < cs then none else m k)
      else (nbrs G a).foldl (fun m u => fillACInner a cs (nbrs G u) m) m)
      a (A.getD a HMap.empty)) := by
    funext A a; exact updateAC_eq G bs cs A a
  rw [hfun]
  obtain ⟨hl, hg⟩ := foldl_set_range (fun a m =>
      if a < sub32 bs 1 then (fun k => if k < cs then none else m k)
      else (nbrs G a).foldl (fun m u => fillACInner a cs (nbrs G u) m) m) HMap.empty
      (a_end + 1) ACs
  have hsub : sub32 bs 1 = bs - 1 := sub32_of_le hbs hbs2
  rw [hg a, hinv.1, if_pos ⟨by omega, ha2⟩, hsub]
  by_cases hold : a < bs - 1
  · rw [if_pos hold, if_pos hk]
  · rw [if_neg hold, fillAC_fold G a cs h.sorted_all, if_neg (by omega)]
    exact (hinv.2 a ha2).2 (by omega) k

theorem initBatch_inv (G : Graph) (vLeft : Nat) (h3 : 3 ≤ vLeft)
    (ps : Nat) (hps : 1 ≤ ps) (hwrap : ps + vLeft ≤ 4294967296) (num_threads : Nat)
    (hsz : num_threads * vLeft < 4294967296) :
    BInv G vLeft ps (num_threads * vLeft) (initBatch num_threads vLeft ps) := by
  have hs3 : sub32 vLeft 3 = vLeft - 3 := sub32_of_le h3 (by omega)
  have hs2 : sub32 vLeft 2 = vLeft - 2 := sub32_of_le (by omega) (by omega)
  have hs1 : sub32 ps 1 = ps - 1 := sub32_of_le hps (by omega)
  have hsize : u32 (num_threads * vLeft) = num_threads * vLeft := Nat.mod_eq_of_lt hsz
  unfold initBatch
  rw [hs3, hs2, hs1, hsize]
  refine ⟨le_refl 1, rfl, ?_, ?_, ?_, ?_, ?_⟩
  · show min (ps - 1) (vLeft - 3) = min (1 + ps - 2) (vLeft - 3)
    have : 1 + ps - 2 = ps - 1 := by omega
    rw [this]
  · show min ps (vLeft - 2) = min (min (ps - 1) (vLeft - 3) + 1) (vLeft - 2)
    simp only [Nat.min_def]
    split_ifs <;> omega
  · refine ⟨List.length_replicate _ _, ?_⟩
    intro a _
    constructor
    · intro (ha : a + 1 < 1); exact absurd ha (by omega)
    · intro _ k
      show (List.replicate (vLeft - 2) HMap.empty).getD a HMap.empty k = none
      rw [getD_replicate_self]
      rfl
  · exact ⟨List.length_replicate _ _, List.length_replicate _ _, List.length_replicate _ _,
      List.length_replicate _ _, fun i => getD_replicate_self _ _ _,
      fun i => getD_replicate_self _ _ _, fun i => getD_replicate_self _ _ _⟩
  · refine ⟨List.length_replicate _ _, ?_⟩
    intro i _
    show (List.replicate (vLeft - 2) 0).getD i 0 = _
    rw [getD_replicate_self, if_neg (show ¬ (i + 1 < 1) by omega)]

/-- Every state in which the loop body is entered satisfies the batch invariant. -/
theorem batchHeads_inv {G : Graph} {vLeft : Nat} (h : Preprocessed G vLeft) (h3 : 3 ≤ vLeft)
    (ps : Nat) (hps : 1 ≤ ps) (hwrap : ps + vLeft ≤ 4294967296) (pid : Nat → Nat)
    (num_threads : Nat) (hpid : ∀ b, pid b < num_threads)
    (hsz : num_threads * vLeft < 4294967296) :
    ∀ (fuel : Nat) (st : Batch), BInv G vLeft ps (num_threads * vLeft) st →
      ∀ s ∈ batchHeads G vLeft ps pid fuel st,
        BInv G vLeft ps (num_threads * vLeft) s ∧ s.b_start ≤ vLeft - 2 := by
  have hs2 : sub32 vLeft 2 = vLeft - 2 := sub32_of_le (by omega) (by omega)
  intro fuel
  induction fuel with
  | zero => intro st _ s hs; exact absurd hs (List.not_mem_nil s)
  | succ fuel ih =>
    intro st hi s hs
    rw [batchHeads, hs2] at hs
    by_cases hb : st.b_start ≤ vLeft - 2
    · rw [if_pos hb, List.mem_cons] at hs
      rcases hs with hs | hs
      · rw [hs]; exact ⟨hi, hb⟩
      · exact ih _ (batchStep_inv h h3 ps hps hwrap pid num_threads hpid hsz st hi hb).1 s hs
    · rw [if_neg hb] at hs
      exact absurd hs (List.not_mem_nil s)

end BTJ

end Induced6

namespace Induced6

open Finset

namespace BTJ

theorem groupStepIdx_eq (gs b : Nat) (st : GroupState) (c : Nat) :
    groupStepIdx gs b st c =
      if c > b then sideStepIdx Access.cSide gs b st.1 st.2.2 c
      else if b > c then sideStepIdx Access.aSide gs 0 st.1 st.2.1 c
      else [] := by
  unfold groupStepIdx sideStepIdx
  by_cases h1 : c > b
  · simp only [if_pos h1]
    by_cases h0 : st.1.localIDs.getD (gs + c) 0 = 0
    · simp only [if_pos h0]
    · simp only [if_neg h0]
  · simp only [if_neg h1]
    by_cases h2 : b > c
    · simp only [if_pos h2]
      by_cases h0 : st.1.localIDs.getD (gs + c) 0 = 0
      · simp only [if_pos h0, Nat.add_zero]
      · simp only [if_neg h0, Nat.add_zero]
    · simp only [if_neg h2]

/-- The slots touched by one branch of the grouping step lie among the first `cap` slots of
its side. -/
theorem sideStepIdx_range {gs size : Nat} {P : List (Nat × Nat)} {o1 o2 : Nat}
    {L1 L2 : List Nat} {s : Scratch} (hr : Rep2 gs size P o1 L1 o2 L2 s) (c : Nat)
    (hc2 : c ∉ L2) (hcs : gs + c < size) (cap : Nat) (hcap : (emplace L1 c).length ≤ cap)
    (mk : Nat → Access) :
    ∀ x ∈ sideStepIdx mk gs o1 s L1.length c,
      x = Access.loc (gs + c) ∨ ∃ k, k < cap ∧ x = mk (gs + o1 + k) := by
  intro x hx
  unfold sideStepIdx at hx
  by_cases hmem : c ∈ L1
  · have hem : emplace L1 c = L1 := by unfold emplace; rw [if_pos hmem]
    rw [hem] at hcap
    obtain ⟨k0, hk0, hck⟩ := exists_getD_of_mem L1 c hmem
    have hloc : s.localIDs.getD (gs + c) 0 = k0 + 1 := by
      rw [← hck]; exact hr.loc1 k0 hk0
    have hne : ¬ s.localIDs.getD (gs + c) 0 = 0 := by rw [hloc]; omega
    simp only [if_neg hne, List.nil_append, List.mem_cons, List.mem_singleton,
      List.not_mem_nil, or_false] at hx
    rcases hx with hx | hx
    · exact Or.inl hx
    · refine Or.inr ⟨k0, by omega, ?_⟩
      rw [hx, hloc]
      congr 1
  · have hem : emplace L1 c = L1 ++ [c] := by unfold emplace; rw [if_neg hmem]
    rw [hem, List.length_append, List.length_singleton] at hcap
    have hloc : s.localIDs.getD (gs + c) 0 = 0 := by
      apply hr.loc0
      intro v hv e
      have : v = c := by omega
      subst this
      rcases hv with h | h
      · exact hmem h
      · exact hc2 h
    have hget : (s.localIDs.set (gs + c) (L1.length + 1)).getD (gs + c) 0 = L1.length + 1 := by
      rw [getD_set_eq, hr.len_loc, if_pos ⟨rfl, hcs⟩]
    simp only [if_pos hloc, hget, List.mem_cons, List.mem_append, List.mem_singleton,
      List.not_mem_nil, or_false] at hx
    rcases hx with hx | hx | hx
    · exact Or.inl hx
    · refine Or.inr ⟨L1.length, by omega, ?_⟩
      rw [hx]; congr 1
    · refine Or.inr ⟨L1.length, by omega, ?_⟩
      rw [hx]; congr 1

/-- The accesses of one grouping step lie in the ranges of the claim. -/
theorem groupStepIdx_range {gs b size vLeft : Nat} {P : List (Nat × Nat)} {st : GroupState}
    (hb : b < vLeft) (hsz : gs + vLeft ≤ size) (hi : GroupInv gs b size vLeft P st)
    (u c : Nat) (hc : c < vLeft) :
    ∀ x ∈ groupStepIdx gs b st c, Access.inBlock gs b vLeft x := by
  have hnext := groupStep_inv hb hsz hi u c hc
  obtain ⟨As, Cs, hr, hnA, hnC, hndA, hndC, hmA, hmC, hCv⟩ := hi
  have hsnd : ∀ v, v ∈ (P ++ [(u, c)]).map Prod.snd ↔ v ∈ P.map Prod.snd ∨ v = c := by
    intro v
    rw [List.map_append, List.mem_append]
    simp
  intro x hx
  rw [groupStepIdx_eq] at hx
  by_cases h1 : c > b
  · rw [if_pos h1, hnC] at hx
    have hcA : c ∉ As := fun hm => by have := ((hmA c).1 hm).1; omega
    have hm2 : ∀ v, v ∈ emplace Cs c → b < v ∧ v < vLeft := by
      intro v hv
      rw [mem_emplace] at hv
      rcases hv with h | h
      · exact ⟨((hmC v).1 h).1, hCv v h⟩
      · subst h; exact ⟨h1, hc⟩
    have hClen2 : (emplace Cs c).length ≤ vLeft - (b + 1) :=
      length_le_of_nodup_Ico _ (b + 1) vLeft (nodup_emplace Cs c hndC)
        (fun v hv => ⟨(hm2 v hv).1, (hm2 v hv).2⟩)
    rcases sideStepIdx_range hr.swap c hcA (by omega) _ hClen2 Access.cSide x hx with e | e
    · rw [e]; exact ⟨by omega, by omega⟩
    · obtain ⟨k, hk, e⟩ := e
      rw [e]; exact ⟨by omega, by omega⟩
  · rw [if_neg h1] at hx
    by_cases h2 : b > c
    · rw [if_pos h2, hnA] at hx
      have hcC : c ∉ Cs := fun hm => by have := ((hmC c).1 hm).1; omega
      have hm2 : ∀ v, v ∈ emplace As c → v < b := by
        intro v hv
        rw [mem_emplace] at hv
        rcases hv with h | h
        · exact ((hmA v).1 h).1
        · subst h; exact h2
      have hAlen2 : (emplace As c).length ≤ b := by
        have := length_le_of_nodup_Ico _ 0 b (nodup_emplace As c hndA)
          (fun v hv => ⟨Nat.zero_le _, hm2 v hv⟩)
        omega
      rcases sideStepIdx_range hr c hcC (by omega) _ hAlen2 Access.aSide x hx with e | e
      · rw [e]; exact ⟨by omega, by omega⟩
      · obtain ⟨k, hk, e⟩ := e
        rw [e]; exact ⟨by omega, by omega⟩
    · rw [if_neg h2] at hx
      exact absurd hx (List.not_mem_nil x)

theorem groupInnerIdx_range {gs b size vLeft : Nat} (hb : b < vLeft)
    (hsz : gs + vLeft ≤ size) (u : Nat) :
    ∀ (cs : List Nat) (P : List (Nat × Nat)) (st : GroupState),
      GroupInv gs b size vLeft P st → (∀ c ∈ cs, c < vLeft) →
      ∀ x ∈ groupInnerIdx gs b u cs st, Access.inBlock gs b vLeft x := by
  intro cs
  induction cs with
  | nil => intro P st _ _ x hx; exact absurd hx (List.not_mem_nil x)
  | cons c rest ih =>
    intro P st hi hc x hx
    rw [groupInnerIdx, List.mem_append] at hx
    rcases hx with hx | hx
    · exact groupStepIdx_range hb hsz hi u c (hc c (List.mem_cons_self _ _)) x hx
    · exact ih _ _ (groupStep_inv hb hsz hi u c (hc c (List.mem_cons_self _ _)))
        (fun y hy => hc y (List.mem_cons_of_mem _ hy)) x hx

theorem groupIdx_range {G : Graph} {gs b size vLeft : Nat} (hb : b < vLeft)
    (hsz : gs + vLeft ≤ size) :
    ∀ (us : List Nat) (P : List (Nat × Nat)) (st : GroupState),
      GroupInv gs b size vLeft P st → (∀ u ∈ us, ∀ c ∈ nbrs G u, c < vLeft) →
      ∀ x ∈ groupIdx G gs b us st, Access.inBlock gs b vLeft x := by
  intro us
  induction us with
  | nil => intro P st _ _ x hx; exact absurd hx (List.not_mem_nil x)
  | cons u rest ih =>
    intro P st hi hc x hx
    rw [groupIdx, List.mem_append] at hx
    rcases hx with hx | hx
    · exact groupInnerIdx_range hb hsz u (nbrs G u) P st hi (hc u (List.mem_cons_self _ _)) x hx
    · exact ih _ _ (group_inner hb hsz u (nbrs G u) P st hi (hc u (List.mem_cons_self _ _)))
        (fun y hy => hc y (List.mem_cons_of_mem _ hy)) x hx

/-- The accesses of the join loop lie in the ranges of the claim. -/
theorem joinIdx_range {gs size b vLeft : Nat} {P : List (Nat × Nat)} {Cs : List Nat}
    (ACs : List (HMap Nat)) (hsz : gs + b ≤ size) (hCs : Cs.length ≤ vLeft - (b + 1))
    (hb : b < vLeft) :
    ∀ (A2 : List Nat) (i : Nat) (s : Scratch) (acc : Nat),
      JRep gs size P i A2 b Cs s → i + A2.length ≤ b → (∀ a ∈ A2, a < b) →
      ∀ x ∈ joinIdx ACs gs b Cs.length (List.range' i A2.length) (s, acc),
        Access.inBlock gs b vLeft x := by
  intro A2
  induction A2 with
  | nil => intro i s acc _ _ _ x hx; exact absurd hx (List.not_mem_nil x)
  | cons a rest ih =>
    intro i s acc hr hlen hA x hx
    rw [List.length_cons] at hlen
    rw [List.length_cons, List.range'_succ, joinIdx, List.mem_append] at hx
    rcases hx with hx | hx
    · unfold joinAIdx at hx
      have hra : s.reverseIDs.getD (gs + i) 0 = a := hr.rev1 0 (Nat.succ_pos _)
      simp only [hra, List.mem_cons, List.mem_append, List.mem_map, List.mem_range,
        List.mem_singleton, List.not_mem_nil, or_false] at hx
      rcases hx with hx | ⟨c, hc, hx⟩ | hx
      · rw [hx]; exact ⟨by omega, by omega⟩
      · rw [← hx]; exact ⟨by omega, by omega⟩
      · have := hA a (List.mem_cons_self _ _)
        rw [hx]; exact ⟨by omega, by omega⟩
    · rw [joinA_eq] at hx
      have hcl := clearSlot_rep hr (by omega) (fun k2 _ => by omega)
      exact ih (i + 1) _ _ hcl (by omega) (fun y hy => hA y (List.mem_cons_of_mem _ hy)) x hx

/-- The accesses of the clearing loop lie in the ranges of the claim. -/
theorem clearIdx_range {gs size b vLeft oA : Nat} {P : List (Nat × Nat)} (hb : b < vLeft) :
    ∀ (C2 : List Nat) (o : Nat) (s : Scratch),
      JRep gs size P (b + o) C2 oA [] s → gs + b + o + C2.length ≤ size →
      b + o + C2.length ≤ vLeft - 1 → (∀ c ∈ C2, c < vLeft) →
      ∀ x ∈ clearIdx gs b (List.range' o C2.length) s, Access.inBlock gs b vLeft x := by
  intro C2
  induction C2 with
  | nil => intro o s _ _ _ _ x hx; exact absurd hx (List.not_mem_nil x)
  | cons c rest ih =>
    intro o s hr hlen hcap hC x hx
    rw [List.length_cons] at hlen hcap
    rw [List.length_cons, List.range'_succ, clearIdx, List.mem_append] at hx
    rcases hx with hx | hx
    · unfold clearCIdx at hx
      have hra : s.reverseIDs.getD (gs + b + o) 0 = c := by
        have := hr.rev1 0 (Nat.succ_pos _)
        rw [Nat.add_zero, ← Nat.add_assoc] at this
        exact this
      simp only [hra, List.mem_cons, List.mem_singleton, List.not_mem_nil, or_false] at hx
      rcases hx with hx | hx
      · rw [hx]; exact ⟨by omega, by omega⟩
      · have := hC c (List.mem_cons_self _ _)
        rw [hx]; exact ⟨by omega, by omega⟩
    · rw [clearC_eq] at hx
      have hcl := clearSlot_rep hr (by omega) (fun k2 hk2 => absurd hk2 (Nat.not_lt_zero k2))
      exact ih (o + 1) _ hcl (by omega) (by omega)
        (fun y hy => hC y (List.mem_cons_of_mem _ hy)) x hx

end BTJ

end Induced6

namespace Induced6

open Finset

namespace BTJ

theorem vecAgree_set {α : Type} {d : α} {gs n : Nat} {l l2 : List α}
    (h : VecAgree d gs n l l2) (i : Nat) (v : α) :
    VecAgree d gs n (l.set i v) (l2.set i v) := by
  refine ⟨by rw [List.length_set, List.length_set]; exact h.1, ?_⟩
  intro j hj1 hj2
  rw [getD_set_eq, getD_set_eq, h.1, h.2 j hj1 hj2]

theorem vecOut_refl {α : Type} (d : α) (gs n : Nat) (l : List α) : VecOut d gs n l l :=
  ⟨rfl, fun _ _ => rfl⟩

theorem vecOut_trans {α : Type} {d : α} {gs n : Nat} {l l2 l3 : List α}
    (h1 : VecOut d gs n l l2) (h2 : VecOut d gs n l2 l3) : VecOut d gs n l l3 :=
  ⟨h1.1.trans h2.1, fun i hi => (h1.2 i hi).trans (h2.2 i hi)⟩

theorem vecOut_set {α : Type} (d : α) {gs n : Nat} (l : List α) (i : Nat) (v : α)
    (h1 : gs ≤ i) (h2 : i < gs + n) : VecOut d gs n l (l.set i v) := by
  refine ⟨by rw [List.length_set], ?_⟩
  intro j hj
  rw [getD_set_eq, if_neg (by omega)]

theorem outsideSame_refl (gs n : Nat) (s : Scratch) : OutsideSame gs n s s :=
  ⟨vecOut_refl _ _ _ _, vecOut_refl _ _ _ _, vecOut_refl _ _ _ _, vecOut_refl _ _ _ _⟩

theorem outsideSame_trans {gs n : Nat} {s s2 s3 : Scratch} (h1 : OutsideSame gs n s s2)
    (h2 : OutsideSame gs n s2 s3) : OutsideSame gs n s s3 :=
  ⟨vecOut_trans h1.1 h2.1, vecOut_trans h1.2.1 h2.2.1, vecOut_trans h1.2.2.1 h2.2.2.1,
    vecOut_trans h1.2.2.2 h2.2.2.2⟩

theorem sim_record {gs n : Nat} {s t : Scratch} (hag : BlockAgree gs n s t) (i u : Nat)
    (h1 : gs ≤ i) (h2 : i < gs + n) :
    BlockAgree gs n (record s i u) (record t i u) ∧ OutsideSame gs n s (record s i u) := by
  unfold record
  constructor
  · refine ⟨?_, ?_, hag.2.2.1, hag.2.2.2⟩
    · show VecAgree [] gs n (s.ABCs.set i _) (t.ABCs.set i _)
      rw [hag.1.2 i h1 h2]
      exact vecAgree_set hag.1 _ _
    · show VecAgree 0 gs n (s.ABCs_counts.set i _) (t.ABCs_counts.set i _)
      rw [hag.2.1.2 i h1 h2]
      exact vecAgree_set hag.2.1 _ _
  · exact ⟨vecOut_set _ _ _ _ h1 h2, vecOut_set _ _ _ _ h1 h2, vecOut_refl _ _ _ _,
      vecOut_refl _ _ _ _⟩

/-- One branch of the grouping step run on two states that agree on the block: the same
accesses, the same counter, states that agree on the block, and nothing written outside
the block. -/
theorem sim_sideStep (mk : Nat → Access) (hmk : ∀ i, (mk i).index = i) {gs vLeft : Nat}
    {s t : Scratch} (off n c u : Nat) (hag : BlockAgree gs vLeft s t)
    (hin : ∀ x ∈ sideStepIdx mk gs off t n c, gs ≤ x.index ∧ x.index < gs + vLeft) :
    sideStepIdx mk gs off s n c = sideStepIdx mk gs off t n c ∧
      BlockAgree gs vLeft (sideStep gs off s n c u).1 (sideStep gs off t n c u).1 ∧
      (sideStep gs off s n c u).2 = (sideStep gs off t n c u).2 ∧
      OutsideSame gs vLeft s (sideStep gs off s n c u).1 := by
  have hc := hin (Access.loc (gs + c)) (by unfold sideStepIdx; exact List.mem_cons_self _ _)
  have hc1 : gs ≤ gs + c := hc.1
  have hc2 : gs + c < gs + vLeft := hc.2
  have hloc : s.localIDs.getD (gs + c) 0 = t.localIDs.getD (gs + c) 0 :=
    hag.2.2.1.2 _ hc1 hc2
  by_cases h0 : t.localIDs.getD (gs + c) 0 = 0
  · have h0s : s.localIDs.getD (gs + c) 0 = 0 := by rw [hloc]; exact h0
    have hget : (s.localIDs.set (gs + c) (n + 1)).getD (gs + c) 0
        = (t.localIDs.set (gs + c) (n + 1)).getD (gs + c) 0 :=
      (vecAgree_set hag.2.2.1 _ _).2 _ hc1 hc2
    have hi1 := hin (mk (gs + off + (n + 1) - 1)) (by
      unfold sideStepIdx
      simp only [if_pos h0]
      exact List.mem_cons_of_mem _ (List.mem_append_left _ (List.mem_singleton.mpr rfl)))
    rw [hmk] at hi1
    have hi2 := hin (mk (gs + off + (t.localIDs.set (gs + c) (n + 1)).getD (gs + c) 0 - 1)) (by
      unfold sideStepIdx
      simp only [if_pos h0]
      exact List.mem_cons_of_mem _ (List.mem_append_right _ (List.mem_singleton.mpr rfl)))
    rw [hmk] at hi2
    have hag1 : BlockAgree gs vLeft
        { s with localIDs := s.localIDs.set (gs + c) (n + 1),
                 reverseIDs := s.reverseIDs.set (gs + off + (n + 1) - 1) c }
        { t with localIDs := t.localIDs.set (gs + c) (n + 1),
                 reverseIDs := t.reverseIDs.set (gs + off + (n + 1) - 1) c } :=
      ⟨hag.1, hag.2.1, vecAgree_set hag.2.2.1 _ _, vecAgree_set hag.2.2.2 _ _⟩
    have hout1 : OutsideSame gs vLeft s
        { s with localIDs := s.localIDs.set (gs + c) (n + 1),
                 reverseIDs := s.reverseIDs.set (gs + off + (n + 1) - 1) c } :=
      ⟨vecOut_refl _ _ _ _, vecOut_refl _ _ _ _, vecOut_set _ _ _ _ hc1 hc2,
        vecOut_set _ _ _ _ hi1.1 hi1.2⟩
    have hrec := sim_record hag1
      (gs + off + (t.localIDs.set (gs + c) (n + 1)).getD (gs + c) 0 - 1) u hi2.1 hi2.2
    rw [sideStep_new gs off s n c u h0s, sideStep_new gs off t n c u h0, hget]
    refine ⟨?_, hrec.1, rfl, outsideSame_trans hout1 hrec.2⟩
    unfold sideStepIdx
    simp only [if_pos h0, if_pos h0s, hget]
  · have h0s : ¬ s.localIDs.getD (gs + c) 0 = 0 := by rw [hloc]; exact h0
    have hi2 := hin (mk (gs + off + t.localIDs.getD (gs + c) 0 - 1)) (by
      unfold sideStepIdx
      simp only [if_neg h0]
      exact List.mem_cons_of_mem _ (List.mem_append_right _ (List.mem_singleton.mpr rfl)))
    rw [hmk] at hi2
    have hrec := sim_record hag (gs + off + t.localIDs.getD (gs + c) 0 - 1) u hi2.1 hi2.2
    rw [sideStep_old gs off s n c u h0s, sideStep_old gs off t n c u h0, hloc]
    refine ⟨?_, hrec.1, rfl, hrec.2⟩
    unfold sideStepIdx
    simp only [if_neg h0, if_neg h0s, hloc]

theorem Access.inBlock_index {gs b vLeft : Nat} (hb : b < vLeft) (x : Access)
    (h : Access.inBlock gs b vLeft x) : gs ≤ x.index ∧ x.index < gs + vLeft := by
  cases x with
  | loc i => exact h
  | aSide i =>
    have h2 : gs ≤ i ∧ i < gs + b := h
    exact ⟨h2.1, by show i < gs + vLeft; omega⟩
  | cSide i =>
    have h2 : gs + b ≤ i ∧ i < gs + vLeft - 1 := h
    exact ⟨by show gs ≤ i; omega, by show i < gs + vLeft; omega⟩

theorem sim_groupStep {gs b vLeft : Nat} (u c : Nat) (st tt : GroupState)
    (hag : BlockAgree gs vLeft st.1 tt.1) (hn : st.2 = tt.2)
    (hin : ∀ x ∈ groupStepIdx gs b tt c, gs ≤ x.index ∧ x.index < gs + vLeft) :
    groupStepIdx gs b st c = groupStepIdx gs b tt c ∧
      BlockAgree gs vLeft (groupStep gs b u st c).1 (groupStep gs b u tt c).1 ∧
      (groupStep gs b u st c).2 = (groupStep gs b u tt c).2 ∧
      OutsideSame gs vLeft st.1 (groupStep gs b u st c).1 := by
  by_cases h1 : c > b
  · have a1 : groupStepIdx gs b st c = sideStepIdx Access.cSide gs b st.1 st.2.2 c := by
      rw [groupStepIdx_eq, if_pos h1]
    have a2 : groupStepIdx gs b tt c = sideStepIdx Access.cSide gs b tt.1 tt.2.2 c := by
      rw [groupStepIdx_eq, if_pos h1]
    have a3 : groupStep gs b u st c
        = ((sideStep gs b st.1 st.2.2 c u).1, st.2.1, (sideStep gs b st.1 st.2.2 c u).2) := by
      rw [groupStep_eq, if_pos h1]
    have a4 : groupStep gs b u tt c
        = ((sideStep gs b tt.1 tt.2.2 c u).1, tt.2.1, (sideStep gs b tt.1 tt.2.2 c u).2) := by
      rw [groupStep_eq, if_pos h1]
    rw [a2] at hin
    rw [a1, a2, a3, a4, hn]
    obtain ⟨e1, e2, e3, e4⟩ := sim_sideStep Access.cSide (fun _ => rfl) b tt.2.2 c u hag hin
    exact ⟨e1, e2, by rw [e3], e4⟩
  · by_cases h2 : b > c
    · have a1 : groupStepIdx gs b st c = sideStepIdx Access.aSide gs 0 st.1 st.2.1 c := by
        rw [groupStepIdx_eq, if_neg h1, if_pos h2]
      have a2 : groupStepIdx gs b tt c = sideStepIdx Access.aSide gs 0 tt.1 tt.2.1 c := by
        rw [groupStepIdx_eq, if_neg h1, if_pos h2]
      have a3 : groupStep gs b u st c
          = ((sideStep gs 0 st.1 st.2.1 c u).1, (sideStep gs 0 st.1 st.2.1 c u).2, st.2.2) := by
        rw [groupStep_eq, if_neg h1, if_pos h2]
      have a4 : groupStep gs b u tt c
          = ((sideStep gs 0 tt.1 tt.2.1 c u).1, (sideStep gs 0 tt.1 tt.2.1 c u).2, tt.2.2) := by
        rw [groupStep_eq, if_neg h1, if_pos h2]
      rw [a2] at hin
      rw [a1, a2, a3, a4, hn]
      obtain ⟨e1, e2, e3, e4⟩ := sim_sideStep Access.aSide (fun _ => rfl) 0 tt.2.1 c u hag hin
      exact ⟨e1, e2, by rw [e3], e4⟩
    · have a1 : groupStepIdx gs b st c = [] := by
        rw [groupStepIdx_eq, if_neg h1, if_neg h2]
      have a2 : groupStepIdx gs b tt c = [] := by
        rw [groupStepIdx_eq, if_neg h1, if_neg h2]
      have a3 : groupStep gs b u st c = st := by
        rw [groupStep_eq, if_neg h1, if_neg h2]
      have a4 : groupStep gs b u tt c = tt := by
        rw [groupStep_eq, if_neg h1, if_neg h2]
      rw [a1, a2, a3, a4]
      exact ⟨rfl, hag, hn, outsideSame_refl _ _ _⟩

theorem sim_groupInner {gs b size vLeft : Nat} (hb : b < vLeft) (hsz : gs + vLeft ≤ size)
    (u : Nat) :
    ∀ (cs : List Nat) (P : List (Nat × Nat)) (st tt : GroupState),
      GroupInv gs b size vLeft P tt → (∀ c ∈ cs, c < vLeft) →
      BlockAgree gs vLeft st.1 tt.1 → st.2 = tt.2 →
      groupInnerIdx gs b u cs st = groupInnerIdx gs b u cs tt ∧
        BlockAgree gs vLeft (cs.foldl (groupStep gs b u) st).1
          (cs.foldl (groupStep gs b u) tt).1 ∧
        (cs.foldl (groupStep gs b u) st).2 = (cs.foldl (groupStep gs b u) tt).2 ∧
        OutsideSame gs vLeft st.1 (cs.foldl (groupStep gs b u) st).1 := by
  intro cs
  induction cs with
  | nil => intro P st tt _ _ hag hn; exact ⟨rfl, hag, hn, outsideSame_refl _ _ _⟩
  | cons c rest ih =>
    intro P st tt hi hc hag hn
    have hcv := hc c (List.mem_cons_self _ _)
    obtain ⟨e1, e2, e3, e4⟩ := sim_groupStep u c st tt hag hn
      (fun x hx => Access.inBlock_index hb x (groupStepIdx_range hb hsz hi u c hcv x hx))
    obtain ⟨f1, f2, f3, f4⟩ := ih _ _ _ (groupStep_inv hb hsz hi u c hcv)
      (fun y hy => hc y (List.mem_cons_of_mem _ hy)) e2 e3
    rw [groupInnerIdx, groupInnerIdx, List.foldl_cons, List.foldl_cons, e1, f1]
    exact ⟨rfl, f2, f3, outsideSame_trans e4 f4⟩

theorem sim_group {G : Graph} {gs b size vLeft : Nat} (hb : b < vLeft)
    (hsz : gs + vLeft ≤ size) :
    ∀ (us : List Nat) (P : List (Nat × Nat)) (st tt : GroupState),
      GroupInv gs b size vLeft P tt → (∀ u ∈ us, ∀ c ∈ nbrs G u, c < vLeft) →
      BlockAgree gs vLeft st.1 tt.1 → st.2 = tt.2 →
      groupIdx G gs b us st = groupIdx G gs b us tt ∧
        BlockAgree gs vLeft
          (us.foldl (fun st u => (nbrs G u).foldl (groupStep gs b u) st) st).1
          (us.foldl (fun st u => (nbrs G u).foldl (groupStep gs b u) st) tt).1 ∧
        (us.foldl (fun st u => (nbrs G u).foldl (groupStep gs b u) st) st).2
          = (us.foldl (fun st u => (nbrs G u).foldl (groupStep gs b u) st) tt).2 ∧
        OutsideSame gs vLeft st.1
          (us.foldl (fun st u => (nbrs G u).foldl (groupStep gs b u) st) st).1 := by
  intro us
  induction us with
  | nil => intro P st tt _ _ hag hn; exact ⟨rfl, hag, hn, outsideSame_refl _ _ _⟩
  | cons u rest ih =>
    intro P st tt hi hc hag hn
    have hcu := hc u (List.mem_cons_self _ _)
    obtain ⟨e1, e2, e3, e4⟩ := sim_groupInner hb hsz u (nbrs G u) P st tt hi hcu hag hn
    obtain ⟨f1, f2, f3, f4⟩ := ih _ _ _ (group_inner hb hsz u (nbrs G u) P tt hi hcu)
      (fun y hy => hc y (List.mem_cons_of_mem _ hy)) e2 e3
    rw [groupIdx, groupIdx, List.foldl_cons, List.foldl_cons, e1, f1]
    exact ⟨rfl, f2, f3, outsideSame_trans e4 f4⟩

/-- The inner join loop reads only the slot of `a` and the first `numCs` slots of the
c-side. -/
theorem sim_joinC {gs vLeft : Nat} {s t : Scratch} (hag : BlockAgree gs vLeft s t)
    (ACs : List (HMap Nat)) (b a numCs acc : Nat) (ha : gs + a < gs + vLeft)
    (hc : gs + b + numCs ≤ gs + vLeft) :
    joinC ACs s gs b a (List.range numCs) acc = joinC ACs t gs b a (List.range numCs) acc := by
  unfold joinC
  have h1 : s.reverseIDs.getD (gs + a) 0 = t.reverseIDs.getD (gs + a) 0 :=
    hag.2.2.2.2 _ (by omega) ha
  have h2 : s.ABCs.getD (gs + a) [] = t.ABCs.getD (gs + a) [] := hag.1.2 _ (by omega) ha
  have h3 : s.ABCs_counts.getD (gs + a) 0 = t.ABCs_counts.getD (gs + a) 0 :=
    hag.2.1.2 _ (by omega) ha
  simp only [h1, h2, h3]
  apply List.foldl_ext
  intro acc2 c hcm
  rw [List.mem_range] at hcm
  have g1 : s.reverseIDs.getD (gs + b + c) 0 = t.reverseIDs.getD (gs + b + c) 0 :=
    hag.2.2.2.2 _ (by omega) (by omega)
  have g2 : s.ABCs.getD (gs + b + c) [] = t.ABCs.getD (gs + b + c) [] :=
    hag.1.2 _ (by omega) (by omega)
  have g3 : s.ABCs_counts.getD (gs + b + c) 0 = t.ABCs_counts.getD (gs + b + c) 0 :=
    hag.2.1.2 _ (by omega) (by omega)
  simp only [g1, g2, g3]

theorem sim_clearSlot {gs vLeft : Nat} {s t : Scratch} (hag : BlockAgree gs vLeft s t)
    (i : Nat) (hi : gs + i < gs + vLeft)
    (ho : gs + t.reverseIDs.getD (gs + i) 0 < gs + vLeft) :
    BlockAgree gs vLeft (clearSlot gs s i) (clearSlot gs t i) ∧
      OutsideSame gs vLeft s (clearSlot gs s i) := by
  have h1 : s.reverseIDs.getD (gs + i) 0 = t.reverseIDs.getD (gs + i) 0 :=
    hag.2.2.2.2 _ (by omega) hi
  unfold clearSlot
  rw [h1]
  exact ⟨⟨vecAgree_set hag.1 _ _, vecAgree_set hag.2.1 _ _, vecAgree_set hag.2.2.1 _ _, hag.2.2.2⟩,
    ⟨vecOut_set _ _ _ _ (by omega) hi, vecOut_set _ _ _ _ (by omega) hi,
      vecOut_set _ _ _ _ (by omega) ho, vecOut_refl _ _ _ _⟩⟩

theorem sim_join {gs size b vLeft : Nat} {P : List (Nat × Nat)} {Cs : List Nat}
    (ACs : List (HMap Nat)) (hsz : gs + b ≤ size) (hCs : Cs.length ≤ vLeft - (b + 1))
    (hb : b < vLeft) :
    ∀ (A2 : List Nat) (i : Nat) (s t : Scratch) (acc : Nat),
      JRep gs size P i A2 b Cs t → i + A2.length ≤ b → (∀ a ∈ A2, a < b) →
      BlockAgree gs vLeft s t →
      joinIdx ACs gs b Cs.length (List.range' i A2.length) (s, acc)
          = joinIdx ACs gs b Cs.length (List.range' i A2.length) (t, acc) ∧
        BlockAgree gs vLeft
          ((List.range' i A2.length).foldl (joinA ACs gs b Cs.length) (s, acc)).1
          ((List.range' i A2.length).foldl (joinA ACs gs b Cs.length) (t, acc)).1 ∧
        ((List.range' i A2.length).foldl (joinA ACs gs b Cs.length) (s, acc)).2
          = ((List.range' i A2.length).foldl (joinA ACs gs b Cs.length) (t, acc)).2 ∧
        OutsideSame gs vLeft s
          ((List.range' i A2.length).foldl (joinA ACs gs b Cs.length) (s, acc)).1 := by
  intro A2
  induction A2 with
  | nil => intro i s t acc _ _ _ hag; exact ⟨rfl, hag, rfl, outsideSame_refl _ _ _⟩
  | cons a rest ih =>
    intro i s t acc hr hlen hA hag
    rw [List.length_cons] at hlen
    have hra : t.reverseIDs.getD (gs + i) 0 = a := hr.rev1 0 (Nat.succ_pos _)
    have hab := hA a (List.mem_cons_self _ _)
    have hrs : s.reverseIDs.getD (gs + i) 0 = t.reverseIDs.getD (gs + i) 0 :=
      hag.2.2.2.2 _ (by omega) (by omega)
    have hjc := sim_joinC hag ACs b i Cs.length acc (by omega) (by omega)
    obtain ⟨c1, c2⟩ := sim_clearSlot hag i (by omega) (by rw [hra]; omega)
    have hcl := clearSlot_rep hr (by omega) (fun k2 _ => by omega)
    obtain ⟨f1, f2, f3, f4⟩ := ih (i + 1) _ _
      (joinC ACs t gs b i (List.range Cs.length) acc) hcl (by omega)
      (fun y hy => hA y (List.mem_cons_of_mem _ hy)) c1
    rw [List.length_cons, List.range'_succ, joinIdx, joinIdx, List.foldl_cons, List.foldl_cons,
      joinA_eq, joinA_eq]
    simp only
    rw [hjc, f1]
    refine ⟨?_, f2, f3, outsideSame_trans c2 f4⟩
    unfold joinAIdx
    rw [hrs]

theorem sim_clear {gs size b vLeft oA : Nat} {P : List (Nat × Nat)} (hb : b < vLeft) :
    ∀ (C2 : List Nat) (o : Nat) (s t : Scratch),
      JRep gs size P (b + o) C2 oA [] t → gs + b + o + C2.length ≤ size →
      b + o + C2.length ≤ vLeft - 1 → (∀ c ∈ C2, c < vLeft) →
      BlockAgree gs vLeft s t →
      clearIdx gs b (List.range' o C2.length) s = clearIdx gs b (List.range' o C2.length) t ∧
        BlockAgree gs vLeft ((List.range' o C2.length).foldl (clearC gs b) s)
          ((List.range' o C2.length).foldl (clearC gs b) t) ∧
        OutsideSame gs vLeft s ((List.range' o C2.length).foldl (clearC gs b) s) := by
  intro C2
  induction C2 with
  | nil => intro o s t _ _ _ _ hag; exact ⟨rfl, hag, outsideSame_refl _ _ _⟩
  | cons c rest ih =>
    intro o s t hr hlen hcap hC hag
    rw [List.length_cons] at hlen hcap
    have hra : t.reverseIDs.getD (gs + (b + o)) 0 = c := by
      have := hr.rev1 0 (Nat.succ_pos _)
      rw [Nat.add_zero] at this
      exact this
    have hcv := hC c (List.mem_cons_self _ _)
    have hrs : s.reverseIDs.getD (gs + b + o) 0 = t.reverseIDs.getD (gs + b + o) 0 :=
      hag.2.2.2.2 _ (by omega) (by omega)
    obtain ⟨c1, c2⟩ := sim_clearSlot hag (b + o) (by omega) (by rw [hra]; omega)
    have hcl := clearSlot_rep hr (by omega) (fun k2 hk2 => absurd hk2 (Nat.not_lt_zero k2))
    obtain ⟨f1, f2, f3⟩ := ih (o + 1) _ _ hcl (by omega) (by omega)
      (fun y hy => hC y (List.mem_cons_of_mem _ hy)) c1
    rw [List.length_cons, List.range'_succ, clearIdx, clearIdx, List.foldl_cons,
      List.foldl_cons, clearC_eq, clearC_eq, f1]
    refine ⟨?_, f2, outsideSame_trans c2 f3⟩
    unfold clearCIdx
    rw [hrs]

theorem joinA_fold_fst (ACs : List (HMap Nat)) (gs b numCs : Nat) :
    ∀ (l : List Nat) (s : Scratch) (acc acc2 : Nat),
      (l.foldl (joinA ACs gs b numCs) (s, acc)).1
        = (l.foldl (joinA ACs gs b numCs) (s, acc2)).1 := by
  intro l
  induction l with
  | nil => intro s acc acc2; rfl
  | cons a rest ih =>
    intro s acc acc2
    rw [List.foldl_cons, List.foldl_cons, joinA_eq, joinA_eq]
    exact ih _ _ _

/-- The body for the vertex `b` run on a state `s` whose block agrees with a clean state
`t`: the accesses lie in the ranges of the claim, the run on `s` makes the same accesses as
the run on `t`, computes the same counts, ends in a state that agrees with a clean state on
the block, and leaves `s` as it was outside the block. -/
theorem processB_sim {G : Graph} {vLeft : Nat} (h : Preprocessed G vLeft)
    (ACs : List (HMap Nat)) (pid size b : Nat) (s t : Scratch) (counts : List Nat)
    (hb : b < vLeft) (hsz : pid * vLeft + vLeft ≤ size) (hsz2 : size < 4294967296)
    (ht : Clean size t) (hag : BlockAgree (pid * vLeft) vLeft s t) :
    (∀ x ∈ processBIdx G vLeft ACs pid (s, counts) b,
      Access.inBlock (pid * vLeft) b vLeft x) ∧
    processBIdx G vLeft ACs pid (s, counts) b = processBIdx G vLeft ACs pid (t, counts) b ∧
    BlockAgree (pid * vLeft) vLeft (processB G vLeft ACs pid (s, counts) b).1
      (processB G vLeft ACs pid (t, counts) b).1 ∧
    Clean size (processB G vLeft ACs pid (t, counts) b).1 ∧
    (processB G vLeft ACs pid (s, counts) b).2 = (processB G vLeft ACs pid (t, counts) b).2 ∧
    OutsideSame (pid * vLeft) vLeft s (processB G vLeft ACs pid (s, counts) b).1 := by
  have hgs : u32 (pid * vLeft) = pid * vLeft := Nat.mod_eq_of_lt (by omega)
  have hnb : ∀ u ∈ nbrs G b, ∀ c ∈ nbrs G u, c < vLeft := by
    intro u hu c hc
    have hu2 := h.left_nbrs b hb u hu
    exact h.right_nbrs u hu2.2 hu2.1 c hc
  have h0 : GroupInv (pid * vLeft) b size vLeft [] (t, 0, 0) :=
    ⟨[], [], ht.toRep2 (pid * vLeft) b, rfl, rfl, List.nodup_nil, List.nodup_nil,
      fun a => by simp, fun c => by simp, fun c hc => absurd hc (List.not_mem_nil c)⟩
  obtain ⟨g1, g2, g3, g4⟩ := sim_group (G := G) hb hsz (nbrs G b) [] (s, 0, 0) (t, 0, 0) h0 hnb
    hag rfl
  have grange := groupIdx_range (G := G) hb hsz (nbrs G b) [] (t, 0, 0) h0 hnb
  obtain ⟨As, Cs, hr, hnA, hnC, hndA, hndC, hmA, hmC, hCv⟩ := group_inv h hb hsz t ht
  have hAlen : As.length ≤ b := by
    have := length_le_of_nodup_Ico As 0 b hndA (fun v hv => ⟨Nat.zero_le _, ((hmA v).1 hv).1⟩)
    omega
  have hClen : Cs.length ≤ vLeft - (b + 1) :=
    length_le_of_nodup_Ico Cs (b + 1) vLeft hndC (fun v hv => ⟨((hmC v).1 hv).1, hCv v hv⟩)
  have hgS : (nbrs G b).foldl (fun st u => (nbrs G u).foldl (groupStep (pid * vLeft) b u) st)
      (s, 0, 0) = group G (pid * vLeft) b s := rfl
  have hgT : (nbrs G b).foldl (fun st u => (nbrs G u).foldl (groupStep (pid * vLeft) b u) st)
      (t, 0, 0) = group G (pid * vLeft) b t := rfl
  rw [hgS, hgT] at g2 g3
  rw [hgS] at g4
  have hsA : (group G (pid * vLeft) b s).2.1 = As.length := by rw [g3]; exact hnA
  have hsC : (group G (pid * vLeft) b s).2.2 = Cs.length := by rw [g3]; exact hnC
  have hAb : ∀ a ∈ As, a < b := fun a ha => ((hmA a).1 ha).1
  obtain ⟨j1, j2, j3, j4⟩ := sim_join ACs (show pid * vLeft + b ≤ size by omega) hClen hb
    As 0 (group G (pid * vLeft) b s).1 (group G (pid * vLeft) b t).1 (counts.getD (b - 1) 0)
    hr.toJRep (by omega) hAb g2
  have jrange := joinIdx_range ACs (show pid * vLeft + b ≤ size by omega) hClen hb
    As 0 (group G (pid * vLeft) b t).1 (counts.getD (b - 1) 0) hr.toJRep (by omega) hAb
  have hj := joinA_fold ACs (show pid * vLeft + b ≤ size by omega)
    As 0 (group G (pid * vLeft) b t).1 0 hr.toJRep (by omega)
  rw [joinA_fold_fst ACs _ _ _ _ _ (u64 0) (counts.getD (b - 1) 0)] at hj
  rw [← List.range_eq_range'] at j1 j2 j3 j4 jrange hj
  rw [Nat.zero_add] at hj
  have hjr : JRep (pid * vLeft) size (pairsOf G b) (b + 0) Cs As.length []
      ((List.range As.length).foldl (joinA ACs (pid * vLeft) b Cs.length)
        ((group G (pid * vLeft) b t).1, counts.getD (b - 1) 0)).1 := hj.1.flip
  obtain ⟨c1, c2, c3⟩ := sim_clear hb Cs 0 _ _ hjr (by omega) (by omega) hCv j2
  have crange := clearIdx_range hb Cs 0 _ hjr (by omega) (by omega) hCv
  rw [← List.range_eq_range'] at c1 c2 c3 crange
  have hclean : Clean size ((List.range Cs.length).foldl (clearC (pid * vLeft) b)
      ((List.range As.length).foldl (joinA ACs (pid * vLeft) b Cs.length)
        ((group G (pid * vLeft) b t).1, counts.getD (b - 1) 0)).1) := by
    rw [clearC_fold]
    have hc := clear_fold Cs b _ hj.1.flip (by omega)
    exact hc.flip.toClean
  have hidxT : processBIdx G vLeft ACs pid (t, counts) b
      = groupIdx G (pid * vLeft) b (nbrs G b) (t, 0, 0) ++
        (joinIdx ACs (pid * vLeft) b Cs.length (List.range As.length)
            ((group G (pid * vLeft) b t).1, counts.getD (b - 1) 0) ++
          clearIdx (pid * vLeft) b (List.range Cs.length)
            ((List.range As.length).foldl (joinA ACs (pid * vLeft) b Cs.length)
              ((group G (pid * vLeft) b t).1, counts.getD (b - 1) 0)).1) := by
    unfold processBIdx
    simp only [hgs, hnA, hnC]
  have hidxS : processBIdx G vLeft ACs pid (s, counts) b
      = groupIdx G (pid * vLeft) b (nbrs G b) (s, 0, 0) ++
        (joinIdx ACs (pid * vLeft) b Cs.length (List.range As.length)
            ((group G (pid * vLeft) b s).1, counts.getD (b - 1) 0) ++
          clearIdx (pid * vLeft) b (List.range Cs.length)
            ((List.range As.length).foldl (joinA ACs (pid * vLeft) b Cs.length)
              ((group G (pid * vLeft) b s).1, counts.getD (b - 1) 0)).1) := by
    unfold processBIdx
    simp only [hgs, hsA, hsC]
  have hpT : processB G vLeft ACs pid (t, counts) b
      = ((List.range Cs.length).foldl (clearC (pid * vLeft) b)
          ((List.range As.length).foldl (joinA ACs (pid * vLeft) b Cs.length)
            ((group G (pid * vLeft) b t).1, counts.getD (b - 1) 0)).1,
        counts.set (b - 1) ((List.range As.length).foldl (joinA ACs (pid * vLeft) b Cs.length)
            ((group G (pid * vLeft) b t).1, counts.getD (b - 1) 0)).2) := by
    unfold processB
    simp only [hgs, hnA, hnC]
  have hpS : processB G vLeft ACs pid (s, counts) b
      = ((List.range Cs.length).foldl (clearC (pid * vLeft) b)
          ((List.range As.length).foldl (joinA ACs (pid * vLeft) b Cs.length)
            ((group G (pid * vLeft) b s).1, counts.getD (b - 1) 0)).1,
        counts.set (b - 1) ((List.range As.length).foldl (joinA ACs (pid * vLeft) b Cs.length)
            ((group G (pid * vLeft) b s).1, counts.getD (b - 1) 0)).2) := by
    unfold processB
    simp only [hgs, hsA, hsC]
  have heq : processBIdx G vLeft ACs pid (s, counts) b
      = processBIdx G vLeft ACs pid (t, counts) b := by
    rw [hidxS, hidxT, g1, j1, c1]
  refine ⟨?_, heq, ?_, ?_, ?_, ?_⟩
  · intro x hx
    rw [heq, hidxT, List.mem_append, List.mem_append] at hx
    rcases hx with hx | hx | hx
    · exact grange x hx
    · exact jrange x hx
    · exact crange x hx
  · rw [hpS, hpT]; exact c2
  · rw [hpT]; exact hclean
  · rw [hpS, hpT]
    show counts.set _ _ = counts.set _ _
    rw [j3]
  · rw [hpS]
    exact outsideSame_trans (outsideSame_trans g4 j4) c3

/-- The state that is `s` in the vector `reverseIDs` and clean in the other three. -/
theorem clean_of_blockClean {gs n size : Nat} {s : Scratch} (hs : BlockClean gs n size s) :
    Clean size { s with ABCs := List.replicate size [], ABCs_counts := List.replicate size 0,
                        localIDs := List.replicate size 0 } ∧
      BlockAgree gs n s { s with ABCs := List.replicate size [],
                                 ABCs_counts := List.replicate size 0,
                                 localIDs := List.replicate size 0 } := by
  obtain ⟨⟨l1, l2, l3, l4⟩, hcl⟩ := hs
  constructor
  · exact ⟨List.length_replicate _ _, List.length_replicate _ _, List.length_replicate _ _, l4,
      fun i => getD_replicate_self _ _ _, fun i => getD_replicate_self _ _ _,
      fun i => getD_replicate_self _ _ _⟩
  · refine ⟨⟨?_, ?_⟩, ⟨?_, ?_⟩, ⟨?_, ?_⟩, ⟨rfl, fun _ _ _ => rfl⟩⟩
    · show s.ABCs.length = (List.replicate size []).length
      rw [List.length_replicate]; exact l1
    · intro i h1 h2
      show s.ABCs.getD i [] = (List.replicate size []).getD i []
      rw [getD_replicate_self]; exact (hcl i h1 h2).1
    · show s.ABCs_counts.length = (List.replicate size 0).length
      rw [List.length_replicate]; exact l2
    · intro i h1 h2
      show s.ABCs_counts.getD i 0 = (List.replicate size 0).getD i 0
      rw [getD_replicate_self]; exact (hcl i h1 h2).2.1
    · show s.localIDs.length = (List.replicate size 0).length
      rw [List.length_replicate]; exact l3
    · intro i h1 h2
      show s.localIDs.getD i 0 = (List.replicate size 0).getD i 0
      rw [getD_replicate_self]; exact (hcl i h1 h2).2.2

end BTJ

end Induced6

namespace Induced6

open Finset

theorem isDigit_iff (c : Nat) : isDigit c = true ↔ 48 ≤ c ∧ c ≤ 57 := by
  unfold isDigit
  rw [Bool.and_eq_true, decide_eq_true_eq, decide_eq_true_eq]

theorem numAcc_ge (ds : List Nat) : ∀ x, x ≤ numAcc x ds := by
  induction ds with
  | nil => intro x; exact Nat.le_refl _
  | cons c rest ih =>
    intro x
    have := ih (x * 10 + (c - 48))
    unfold numAcc at this ⊢
    rw [List.foldl_cons]
    omega

/-- The digits of a number below `2^32` read in `uint32_t` arithmetic give the number. -/
theorem fold_u32_digits (ds : List Nat) : ∀ x, IsDigits ds → numAcc x ds < 4294967296 →
    ds.foldl (fun x c => u32 (x * 10 + c - 48)) x = numAcc x ds := by
  induction ds with
  | nil => intro x _ _; rfl
  | cons c rest ih =>
    intro x hd hlt
    have hc := (isDigit_iff c).mp (hd c (List.mem_cons_self _ _))
    have hrest : IsDigits rest := fun y hy => hd y (List.mem_cons_of_mem _ hy)
    have hacc : numAcc x (c :: rest) = numAcc (x * 10 + (c - 48)) rest := by
      unfold numAcc; rw [List.foldl_cons]
    rw [hacc] at hlt ⊢
    have hge := numAcc_ge rest (x * 10 + (c - 48))
    have hu : u32 (x * 10 + c - 48) = x * 10 + (c - 48) := by
      unfold u32
      rw [Nat.mod_eq_of_lt (by omega)]
      omega
    rw [List.foldl_cons, hu]
    exact ih _ hrest hlt

theorem headerLoop_append (bs : List Nat) : ∀ (rest : List Nat) (h : HeaderState) (pos : Nat),
    (∀ c ∈ bs, c ≠ 10) → pos + bs.length < 2147483648 →
    headerLoop (bs ++ rest) h pos = headerLoop rest (bs.foldl headerStep h) (pos + bs.length) := by
  induction bs with
  | nil => intro rest h pos _ _; rfl
  | cons c bs ih =>
    intro rest h pos hne hlen
    rw [List.length_cons] at hlen
    rw [List.cons_append, headerLoop, if_neg (hne c (List.mem_cons_self _ _)),
      if_pos (by omega), ih rest _ _ (fun y hy => hne y (List.mem_cons_of_mem _ hy)) (by omega),
      List.foldl_cons, List.length_cons]
    congr 1
    omega

theorem digits_ne_newline (ds : List Nat) (hd : IsDigits ds) : ∀ c ∈ ds, c ≠ 10 := by
  intro c hc e
  have := (isDigit_iff c).mp (hd c hc)
  omega

theorem header_digits_nE (ds : List Nat) : ∀ (h : HeaderState), IsDigits ds → h.nE = true →
    ds.foldl headerStep h
      = { h with nEdge := ds.foldl (fun x c => u32 (x * 10 + c - 48)) h.nEdge } := by
  induction ds with
  | nil => intro h _ _; rfl
  | cons c rest ih =>
    intro h hd hn
    have hc := hd c (List.mem_cons_self _ _)
    have hrest : IsDigits rest := fun y hy => hd y (List.mem_cons_of_mem _ hy)
    rw [List.foldl_cons, List.foldl_cons]
    have hstep : headerStep h c = { h with nEdge := u32 (h.nEdge * 10 + c - 48) } := by
      unfold headerStep; rw [if_pos hc, if_pos hn]
    rw [hstep]
    exact ih _ hrest hn

theorem header_digits_vL (ds : List Nat) : ∀ (h : HeaderState), IsDigits ds → h.nE = false →
    h.vL = true →
    ds.foldl headerStep h
      = { h with vLeft := ds.foldl (fun x c => u32 (x * 10 + c - 48)) h.vLeft } := by
  induction ds with
  | nil => intro h _ _ _; rfl
  | cons c rest ih =>
    intro h hd hn hv
    have hc := hd c (List.mem_cons_self _ _)
    have hrest : IsDigits rest := fun y hy => hd y (List.mem_cons_of_mem _ hy)
    rw [List.foldl_cons, List.foldl_cons]
    have hstep : headerStep h c = { h with vLeft := u32 (h.vLeft * 10 + c - 48) } := by
      unfold headerStep; rw [if_pos hc, if_neg (by rw [hn]; simp), if_pos hv]
    rw [hstep]
    exact ih _ hrest hn hv

theorem header_digits_vR (ds : List Nat) : ∀ (h : HeaderState), IsDigits ds → h.nE = false →
    h.vL = false →
    ds.foldl headerStep h
      = { h with vRight := ds.foldl (fun x c => u32 (x * 10 + c - 48)) h.vRight } := by
  induction ds with
  | nil => intro h _ _ _; rfl
  | cons c rest ih =>
    intro h hd hn hv
    have hc := hd c (List.mem_cons_self _ _)
    have hrest : IsDigits rest := fun y hy => hd y (List.mem_cons_of_mem _ hy)
    rw [List.foldl_cons, List.foldl_cons]
    have hstep : headerStep h c = { h with vRight := u32 (h.vRight * 10 + c - 48) } := by
      unfold headerStep; rw [if_pos hc, if_neg (by rw [hn]; simp), if_neg (by rw [hv]; simp)]
    rw [hstep]
    exact ih _ hrest hn hv

/-- The header loop on a header line `<edgeCount> <leftSize> <rightSize>`. -/
theorem header_line (dE dL dR rest : List Nat) (hE : IsDigits dE) (hL : IsDigits dL)
    (hR : IsDigits dR) (hvE : numVal dE < 4294967296) (hvL : numVal dL < 4294967296)
    (hvR : numVal dR < 4294967296)
    (hlen : (dE ++ [32] ++ dL ++ [32] ++ dR).length < 2147483648) :
    headerLoop (dE ++ [32] ++ dL ++ [32] ++ dR ++ [10] ++ rest) ⟨0, 0, 0, true, false⟩ 0
      = some (⟨numVal dE, numVal dL, numVal dR, false, false⟩,
          (dE ++ [32] ++ dL ++ [32] ++ dR).length) := by
  have hne : ∀ c ∈ dE ++ [32] ++ dL ++ [32] ++ dR, c ≠ 10 := by
    intro c hc
    simp only [List.mem_append, List.mem_singleton] at hc
    rcases hc with (((hc | hc) | hc) | hc) | hc
    · exact digits_ne_newline dE hE c hc
    · omega
    · exact digits_ne_newline dL hL c hc
    · omega
    · exact digits_ne_newline dR hR c hc
  rw [List.append_assoc (dE ++ [32] ++ dL ++ [32] ++ dR) [10] rest,
    headerLoop_append _ _ _ 0 hne (by omega)]
  have hfold : (dE ++ [32] ++ dL ++ [32] ++ dR).foldl headerStep ⟨0, 0, 0, true, false⟩
      = ⟨numVal dE, numVal dL, numVal dR, false, false⟩ := by
    rw [List.foldl_append, List.foldl_append, List.foldl_append, List.foldl_append,
      header_digits_nE dE _ hE rfl]
    simp only [List.foldl_cons, List.foldl_nil]
    rw [fold_u32_digits dE 0 hE hvE]
    have s1 : headerStep ⟨numAcc 0 dE, 0, 0, true, false⟩ 32
        = ⟨numAcc 0 dE, 0, 0, false, true⟩ := rfl
    rw [s1, header_digits_vL dL _ hL rfl rfl]
    simp only
    rw [fold_u32_digits dL 0 hL hvL]
    have s2 : headerStep ⟨numAcc 0 dE, numAcc 0 dL, 0, false, true⟩ 32
        = ⟨numAcc 0 dE, numAcc 0 dL, 0, false, false⟩ := rfl
    rw [s2, header_digits_vR dR _ hR rfl rfl]
    simp only
    rw [fold_u32_digits dR 0 hR hvR]
    rfl
  rw [hfold, Nat.zero_add]
  rw [List.singleton_append, headerLoop, if_pos rfl]

theorem body_digits_left (vLeft : Nat) (ds : List Nat) : ∀ (st : BodyState) (rest : List Nat),
    IsDigits ds → st.left = true →
    bodyLoop vLeft (ds ++ rest) st
      = bodyLoop vLeft rest { st with u := ds.foldl (fun x c => u32 (x * 10 + c - 48)) st.u } := by
  induction ds with
  | nil => intro st rest _ _; rfl
  | cons c ds ih =>
    intro st rest hd hl
    have hc := hd c (List.mem_cons_self _ _)
    have hrest : IsDigits ds := fun y hy => hd y (List.mem_cons_of_mem _ hy)
    have hstep : bodyStep vLeft st c = some { st with u := u32 (st.u * 10 + c - 48) } := by
      unfold bodyStep; rw [if_pos hc, if_pos hl]
    rw [List.cons_append, bodyLoop, hstep]
    exact ih _ rest hrest hl

theorem body_digits_right (vLeft : Nat) (ds : List Nat) : ∀ (st : BodyState) (rest : List Nat),
    IsDigits ds → st.left = false →
    bodyLoop vLeft (ds ++ rest) st
      = bodyLoop vLeft rest { st with v := ds.foldl (fun x c => u32 (x * 10 + c - 48)) st.v } := by
  induction ds with
  | nil => intro st rest _ _; rfl
  | cons c ds ih =>
    intro st rest hd hl
    have hc := hd c (List.mem_cons_self _ _)
    have hrest : IsDigits ds := fun y hy => hd y (List.mem_cons_of_mem _ hy)
    have hstep : bodyStep vLeft st c = some { st with v := u32 (st.v * 10 + c - 48) } := by
      unfold bodyStep; rw [if_pos hc, if_neg (by rw [hl]; simp)]
    rw [List.cons_append, bodyLoop, hstep]
    exact ih _ rest hrest hl

theorem addEdge_length (vLeft : Nat) (G : Graph) (e : List Nat × List Nat) :
    (addEdge vLeft G e).length = G.length := by
  unfold addEdge
  rw [List.length_set, List.length_set]

/-- The loop over the edge lines on one edge line with ids in range. -/
theorem body_edgeLine (vLeft : Nat) (G : Graph) (e : List Nat × List Nat) (rest : List Nat)
    (h1 : IsDigits e.1) (h2 : IsDigits e.2) (hu : numVal e.1 < G.length)
    (hv : numVal e.2 + vLeft < G.length) (hG : G.length < 4294967296) :
    bodyLoop vLeft (edgeLine e ++ rest) ⟨G, 0, 0, true⟩
      = bodyLoop vLeft rest ⟨addEdge vLeft G e, 0, 0, true⟩ := by
  unfold edgeLine
  rw [List.append_assoc, List.append_assoc, List.append_assoc,
    body_digits_left vLeft e.1 _ _ h1 rfl]
  simp only
  rw [fold_u32_digits e.1 0 h1 (by unfold numVal at hu; omega)]
  rw [List.singleton_append, bodyLoop]
  have s1 : bodyStep vLeft ⟨G, numAcc 0 e.1, 0, true⟩ 32 = some ⟨G, numAcc 0 e.1, 0, false⟩ := rfl
  rw [s1]
  simp only
  rw [body_digits_right vLeft e.2 _ _ h2 rfl]
  simp only
  rw [fold_u32_digits e.2 0 h2 (by unfold numVal at hv; omega)]
  rw [List.singleton_append, bodyLoop]
  have hu32 : u32 (numAcc 0 e.2 + vLeft) = numVal e.2 + vLeft := by
    unfold numVal u32
    unfold numVal at hv
    exact Nat.mod_eq_of_lt (by omega)
  have s2 : bodyStep vLeft ⟨G, numAcc 0 e.1, numAcc 0 e.2, false⟩ 10
      = some ⟨addEdge vLeft G e, 0, 0, true⟩ := by
    unfold bodyStep
    have hd : isDigit 10 = false := rfl
    simp only [hd, Bool.false_eq_true, if_false, Bool.not_false, if_true, hu32]
    have e0 : numAcc 0 e.1 = numVal e.1 := rfl
    rw [e0]
    have p1 : pushAt G (numVal e.1) (numVal e.2 + vLeft)
        = some (G.set (numVal e.1) (G.getD (numVal e.1) [] ++ [numVal e.2 + vLeft])) := by
      unfold pushAt; rw [if_pos hu]
    rw [p1]
    simp only
    have p2 : pushAt (G.set (numVal e.1) (G.getD (numVal e.1) [] ++ [numVal e.2 + vLeft]))
        (numVal e.2 + vLeft) (numVal e.1) = some (addEdge vLeft G e) := by
      unfold pushAt addEdge
      rw [if_pos (by rw [List.length_set]; exact hv)]
    rw [p2]
    simp only [show (10 : Nat) = 32 ↔ False by decide, if_false]
  rw [s2]

/-- The loop over the edge lines on a file body made of edge lines with ids in range. -/
theorem body_lines (vLeft : Nat) (es : List (List Nat × List Nat)) : ∀ (G : Graph),
    (∀ e ∈ es, IsDigits e.1 ∧ IsDigits e.2 ∧ numVal e.1 < G.length ∧
      numVal e.2 + vLeft < G.length) → G.length < 4294967296 →
    bodyLoop vLeft (es.flatMap edgeLine) ⟨G, 0, 0, true⟩
      = some ⟨es.foldl (addEdge vLeft) G, 0, 0, true⟩ := by
  induction es with
  | nil => intro G _ _; rfl
  | cons e es ih =>
    intro G hes hG
    have he := hes e (List.mem_cons_self _ _)
    rw [List.flatMap_cons, body_edgeLine vLeft G e _ he.1 he.2.1 he.2.2.1 he.2.2.2 hG,
      List.foldl_cons]
    apply ih
    · intro e2 h2
      have := hes e2 (List.mem_cons_of_mem _ h2)
      rw [addEdge_length]
      exact this
    · rw [addEdge_length]; exact hG

theorem foldl_addEdge_length (vLeft : Nat) (es : List (List Nat × List Nat)) : ∀ (G : Graph),
    (es.foldl (addEdge vLeft) G).length = G.length := by
  induction es with
  | nil => intro G; rfl
  | cons e es ih => intro G; rw [List.foldl_cons, ih, addEdge_length]

theorem mem_addEdge (vLeft : Nat) (G : Graph) (e : List Nat × List Nat)
    (hu : numVal e.1 < G.length) (hv : numVal e.2 + vLeft < G.length) (w x : Nat) :
    x ∈ nbrs (addEdge vLeft G e) w ↔
      x ∈ nbrs G w ∨ (w = numVal e.1 ∧ x = numVal e.2 + vLeft) ∨
        (w = numVal e.2 + vLeft ∧ x = numVal e.1) := by
  unfold addEdge nbrs
  rw [getD_set_eq, List.length_set]
  by_cases h1 : numVal e.2 + vLeft = w
  · rw [if_pos ⟨h1, hv⟩, List.mem_append, List.mem_singleton, getD_set_eq, h1]
    by_cases h2 : numVal e.1 = w
    · rw [if_pos ⟨h2, hu⟩, List.mem_append, List.mem_singleton, h2]
      constructor
      · rintro ((h | h) | h)
        · exact Or.inl h
        · exact Or.inr (Or.inl ⟨rfl, h⟩)
        · exact Or.inr (Or.inr ⟨rfl, h⟩)
      · rintro (h | ⟨_, h⟩ | ⟨_, h⟩)
        · exact Or.inl (Or.inl h)
        · exact Or.inl (Or.inr h)
        · exact Or.inr h
    · rw [if_neg (fun hh => h2 hh.1)]
      constructor
      · rintro (h | h)
        · exact Or.inl h
        · exact Or.inr (Or.inr ⟨rfl, h⟩)
      · rintro (h | ⟨h, _⟩ | ⟨_, h⟩)
        · exact Or.inl h
        · exact absurd h.symm h2
        · exact Or.inr h
  · rw [if_neg (fun hh => h1 hh.1), getD_set_eq]
    by_cases h2 : numVal e.1 = w
    · rw [if_pos ⟨h2, hu⟩, List.mem_append, List.mem_singleton, h2]
      constructor
      · rintro (h | h)
        · exact Or.inl h
        · exact Or.inr (Or.inl ⟨rfl, h⟩)
      · rintro (h | ⟨_, h⟩ | ⟨h, _⟩)
        · exact Or.inl h
        · exact Or.inr h
        · exact absurd h.symm h1
    · rw [if_neg (fun hh => h2 hh.1)]
      constructor
      · intro h; exact Or.inl h
      · rintro (h | ⟨h, _⟩ | ⟨h, _⟩)
        · exact h
        · exact absurd h.symm h2
        · exact absurd h.symm h1

theorem mem_foldl_addEdge (vLeft : Nat) (es : List (List Nat × List Nat)) : ∀ (G : Graph),
    (∀ e ∈ es, numVal e.1 < G.length ∧ numVal e.2 + vLeft < G.length) → ∀ w x,
    (x ∈ nbrs (es.foldl (addEdge vLeft) G) w ↔
      x ∈ nbrs G w ∨ ∃ e ∈ es, (w = numVal e.1 ∧ x = numVal e.2 + vLeft) ∨
        (w = numVal e.2 + vLeft ∧ x = numVal e.1)) := by
  induction es with
  | nil => intro G _ w x; simp
  | cons e es ih =>
    intro G hes w x
    have he := hes e (List.mem_cons_self _ _)
    rw [List.foldl_cons, ih (addEdge vLeft G e) (by
      intro e2 h2
      rw [addEdge_length]
      exact hes e2 (List.mem_cons_of_mem _ h2)) w x, mem_addEdge vLeft G e he.1 he.2]
    constructor
    · rintro ((h | h) | ⟨e2, h2, h⟩)
      · exact Or.inl h
      · exact Or.inr ⟨e, List.mem_cons_self _ _, h⟩
      · exact Or.inr ⟨e2, List.mem_cons_of_mem _ h2, h⟩
    · rintro (h | ⟨e2, h2, h⟩)
      · exact Or.inl (Or.inl h)
      · rcases List.mem_cons.mp h2 with rfl | h3
        · exact Or.inl (Or.inr h)
        · exact Or.inr ⟨e2, h3, h⟩

end Induced6

namespace Induced6

/-- The index 0 of `--newID[0]` is in bounds when the graph has a vertex. -/
theorem compute2CoreChecked_eq (G : Graph) (vL vR : Nat) (hg : SymmSimple G (vL + vR))
    (h0 : 0 < vL + vR) : Compute2CoreChecked G vL vR = some (Compute2Core G vL vR) := by
  obtain ⟨hb, -, -⟩ := coreLoop_spec hg
  unfold Compute2CoreChecked
  rw [if_pos (by rw [hb.len_id]; exact h0)]

theorem preProcessingChecked_eq (sort : Sorter) (G : Graph) (vL vR : Nat)
    (hg : SymmSimple G (vL + vR)) (h0 : 0 < vL + vR) :
    preProcessingChecked sort G vL vR = some (preProcessing sort G vL vR) := by
  unfold preProcessingChecked
  rw [obtain2CoreChecked_eq G vL vR hg h0]
  rfl

theorem preProcessingEChecked_eq (sort : Sorter) (G : Graph) (vL vR : Nat)
    (hg : SymmSimple G (vL + vR)) (h0 : 0 < vL + vR) :
    preProcessingEChecked sort G vL vR = some (preProcessingE sort G vL vR) := by
  unfold preProcessingEChecked
  rw [obtain2CoreChecked_eq G vL vR hg h0]
  rfl

theorem bip_empty : Bip [] 0 0 := ⟨by decide, by decide, by decide, by decide, by decide, by decide⟩

theorem symmSimple_empty : SymmSimple [] (0 + 0) := ⟨by decide, by decide, by decide, by decide⟩

theorem readGraph_no_vertex : readGraph (bytesOf "0 0 0" ++ [10]) = some ([], 0, 0, 0) := by decide

end Induced6

namespace Induced6
open Finset

namespace TJ

theorem tj_getCount_two (G : Graph) (E : Edges) : getCount G 2 E = 0 := rfl

end TJ

namespace NJ

theorem nj_getCount_two (G : Graph) (E : Edges) : getCount G 2 E = 0 := rfl

end NJ

namespace BTJ

end BTJ

end Induced6

namespace Induced6
open Finset

end Induced6

namespace Induced6
open Finset

theorem wideGraph_length (f : Nat) : (wideGraph f).length = 10 + f := by
  simp [wideGraph]

theorem nbrs_wideGraph (f u : Nat) (hu : u < 10 + f) : nbrs (wideGraph f) u = wideNbrs f u :=
  getD_map_range _ _ _ hu _

set_option maxHeartbeats 4000000 in
theorem mem_wideNbrs (f u x : Nat) :
    x ∈ wideNbrs f u ↔
      (u = 0 ∧ 4 ≤ x ∧ x < 10 + f ∧ (x < 4 + f ∨ 8 + f ≤ x)) ∨
      (u = 1 ∧ 4 ≤ x ∧ x < 6 + f) ∨
      (u = 2 ∧ 4 ≤ x ∧ x < 8 + f) ∨
      (u = 3 ∧ 4 ≤ x ∧ x < 10 + f ∧ (x < 4 + f ∨ 6 + f ≤ x)) ∨
      (4 ≤ u ∧ u < 4 + f ∧ x < 4) ∨
      (4 + f ≤ u ∧ u < 6 + f ∧ (x = 1 ∨ x = 2)) ∨
      (6 + f ≤ u ∧ u < 8 + f ∧ (x = 2 ∨ x = 3)) ∨
      (8 + f ≤ u ∧ (x = 0 ∨ x = 3)) := by
  unfold wideNbrs
  split_ifs with h0 h1 h2 h3 h4 h5 h6
  · simp only [List.mem_reverse, List.mem_filter, List.mem_range', decide_eq_true_eq]
    constructor
    · rintro ⟨⟨i, hi, rfl⟩, h⟩; left; omega
    · intro h
      refine ⟨⟨x - 4, ?_, ?_⟩, ?_⟩ <;> omega
  · simp only [List.mem_reverse, List.mem_filter, List.mem_range', decide_eq_true_eq]
    constructor
    · rintro ⟨⟨i, hi, rfl⟩, h⟩; right; left; omega
    · intro h
      refine ⟨⟨x - 4, ?_, ?_⟩, ?_⟩ <;> omega
  · simp only [List.mem_reverse, List.mem_filter, List.mem_range', decide_eq_true_eq]
    constructor
    · rintro ⟨⟨i, hi, rfl⟩, h⟩; right; right; left; omega
    · intro h
      refine ⟨⟨x - 4, ?_, ?_⟩, ?_⟩ <;> omega
  · simp only [List.mem_reverse, List.mem_filter, List.mem_range', decide_eq_true_eq]
    constructor
    · rintro ⟨⟨i, hi, rfl⟩, h⟩; right; right; right; left; omega
    · intro h
      refine ⟨⟨x - 4, ?_, ?_⟩, ?_⟩ <;> omega
  · simp only [List.mem_cons, List.mem_singleton, List.not_mem_nil, or_false]; omega
  · simp only [List.mem_cons, List.mem_singleton, List.not_mem_nil, or_false]; omega
  · simp only [List.mem_cons, List.mem_singleton, List.not_mem_nil, or_false]; omega
  · simp only [List.mem_cons, List.mem_singleton, List.not_mem_nil, or_false]; omega

theorem wideNbrs_sorted (f u : Nat) : (wideNbrs f u).Sorted (fun x y => x > y) := by
  unfold wideNbrs
  split_ifs
  · exact sorted_range_filter_reverse _ _ _
  · exact sorted_range_filter_reverse _ _ _
  · exact sorted_range_filter_reverse _ _ _
  · exact sorted_range_filter_reverse _ _ _
  · simp [List.Sorted]
  · simp [List.Sorted]
  · simp [List.Sorted]
  · simp [List.Sorted]

set_option maxHeartbeats 4000000 in
theorem wideGraph_preprocessed (f : Nat) (hf : 10 + f < 4294967296) :
    Preprocessed (wideGraph f) 4 where
  vLeft_le := by rw [wideGraph_length]; omega
  size_lt := by rw [wideGraph_length]; exact hf
  left_nbrs := by
    intro a ha x hx
    rw [nbrs_wideGraph f a (by omega), mem_wideNbrs] at hx
    rw [wideGraph_length]; omega
  right_nbrs := by
    intro x hx h3 a ha
    rw [wideGraph_length] at hx
    rw [nbrs_wideGraph f x hx, mem_wideNbrs] at ha
    omega
  symm := by
    intro u hu v hv
    rw [wideGraph_length] at hu
    rw [nbrs_wideGraph f u hu, mem_wideNbrs] at hv
    rw [nbrs_wideGraph f v (by omega), mem_wideNbrs]
    omega
  desc := by
    intro u hu
    rw [wideGraph_length] at hu
    rw [nbrs_wideGraph f u hu]
    exact wideNbrs_sorted f u

theorem wideE_edgeIndex (f : Nat) : EdgeIndex (wideGraph f) 4 (wideE f) := by
  intro a ha
  have h1 : (wideE f).getD a [] = wideNbrs f a := getD_map_range _ _ _ ha _
  rw [h1, nbrs_wideGraph f a (by omega)]
  exact ⟨fun x hx => hx, fun x hx => hx⟩

theorem wideNbrs_zero (f : Nat) : wideNbrs f 0
    = ((List.range' 4 (f + 6)).filter (fun x => decide (x < 4 + f ∨ 8 + f ≤ x))).reverse := rfl

theorem wideNbrs_one (f : Nat) : wideNbrs f 1
    = ((List.range' 4 (f + 6)).filter (fun x => decide (x < 6 + f))).reverse := rfl

theorem wideNbrs_two (f : Nat) : wideNbrs f 2
    = ((List.range' 4 (f + 6)).filter (fun x => decide (x < 8 + f))).reverse := rfl

theorem wideNbrs_full (f v : Nat) (h1 : 4 ≤ v) (h2 : v < 4 + f) :
    wideNbrs f v = [3, 2, 1, 0] := by
  unfold wideNbrs
  rw [if_neg (by omega), if_neg (by omega), if_neg (by omega), if_neg (by omega), if_pos h2]

theorem wideNbrs_mid (f v : Nat) (h1 : 4 + f ≤ v) (h2 : v < 6 + f) :
    wideNbrs f v = [2, 1] := by
  unfold wideNbrs
  rw [if_neg (by omega), if_neg (by omega), if_neg (by omega), if_neg (by omega),
    if_neg (by omega), if_pos h2]

theorem wideNbrs_high (f v : Nat) (h1 : 6 + f ≤ v) (h2 : v < 8 + f) :
    wideNbrs f v = [3, 2] := by
  unfold wideNbrs
  rw [if_neg (by omega), if_neg (by omega), if_neg (by omega), if_neg (by omega),
    if_neg (by omega), if_neg (by omega), if_pos h2]

theorem wideNbrs_ends (f v : Nat) (h1 : 8 + f ≤ v) :
    wideNbrs f v = [3, 0] := by
  unfold wideNbrs
  rw [if_neg (by omega), if_neg (by omega), if_neg (by omega), if_neg (by omega),
    if_neg (by omega), if_neg (by omega), if_neg (by omega)]

/-- The sum of `g` over the entries of a block that pass the filter, when the filter and `g`
are constant on the block. -/
theorem sum_filter_block (l : List Nat) (p : Nat → Bool) (g : Nat → Nat) (b : Bool) (c : Nat)
    (h : ∀ x ∈ l, p x = b ∧ (b = true → g x = c)) :
    ((l.filter p).map g).sum = if b = true then l.length * c else 0 := by
  induction l with
  | nil => simp
  | cons x xs ih =>
    have hx := h x (List.mem_cons_self _ _)
    have ih2 := ih (fun y hy => h y (List.mem_cons_of_mem _ hy))
    cases b with
    | true =>
      simp only [if_true] at ih2 ⊢
      rw [List.filter_cons_of_pos hx.1, List.map_cons, List.sum_cons, ih2, hx.2 rfl,
        List.length_cons, Nat.succ_mul, Nat.add_comm]
    | false =>
      simp only [Bool.false_eq_true, if_false] at ih2 ⊢
      rw [List.filter_cons_of_neg (by rw [hx.1]; simp), ih2]

theorem wide_blocks (f : Nat) : List.range' 4 (f + 6)
    = List.range' 4 f ++ (List.range' (4 + f) 2 ++ (List.range' (6 + f) 2
      ++ List.range' (8 + f) 2)) := by
  have e1 : List.range' (6 + f) 2 ++ List.range' (8 + f) 2 = List.range' (6 + f) 4 := by
    have := List.range'_append (6 + f) 2 2 1
    rw [Nat.one_mul, show 6 + f + 2 = 8 + f by omega] at this
    exact this
  have e2 : List.range' (4 + f) 2 ++ List.range' (6 + f) 4 = List.range' (4 + f) 6 := by
    have := List.range'_append (4 + f) 2 4 1
    rw [Nat.one_mul, show 4 + f + 2 = 6 + f by omega] at this
    exact this
  have e3 : List.range' 4 f ++ List.range' (4 + f) 6 = List.range' 4 (f + 6) := by
    have := List.range'_append 4 f 6 1
    rw [Nat.one_mul, Nat.add_comm 6 f] at this
    exact this
  rw [e1, e2, e3]

/-- The sum of `g` over an adjacency list of a left vertex of `wideGraph f`, block by
block. -/
theorem wide_sum (f : Nat) (p : Nat → Bool) (g : Nat → Nat) (b1 b2 b3 b4 : Bool)
    (c1 c2 c3 c4 : Nat)
    (h1 : ∀ x, 4 ≤ x → x < 4 + f → p x = b1 ∧ (b1 = true → g x = c1))
    (h2 : ∀ x, 4 + f ≤ x → x < 6 + f → p x = b2 ∧ (b2 = true → g x = c2))
    (h3 : ∀ x, 6 + f ≤ x → x < 8 + f → p x = b3 ∧ (b3 = true → g x = c3))
    (h4 : ∀ x, 8 + f ≤ x → x < 10 + f → p x = b4 ∧ (b4 = true → g x = c4)) :
    ((((List.range' 4 (f + 6)).filter p).reverse).map g).sum
      = (if b1 = true then f * c1 else 0) + ((if b2 = true then 2 * c2 else 0)
        + ((if b3 = true then 2 * c3 else 0) + (if b4 = true then 2 * c4 else 0))) := by
  have s1 := sum_filter_block (List.range' 4 f) p g b1 c1 (fun x hx => by
    rw [List.mem_range'_1] at hx; exact h1 x (by omega) (by omega))
  have s2 := sum_filter_block (List.range' (4 + f) 2) p g b2 c2 (fun x hx => by
    rw [List.mem_range'_1] at hx; exact h2 x (by omega) (by omega))
  have s3 := sum_filter_block (List.range' (6 + f) 2) p g b3 c3 (fun x hx => by
    rw [List.mem_range'_1] at hx; exact h3 x (by omega) (by omega))
  have s4 := sum_filter_block (List.range' (8 + f) 2) p g b4 c4 (fun x hx => by
    rw [List.mem_range'_1] at hx; exact h4 x (by omega) (by omega))
  rw [List.length_range'] at s1 s2 s3 s4
  rw [List.map_reverse, List.sum_reverse, wide_blocks, List.filter_append, List.filter_append,
    List.filter_append, List.map_append, List.map_append, List.map_append, List.sum_append,
    List.sum_append, List.sum_append, s1, s2, s3, s4]

namespace WJ

theorem wedgeList_length (G : Graph) (u : Nat) : (wedgeList G u).length
    = ((nbrs G u).map
        (fun v => ((nbrs G v).filter (fun u2 => decide (u2 > u))).length)).sum := by
  unfold wedgeList
  rw [List.length_flatMap]
  simp only [Function.comp_def, List.length_map]

theorem wide_wedges0 (f : Nat) : (wedgeList (wideGraph f) 0).length = 3 * f + 2 := by
  rw [wedgeList_length, nbrs_wideGraph f 0 (by omega), wideNbrs_zero,
    wide_sum f _ _ true false false true 3 0 0 1]
  · simp only [if_true, Bool.false_eq_true, if_false]; omega
  · intro x h1 h2
    refine ⟨decide_eq_true (by omega), fun _ => ?_⟩
    rw [nbrs_wideGraph f x (by omega), wideNbrs_full f x h1 h2]; rfl
  · intro x h1 h2
    exact ⟨decide_eq_false (by omega), fun h => absurd h (by simp)⟩
  · intro x h1 h2
    exact ⟨decide_eq_false (by omega), fun h => absurd h (by simp)⟩
  · intro x h1 h2
    refine ⟨decide_eq_true (by omega), fun _ => ?_⟩
    rw [nbrs_wideGraph f x (by omega), wideNbrs_ends f x h1]; rfl

theorem wide_wedges1 (f : Nat) : (wedgeList (wideGraph f) 1).length = 2 * f + 2 := by
  rw [wedgeList_length, nbrs_wideGraph f 1 (by omega), wideNbrs_one,
    wide_sum f _ _ true true false false 2 1 0 0]
  · simp only [if_true, Bool.false_eq_true, if_false]; omega
  · intro x h1 h2
    refine ⟨decide_eq_true (by omega), fun _ => ?_⟩
    rw [nbrs_wideGraph f x (by omega), wideNbrs_full f x h1 h2]; rfl
  · intro x h1 h2
    refine ⟨decide_eq_true (by omega), fun _ => ?_⟩
    rw [nbrs_wideGraph f x (by omega), wideNbrs_mid f x h1 h2]; rfl
  · intro x h1 h2
    exact ⟨decide_eq_false (by omega), fun h => absurd h (by simp)⟩
  · intro x h1 h2
    exact ⟨decide_eq_false (by omega), fun h => absurd h (by simp)⟩

theorem wide_wedges2 (f : Nat) : (wedgeList (wideGraph f) 2).length = f + 2 := by
  rw [wedgeList_length, nbrs_wideGraph f 2 (by omega), wideNbrs_two,
    wide_sum f _ _ true true true false 1 0 1 0]
  · simp only [if_true, Bool.false_eq_true, if_false]; omega
  · intro x h1 h2
    refine ⟨decide_eq_true (by omega), fun _ => ?_⟩
    rw [nbrs_wideGraph f x (by omega), wideNbrs_full f x h1 h2]; rfl
  · intro x h1 h2
    refine ⟨decide_eq_true (by omega), fun _ => ?_⟩
    rw [nbrs_wideGraph f x (by omega), wideNbrs_mid f x h1 h2]; rfl
  · intro x h1 h2
    refine ⟨decide_eq_true (by omega), fun _ => ?_⟩
    rw [nbrs_wideGraph f x (by omega), wideNbrs_high f x h1 h2]; rfl
  · intro x h1 h2
    exact ⟨decide_eq_false (by omega), fun h => absurd h (by simp)⟩

theorem wide_below (f : Nat) :
    wedgesBelow (wideGraph f) 0 = 0 ∧ wedgesBelow (wideGraph f) 1 = 3 * f + 2 ∧
      wedgesBelow (wideGraph f) 2 = 5 * f + 4 ∧ wedgesBelow (wideGraph f) 3 = 6 * f + 6 := by
  have e0 : wedgesBelow (wideGraph f) 0 = 0 := rfl
  have e1 : wedgesBelow (wideGraph f) 1 = wedgesBelow (wideGraph f) 0 + _ :=
    wedgesBelow_succ (wideGraph f) 0
  have e2 : wedgesBelow (wideGraph f) 2 = wedgesBelow (wideGraph f) 1 + _ :=
    wedgesBelow_succ (wideGraph f) 1
  have e3 : wedgesBelow (wideGraph f) 3 = wedgesBelow (wideGraph f) 2 + _ :=
    wedgesBelow_succ (wideGraph f) 2
  rw [wide_wedges0] at e1
  rw [wide_wedges1] at e2
  rw [wide_wedges2] at e3
  refine ⟨e0, ?_, ?_, ?_⟩ <;> omega

end WJ

namespace WJ

/-- The first read of the search loop. -/
theorem getmReads_head (W : List Wedge) (u fuel l r : Nat) (h : l ≤ r) :
    ∃ rest, getmReads W u (fuel + 1) l r = (u32 (l + r) / 2) :: rest := by
  rw [getmReads]
  simp only [if_pos h]
  split_ifs
  · exact ⟨_, rfl⟩
  · exact ⟨_, rfl⟩
  · exact ⟨_, rfl⟩

/-- The state of strategy D after its construction phase when the scan runs as one block,
on a preprocessed graph whose wedges can be counted in 64 bits. -/
theorem materialization (G : Graph) (vLeft : Nat) (h : Preprocessed G vLeft)
    (h2 : 2 ≤ vLeft) (hw : wedgesBelow G vLeft < 18446744073709551616) :
    (buildPartitions [] G vLeft).length = vLeft ∧
    (buildPartitions [] G vLeft).getD 0 0 = 0 ∧
    (∀ u, u < vLeft → (buildPartitions [] G vLeft).getD u 0
      = (buildWedges G vLeft (buildPartitions [] G vLeft)).countP
          (fun t => decide (t.1 < u))) ∧
    (buildWedges G vLeft (buildPartitions [] G vLeft)).length
      = (buildPartitions [] G vLeft).getD (vLeft - 1) 0 ∧
    (∀ t : Wedge, t ∈ buildWedges G vLeft (buildPartitions [] G vLeft) ↔
      t.1 < t.2.1 ∧ t.2.1 < vLeft ∧ t.2.2 ∈ nbrs G t.1 ∧ t.2.2 ∈ nbrs G t.2.1) ∧
    (buildWedges G vLeft (buildPartitions [] G vLeft)).Nodup ∧
    (∀ i, i < (buildWedges G vLeft (buildPartitions [] G vLeft)).length →
      ∀ u1, u1 + 1 < vLeft →
        ((wedgeAt (buildWedges G vLeft (buildPartitions [] G vLeft)) i).1 = u1 ↔
          (buildPartitions [] G vLeft).getD u1 0 ≤ i ∧
            i < (buildPartitions [] G vLeft).getD (u1 + 1) 0)) ∧
    (∀ u1, u1 + 1 < vLeft → ∀ i j, (buildPartitions [] G vLeft).getD u1 0 ≤ i → i ≤ j →
      j < (buildPartitions [] G vLeft).getD (u1 + 1) 0 →
      (wedgeAt (buildWedges G vLeft (buildPartitions [] G vLeft)) i).2.1
        ≤ (wedgeAt (buildWedges G vLeft (buildPartitions [] G vLeft)) j).2.1) := by
  have hv32 : vLeft < 4294967296 := Nat.lt_of_le_of_lt h.vLeft_le h.size_lt
  have hp : ∀ u, u < vLeft → (buildPartitions [] G vLeft).getD u 0 = wedgesBelow G u :=
    fun u hu => buildPartitions_getD G vLeft u hv32 hu hw
  have hW := buildWedges_eq G h.sorted_all vLeft (by omega) hv32 _ hp
  rw [hW]
  have hlen := length_flatMap_sortedWedges G (vLeft - 1)
  refine ⟨buildPartitions_length G vLeft (by omega) hv32, ?_, ?_, ?_, ?_, ?_, ?_, ?_⟩
  · rw [hp 0 (by omega)]; rfl
  · intro u hu
    rw [hp u hu, countP_below, Nat.min_eq_left (by omega)]
  · rw [hlen, hp _ (by omega)]
  · intro t
    rw [List.mem_flatMap]
    constructor
    · rintro ⟨u1, hu1, ht⟩
      rw [List.mem_range] at hu1
      have hm := mem_sortedWedges h u1 (by omega) t ht
      rw [hm.1]
      exact ⟨hm.2.2.2.1, hm.2.2.2.2, hm.2.1, h.symm_all _ _ hm.2.2.1⟩
    · rintro ⟨h1, h3, h4, h5⟩
      refine ⟨t.1, List.mem_range.mpr (by omega), ?_⟩
      rw [(sortedWedges_perm G t.1).mem_iff, mem_wedgeList]
      exact ⟨rfl, h4, h.symm_all _ _ h5, h1⟩
  · exact flatMap_sortedWedges_nodup G h.nodup _
  · intro i hi u1 hu1
    rw [hlen] at hi
    obtain ⟨u, hu, hlo, hhi⟩ := locate_partition G (vLeft - 1) i hi
    have hmem := wedgeAt_partition G (vLeft - 1) u i hu hlo hhi
    rw [sortedWedges_fst G u _ hmem, hp u1 (by omega), hp (u1 + 1) hu1]
    constructor
    · intro e; rw [← e]; exact ⟨hlo, hhi⟩
    · rintro ⟨g1, g2⟩
      by_contra hne
      rcases Nat.lt_or_gt_of_ne hne with hlt | hgt
      · have := wedgesBelow_mono G (show u + 1 ≤ u1 by omega)
        omega
      · have := wedgesBelow_mono G (show u1 + 1 ≤ u by omega)
        omega
  · intro u1 hu1 i j hi hij hj
    rw [hp u1 (by omega)] at hi
    rw [hp (u1 + 1) hu1, wedgesBelow_succ, ← length_sortedWedges] at hj
    obtain ⟨A, B, hAB, hA⟩ := slice_at G vLeft u1 hu1
    rw [hAB]
    exact sorted_index A (sortedWedges G u1) B (sortedWedges_sorted G u1) i j (by omega) hij
      (by omega)

end WJ

theorem wideNbrs_three (f : Nat) : wideNbrs f 3
    = ((List.range' 4 (f + 6)).filter (fun x => decide (x < 4 + f ∨ 6 + f ≤ x))).reverse := rfl

/-- The two-path counts of the left vertices of `wideGraph f` ascend with the id. -/
theorem wide_twoPath (f : Nat) :
    (List.range 4).map (twoPath (wideGraph f)) = [3 * f + 2, 3 * f + 2, 3 * f + 4, 3 * f + 4] := by
  have t0 : twoPath (wideGraph f) 0 = 3 * f + 2 := by
    unfold twoPath
    rw [nbrs_wideGraph f 0 (by omega), wideNbrs_zero,
      wide_sum f _ _ true false false true 3 0 0 1]
    · simp only [if_true, Bool.false_eq_true, if_false]; omega
    · intro x h1 h2
      refine ⟨decide_eq_true (by omega), fun _ => ?_⟩
      rw [nbrs_wideGraph f x (by omega), wideNbrs_full f x h1 h2]; rfl
    · intro x h1 h2
      exact ⟨decide_eq_false (by omega), fun h => absurd h (by simp)⟩
    · intro x h1 h2
      exact ⟨decide_eq_false (by omega), fun h => absurd h (by simp)⟩
    · intro x h1 h2
      refine ⟨decide_eq_true (by omega), fun _ => ?_⟩
      rw [nbrs_wideGraph f x (by omega), wideNbrs_ends f x h1]; rfl
  have t1 : twoPath (wideGraph f) 1 = 3 * f + 2 := by
    unfold twoPath
    rw [nbrs_wideGraph f 1 (by omega), wideNbrs_one,
      wide_sum f _ _ true true false false 3 1 0 0]
    · simp only [if_true, Bool.false_eq_true, if_false]; omega
    · intro x h1 h2
      refine ⟨decide_eq_true (by omega), fun _ => ?_⟩
      rw [nbrs_wideGraph f x (by omega), wideNbrs_full f x h1 h2]; rfl
    · intro x h1 h2
      refine ⟨decide_eq_true (by omega), fun _ => ?_⟩
      rw [nbrs_wideGraph f x (by omega), wideNbrs_mid f x h1 h2]; rfl
    · intro x h1 h2
      exact ⟨decide_eq_false (by omega), fun h => absurd h (by simp)⟩
    · intro x h1 h2
      exact ⟨decide_eq_false (by omega), fun h => absurd h (by simp)⟩
  have t2 : twoPath (wideGraph f) 2 = 3 * f + 4 := by
    unfold twoPath
    rw [nbrs_wideGraph f 2 (by omega), wideNbrs_two,
      wide_sum f _ _ true true true false 3 1 1 0]
    · simp only [if_true, Bool.false_eq_true, if_false]; omega
    · intro x h1 h2
      refine ⟨decide_eq_true (by omega), fun _ => ?_⟩
      rw [nbrs_wideGraph f x (by omega), wideNbrs_full f x h1 h2]; rfl
    · intro x h1 h2
      refine ⟨decide_eq_true (by omega), fun _ => ?_⟩
      rw [nbrs_wideGraph f x (by omega), wideNbrs_mid f x h1 h2]; rfl
    · intro x h1 h2
      refine ⟨decide_eq_true (by omega), fun _ => ?_⟩
      rw [nbrs_wideGraph f x (by omega), wideNbrs_high f x h1 h2]; rfl
    · intro x h1 h2
      exact ⟨decide_eq_false (by omega), fun h => absurd h (by simp)⟩
  have t3 : twoPath (wideGraph f) 3 = 3 * f + 4 := by
    unfold twoPath
    rw [nbrs_wideGraph f 3 (by omega), wideNbrs_three,
      wide_sum f _ _ true false true true 3 0 1 1]
    · simp only [if_true, Bool.false_eq_true, if_false]; omega
    · intro x h1 h2
      refine ⟨decide_eq_true (by omega), fun _ => ?_⟩
      rw [nbrs_wideGraph f x (by omega), wideNbrs_full f x h1 h2]; rfl
    · intro x h1 h2
      exact ⟨decide_eq_false (by omega), fun h => absurd h (by simp)⟩
    · intro x h1 h2
      refine ⟨decide_eq_true (by omega), fun _ => ?_⟩
      rw [nbrs_wideGraph f x (by omega), wideNbrs_high f x h1 h2]; rfl
    · intro x h1 h2
      refine ⟨decide_eq_true (by omega), fun _ => ?_⟩
      rw [nbrs_wideGraph f x (by omega), wideNbrs_ends f x h1]; rfl
  simp only [List.range_succ, List.range_zero, List.nil_append, List.cons_append,
    List.map_cons, List.map_nil, t0, t1, t2, t3]

/-- Every vertex of `wideGraph f` has at least 2 neighbours. -/
theorem wide_mindeg (f : Nat) (hf : 1 ≤ f) (k : Nat) (hk : k < 10 + f) :
    2 ≤ (nbrs (wideGraph f) k).length := by
  rw [nbrs_wideGraph f k hk]
  have two : ∀ (l : List Nat) (a b : Nat), a ∈ l → b ∈ l → a ≠ b → 2 ≤ l.length := by
    intro l a b ha hb hab
    match l, ha, hb with
    | [x], ha, hb =>
      simp only [List.mem_singleton] at ha hb
      omega
    | _ :: _ :: _, _, _ => simp
  by_cases h4 : 4 ≤ k
  · by_cases h5 : k < 4 + f
    · rw [wideNbrs_full f k h4 h5]; decide
    · by_cases h6 : k < 6 + f
      · rw [wideNbrs_mid f k (by omega) h6]; decide
      · by_cases h7 : k < 8 + f
        · rw [wideNbrs_high f k (by omega) h7]; decide
        · rw [wideNbrs_ends f k (by omega)]; decide
  · have hk4 : k = 0 ∨ k = 1 ∨ k = 2 ∨ k = 3 := by omega
    rcases hk4 with e | e | e | e <;> subst e
    · exact two _ 4 (8 + f) ((mem_wideNbrs f 0 _).2 (by omega))
        ((mem_wideNbrs f 0 _).2 (by omega)) (by omega)
    · exact two _ 4 (4 + f) ((mem_wideNbrs f 1 _).2 (by omega))
        ((mem_wideNbrs f 1 _).2 (by omega)) (by omega)
    · exact two _ 4 (4 + f) ((mem_wideNbrs f 2 _).2 (by omega))
        ((mem_wideNbrs f 2 _).2 (by omega)) (by omega)
    · exact two _ 4 (8 + f) ((mem_wideNbrs f 3 _).2 (by omega))
        ((mem_wideNbrs f 3 _).2 (by omega)) (by omega)

end Induced6

namespace Induced6
open Finset

/-- C1. Strategy C (`TJ.getCount`): on every preprocessed simple symmetric bipartite graph
with at least 3 left vertices and an edge index that holds the neighbours of every left
vertex, the result is the number of induced 6-cycles (exhaustive enumeration of the sets of
3 left and 3 right vertices), as long as that number is below `2^64`. -/
theorem C1_TJ_getCount_correct (G : Graph) (vLeft : Nat) (E : Edges)
    (h : Preprocessed G vLeft) (hE : EdgeIndex G vLeft E) (h3 : 3 ≤ vLeft)
    (hlt : countInduced6 G vLeft < 18446744073709551616) :
    TJ.getCount G vLeft E = countInduced6 G vLeft := by
  rw [TJ.tj_getCount_mod h hE (by omega), ← countInduced6_eq_tripleSum, u64_of_lt hlt]

theorem C1_TJ_getCount_correct_witness :
    Preprocessed hexagonPre 3 ∧ EdgeIndex hexagonPre 3 hexagonE ∧
      TJ.getCount hexagonPre 3 hexagonE = countInduced6 hexagonPre 3 ∧
      countInduced6 hexagonPre 3 = 1 :=
  have hp : Preprocessed hexagonPre 3 :=
    ⟨by decide, by decide, by decide, by decide, by decide, by decide⟩
  have hE : EdgeIndex hexagonPre 3 hexagonE := by unfold EdgeIndex; decide
  ⟨hp, hE, C1_TJ_getCount_correct hexagonPre 3 hexagonE hp hE (by decide) (by decide),
    by decide⟩


theorem insertionSorter_valid : Sorter.Valid insertionSorter := by
  intro keys
  unfold insertionSorter IsSortOutcome
  constructor
  · exact List.perm_insertionSort _ _
  · have hs := @List.sorted_insertionSort Nat (fun i j => keys.getD i 0 ≤ keys.getD j 0) _
      ⟨fun a b => Nat.le_total _ _⟩ ⟨fun a b c hab hbc => Nat.le_trans hab hbc⟩
      (List.range keys.length)
    exact hs.imp (fun h => Nat.not_lt.mpr h)

theorem perm_three (idx : List Nat) (h : idx.Perm (List.range 3)) : idx ∈ sixOrders := by
  have hlen := h.length_eq
  have hnd : idx.Nodup := h.nodup_iff.mpr (List.nodup_range 3)
  have hmem : ∀ x ∈ idx, x < 3 := fun x hx => List.mem_range.mp (h.mem_iff.mp hx)
  match idx, hlen, hnd, hmem with
  | [a, b, c], _, hnd, hmem =>
    have ha := hmem a (by simp)
    have hb := hmem b (by simp)
    have hc := hmem c (by simp)
    simp only [List.nodup_cons, List.mem_cons, List.mem_singleton, not_or,
      List.not_mem_nil, not_false_eq_true, List.nodup_nil, and_true] at hnd
    obtain ⟨⟨hab, hac⟩, hbc⟩ := hnd
    unfold sixOrders
    interval_cases a <;> interval_cases b <;> interval_cases c <;> simp_all

/-- The preprocessing uses the sort routine once, on the two-path counts of the balanced
2-core. -/
theorem preProcessingE_congr (sort sort2 : Sorter) (G : Graph) (vLeft vRight : Nat)
    (h : sort (path2Cnts (balance (Obtain2Core G vLeft vRight)).1
        (balance (Obtain2Core G vLeft vRight)).2.1)
      = sort2 (path2Cnts (balance (Obtain2Core G vLeft vRight)).1
        (balance (Obtain2Core G vLeft vRight)).2.1)) :
    preProcessingE sort G vLeft vRight = preProcessingE sort2 G vLeft vRight := by
  unfold preProcessingE reorder buildE
  simp only [h]

theorem preProcessing_congr (sort sort2 : Sorter) (G : Graph) (vLeft vRight : Nat)
    (h : sort (path2Cnts (balance (Obtain2Core G vLeft vRight)).1
        (balance (Obtain2Core G vLeft vRight)).2.1)
      = sort2 (path2Cnts (balance (Obtain2Core G vLeft vRight)).1
        (balance (Obtain2Core G vLeft vRight)).2.1)) :
    preProcessing sort G vLeft vRight = preProcessing sort2 G vLeft vRight := by
  unfold preProcessing reorder
  simp only [h]

theorem hexagon_orders_TJ : ∀ idx ∈ sixOrders, TJ.main (fun _ => idx) hexagon 3 3 = 1 := by
  decide

theorem hexagon_orders_NJ : ∀ idx ∈ sixOrders, NJ.main (fun _ => idx) hexagon 3 3 = 1 := by
  decide

theorem hexagon_orders_WJ :
    ∀ idx ∈ sixOrders, ∀ cuts, WJ.main (fun _ => idx) cuts hexagon 6 3 3 = some 1 := by
  have h : ∀ idx ∈ sixOrders,
      (WJ.rawPartitions (preProcessingE (fun _ => idx) hexagon 3 3).1
        (preProcessingE (fun _ => idx) hexagon 3 3).2.1).sum < 2147483648 ∧
      WJ.main (fun _ => idx) [] hexagon 6 3 3 = some 1 := by decide
  intro idx hidx cuts
  unfold WJ.main
  rw [WJ.getCount_cuts cuts _ _ _ _ (h idx hidx).1]
  exact (h idx hidx).2

theorem hexagon_orders_BTJ :
    ∀ idx ∈ sixOrders, ∀ ps ∈ [none, some 1, some 2, some 3, some 4],
      BTJ.main (fun _ => idx) 1 (fun _ => 0) hexagon 3 3 ps = some 1 := by
  decide

/-- C8. Small literal example: on the 6-cycle with edges (0,0), (0,1), (1,0), (1,2), (2,1),
(2,2) all six vertices survive the 2-core reduction (the flags are 1, entry 0 decremented
to 0, and both sizes stay 3), and preprocessing followed by `getCount` yields exactly 1 for
each of the four strategies, whatever order the sort gives to the left vertices and however
the scan of WJ is split into blocks. -/
theorem C8_literal_example (sort : Sorter) (hs : sort.Valid) :
    Compute2Core hexagon 3 3 = (3, 3, [0, 1, 1, 1, 1, 1]) ∧
      TJ.main sort hexagon 3 3 = 1 ∧ NJ.main sort hexagon 3 3 = 1 ∧
      (∀ cuts, WJ.main sort cuts hexagon 6 3 3 = some 1) ∧
      (∀ ps ∈ [none, some 1, some 2, some 3, some 4],
        BTJ.main sort 1 (fun _ => 0) hexagon 3 3 ps = some 1) := by
  have hkeys : path2Cnts (balance (Obtain2Core hexagon 3 3)).1
      (balance (Obtain2Core hexagon 3 3)).2.1 = [2, 2, 2] := by decide
  have hidx : sort [2, 2, 2] ∈ sixOrders := perm_three _ (hs [2, 2, 2]).1
  have hE := preProcessingE_congr sort (fun _ => sort [2, 2, 2]) hexagon 3 3 (by rw [hkeys])
  have hP := preProcessing_congr sort (fun _ => sort [2, 2, 2]) hexagon 3 3 (by rw [hkeys])
  have hT := hexagon_orders_TJ
  have hN := hexagon_orders_NJ
  have hW := hexagon_orders_WJ
  have hB := hexagon_orders_BTJ
  refine ⟨by decide, ?_, ?_, ?_, ?_⟩
  · have e : TJ.main sort hexagon 3 3 = TJ.main (fun _ => sort [2, 2, 2]) hexagon 3 3 := by
      unfold TJ.main; rw [hE]
    rw [e]; exact hT _ hidx
  · have e : NJ.main sort hexagon 3 3 = NJ.main (fun _ => sort [2, 2, 2]) hexagon 3 3 := by
      unfold NJ.main; rw [hE]
    rw [e]; exact hN _ hidx
  · intro cuts
    have e : WJ.main sort cuts hexagon 6 3 3
        = WJ.main (fun _ => sort [2, 2, 2]) cuts hexagon 6 3 3 := by
      unfold WJ.main; rw [hE]
    rw [e]; exact hW _ hidx cuts
  · intro ps hps
    have e : BTJ.main sort 1 (fun _ => 0) hexagon 3 3 ps
        = BTJ.main (fun _ => sort [2, 2, 2]) 1 (fun _ => 0) hexagon 3 3 ps := by
      unfold BTJ.main; rw [hP]
    rw [e]; exact hB _ hidx ps hps

theorem C8_literal_example_witness :
    Sorter.Valid insertionSorter ∧ TJ.main insertionSorter hexagon 3 3 = 1 ∧
      BTJ.main insertionSorter 1 (fun _ => 0) hexagon 3 3 none = some 1 :=
  ⟨insertionSorter_valid, (C8_literal_example insertionSorter insertionSorter_valid).2.1,
    (C8_literal_example insertionSorter insertionSorter_valid).2.2.2.2 none (by decide)⟩

/-- C6. The example dataset `3 2 2 / 0 0 / 0 1 / 1 0` has an empty 2-core. BTJ prints 0
without counting; NJ, TJ and WJ have no such test and call `getCount` with `vLeft = 0`,
where the sizes `vLeft - 2` and `vLeft - 1` of the vectors and loops wrap around. -/
theorem C6_unguarded_mains (sort : Sorter) :
    preProcessingE sort exampleDataset 2 2 = ([], 0, 0, []) ∧
      BTJ.main sort 1 (fun _ => 0) exampleDataset 2 2 none = some 0 ∧
      TJ.main sort exampleDataset 2 2 = TJ.getCount [] 0 [] ∧
      NJ.main sort exampleDataset 2 2 = NJ.getCount [] 0 [] ∧
      (∀ cuts, WJ.main sort cuts exampleDataset 3 2 2 = WJ.getCount cuts [] 3 0 []) ∧
      sub32 0 2 = 4294967294 ∧ sub32 0 1 = 4294967295 :=
  ⟨rfl, rfl, rfl, rfl, fun _ => rfl, rfl, rfl⟩

end Induced6

namespace Induced6
open Finset

/-- C3 (counterexample). A preprocessed graph with 3 left vertices, ids below `2^31` and
an exact edge index on which the result of `NJ.getCount` is not the number of induced
6-cycles: the graph has at least `2^64` of them and the result is a `uint64_t`. -/
theorem C3_NJ_overflow_counterexample :
    Preprocessed (bigGraph 2642246) 3 ∧ EdgeIndex (bigGraph 2642246) 3 (bigE 2642246) ∧
      (bigGraph 2642246).length ≤ 2147483648 ∧
      NJ.getCount (bigGraph 2642246) 3 (bigE 2642246) ≠ countInduced6 (bigGraph 2642246) 3 := by
  have hp := bigGraph_preprocessed 2642246 (by norm_num)
  have hE := bigE_edgeIndex 2642246
  have hl : (bigGraph 2642246).length ≤ 2147483648 := by rw [bigGraph_length]; norm_num
  refine ⟨hp, hE, hl, ?_⟩
  intro h
  rw [NJ.nj_getCount_mod hp hE (by norm_num) hl] at h
  have h1 := u64_lt (tripleSum (bigGraph 2642246) 3)
  have h2 := bigGraph_count
  omega

/-- C3 (amended). Strategy B (`NJ.getCount`): on every preprocessed simple symmetric
bipartite graph with at least 3 left vertices, vertex ids below `2^31` and an edge index
that holds the neighbours of every left vertex, the result is the number of induced
6-cycles modulo `2^64`, hence that number itself when it is below `2^64`. -/
theorem C3_NJ_getCount_mod (G : Graph) (vLeft : Nat) (E : Edges)
    (h : Preprocessed G vLeft) (hE : EdgeIndex G vLeft E) (h3 : 3 ≤ vLeft)
    (h31 : G.length ≤ 2147483648) :
    NJ.getCount G vLeft E = countInduced6 G vLeft % 18446744073709551616 ∧
      (countInduced6 G vLeft < 18446744073709551616 →
        NJ.getCount G vLeft E = countInduced6 G vLeft) := by
  rw [NJ.nj_getCount_mod h hE (by omega) h31, ← countInduced6_eq_tripleSum]
  exact ⟨rfl, fun hlt => u64_of_lt hlt⟩

theorem C3_NJ_getCount_mod_witness :
    Preprocessed hexagonPre 3 ∧ EdgeIndex hexagonPre 3 hexagonE ∧
      countInduced6 hexagonPre 3 = 1 ∧
      (NJ.getCount hexagonPre 3 hexagonE = countInduced6 hexagonPre 3 % 18446744073709551616 ∧
        (countInduced6 hexagonPre 3 < 18446744073709551616 →
          NJ.getCount hexagonPre 3 hexagonE = countInduced6 hexagonPre 3)) :=
  ⟨hexagonPre_preprocessed, hexagonE_edgeIndex, by decide,
    C3_NJ_getCount_mod hexagonPre 3 hexagonE hexagonPre_preprocessed hexagonE_edgeIndex
      (by decide) (by decide)⟩

/-- C4 (counterexample). A preprocessed graph with 3 left vertices, fewer than `2^31`
wedges and an exact edge index on which the result of `WJ.getCount` is not the number of
induced 6-cycles, however the scan is split: the graph has at least `2^64` of them and the
result is a `uint64_t`. -/
theorem C4_WJ_overflow_counterexample :
    Preprocessed (bigGraph 2642246) 3 ∧ EdgeIndex (bigGraph 2642246) 3 (bigE 2642246) ∧
      WJ.wedgesBelow (bigGraph 2642246) 3 < 2147483648 ∧
      ∀ cuts nEdge, WJ.getCount cuts (bigGraph 2642246) nEdge 3 (bigE 2642246)
        ≠ some (countInduced6 (bigGraph 2642246) 3) := by
  have hp := bigGraph_preprocessed 2642246 (by norm_num)
  have hE := bigE_edgeIndex 2642246
  have hw : WJ.wedgesBelow (bigGraph 2642246) 3 < 2147483648 :=
    lt_of_le_of_lt (bigGraph_wedgesBelow 2642246) (by norm_num)
  refine ⟨hp, hE, hw, ?_⟩
  intro cuts nEdge h
  rw [WJ.wj_getCount_mod hp hE (by norm_num) hw nEdge cuts] at h
  have h0 := Option.some.inj h
  have h1 := u64_lt (tripleSum (bigGraph 2642246) 3)
  have h2 := bigGraph_count
  omega

/-- C4 (amended). Strategy D (`WJ.getCount`): on every preprocessed simple symmetric
bipartite graph with at least 3 left vertices, fewer than `2^31` wedges and an edge index
that holds the neighbours of every left vertex, the run returns, whatever `nEdge` is and
however the scan over `partitions` is split into blocks, and its result is the number of
induced 6-cycles modulo `2^64`, hence that number itself when it is below `2^64`. -/
theorem C4_WJ_getCount_mod (G : Graph) (nEdge vLeft : Nat) (E : Edges)
    (h : Preprocessed G vLeft) (hE : EdgeIndex G vLeft E) (h3 : 3 ≤ vLeft)
    (hw : WJ.wedgesBelow G vLeft < 2147483648) (cuts : List Nat) :
    WJ.getCount cuts G nEdge vLeft E
        = some (countInduced6 G vLeft % 18446744073709551616) ∧
      (countInduced6 G vLeft < 18446744073709551616 →
        WJ.getCount cuts G nEdge vLeft E = some (countInduced6 G vLeft)) := by
  rw [WJ.wj_getCount_mod h hE (by omega) hw nEdge cuts, ← countInduced6_eq_tripleSum]
  exact ⟨rfl, fun hlt => congrArg some (u64_of_lt hlt)⟩

theorem C4_WJ_getCount_mod_witness :
    Preprocessed hexagonPre 3 ∧ EdgeIndex hexagonPre 3 hexagonE ∧
      WJ.wedgesBelow hexagonPre 3 < 2147483648 ∧ countInduced6 hexagonPre 3 = 1 ∧
      (WJ.getCount [1, 1] hexagonPre 6 3 hexagonE
          = some (countInduced6 hexagonPre 3 % 18446744073709551616) ∧
        (countInduced6 hexagonPre 3 < 18446744073709551616 →
          WJ.getCount [1, 1] hexagonPre 6 3 hexagonE = some (countInduced6 hexagonPre 3))) :=
  ⟨hexagonPre_preprocessed, hexagonE_edgeIndex, by decide, by decide,
    C4_WJ_getCount_mod hexagonPre 6 3 hexagonE hexagonPre_preprocessed hexagonE_edgeIndex
      (by decide) (by decide) [1, 1]⟩

end Induced6

namespace Induced6
open Finset

/-- C10 (failing input). The graph without vertices, which `readGraph` returns for the file
`0 0 0`, is symmetric and simple; on it `Compute2Core` gives `newID` no entry, and the last
statement `--newID[0]` writes outside the vector. -/
theorem C10_no_vertex_core :
    readGraph (bytesOf "0 0 0" ++ [10]) = some ([], 0, 0, 0) ∧ SymmSimple [] (0 + 0) ∧
      (coreLoop [] 0 0).newID = [] ∧ Compute2CoreChecked [] 0 0 = none :=
  ⟨readGraph_no_vertex, symmSimple_empty, by decide, by decide⟩

/-- C10. 2-core exactness of `Compute2Core`: on every symmetric simple graph with at least
one vertex, the statement `--newID[0]` is in bounds and the vertices that the flags mark as
surviving are exactly the 2-core (every
survivor has at least 2 surviving neighbours, and every vertex set of minimum degree 2 lies
inside the survivors); the vector `newID` has one flag per vertex, 1 for a survivor and 0
for a removed vertex, less one at entry 0; the values written to `vLeft` and `vRight` are
the numbers of surviving left and right vertices; and the `while` loop is left with an
empty queue. -/
theorem C10_Compute2Core_two_core (G : Graph) (vLeft vRight : Nat)
    (hg : SymmSimple G (vLeft + vRight)) (h0 : 0 < vLeft + vRight) :
    Compute2CoreChecked G vLeft vRight = some (Compute2Core G vLeft vRight) ∧
      IsTwoCore G (vLeft + vRight)
        (survivors (vLeft + vRight) (Compute2Core G vLeft vRight).2.2) ∧
      (Compute2Core G vLeft vRight).2.2.length = vLeft + vRight ∧
      (∀ x, x < vLeft + vRight → (Compute2Core G vLeft vRight).2.2.getD x 0 =
        (if x ∈ survivors (vLeft + vRight) (Compute2Core G vLeft vRight).2.2 then 1 else 0)
          - (if x = 0 then 1 else 0)) ∧
      (Compute2Core G vLeft vRight).1 =
        ((survivors (vLeft + vRight) (Compute2Core G vLeft vRight).2.2).filter
          (fun x => x < vLeft)).card ∧
      (Compute2Core G vLeft vRight).2.1 =
        ((survivors (vLeft + vRight) (Compute2Core G vLeft vRight).2.2).filter
          (fun x => vLeft ≤ x)).card ∧
      (coreLoop G vLeft vRight).deleting_q = [] :=
  ⟨compute2CoreChecked_eq G vLeft vRight hg h0, compute2Core_spec G vLeft vRight hg h0⟩

theorem C10_Compute2Core_two_core_witness :
    SymmSimple pendantHexagon (3 + 4) ∧
      Compute2Core pendantHexagon 3 4 = (3, 3, [0, 1, 1, 1, 1, 1, 0]) ∧
      (Compute2CoreChecked pendantHexagon 3 4 = some (Compute2Core pendantHexagon 3 4) ∧
        IsTwoCore pendantHexagon (3 + 4)
          (survivors (3 + 4) (Compute2Core pendantHexagon 3 4).2.2) ∧
        (Compute2Core pendantHexagon 3 4).2.2.length = 3 + 4 ∧
        (∀ x, x < 3 + 4 → (Compute2Core pendantHexagon 3 4).2.2.getD x 0 =
          (if x ∈ survivors (3 + 4) (Compute2Core pendantHexagon 3 4).2.2 then 1 else 0)
            - (if x = 0 then 1 else 0)) ∧
        (Compute2Core pendantHexagon 3 4).1 =
          ((survivors (3 + 4) (Compute2Core pendantHexagon 3 4).2.2).filter
            (fun x => x < 3)).card ∧
        (Compute2Core pendantHexagon 3 4).2.1 =
          ((survivors (3 + 4) (Compute2Core pendantHexagon 3 4).2.2).filter
            (fun x => 3 ≤ x)).card ∧
        (coreLoop pendantHexagon 3 4).deleting_q = []) :=
  ⟨⟨by decide, by decide, by decide, by decide⟩, by decide,
    C10_Compute2Core_two_core pendantHexagon 3 4
      ⟨by decide, by decide, by decide, by decide⟩ (by decide)⟩

end Induced6

namespace Induced6
open Finset

/-- C2 (counterexample). Two inputs on which the result of `BTJ.getCount` is not the number
of induced 6-cycles. On the preprocessed 6-cycle with `partition_size = 2^32 - 1` the update
`b_start += partition_size` wraps to 0, the loop runs a second batch and the only cycle is
counted twice. On a preprocessed graph with at least `2^64` induced 6-cycles the result, a
`uint64_t`, is not the count for `partition_size = 3`. -/
theorem C2_BTJ_counterexample :
    (Preprocessed hexagonPre 3 ∧ countInduced6 hexagonPre 3 = 1 ∧
      BTJ.getCount 1 (fun _ => 0) hexagonPre 3 4294967295 = some 2) ∧
    (Preprocessed (bigGraph 2642246) 3 ∧
      BTJ.getCount 1 (fun _ => 0) (bigGraph 2642246) 3 3
        ≠ some (countInduced6 (bigGraph 2642246) 3)) := by
  refine ⟨⟨hexagonPre_preprocessed, by decide, by decide⟩, ?_⟩
  have hp := bigGraph_preprocessed 2642246 (by norm_num)
  refine ⟨hp, ?_⟩
  intro h
  rw [BTJ.btj_getCount_mod hp (le_refl 3) 3 (by norm_num) (by norm_num) (fun _ => 0) 1
    (fun _ => Nat.zero_lt_one) (by norm_num)] at h
  have h0 := Option.some.inj h
  have h1 := u64_lt (tripleSum (bigGraph 2642246) 3)
  have h2 := bigGraph_count
  omega

/-- C2 (amended). Strategy A (`BTJ.getCount`): on every preprocessed simple symmetric
bipartite graph with at least 3 left vertices, for every `partition_size >= 1` with
`partition_size + vLeft <= 2^32`, when the scratch vectors of all workers fit the
`uint32_t` index space, the batch loop terminates and the result is the number of induced
6-cycles modulo `2^64`, hence that number itself when it is below `2^64`; in particular
the result does not depend on `partition_size`, on the number of workers or on the
assignment of the vertices to the workers. -/
theorem C2_BTJ_getCount_mod (num_threads : Nat) (pid : Nat → Nat) (G : Graph)
    (vLeft partition_size : Nat) (h : Preprocessed G vLeft) (h3 : 3 ≤ vLeft)
    (hps : 1 ≤ partition_size) (hwrap : partition_size + vLeft ≤ 4294967296)
    (hpid : ∀ b, pid b < num_threads) (hsz : num_threads * vLeft < 4294967296) :
    BTJ.getCount num_threads pid G vLeft partition_size
        = some (countInduced6 G vLeft % 18446744073709551616) ∧
      (countInduced6 G vLeft < 18446744073709551616 →
        BTJ.getCount num_threads pid G vLeft partition_size
          = some (countInduced6 G vLeft)) := by
  rw [BTJ.btj_getCount_mod h h3 partition_size hps hwrap pid num_threads hpid hsz,
    ← countInduced6_eq_tripleSum]
  exact ⟨rfl, fun hlt => congrArg some (u64_of_lt hlt)⟩

theorem C2_BTJ_getCount_mod_witness :
    Preprocessed hexagonPre 3 ∧ countInduced6 hexagonPre 3 = 1 ∧
      (BTJ.getCount 2 (fun b => b % 2) hexagonPre 3 1
          = some (countInduced6 hexagonPre 3 % 18446744073709551616) ∧
        (countInduced6 hexagonPre 3 < 18446744073709551616 →
          BTJ.getCount 2 (fun b => b % 2) hexagonPre 3 1
            = some (countInduced6 hexagonPre 3))) :=
  ⟨hexagonPre_preprocessed, by decide,
    C2_BTJ_getCount_mod 2 (fun b => b % 2) hexagonPre 3 1 hexagonPre_preprocessed
      (by decide) (by decide) (by decide) (fun b => Nat.mod_lt b (by decide)) (by decide)⟩

end Induced6

namespace Induced6
open Finset

/-- C5 (failing input). The graph without vertices, which `readGraph` returns for the file
`0 0 0`, is simple, symmetric and bipartite and has no induced 6-cycle; on it `preProcessing`
returns no graph, whatever the sort does: `Compute2Core` writes to `newID[0]`, which does
not exist. -/
theorem C5_no_vertex_preProcessing :
    readGraph (bytesOf "0 0 0" ++ [10]) = some ([], 0, 0, 0) ∧ Bip [] 0 0 ∧
      countInduced6 [] 0 = 0 ∧ ∀ sort, preProcessingChecked sort [] 0 0 = none :=
  ⟨readGraph_no_vertex, bip_empty, by decide, fun _ => rfl⟩

/-- C5. The preprocessing preserves the count of induced 6-cycles: for every simple
symmetric bipartite graph `(G, vLeft, vRight)` with at least one vertex and every admissible
outcome of the sort, `preProcessing` stays in bounds, the graph it returns has one list per
vertex of the returned `vLeft` and `vRight`, it is in preprocessed form, and its number of
induced 6-cycles (the exhaustive enumeration of 3 left and 3 right vertices) is that of the
input; the overload that also builds `E` returns the same graph and sizes. -/
theorem C5_preProcessing_preserves_count (sort : Sorter) (hs : sort.Valid) (G : Graph)
    (vLeft vRight : Nat) (hb : Bip G vLeft vRight) (h0 : 0 < vLeft + vRight) :
    preProcessingChecked sort G vLeft vRight = some (preProcessing sort G vLeft vRight) ∧
      countInduced6 (preProcessing sort G vLeft vRight).1
          (preProcessing sort G vLeft vRight).2.1
        = countInduced6 G vLeft ∧
      (preProcessing sort G vLeft vRight).1.length
        = (preProcessing sort G vLeft vRight).2.1 + (preProcessing sort G vLeft vRight).2.2 ∧
      Preprocessed (preProcessing sort G vLeft vRight).1
        (preProcessing sort G vLeft vRight).2.1 ∧
      ((preProcessingE sort G vLeft vRight).1, (preProcessingE sort G vLeft vRight).2.1,
        (preProcessingE sort G vLeft vRight).2.2.1) = preProcessing sort G vLeft vRight := by
  obtain ⟨r1, r2, r3, -⟩ := preProcessingE_spec sort hs G vLeft vRight hb h0
  exact ⟨preProcessingChecked_eq sort G vLeft vRight hb.symmSimple h0, r3, r2, r1, rfl⟩

theorem C5_preProcessing_preserves_count_witness :
    Sorter.Valid insertionSorter ∧ Bip pendantHexagon 3 4 ∧
      preProcessing insertionSorter pendantHexagon 3 4
        = ([[4, 3], [5, 3], [5, 4], [1, 0], [2, 0], [2, 1]], 3, 3) ∧
      countInduced6 pendantHexagon 3 = 1 ∧
      (preProcessingChecked insertionSorter pendantHexagon 3 4
          = some (preProcessing insertionSorter pendantHexagon 3 4) ∧
        countInduced6 (preProcessing insertionSorter pendantHexagon 3 4).1
          (preProcessing insertionSorter pendantHexagon 3 4).2.1
          = countInduced6 pendantHexagon 3 ∧
        (preProcessing insertionSorter pendantHexagon 3 4).1.length
          = (preProcessing insertionSorter pendantHexagon 3 4).2.1
            + (preProcessing insertionSorter pendantHexagon 3 4).2.2 ∧
        Preprocessed (preProcessing insertionSorter pendantHexagon 3 4).1
          (preProcessing insertionSorter pendantHexagon 3 4).2.1 ∧
        ((preProcessingE insertionSorter pendantHexagon 3 4).1,
          (preProcessingE insertionSorter pendantHexagon 3 4).2.1,
          (preProcessingE insertionSorter pendantHexagon 3 4).2.2.1)
          = preProcessing insertionSorter pendantHexagon 3 4) :=
  ⟨insertionSorter_valid, ⟨by decide, by decide, by decide, by decide, by decide, by decide⟩,
    by decide, by decide,
    C5_preProcessing_preserves_count insertionSorter insertionSorter_valid pendantHexagon 3 4
      ⟨by decide, by decide, by decide, by decide, by decide, by decide⟩ (by decide)⟩

end Induced6

namespace Induced6
open Finset

end Induced6

namespace Induced6
open Finset

/-- C11 (failing input). The graph without vertices, which `readGraph` returns for the file
`0 0 0`, is symmetric and simple; on it `Obtain2Core` returns no graph: its call of
`Compute2Core` writes to `newID[0]`, which does not exist. -/
theorem C11_no_vertex_compaction :
    readGraph (bytesOf "0 0 0" ++ [10]) = some ([], 0, 0, 0) ∧ SymmSimple [] (0 + 0) ∧
      Obtain2CoreChecked [] 0 0 = none :=
  ⟨readGraph_no_vertex, symmSimple_empty, by decide⟩

/-- C11. Compaction in `Obtain2Core`, on every symmetric simple graph with at least one
vertex: the run stays in bounds; the new graph has one list per survivor; the new `vLeft` and `vRight` count the left
and right survivors; the new id of a survivor is the number of survivors below it, so the
map to the new ids keeps the order, takes every id below the number of survivors, gives the
left survivors the ids below the new `vLeft` and the right survivors the ids from the new
`vLeft` on; and the new list of a survivor holds the new ids of the survivors on its old
list, in the old order, with no entry for a removed vertex. -/
theorem C11_Obtain2Core_compaction (G : Graph) (vLeft vRight : Nat)
    (hg : SymmSimple G (vLeft + vRight)) (h0 : 0 < vLeft + vRight) :
    Obtain2CoreChecked G vLeft vRight = some (Obtain2Core G vLeft vRight) ∧
      (Obtain2Core G vLeft vRight).1.length = (coreSet G vLeft vRight).card ∧
      (Obtain2Core G vLeft vRight).2.1
        = ((coreSet G vLeft vRight).filter (fun x => x < vLeft)).card ∧
      (Obtain2Core G vLeft vRight).2.2
        = ((coreSet G vLeft vRight).filter (fun x => vLeft ≤ x)).card ∧
      (∀ x ∈ coreSet G vLeft vRight, compactID G vLeft vRight x
        = ((coreSet G vLeft vRight).filter (fun y => y < x)).card) ∧
      (∀ x ∈ coreSet G vLeft vRight, ∀ y ∈ coreSet G vLeft vRight, x < y →
        compactID G vLeft vRight x < compactID G vLeft vRight y) ∧
      (∀ k, k < (coreSet G vLeft vRight).card →
        ∃ x ∈ coreSet G vLeft vRight, compactID G vLeft vRight x = k) ∧
      (∀ x ∈ coreSet G vLeft vRight,
        (x < vLeft → compactID G vLeft vRight x < (Obtain2Core G vLeft vRight).2.1) ∧
        (vLeft ≤ x → (Obtain2Core G vLeft vRight).2.1 ≤ compactID G vLeft vRight x ∧
          compactID G vLeft vRight x
            < (Obtain2Core G vLeft vRight).2.1 + (Obtain2Core G vLeft vRight).2.2)) ∧
      (∀ x ∈ coreSet G vLeft vRight,
        nbrs (Obtain2Core G vLeft vRight).1 (compactID G vLeft vRight x)
          = ((nbrs G x).filter (fun y => decide (y ∈ coreSet G vLeft vRight))).map
              (compactID G vLeft vRight)) := by
  obtain ⟨-, a1, a2, a3, a4, a5, a6, a7, a8⟩ := obtain2Core_lists G vLeft vRight hg h0
  refine ⟨obtain2CoreChecked_eq G vLeft vRight hg h0, by rw [a4, a3], a1, a2, a5, ?_, ?_, ?_,
    a8⟩
  · intro x hx y hy hxy
    rw [a5 x hx, a5 y hy]
    apply Finset.card_lt_card
    refine ⟨fun z hz => ?_, fun h => ?_⟩
    · rw [Finset.mem_filter] at hz ⊢
      exact ⟨hz.1, by omega⟩
    · have := (Finset.mem_filter.mp (h (Finset.mem_filter.mpr ⟨hx, hxy⟩))).2
      omega
  · intro k hk
    rw [a3] at hk
    exact a7 k hk
  · intro x hx
    refine ⟨(a6 x hx).1, fun h => ⟨(a6 x hx).2 h, ?_⟩⟩
    rw [a5 x hx, ← a3]
    apply Finset.card_lt_card
    refine ⟨Finset.filter_subset _ _, fun h2 => ?_⟩
    have := (Finset.mem_filter.mp (h2 hx)).2
    omega

theorem C11_Obtain2Core_compaction_witness :
    SymmSimple gappedHexagon (4 + 4) ∧
      Obtain2Core gappedHexagon 4 4
        = ([[3, 4], [3, 5], [4, 5], [0, 1], [0, 2], [1, 2]], 3, 3) ∧
      (List.range 8).map (compactID gappedHexagon 4 4) = [0, 0, 1, 2, 3, 4, 4, 5] ∧
      (∀ x ∈ coreSet gappedHexagon 4 4,
        nbrs (Obtain2Core gappedHexagon 4 4).1 (compactID gappedHexagon 4 4 x)
          = ((nbrs gappedHexagon x).filter
              (fun y => decide (y ∈ coreSet gappedHexagon 4 4))).map
                (compactID gappedHexagon 4 4)) :=
  ⟨⟨by decide, by decide, by decide, by decide⟩, by decide, by decide,
    (C11_Obtain2Core_compaction gappedHexagon 4 4
      ⟨by decide, by decide, by decide, by decide⟩ (by decide)).2.2.2.2.2.2.2.2⟩

/-- C12. Side balancing: the sizes returned by `preProcessing` satisfy `vLeft <= vRight`,
for every input, and they are the sizes after the side swap. When the graph that
`Obtain2Core` returns has `vLeft <= vRight` the swap step changes nothing. When it has
`vLeft > vRight` (for a simple symmetric bipartite input with at least one vertex) the two
sizes are exchanged, the former right vertex `r` becomes the left vertex `r - vLeft`, the
former left vertex `l` becomes the right vertex `l + vRight`, the entries of their lists are
renamed the same way, and the pair of the new ids is an edge, on both lists, exactly when
`(l, r)` was one. -/
theorem C12_side_balancing (sort : Sorter) (G : Graph) (vLeft vRight : Nat) :
    (preProcessing sort G vLeft vRight).2.1 ≤ (preProcessing sort G vLeft vRight).2.2 ∧
      (preProcessing sort G vLeft vRight).2.1 = (balancedCore G vLeft vRight).2.1 ∧
      (preProcessing sort G vLeft vRight).2.2 = (balancedCore G vLeft vRight).2.2 ∧
      ((Obtain2Core G vLeft vRight).2.1 ≤ (Obtain2Core G vLeft vRight).2.2 →
        balancedCore G vLeft vRight = Obtain2Core G vLeft vRight) ∧
      (Bip G vLeft vRight → 0 < vLeft + vRight →
        (Obtain2Core G vLeft vRight).2.2 < (Obtain2Core G vLeft vRight).2.1 →
        (balancedCore G vLeft vRight).2.1 = (Obtain2Core G vLeft vRight).2.2 ∧
        (balancedCore G vLeft vRight).2.2 = (Obtain2Core G vLeft vRight).2.1 ∧
        (balancedCore G vLeft vRight).1.length
          = (Obtain2Core G vLeft vRight).2.1 + (Obtain2Core G vLeft vRight).2.2 ∧
        (∀ l, l < (Obtain2Core G vLeft vRight).2.1 →
          nbrs (balancedCore G vLeft vRight).1 (l + (Obtain2Core G vLeft vRight).2.2)
            = (nbrs (Obtain2Core G vLeft vRight).1 l).map
                (fun r => r - (Obtain2Core G vLeft vRight).2.1)) ∧
        (∀ r, (Obtain2Core G vLeft vRight).2.1 ≤ r →
          r < (Obtain2Core G vLeft vRight).2.1 + (Obtain2Core G vLeft vRight).2.2 →
          nbrs (balancedCore G vLeft vRight).1 (r - (Obtain2Core G vLeft vRight).2.1)
            = (nbrs (Obtain2Core G vLeft vRight).1 r).map
                (fun l => l + (Obtain2Core G vLeft vRight).2.2)) ∧
        (∀ l, l < (Obtain2Core G vLeft vRight).2.1 →
          ∀ r, (Obtain2Core G vLeft vRight).2.1 ≤ r →
          r < (Obtain2Core G vLeft vRight).2.1 + (Obtain2Core G vLeft vRight).2.2 →
          adj (balancedCore G vLeft vRight).1 (r - (Obtain2Core G vLeft vRight).2.1)
              (l + (Obtain2Core G vLeft vRight).2.2)
            = adj (Obtain2Core G vLeft vRight).1 l r ∧
          adj (balancedCore G vLeft vRight).1 (l + (Obtain2Core G vLeft vRight).2.2)
              (r - (Obtain2Core G vLeft vRight).2.1)
            = adj (Obtain2Core G vLeft vRight).1 l r)) := by
  refine ⟨reorder_sides sort (Obtain2Core G vLeft vRight), rfl, rfl, ?_, ?_⟩
  · intro h
    exact balance_of_le _ _ _ h
  · intro hb h0 hgt
    obtain ⟨hb1, -⟩ := obtain2Core_spec G vLeft vRight hb h0
    obtain ⟨e1, e2, e3, hL, hR⟩ := balance_lists _ _ _ hb1 hgt
    exact ⟨e1, e2, e3, hL, hR, fun l hl r hr1 hr2 => balance_adj _ _ _ hb1 hgt l r hl hr1 hr2⟩

theorem C12_side_balancing_witness :
    Bip k32 3 2 ∧ Obtain2Core k32 3 2 = (k32, 3, 2) ∧
      balancedCore k32 3 2 = ([[2, 3, 4], [2, 3, 4], [0, 1], [0, 1], [0, 1]], 2, 3) ∧
      (∀ l, l < (Obtain2Core k32 3 2).2.1 →
        ∀ r, (Obtain2Core k32 3 2).2.1 ≤ r →
        r < (Obtain2Core k32 3 2).2.1 + (Obtain2Core k32 3 2).2.2 →
        adj (balancedCore k32 3 2).1 (r - (Obtain2Core k32 3 2).2.1)
            (l + (Obtain2Core k32 3 2).2.2)
          = adj (Obtain2Core k32 3 2).1 l r ∧
        adj (balancedCore k32 3 2).1 (l + (Obtain2Core k32 3 2).2.2)
            (r - (Obtain2Core k32 3 2).2.1)
          = adj (Obtain2Core k32 3 2).1 l r) :=
  ⟨⟨by decide, by decide, by decide, by decide, by decide, by decide⟩, by decide, by decide,
    ((C12_side_balancing insertionSorter k32 3 2).2.2.2.2
      ⟨by decide, by decide, by decide, by decide, by decide, by decide⟩
      (by decide) (by decide)).2.2.2.2.2⟩

end Induced6

namespace Induced6
open Finset

theorem foldl_emplaceAll_length (l : List Nat) (key : Nat → Nat) (val : Nat → List Nat)
    (E0 : Edges) :
    (l.foldl (fun E u => emplaceAll E (key u) (val u)) E0).length = E0.length := by
  induction l generalizing E0 with
  | nil => rfl
  | cons x xs ih =>
    rw [List.foldl_cons, ih]
    unfold emplaceAll
    rw [List.length_set]

theorem buildE_length (sort : Sorter) (g : Graph × Nat × Nat) :
    (buildE sort g).length = (balance g).2.1 := by
  unfold buildE
  simp only
  rw [foldl_emplaceAll_length, List.length_replicate]

/-- The vector `rank` is a permutation of the left ids of the balanced 2-core. -/
theorem rankVec_perm (sort : Sorter) (hs : sort.Valid) (G : Graph) (vL vR : Nat) :
    (∀ u, u < (balancedCore G vL vR).2.1 →
      (rankVec sort G vL vR).getD u 0 < (balancedCore G vL vR).2.1) ∧
    (∀ u, u < (balancedCore G vL vR).2.1 → ∀ v, v < (balancedCore G vL vR).2.1 →
      (rankVec sort G vL vR).getD u 0 = (rankVec sort G vL vR).getD v 0 → u = v) ∧
    (∀ k, k < (balancedCore G vL vR).2.1 →
      ∃ u, u < (balancedCore G vL vR).2.1 ∧ (rankVec sort G vL vR).getD u 0 = k) := by
  have hp : (sort (path2Cnts (balancedCore G vL vR).1 (balancedCore G vL vR).2.1)).Perm
      (List.range (balancedCore G vL vR).2.1) := by
    have h1 := (hs (path2Cnts (balancedCore G vL vR).1 (balancedCore G vL vR).2.1)).1
    have h2 : (path2Cnts (balancedCore G vL vR).1 (balancedCore G vL vR).2.1).length
        = (balancedCore G vL vR).2.1 := by
      unfold path2Cnts
      rw [List.length_map, List.length_range]
    rwa [h2] at h1
  obtain ⟨hr1, hr2⟩ := rankOf_spec _ _ hp
  refine ⟨fun u hu => (hr2 u hu).1, ?_, fun k hk => ⟨_, (hr1 k hk).1, (hr1 k hk).2⟩⟩
  intro u hu v hv e
  have e1 := (hr2 u hu).2
  have e2 := (hr2 v hv).2
  have e0 : (rankOf (sort (path2Cnts (balancedCore G vL vR).1 (balancedCore G vL vR).2.1))
      (balancedCore G vL vR).2.1).getD u 0
      = (rankOf (sort (path2Cnts (balancedCore G vL vR).1 (balancedCore G vL vR).2.1))
      (balancedCore G vL vR).2.1).getD v 0 := e
  rw [e0] at e1
  exact e1.symm.trans e2

/-- The lists of the graph returned by `preProcessing`, in terms of the balanced 2-core and
of the vector `rank`. -/
theorem preProcessing_rank_lists (sort : Sorter) (hs : sort.Valid) (G : Graph) (vL vR : Nat)
    (hb : Bip G vL vR) (h0 : 0 < vL + vR) :
    Bip (balancedCore G vL vR).1 (balancedCore G vL vR).2.1 (balancedCore G vL vR).2.2 ∧
      (∀ u, u < (balancedCore G vL vR).2.1 →
        nbrs (preProcessing sort G vL vR).1 ((rankVec sort G vL vR).getD u 0)
          = sortDesc (nbrs (balancedCore G vL vR).1 u)) ∧
      (∀ x, (balancedCore G vL vR).2.1 ≤ x →
        x < (balancedCore G vL vR).2.1 + (balancedCore G vL vR).2.2 →
        nbrs (preProcessing sort G vL vR).1 x
          = sortDesc ((nbrs (balancedCore G vL vR).1 x).map
              (fun v => (rankVec sort G vL vR).getD v 0))) := by
  obtain ⟨hbb, -, -, -, hL, hR⟩ := preProcessing_lists sort hs G vL vR hb h0
  exact ⟨hbb, hL, hR⟩

/-- C13 (failing input). On the graph without vertices, which is simple, symmetric and
bipartite, `preProcessing` returns no graph to reorder, even with an admissible sort:
`Compute2Core` writes to `newID[0]`, which does not exist. -/
theorem C13_no_vertex_reordering :
    Bip [] 0 0 ∧ Sorter.Valid insertionSorter ∧
      preProcessingChecked insertionSorter [] 0 0 = none ∧
      ∀ sort, preProcessingChecked sort [] 0 0 = none :=
  ⟨bip_empty, insertionSorter_valid, rfl, fun _ => rfl⟩

/-- C13. Two-path reordering: for every simple symmetric bipartite graph with at least one
vertex and every admissible outcome of the sort, `preProcessing` stays in bounds and in the
graph that it returns the
two-path counts (the sum over the neighbours `u` of `degree(u) - 1`) of the left vertices
ascend with the id; the vector `rank` is a permutation of the left ids of the balanced
2-core; the sizes are those of the balanced 2-core; and the left vertex `u` renamed
`rank[u]` is adjacent to the right vertex `x`, which keeps its id, exactly when `u` was
adjacent to `x`, on the list of either vertex. -/
theorem C13_two_path_order (sort : Sorter) (hs : sort.Valid) (G : Graph)
    (vLeft vRight : Nat) (hb : Bip G vLeft vRight) (h0 : 0 < vLeft + vRight) :
    preProcessingChecked sort G vLeft vRight = some (preProcessing sort G vLeft vRight) ∧
    (∀ i j, i < j → j < (preProcessing sort G vLeft vRight).2.1 →
      twoPath (preProcessing sort G vLeft vRight).1 i
        ≤ twoPath (preProcessing sort G vLeft vRight).1 j) ∧
      (∀ u, u < (balancedCore G vLeft vRight).2.1 →
        (rankVec sort G vLeft vRight).getD u 0 < (balancedCore G vLeft vRight).2.1) ∧
      (∀ u, u < (balancedCore G vLeft vRight).2.1 →
        ∀ v, v < (balancedCore G vLeft vRight).2.1 →
        (rankVec sort G vLeft vRight).getD u 0 = (rankVec sort G vLeft vRight).getD v 0 →
        u = v) ∧
      (∀ k, k < (balancedCore G vLeft vRight).2.1 →
        ∃ u, u < (balancedCore G vLeft vRight).2.1 ∧
          (rankVec sort G vLeft vRight).getD u 0 = k) ∧
      (preProcessing sort G vLeft vRight).2.1 = (balancedCore G vLeft vRight).2.1 ∧
      (preProcessing sort G vLeft vRight).2.2 = (balancedCore G vLeft vRight).2.2 ∧
      (∀ u, u < (balancedCore G vLeft vRight).2.1 →
        ∀ x, (balancedCore G vLeft vRight).2.1 ≤ x →
        x < (balancedCore G vLeft vRight).2.1 + (balancedCore G vLeft vRight).2.2 →
        adj (preProcessing sort G vLeft vRight).1 ((rankVec sort G vLeft vRight).getD u 0) x
          = adj (balancedCore G vLeft vRight).1 u x ∧
        adj (preProcessing sort G vLeft vRight).1 x ((rankVec sort G vLeft vRight).getD u 0)
          = adj (balancedCore G vLeft vRight).1 u x) := by
  obtain ⟨hbb, hL, hR⟩ := preProcessing_rank_lists sort hs G vLeft vRight hb h0
  obtain ⟨p1, p2, p3⟩ := rankVec_perm sort hs G vLeft vRight
  refine ⟨preProcessingChecked_eq sort G vLeft vRight hb.symmSimple h0,
    fun i j hij hj => twoPath_ascending sort hs G vLeft vRight hb h0 i j hij hj,
    p1, p2, p3, rfl, rfl, ?_⟩
  intro u hu x hx1 hx2
  constructor
  · unfold adj
    rw [hL u hu]
    exact decide_eq_decide.mpr (sortDesc_perm _).mem_iff
  · unfold adj
    rw [hR x hx1 hx2]
    apply decide_eq_decide.mpr
    rw [(sortDesc_perm _).mem_iff, List.mem_map]
    constructor
    · rintro ⟨a, ha, e⟩
      have ha2 := hbb.right_nbrs x hx1 hx2 a ha
      have := p2 a ha2 u hu e
      subst this
      exact hbb.symm x hx2 a ha
    · intro h
      exact ⟨u, hbb.symm u (by omega) x h, rfl⟩

theorem C13_two_path_order_witness :
    Sorter.Valid insertionSorter ∧ Bip chorded 3 3 ∧
      rankVec insertionSorter chorded 3 3 = [2, 0, 1] ∧
      (List.range 3).map (twoPath (preProcessing insertionSorter chorded 3 3).1) = [3, 3, 4] ∧
      (∀ i j, i < j → j < (preProcessing insertionSorter chorded 3 3).2.1 →
        twoPath (preProcessing insertionSorter chorded 3 3).1 i
          ≤ twoPath (preProcessing insertionSorter chorded 3 3).1 j) :=
  ⟨insertionSorter_valid, ⟨by decide, by decide, by decide, by decide, by decide, by decide⟩,
    by decide, by decide,
    (C13_two_path_order insertionSorter insertionSorter_valid chorded 3 3
      ⟨by decide, by decide, by decide, by decide, by decide, by decide⟩ (by decide)).2.1⟩

/-- C14 (failing input). On the graph without vertices, which is simple (and symmetric and
bipartite), `preProcessing` returns no graph whose lists could be sorted, whatever the sort
does: `Compute2Core` writes to `newID[0]`, which does not exist. -/
theorem C14_no_vertex_sorting :
    SymmSimple [] (0 + 0) ∧ Bip [] 0 0 ∧
      ∀ sort, Sorter.Valid sort → preProcessingChecked sort [] 0 0 = none :=
  ⟨symmSimple_empty, bip_empty, fun _ _ => rfl⟩

/-- C14. Adjacency sort: for every simple symmetric bipartite graph with at least one vertex
and every admissible outcome of the sort, `preProcessing` stays in bounds, the graph that it
returns has one list per vertex, every list is strictly descending, the list of the left vertex `rank[u]` is the
sorted list of `u` in the balanced 2-core, a rearrangement of it, and the list of a right
vertex `x` is the sorted list of the ranks of the neighbours of `x`, a rearrangement of
these ranks. -/
theorem C14_adjacency_sorted (sort : Sorter) (hs : sort.Valid) (G : Graph)
    (vLeft vRight : Nat) (hb : Bip G vLeft vRight) (h0 : 0 < vLeft + vRight) :
    preProcessingChecked sort G vLeft vRight = some (preProcessing sort G vLeft vRight) ∧
      (preProcessing sort G vLeft vRight).1.length
        = (preProcessing sort G vLeft vRight).2.1 + (preProcessing sort G vLeft vRight).2.2 ∧
      (∀ k, k < (preProcessing sort G vLeft vRight).1.length →
        (nbrs (preProcessing sort G vLeft vRight).1 k).Sorted (fun x y => x > y)) ∧
      (∀ u, u < (balancedCore G vLeft vRight).2.1 →
        nbrs (preProcessing sort G vLeft vRight).1 ((rankVec sort G vLeft vRight).getD u 0)
          = sortDesc (nbrs (balancedCore G vLeft vRight).1 u) ∧
        (nbrs (preProcessing sort G vLeft vRight).1
          ((rankVec sort G vLeft vRight).getD u 0)).Perm
            (nbrs (balancedCore G vLeft vRight).1 u)) ∧
      (∀ x, (balancedCore G vLeft vRight).2.1 ≤ x →
        x < (balancedCore G vLeft vRight).2.1 + (balancedCore G vLeft vRight).2.2 →
        nbrs (preProcessing sort G vLeft vRight).1 x
          = sortDesc ((nbrs (balancedCore G vLeft vRight).1 x).map
              (fun v => (rankVec sort G vLeft vRight).getD v 0)) ∧
        (nbrs (preProcessing sort G vLeft vRight).1 x).Perm
          ((nbrs (balancedCore G vLeft vRight).1 x).map
            (fun v => (rankVec sort G vLeft vRight).getD v 0))) := by
  obtain ⟨hpre, hlen, -, -⟩ := preProcessingE_spec sort hs G vLeft vRight hb h0
  obtain ⟨-, hL, hR⟩ := preProcessing_rank_lists sort hs G vLeft vRight hb h0
  refine ⟨preProcessingChecked_eq sort G vLeft vRight hb.symmSimple h0, hlen,
    fun k hk => hpre.desc k hk, ?_, ?_⟩
  · intro u hu
    refine ⟨hL u hu, ?_⟩
    rw [hL u hu]
    exact sortDesc_perm _
  · intro x hx1 hx2
    refine ⟨hR x hx1 hx2, ?_⟩
    rw [hR x hx1 hx2]
    exact sortDesc_perm _

theorem C14_adjacency_sorted_witness :
    Sorter.Valid insertionSorter ∧ Bip chorded 3 3 ∧
      preProcessing insertionSorter chorded 3 3
        = ([[5, 3], [5, 4], [5, 4, 3], [2, 0], [2, 1], [2, 1, 0]], 3, 3) ∧
      (∀ k, k < (preProcessing insertionSorter chorded 3 3).1.length →
        (nbrs (preProcessing insertionSorter chorded 3 3).1 k).Sorted (fun x y => x > y)) :=
  ⟨insertionSorter_valid, ⟨by decide, by decide, by decide, by decide, by decide, by decide⟩,
    by decide,
    (C14_adjacency_sorted insertionSorter insertionSorter_valid chorded 3 3
      ⟨by decide, by decide, by decide, by decide, by decide, by decide⟩ (by decide)).2.2.1⟩

/-- C15 (failing input). On the graph without vertices, which is simple, symmetric and
bipartite, `preProcessing(G, vLeft, vRight, E)` returns neither a graph nor an edge index,
whatever the sort does: `Compute2Core` writes to `newID[0]`, which does not exist. -/
theorem C15_no_vertex_index :
    Bip [] 0 0 ∧ ∀ sort, preProcessingEChecked sort [] 0 0 = none :=
  ⟨bip_empty, fun _ => rfl⟩

/-- C15. Edge index: for every simple symmetric bipartite graph with at least one vertex and
every admissible outcome of the sort, `preProcessing(G, vLeft, vRight, E)` stays in bounds
and after it the vector
`E` has `vLeft` entries and, for every left vertex `a` and every id `x`, `E[a]` contains `x`
exactly when `x` is on the list `G[a]` of the returned graph; so every member of `E[a]` is a
right id. -/
theorem C15_edge_index (sort : Sorter) (hs : sort.Valid) (G : Graph)
    (vLeft vRight : Nat) (hb : Bip G vLeft vRight) (h0 : 0 < vLeft + vRight) :
    preProcessingEChecked sort G vLeft vRight = some (preProcessingE sort G vLeft vRight) ∧
      (preProcessingE sort G vLeft vRight).2.2.2.length
        = (preProcessingE sort G vLeft vRight).2.1 ∧
      (∀ a, a < (preProcessingE sort G vLeft vRight).2.1 → ∀ x,
        (x ∈ (preProcessingE sort G vLeft vRight).2.2.2.getD a [] ↔
          x ∈ nbrs (preProcessingE sort G vLeft vRight).1 a)) ∧
      (∀ a, a < (preProcessingE sort G vLeft vRight).2.1 → ∀ x,
        econtains (preProcessingE sort G vLeft vRight).2.2.2 a x
          = adj (preProcessingE sort G vLeft vRight).1 a x) ∧
      (∀ a, a < (preProcessingE sort G vLeft vRight).2.1 →
        ∀ x ∈ (preProcessingE sort G vLeft vRight).2.2.2.getD a [],
          (preProcessingE sort G vLeft vRight).2.1 ≤ x ∧
          x < (preProcessingE sort G vLeft vRight).2.1
            + (preProcessingE sort G vLeft vRight).2.2.1) := by
  obtain ⟨hpre, hlen, -, hE⟩ := preProcessingE_spec sort hs G vLeft vRight hb h0
  refine ⟨preProcessingEChecked_eq sort G vLeft vRight hb.symmSimple h0,
    buildE_length sort (Obtain2Core G vLeft vRight), ?_, ?_, ?_⟩
  · intro a ha x
    exact ⟨(hE a ha).1 x, (hE a ha).2 x⟩
  · intro a ha x
    exact hE.econtains_eq ha x
  · intro a ha x hx
    have := hpre.left_nbrs a ha x ((hE a ha).1 x hx)
    rw [hlen] at this
    exact this

theorem C15_edge_index_witness :
    Sorter.Valid insertionSorter ∧ Bip chorded 3 3 ∧
      preProcessingE insertionSorter chorded 3 3
        = ([[5, 3], [5, 4], [5, 4, 3], [2, 0], [2, 1], [2, 1, 0]], 3, 3,
            [[3, 5], [4, 5], [3, 4, 5]]) ∧
      (∀ a, a < (preProcessingE insertionSorter chorded 3 3).2.1 → ∀ x,
        (x ∈ (preProcessingE insertionSorter chorded 3 3).2.2.2.getD a [] ↔
          x ∈ nbrs (preProcessingE insertionSorter chorded 3 3).1 a)) :=
  ⟨insertionSorter_valid, ⟨by decide, by decide, by decide, by decide, by decide, by decide⟩,
    by decide,
    (C15_edge_index insertionSorter insertionSorter_valid chorded 3 3
      ⟨by decide, by decide, by decide, by decide, by decide, by decide⟩ (by decide)).2.2.1⟩

/-- C16 (failing input). The graph without vertices is simple, bipartite and symmetric, and
`preProcessing` returns no graph for it, whatever the sort does: `Compute2Core` writes to
`newID[0]`, which does not exist. -/
theorem C16_no_vertex_invariants :
    Bip [] 0 0 ∧ (coreLoop [] 0 0).newID.length = 0 ∧
      ∀ sort, preProcessingChecked sort [] 0 0 = none :=
  ⟨bip_empty, by decide, fun _ => rfl⟩

/-- C16. The graph invariants are preserved: for every simple symmetric bipartite graph with
at least one vertex and every admissible outcome of the sort, `preProcessing` stays in
bounds and the graph that it returns, with the returned `vLeft` and `vRight`, is again simple (no vertex twice on
a list, no vertex on its own list), bipartite and symmetric, and every vertex of it has at
least 2 neighbours. -/
theorem C16_invariants_preserved (sort : Sorter) (hs : sort.Valid) (G : Graph)
    (vLeft vRight : Nat) (hb : Bip G vLeft vRight) (h0 : 0 < vLeft + vRight) :
    preProcessingChecked sort G vLeft vRight = some (preProcessing sort G vLeft vRight) ∧
      Bip (preProcessing sort G vLeft vRight).1 (preProcessing sort G vLeft vRight).2.1
        (preProcessing sort G vLeft vRight).2.2 ∧
      (∀ k, k < (preProcessing sort G vLeft vRight).2.1
          + (preProcessing sort G vLeft vRight).2.2 →
        k ∉ nbrs (preProcessing sort G vLeft vRight).1 k) ∧
      (∀ k, k < (preProcessing sort G vLeft vRight).2.1
          + (preProcessing sort G vLeft vRight).2.2 →
        2 ≤ (nbrs (preProcessing sort G vLeft vRight).1 k).length) := by
  obtain ⟨hpre, hlen, -, -⟩ := preProcessingE_spec sort hs G vLeft vRight hb h0
  have hpre2 : Preprocessed (preProcessing sort G vLeft vRight).1
      (preProcessing sort G vLeft vRight).2.1 := hpre
  have hlen2 : (preProcessing sort G vLeft vRight).1.length
      = (preProcessing sort G vLeft vRight).2.1 + (preProcessing sort G vLeft vRight).2.2 :=
    hlen
  have hbip : Bip (preProcessing sort G vLeft vRight).1
      (preProcessing sort G vLeft vRight).2.1 (preProcessing sort G vLeft vRight).2.2 :=
    ⟨hlen2, by rw [← hlen2]; exact hpre2.size_lt,
      fun a ha x hx => by rw [← hlen2]; exact hpre2.left_nbrs a ha x hx,
      fun x hx1 hx2 a ha => hpre2.right_nbrs x (by rw [hlen2]; exact hx2) hx1 a ha,
      fun u hu v hv => hpre2.symm u (by rw [hlen2]; exact hu) v hv,
      fun u _ => hpre2.nodup u⟩
  refine ⟨preProcessingChecked_eq sort G vLeft vRight hb.symmSimple h0, hbip, ?_,
    fun k hk => preProcessing_mindeg sort hs G vLeft vRight hb h0 k hk⟩
  intro k hk hmem
  by_cases h1 : k < (preProcessing sort G vLeft vRight).2.1
  · have := (hbip.left_nbrs k h1 k hmem).1
    omega
  · have := hbip.right_nbrs k (by omega) hk k hmem
    omega

theorem C16_invariants_preserved_witness :
    Sorter.Valid insertionSorter ∧ Bip pendantHexagon 3 4 ∧
      Bip (preProcessing insertionSorter pendantHexagon 3 4).1
        (preProcessing insertionSorter pendantHexagon 3 4).2.1
        (preProcessing insertionSorter pendantHexagon 3 4).2.2 ∧
      (∀ k, k < (preProcessing insertionSorter pendantHexagon 3 4).2.1
          + (preProcessing insertionSorter pendantHexagon 3 4).2.2 →
        2 ≤ (nbrs (preProcessing insertionSorter pendantHexagon 3 4).1 k).length) :=
  ⟨insertionSorter_valid, ⟨by decide, by decide, by decide, by decide, by decide, by decide⟩,
    (C16_invariants_preserved insertionSorter insertionSorter_valid pendantHexagon 3 4
      ⟨by decide, by decide, by decide, by decide, by decide, by decide⟩ (by decide)).2.1,
    (C16_invariants_preserved insertionSorter insertionSorter_valid pendantHexagon 3 4
      ⟨by decide, by decide, by decide, by decide, by decide, by decide⟩ (by decide)).2.2.2⟩

end Induced6

namespace Induced6
open Finset

/-- In a symmetric simple graph in which every vertex has at least 2 neighbours every vertex
survives. -/
theorem coreSet_full (G : Graph) (vL vR : Nat) (hg : SymmSimple G (vL + vR))
    (h0 : 0 < vL + vR) (hd : ∀ k, k < vL + vR → 2 ≤ (nbrs G k).length) :
    coreSet G vL vR = range (vL + vR) := by
  obtain ⟨hC, -⟩ := compute2Core_spec G vL vR hg h0
  apply Finset.Subset.antisymm
  · intro x hx
    exact Finset.mem_range.mpr (hC.1 x hx).1
  · apply hC.2
    intro x hx
    rw [Finset.mem_range] at hx
    refine ⟨hx, ?_⟩
    have : (nbrs G x).countP (fun y => decide (y ∈ range (vL + vR))) = (nbrs G x).length := by
      rw [List.countP_eq_length]
      intro y hy
      exact decide_eq_true (Finset.mem_range.mpr (hg.bound x hx y hy))
    rw [this]
    exact hd x hx

/-- C17 (failing input). The example dataset `3 2 2 / 0 0 / 0 1 / 1 0` is a simple symmetric
bipartite graph whose 2-core is empty: `Obtain2Core` returns the graph without vertices and
`vLeft = vRight = 0`. In a second run on this result the vector `newID` of `Compute2Core` is
empty, and the statement `--newID[0]` has no entry 0 to decrement. -/
theorem C17_empty_core_rerun :
    Bip exampleDataset 2 2 ∧ Obtain2Core exampleDataset 2 2 = ([], 0, 0) ∧
      Obtain2CoreChecked exampleDataset 2 2 = some ([], 0, 0) ∧
      (coreLoop [] 0 0).newID = [] ∧ Obtain2CoreChecked [] 0 0 = none :=
  ⟨⟨by decide, by decide, by decide, by decide, by decide, by decide⟩, by decide, by decide,
    by decide, by decide⟩

/-- C17. 2-core idempotence, where the 2-core is not empty: for every simple symmetric
bipartite graph with at least one vertex whose 2-core has a vertex, a second run of
`Obtain2Core`, on the result of the first, stays within the bounds of `newID`, removes no
vertex and returns the same graph with the same `vLeft` and `vRight`. -/
theorem C17_Obtain2Core_idempotent (G : Graph) (vLeft vRight : Nat)
    (hb : Bip G vLeft vRight) (h0 : 0 < vLeft + vRight)
    (hne : 0 < (Obtain2Core G vLeft vRight).2.1 + (Obtain2Core G vLeft vRight).2.2) :
    Obtain2CoreChecked (Obtain2Core G vLeft vRight).1 (Obtain2Core G vLeft vRight).2.1
        (Obtain2Core G vLeft vRight).2.2 = some (Obtain2Core G vLeft vRight) ∧
      Obtain2Core (Obtain2Core G vLeft vRight).1 (Obtain2Core G vLeft vRight).2.1
        (Obtain2Core G vLeft vRight).2.2 = Obtain2Core G vLeft vRight ∧
      coreSet (Obtain2Core G vLeft vRight).1 (Obtain2Core G vLeft vRight).2.1
        (Obtain2Core G vLeft vRight).2.2
        = range ((Obtain2Core G vLeft vRight).2.1 + (Obtain2Core G vLeft vRight).2.2) := by
  obtain ⟨hb1, -⟩ := obtain2Core_spec G vLeft vRight hb h0
  have hidem := obtain2Core_idem G vLeft vRight hb h0 hne
  refine ⟨?_, hidem, ?_⟩
  · rw [obtain2CoreChecked_eq _ _ _ hb1.symmSimple hne, hidem]
  · exact coreSet_full _ _ _ hb1.symmSimple hne
      (obtain2Core_mindeg G vLeft vRight hb.symmSimple h0)

theorem C17_Obtain2Core_idempotent_witness :
    Bip gappedHexagon 4 4 ∧
      Obtain2Core gappedHexagon 4 4
        = ([[3, 4], [3, 5], [4, 5], [0, 1], [0, 2], [1, 2]], 3, 3) ∧
      (Obtain2CoreChecked (Obtain2Core gappedHexagon 4 4).1 (Obtain2Core gappedHexagon 4 4).2.1
          (Obtain2Core gappedHexagon 4 4).2.2 = some (Obtain2Core gappedHexagon 4 4) ∧
        Obtain2Core (Obtain2Core gappedHexagon 4 4).1 (Obtain2Core gappedHexagon 4 4).2.1
          (Obtain2Core gappedHexagon 4 4).2.2 = Obtain2Core gappedHexagon 4 4 ∧
        coreSet (Obtain2Core gappedHexagon 4 4).1 (Obtain2Core gappedHexagon 4 4).2.1
          (Obtain2Core gappedHexagon 4 4).2.2
          = range ((Obtain2Core gappedHexagon 4 4).2.1
              + (Obtain2Core gappedHexagon 4 4).2.2)) :=
  ⟨⟨by decide, by decide, by decide, by decide, by decide, by decide⟩, by decide,
    C17_Obtain2Core_idempotent gappedHexagon 4 4
      ⟨by decide, by decide, by decide, by decide, by decide, by decide⟩ (by decide)
      (by decide)⟩

/-- C18. Permutation invariance: let `G` and `G2` be simple symmetric bipartite graphs on
the same sides, let `f` permute the left ids and permute the right ids, and let
`(f l, f r)` be an edge of `G2` exactly when `(l, r)` is an edge of `G`. When the 2-core of
`G` has at least 3 vertices on each side, so has that of `G2` (the sizes after the
preprocessing agree), and the program TJ (`preProcessing` followed by `getCount`) returns
the same count on both, whatever admissible outcome each run of the sort gives: the number
of induced 6-cycles of `G` modulo `2^64`. -/
theorem C18_permutation_invariance (sort sort2 : Sorter) (hs : sort.Valid)
    (hs2 : sort2.Valid) (G G2 : Graph) (vLeft vRight : Nat) (hb : Bip G vLeft vRight)
    (hb2 : Bip G2 vLeft vRight) (f : Nat → Nat)
    (hfL : ∀ l, l < vLeft → f l < vLeft)
    (hfR : ∀ r, vLeft ≤ r → r < vLeft + vRight → vLeft ≤ f r ∧ f r < vLeft + vRight)
    (hinj : ∀ u, u < vLeft + vRight → ∀ v, v < vLeft + vRight → f u = f v → u = v)
    (hadj : ∀ l, l < vLeft → ∀ r, vLeft ≤ r → r < vLeft + vRight →
      adj G2 (f l) (f r) = adj G l r)
    (h3 : 3 ≤ (Obtain2Core G vLeft vRight).2.1 ∧ 3 ≤ (Obtain2Core G vLeft vRight).2.2) :
    TJ.main sort2 G2 vLeft vRight = TJ.main sort G vLeft vRight ∧
      TJ.main sort G vLeft vRight = u64 (countInduced6 G vLeft) ∧
      countInduced6 G2 vLeft = countInduced6 G vLeft ∧
      (preProcessing sort2 G2 vLeft vRight).2.1 = (preProcessing sort G vLeft vRight).2.1 ∧
      (preProcessing sort2 G2 vLeft vRight).2.2 = (preProcessing sort G vLeft vRight).2.2 ∧
      3 ≤ (preProcessing sort G vLeft vRight).2.1 := by
  have h0 : 0 < vLeft + vRight := pos_of_core G vLeft vRight hb (by omega)
  obtain ⟨s1, s2, hc⟩ := relabel_invariant G G2 vLeft vRight hb hb2 h0 f hfL hfR hinj
    (fun l r hl hr1 hr2 => hadj l hl r hr1 hr2)
  have hv1 := pre_vLeft_eq sort G vLeft vRight
  have hv2 := pre_vLeft_eq sort2 G2 vLeft vRight
  have hw1 : (preProcessing sort G vLeft vRight).2.2
      = max (Obtain2Core G vLeft vRight).2.1 (Obtain2Core G vLeft vRight).2.2 := by
    show (balance (Obtain2Core G vLeft vRight)).2.2 = _
    unfold balance
    by_cases h : (Obtain2Core G vLeft vRight).2.1 > (Obtain2Core G vLeft vRight).2.2
    · rw [if_pos h]; simp only; omega
    · rw [if_neg h]; omega
  have hw2 : (preProcessing sort2 G2 vLeft vRight).2.2
      = max (Obtain2Core G2 vLeft vRight).2.1 (Obtain2Core G2 vLeft vRight).2.2 := by
    show (balance (Obtain2Core G2 vLeft vRight)).2.2 = _
    unfold balance
    by_cases h : (Obtain2Core G2 vLeft vRight).2.1 > (Obtain2Core G2 vLeft vRight).2.2
    · rw [if_pos h]; simp only; omega
    · rw [if_neg h]; omega
  have h31 : 3 ≤ (preProcessing sort G vLeft vRight).2.1 := by rw [hv1]; omega
  have h32 : 3 ≤ (preProcessing sort2 G2 vLeft vRight).2.1 := by rw [hv2, s1, s2]; omega
  have t1 := tj_main_count sort hs G vLeft vRight hb h0 h31
  have t2 := tj_main_count sort2 hs2 G2 vLeft vRight hb2 h0 h32
  refine ⟨by rw [t1, t2, hc], t1, hc, by rw [hv1, hv2, s1, s2], by rw [hw1, hw2, s1, s2], h31⟩

theorem C18_permutation_invariance_witness :
    Sorter.Valid insertionSorter ∧ Bip hexagon 3 3 ∧ Bip hexagonPermuted 3 3 ∧
      TJ.main insertionSorter hexagonPermuted 3 3 = TJ.main insertionSorter hexagon 3 3 ∧
      TJ.main insertionSorter hexagon 3 3 = 1 :=
  ⟨insertionSorter_valid, ⟨by decide, by decide, by decide, by decide, by decide, by decide⟩,
    ⟨by decide, by decide, by decide, by decide, by decide, by decide⟩,
    (C18_permutation_invariance insertionSorter insertionSorter insertionSorter_valid
      insertionSorter_valid hexagon hexagonPermuted 3 3
      ⟨by decide, by decide, by decide, by decide, by decide, by decide⟩
      ⟨by decide, by decide, by decide, by decide, by decide, by decide⟩
      (fun u => [1, 2, 0, 4, 3, 5].getD u 0) (by decide) (by decide) (by decide) (by decide)
      (by decide)).1,
    by decide⟩

/-- C19. Side-swap correctness: let `G` be a simple symmetric bipartite graph with sides
`vLeft` and `vRight` and `G2` the same graph with the roles of the sides reversed (the former
right vertex `r` is the left vertex `r - vLeft`, the former left vertex `l` the right vertex
`l + vRight`). When the 2-core of `G` has at least 3 vertices on each side, the sizes after
the preprocessing agree and the program TJ returns the same count on both, whatever
admissible outcome each run of the sort gives: the number of induced 6-cycles of `G` modulo
`2^64`. -/
theorem C19_side_swap (sort sort2 : Sorter) (hs : sort.Valid) (hs2 : sort2.Valid)
    (G G2 : Graph) (vLeft vRight : Nat) (hb : Bip G vLeft vRight)
    (hb2 : Bip G2 vRight vLeft)
    (hrev : ∀ l, l < vLeft → ∀ r, vLeft ≤ r → r < vLeft + vRight →
      adj G2 (r - vLeft) (l + vRight) = adj G l r)
    (h3 : 3 ≤ (Obtain2Core G vLeft vRight).2.1 ∧ 3 ≤ (Obtain2Core G vLeft vRight).2.2) :
    TJ.main sort2 G2 vRight vLeft = TJ.main sort G vLeft vRight ∧
      TJ.main sort G vLeft vRight = u64 (countInduced6 G vLeft) ∧
      countInduced6 G2 vRight = countInduced6 G vLeft ∧
      (preProcessing sort2 G2 vRight vLeft).2.1 = (preProcessing sort G vLeft vRight).2.1 ∧
      (preProcessing sort2 G2 vRight vLeft).2.2 = (preProcessing sort G vLeft vRight).2.2 := by
  have h0 : 0 < vLeft + vRight := pos_of_core G vLeft vRight hb (by omega)
  obtain ⟨s1, s2, hc⟩ := reverse_invariant G G2 vLeft vRight hb hb2 h0
    (fun l r hl hr1 hr2 => hrev l hl r hr1 hr2)
  have hv1 := pre_vLeft_eq sort G vLeft vRight
  have hv2 := pre_vLeft_eq sort2 G2 vRight vLeft
  have hw1 : (preProcessing sort G vLeft vRight).2.2
      = max (Obtain2Core G vLeft vRight).2.1 (Obtain2Core G vLeft vRight).2.2 := by
    show (balance (Obtain2Core G vLeft vRight)).2.2 = _
    unfold balance
    by_cases h : (Obtain2Core G vLeft vRight).2.1 > (Obtain2Core G vLeft vRight).2.2
    · rw [if_pos h]; simp only; omega
    · rw [if_neg h]; omega
  have hw2 : (preProcessing sort2 G2 vRight vLeft).2.2
      = max (Obtain2Core G2 vRight vLeft).2.1 (Obtain2Core G2 vRight vLeft).2.2 := by
    show (balance (Obtain2Core G2 vRight vLeft)).2.2 = _
    unfold balance
    by_cases h : (Obtain2Core G2 vRight vLeft).2.1 > (Obtain2Core G2 vRight vLeft).2.2
    · rw [if_pos h]; simp only; omega
    · rw [if_neg h]; omega
  have h31 : 3 ≤ (preProcessing sort G vLeft vRight).2.1 := by rw [hv1]; omega
  have h32 : 3 ≤ (preProcessing sort2 G2 vRight vLeft).2.1 := by rw [hv2, s1, s2]; omega
  have t1 := tj_main_count sort hs G vLeft vRight hb h0 h31
  have t2 := tj_main_count sort2 hs2 G2 vRight vLeft hb2 (by omega) h32
  refine ⟨by rw [t1, t2, hc], t1, hc, ?_, ?_⟩
  · rw [hv1, hv2, s1, s2]; exact Nat.min_comm _ _
  · rw [hw1, hw2, s1, s2]; exact Nat.max_comm _ _

theorem C19_side_swap_witness :
    Sorter.Valid insertionSorter ∧ Bip hexagonPlus 4 3 ∧ Bip hexagonPlusSwapped 3 4 ∧
      (preProcessing insertionSorter hexagonPlus 4 3).2.1 = 3 ∧
      TJ.main insertionSorter hexagonPlusSwapped 3 4
        = TJ.main insertionSorter hexagonPlus 4 3 ∧
      TJ.main insertionSorter hexagonPlus 4 3 = 2 :=
  ⟨insertionSorter_valid, ⟨by decide, by decide, by decide, by decide, by decide, by decide⟩,
    ⟨by decide, by decide, by decide, by decide, by decide, by decide⟩, by decide,
    (C19_side_swap insertionSorter insertionSorter insertionSorter_valid
      insertionSorter_valid hexagonPlus hexagonPlusSwapped 4 3
      ⟨by decide, by decide, by decide, by decide, by decide, by decide⟩
      ⟨by decide, by decide, by decide, by decide, by decide, by decide⟩
      (by decide) (by decide)).1,
    by decide⟩

end Induced6

namespace Induced6
open Finset

theorem sumApply_eq (v : Nat) (r : List Nat) : Sum.apply (u64 v) r = u64 (v + r.sum) := by
  have h := foldl_u64_add (fun x => x) r v
  have e : r.map (fun x => x) = r := List.map_id r
  rw [e] at h
  exact h

/-- The value of a `Sum` body is the sum modulo `2^64` of the elements that went into it. -/
theorem reduction_value (r : Reduction) : r.value = u64 r.elems.sum := by
  induction r with
  | fresh => rfl
  | splitOff _ _ => rfl
  | block b l ih =>
    show Sum.apply b.value l = u64 (b.elems ++ l).sum
    rw [ih, sumApply_eq, List.sum_append]
  | merge l r ihl ihr =>
    show Sum.join l.value r.value = u64 (l.elems ++ r.elems).sum
    rw [ihl, ihr, List.sum_append]
    unfold Sum.join
    rw [u64_u64_add, u64_add_u64]

/-- C20. The reducer: whatever the blocks into which the sequence of counts is cut, whatever
bodies (the original `Sum` or bodies made by the splitting constructor) the blocks are
handed to, each body possibly taking several blocks, and in whatever order the bodies are
merged by `join`, when the blocks together hold the elements of the sequence the final
`value` is the sum of the sequence modulo `2^64`, the value of the reduction run as one
block. -/
theorem C20_reducer_sum (counts : List Nat) (r : Reduction) (h : r.elems.Perm counts) :
    r.value = u64 counts.sum ∧ r.value = reduceCounts counts := by
  have h1 : r.value = u64 counts.sum := by rw [reduction_value, h.sum_eq]
  exact ⟨h1, by rw [h1, reduceCounts_eq]⟩

theorem C20_reducer_sum_witness :
    (Reduction.merge (.block (.merge (.block .fresh [7, 18446744073709551615])
        (.block (.splitOff .fresh) [3])) [5])
      (.block (.block (.splitOff (.splitOff .fresh)) [1]) [18446744073709551610])).value
      = u64 [1, 3, 5, 7, 18446744073709551610, 18446744073709551615].sum ∧
    (Reduction.merge (.block (.merge (.block .fresh [7, 18446744073709551615])
        (.block (.splitOff .fresh) [3])) [5])
      (.block (.block (.splitOff (.splitOff .fresh)) [1]) [18446744073709551610])).value
      = reduceCounts [1, 3, 5, 7, 18446744073709551610, 18446744073709551615] :=
  C20_reducer_sum [1, 3, 5, 7, 18446744073709551610, 18446744073709551615]
    (.merge (.block (.merge (.block .fresh [7, 18446744073709551615])
        (.block (.splitOff .fresh) [3])) [5])
      (.block (.block (.splitOff (.splitOff .fresh)) [1]) [18446744073709551610]))
    (by decide)

end Induced6

namespace Induced6

open Finset

/-- C21 (newline-terminated files): for a file made of the header line
`<edgeCount> <leftSize> <rightSize>` (decimal digits, one space between the numbers) and
edge lines `<leftVertexId> <rightVertexId>` with ids in range, every line ended by a
newline, with `leftSize + rightSize < 2^32` and fewer than `2^31` bytes, `readGraph`
returns the three numbers of the header and a graph of `vLeft + vRight` lists in which
`x` occurs in list `w` exactly when some edge line `u v` has `w = u` and `x = v + vLeft`,
or `w = v + vLeft` and `x = u`; the lists are filled in file order. -/
theorem C21_readGraph_terminated (dE dL dR : List Nat) (es : List (List Nat × List Nat))
    (hE : IsDigits dE) (hL : IsDigits dL) (hR : IsDigits dR)
    (hes : ∀ e ∈ es, IsDigits e.1 ∧ IsDigits e.2 ∧ numVal e.1 < numVal dL ∧
      numVal e.2 < numVal dR)
    (hvE : numVal dE < 4294967296) (hsum : numVal dL + numVal dR < 4294967296)
    (hlen : (datasetFile dE dL dR es).length < 2147483648) :
    ∃ G, readGraph (datasetFile dE dL dR es) = some (G, numVal dE, numVal dL, numVal dR) ∧
      G = es.foldl (addEdge (numVal dL)) (List.replicate (numVal dL + numVal dR) []) ∧
      G.length = numVal dL + numVal dR ∧
      ∀ w x, x ∈ nbrs G w ↔
        ∃ e ∈ es, (w = numVal e.1 ∧ x = numVal e.2 + numVal dL) ∨
          (w = numVal e.2 + numVal dL ∧ x = numVal e.1) := by
  have hes2 : ∀ e ∈ es, IsDigits e.1 ∧ IsDigits e.2 ∧
      numVal e.1 < (List.replicate (numVal dL + numVal dR) ([] : List Nat)).length ∧
      numVal e.2 + numVal dL
        < (List.replicate (numVal dL + numVal dR) ([] : List Nat)).length := by
    intro e he
    have := hes e he
    rw [List.length_replicate]
    exact ⟨this.1, this.2.1, by omega, by omega⟩
  refine ⟨_, ?_, rfl, ?_, ?_⟩
  · unfold readGraph
    have hsz : u32 (datasetFile dE dL dR es).length = (datasetFile dE dL dR es).length :=
      Nat.mod_eq_of_lt (by omega)
    simp only [hsz, List.take_length]
    have hf : datasetFile dE dL dR es
        = dE ++ [32] ++ dL ++ [32] ++ dR ++ [10] ++ es.flatMap edgeLine := rfl
    have hl2 : (dE ++ [32] ++ dL ++ [32] ++ dR).length < 2147483648 := by
      rw [hf] at hlen
      simp only [List.length_append] at hlen ⊢
      omega
    rw [hf, header_line dE dL dR _ hE hL hR hvE (by omega) (by omega) hl2]
    simp only
    have hdrop : (dE ++ [32] ++ dL ++ [32] ++ dR ++ [10] ++ es.flatMap edgeLine).drop
        ((dE ++ [32] ++ dL ++ [32] ++ dR).length + 1) = es.flatMap edgeLine := by
      have : (dE ++ [32] ++ dL ++ [32] ++ dR).length + 1
          = (dE ++ [32] ++ dL ++ [32] ++ dR ++ [10]).length := by
        rw [List.length_append (dE ++ [32] ++ dL ++ [32] ++ dR) [10], List.length_singleton]
      rw [this, List.drop_left]
    have hu : u32 (numVal dL + numVal dR) = numVal dL + numVal dR := Nat.mod_eq_of_lt hsum
    rw [hdrop, hu, body_lines (numVal dL) es _ hes2 (by rw [List.length_replicate]; exact hsum)]
  · rw [foldl_addEdge_length, List.length_replicate]
  · intro w x
    rw [mem_foldl_addEdge (numVal dL) es _ (fun e he => (hes2 e he).2.2) w x]
    have hnil : ¬ x ∈ nbrs (List.replicate (numVal dL + numVal dR) ([] : List Nat)) w := by
      unfold nbrs
      rw [BTJ.getD_replicate_self]
      exact List.not_mem_nil x
    constructor
    · rintro (h | h)
      · exact absurd h hnil
      · exact h
    · intro h; exact Or.inr h

theorem C21_readGraph_terminated_witness :
    (IsDigits (bytesOf "3") ∧ IsDigits (bytesOf "2") ∧ IsDigits (bytesOf "2") ∧
      (∀ e ∈ [(bytesOf "0", bytesOf "0"), (bytesOf "0", bytesOf "1"),
          (bytesOf "1", bytesOf "0")],
        IsDigits e.1 ∧ IsDigits e.2 ∧ numVal e.1 < numVal (bytesOf "2") ∧
          numVal e.2 < numVal (bytesOf "2")) ∧
      datasetFile (bytesOf "3") (bytesOf "2") (bytesOf "2")
          [(bytesOf "0", bytesOf "0"), (bytesOf "0", bytesOf "1"), (bytesOf "1", bytesOf "0")]
        = bytesOf "3 2 2\n0 0\n0 1\n1 0\n" ∧
      readGraph (bytesOf "3 2 2\n0 0\n0 1\n1 0\n") = some (exampleDataset, 3, 2, 2)) ∧
    ∃ G, readGraph (datasetFile (bytesOf "3") (bytesOf "2") (bytesOf "2")
          [(bytesOf "0", bytesOf "0"), (bytesOf "0", bytesOf "1"), (bytesOf "1", bytesOf "0")])
        = some (G, numVal (bytesOf "3"), numVal (bytesOf "2"), numVal (bytesOf "2")) ∧
      G = [(bytesOf "0", bytesOf "0"), (bytesOf "0", bytesOf "1"),
          (bytesOf "1", bytesOf "0")].foldl (addEdge (numVal (bytesOf "2")))
            (List.replicate (numVal (bytesOf "2") + numVal (bytesOf "2")) []) ∧
      G.length = numVal (bytesOf "2") + numVal (bytesOf "2") ∧
      ∀ w x, x ∈ nbrs G w ↔
        ∃ e ∈ [(bytesOf "0", bytesOf "0"), (bytesOf "0", bytesOf "1"),
            (bytesOf "1", bytesOf "0")],
          (w = numVal e.1 ∧ x = numVal e.2 + numVal (bytesOf "2")) ∨
            (w = numVal e.2 + numVal (bytesOf "2") ∧ x = numVal e.1) :=
  ⟨⟨by decide, by decide, by decide, by decide, by decide, by decide⟩,
    C21_readGraph_terminated (bytesOf "3") (bytesOf "2") (bytesOf "2")
      [(bytesOf "0", bytesOf "0"), (bytesOf "0", bytesOf "1"), (bytesOf "1", bytesOf "0")]
      (by decide) (by decide) (by decide) (by decide) (by decide) (by decide) (by decide)⟩

/-- C21 (counterexample): the example dataset `3 2 2 / 0 0 / 0 1 / 1 0` whose last line is
not ended by a newline: `readGraph` stores an edge only when a byte other than a digit and
a space follows it, so the edge line `1 0` is lost: list 1 is empty and list 2 holds only
0, while the same file with the final newline gives the graph of the three edges. -/
theorem C21_last_edge_dropped :
    readGraph (bytesOf "3 2 2\n0 0\n0 1\n1 0") = some ([[2, 3], [], [0], [0]], 3, 2, 2) ∧
    readGraph (bytesOf "3 2 2\n0 0\n0 1\n1 0\n") = some ([[2, 3], [2], [0, 1], [0]], 3, 2, 2) ∧
    ¬ (2 ∈ nbrs [[2, 3], [], [0], [0]] 1) ∧ ¬ (1 ∈ nbrs [[2, 3], [], [0], [0]] 2) := by
  decide

end Induced6

namespace Induced6

open Finset

/-- C22. The pair key of strategy B: for vertex ids below `2^31` the key computed by the
32-bit and 64-bit arithmetic of the code is the triangular number of `v + w` plus the smaller
id, no part of it wraps, two pairs have the same key exactly when they are the same
unordered pair, and the key of `(v, w)` is the key of `(w, v)` without sorting the inputs. -/
theorem C22_pairKey_encoding (v w v2 w2 : Nat) (hv : v < 2147483648) (hw : w < 2147483648)
    (hv2 : v2 < 2147483648) (hw2 : w2 < 2147483648) :
    NJ.pairKey v w = (v + w) * (v + w + 1) / 2 + min v w ∧
      (NJ.pairKey v w = NJ.pairKey v2 w2 ↔ (v = v2 ∧ w = w2) ∨ (v = w2 ∧ w = v2)) ∧
      NJ.pairKey v w = NJ.pairKey w v := by
  refine ⟨NJ.pairKey_eq v w hv hw, ⟨NJ.pairKey_inj v w v2 w2 hv hw hv2 hw2, ?_⟩,
    NJ.pairKey_comm v w⟩
  rintro (⟨rfl, rfl⟩ | ⟨rfl, rfl⟩)
  · rfl
  · exact NJ.pairKey_comm _ _

theorem C22_pairKey_encoding_witness :
    NJ.pairKey 2147483647 5 = (2147483647 + 5) * (2147483647 + 5 + 1) / 2 + min 2147483647 5 ∧
      (NJ.pairKey 2147483647 5 = NJ.pairKey 5 2147483647 ↔
        (2147483647 = 5 ∧ 5 = 2147483647) ∨ (2147483647 = 2147483647 ∧ 5 = 5)) ∧
      NJ.pairKey 2147483647 5 = NJ.pairKey 5 2147483647 :=
  C22_pairKey_encoding 2147483647 5 5 2147483647 (by decide) (by decide) (by decide)
    (by decide)

/-- C28. The two overloads of `preProcessing` agree: for every input, every sizes and every
outcome of the sort, `preProcessing(G, vLeft, vRight, E)` returns the graph and the sizes
that `preProcessing(G, vLeft, vRight)` returns; and on a simple symmetric bipartite graph
with at least one vertex it returns the `E` of the loop over the left vertices alone, which
is the `E` on which strategies B, C and D count. -/
theorem C28_overloads_agree (sort : Sorter) (G : Graph) (vLeft vRight : Nat) :
    ((preProcessingWithE sort G vLeft vRight).1, (preProcessingWithE sort G vLeft vRight).2.1,
        (preProcessingWithE sort G vLeft vRight).2.2.1) = preProcessing sort G vLeft vRight ∧
      (Bip G vLeft vRight → 0 < vLeft + vRight →
        preProcessingWithE sort G vLeft vRight = preProcessingE sort G vLeft vRight) := by
  have h1 : ((preProcessingWithE sort G vLeft vRight).1,
      (preProcessingWithE sort G vLeft vRight).2.1,
      (preProcessingWithE sort G vLeft vRight).2.2.1) = preProcessing sort G vLeft vRight := by
    refine Prod.ext ?_ rfl
    show (((List.range _).foldl (relabelStepE _ _ _) _).1).map sortDesc = _
    rw [relabelStepE_fst]
    rfl
  refine ⟨h1, ?_⟩
  intro hb h0
  obtain ⟨hb1, -⟩ := obtain2Core_spec G vLeft vRight hb h0
  obtain ⟨hbb, -⟩ := balance_spec _ _ _ hb1
  have hbb2 : Bip (balance (Obtain2Core G vLeft vRight)).1
      (balance (Obtain2Core G vLeft vRight)).2.1
      (balance (Obtain2Core G vLeft vRight)).2.2 := hbb
  have hu : u32 ((balance (Obtain2Core G vLeft vRight)).2.1
      + (balance (Obtain2Core G vLeft vRight)).2.2)
      = (balance (Obtain2Core G vLeft vRight)).2.1
        + (balance (Obtain2Core G vLeft vRight)).2.2 := Nat.mod_eq_of_lt hbb2.size_lt
  have h2 : (preProcessingWithE sort G vLeft vRight).2.2.2
      = (preProcessingE sort G vLeft vRight).2.2.2 := by
    show ((List.range _).foldl (relabelStepE _ _ _) _).2 = _
    rw [relabelStepE_snd _ _ _ _ (by rw [hu]; omega)]
    rfl
  have e1 := congrArg Prod.fst h1
  have e2 := congrArg (fun p => p.2.1) h1
  have e3 := congrArg (fun p => p.2.2) h1
  exact Prod.ext e1 (Prod.ext e2 (Prod.ext e3 h2))

theorem C28_overloads_agree_witness :
    Bip chorded 3 3 ∧
      preProcessingWithE insertionSorter chorded 3 3
        = ([[5, 3], [5, 4], [5, 4, 3], [2, 0], [2, 1], [2, 1, 0]], 3, 3,
            [[3, 5], [4, 5], [3, 4, 5]]) ∧
      preProcessingWithE insertionSorter chorded 3 3
        = preProcessingE insertionSorter chorded 3 3 :=
  ⟨⟨by decide, by decide, by decide, by decide, by decide, by decide⟩, by decide,
    (C28_overloads_agree insertionSorter chorded 3 3).2
      ⟨by decide, by decide, by decide, by decide, by decide, by decide⟩ (by decide)⟩

end Induced6

namespace Induced6

open Finset

namespace BTJ

/-- C23 (amended): for a preprocessed graph with `vLeft ≥ 3` and a batch width
`partition_size ≥ 1` with `partition_size + vLeft ≤ 2^32`, in every state `st` in which the
`while` loop of `BTJ::getCount` is entered, after the first `parallel_for`: for every
`a ≤ a_end` and every `c > a` with `c ≥ c_start`, `ACs[a]` maps `c` to the number of
neighbours of `a` adjacent to `c` when it is positive and has no entry for `c` otherwise;
`ACs[a]` has no key below `c_start`; `1 ≤ b_start ≤ b_end ≤ a_end + 1`, `b_end ≤ vLeft - 2`,
`a_end ≤ vLeft - 3` and `c_start = b_start + 1`; so every pair `a < b < c` of a `b` of the
batch is covered. The first batch is entered. -/
theorem C23_ACs_batch_invariant (G : Graph) (vLeft ps num_threads : Nat) (pid : Nat → Nat)
    (h : Preprocessed G vLeft) (h3 : 3 ≤ vLeft) (hps : 1 ≤ ps)
    (hwrap : ps + vLeft ≤ 4294967296) (hpid : ∀ b, pid b < num_threads)
    (hsz : num_threads * vLeft < 4294967296) :
    initBatch num_threads vLeft ps
        ∈ batchHeads G vLeft ps pid 4294967297 (initBatch num_threads vLeft ps) ∧
    ∀ st ∈ batchHeads G vLeft ps pid 4294967297 (initBatch num_threads vLeft ps),
      (∀ a, a ≤ st.a_end → ∀ c, a < c → st.c_start ≤ c →
        (countingACs G st).getD a HMap.empty c
          = if 0 < wedges G a c then some (wedges G a c) else none) ∧
      (∀ a, a ≤ st.a_end → ∀ k, k < st.c_start →
        (countingACs G st).getD a HMap.empty k = none) ∧
      (1 ≤ st.b_start ∧ st.b_start ≤ st.b_end ∧ st.b_end ≤ st.a_end + 1 ∧
        st.b_end ≤ vLeft - 2 ∧ st.a_end ≤ vLeft - 3 ∧ st.c_start = st.b_start + 1) ∧
      (∀ b, st.b_start ≤ b → b ≤ st.b_end → ∀ a c, a < b → b < c →
        (countingACs G st).getD a HMap.empty c
          = if 0 < wedges G a c then some (wedges G a c) else none) := by
  have hs2 : sub32 vLeft 2 = vLeft - 2 := sub32_of_le (by omega) (by omega)
  have hinit := initBatch_inv G vLeft h3 ps hps hwrap num_threads hsz
  constructor
  · show _ ∈ batchHeads G vLeft ps pid (4294967296 + 1) _
    rw [batchHeads, hs2, if_pos (show (initBatch num_threads vLeft ps).b_start ≤ vLeft - 2 by
      show 1 ≤ vLeft - 2; omega)]
    exact List.mem_cons_self _ _
  · intro st hst
    obtain ⟨hi, hb⟩ := batchHeads_inv h h3 ps hps hwrap pid num_threads hpid hsz _ _ hinit st hst
    have hae := hi.ae_eq
    have hbe := hi.be_eq
    have hcs := hi.cs_eq
    have hbs := hi.bs_pos
    have hae2 : st.a_end ≤ vLeft - 3 := by rw [hae]; exact Nat.min_le_right _ _
    have hae3 : st.b_start ≤ st.a_end + 2 := by rw [hae, Nat.min_def]; split_ifs <;> omega
    have hbe2 : st.b_end ≤ vLeft - 2 := by rw [hbe]; exact Nat.min_le_right _ _
    have hbe3 : st.b_end ≤ st.a_end + 1 := by rw [hbe]; exact Nat.min_le_left _ _
    have hbe4 : st.b_start ≤ st.b_end := by rw [hbe, Nat.min_def]; split_ifs <;> omega
    have hu1 : u32 (st.a_end + 1) = st.a_end + 1 := Nat.mod_eq_of_lt (by omega)
    have hacs := updateAC_fold h st.b_start st.c_start st.a_end st.ACs hbs (by omega) hi.acs
      hae3
    have hmain : ∀ a, a ≤ st.a_end → ∀ c, a < c → st.c_start ≤ c →
        (countingACs G st).getD a HMap.empty c
          = if 0 < wedges G a c then some (wedges G a c) else none := by
      intro a ha c hac hc
      unfold countingACs
      rw [hu1, (hacs.2 a (by omega)).1 (by omega) c hc]
      unfold wedgeMap
      by_cases hw : 0 < wedges G a c
      · rw [if_pos ⟨hac, hw⟩, if_pos hw]
      · rw [if_neg (fun hh => hw hh.2), if_neg hw]
    refine ⟨hmain, ?_, ⟨hbs, hbe4, hbe3, hbe2, hae2, hcs⟩, ?_⟩
    · intro a ha k hk
      unfold countingACs
      rw [hu1]
      exact updateAC_fold_low h st.b_start st.c_start st.a_end st.ACs hbs (by omega) hi.acs
        a ha (by omega) k hk
    · intro b hb1 hb2 a c hab hbc
      exact hmain a (by omega) c (by omega) (by omega)

theorem C23_ACs_batch_invariant_witness :
    (Preprocessed hexagonPre 3 ∧ 3 ≤ 3 ∧ 1 ≤ 1 ∧ 1 + 3 ≤ 4294967296 ∧
      (∀ b : Nat, (fun _ => 0) b < 1) ∧ 1 * 3 < 4294967296) ∧
    (initBatch 1 3 1 ∈ batchHeads hexagonPre 3 1 (fun _ => 0) 4294967297 (initBatch 1 3 1) ∧
    ∀ st ∈ batchHeads hexagonPre 3 1 (fun _ => 0) 4294967297 (initBatch 1 3 1),
      (∀ a, a ≤ st.a_end → ∀ c, a < c → st.c_start ≤ c →
        (countingACs hexagonPre st).getD a HMap.empty c
          = if 0 < wedges hexagonPre a c then some (wedges hexagonPre a c) else none) ∧
      (∀ a, a ≤ st.a_end → ∀ k, k < st.c_start →
        (countingACs hexagonPre st).getD a HMap.empty k = none) ∧
      (1 ≤ st.b_start ∧ st.b_start ≤ st.b_end ∧ st.b_end ≤ st.a_end + 1 ∧
        st.b_end ≤ 3 - 2 ∧ st.a_end ≤ 3 - 3 ∧ st.c_start = st.b_start + 1) ∧
      (∀ b, st.b_start ≤ b → b ≤ st.b_end → ∀ a c, a < b → b < c →
        (countingACs hexagonPre st).getD a HMap.empty c
          = if 0 < wedges hexagonPre a c then some (wedges hexagonPre a c) else none)) :=
  ⟨⟨hexagonPre_preprocessed, by decide, by decide, by decide, fun _ => Nat.zero_lt_one, by decide⟩,
    C23_ACs_batch_invariant hexagonPre 3 1 1 (fun _ => 0) hexagonPre_preprocessed (by decide)
      (by decide) (by decide) (fun _ => Nat.zero_lt_one) (by decide)⟩

/-- C23 (counterexample): on the preprocessed 6-cycle with `partition_size = 2^32 - 1` the
loop body is entered a second time with `b_start = 0` (wrapped), `a_end = 0` and
`c_start = 1`; the test `a < b_start - 1` then wraps and sends `a = 0` to the erase branch,
so after the first `parallel_for` the map `ACs[0]` still has no entry for `c = 1`, although
`1 > 0`, `1 ≥ c_start` and the vertices 0 and 1 have one common neighbour. -/
theorem C23_stale_map_counterexample :
    Preprocessed hexagonPre 3 ∧
    batchStep hexagonPre 3 4294967295 (fun _ => 0) (initBatch 1 3 4294967295)
        ∈ batchHeads hexagonPre 3 4294967295 (fun _ => 0) 4294967297
            (initBatch 1 3 4294967295) ∧
    (batchStep hexagonPre 3 4294967295 (fun _ => 0) (initBatch 1 3 4294967295)).a_end = 0 ∧
    (batchStep hexagonPre 3 4294967295 (fun _ => 0) (initBatch 1 3 4294967295)).b_start = 0 ∧
    (batchStep hexagonPre 3 4294967295 (fun _ => 0) (initBatch 1 3 4294967295)).c_start = 1 ∧
    wedges hexagonPre 0 1 = 1 ∧
    (countingACs hexagonPre
      (batchStep hexagonPre 3 4294967295 (fun _ => 0) (initBatch 1 3 4294967295))).getD 0
        HMap.empty 1 = none := by
  refine ⟨hexagonPre_preprocessed, ?_, by decide, by decide, by decide, by decide, by decide⟩
  show _ ∈ batchHeads hexagonPre 3 4294967295 (fun _ => 0) (4294967295 + 1 + 1) _
  rw [batchHeads, if_pos (by decide), batchHeads, if_pos (by decide)]
  exact List.mem_cons_of_mem _ (List.mem_cons_self _ _)

end BTJ

end Induced6

namespace Induced6

open Finset

namespace WJ

/-- C25 (amended): for a non-empty index range `[start, stop)` of the wedge sequence with
`stop ≤ 2^31`, ascending high endpoints, and `start > 0` or the first wedge of the range not
above `u`, `getm` returns, reads only indices of the range, returns true exactly when some
wedge of the range has high endpoint `u`, and then the wedge at `m` lies in the range and
has high endpoint `u`. -/
theorem C25_getm_binary_search (W : List Wedge) (start stop u m0 : Nat)
    (hne : start < stop) (hin : stop ≤ W.length) (h31 : stop ≤ 2147483648)
    (hsorted : ∀ j, j < stop → ∀ i, i ≤ j → start ≤ i →
      (wedgeAt W i).2.1 ≤ (wedgeAt W j).2.1)
    (hlow : 0 < start ∨ (wedgeAt W start).2.1 ≤ u) :
    ∃ found m, getm W start stop u m0 = some (found, m) ∧
      (∀ i ∈ getmTrace W start stop u, start ≤ i ∧ i < stop ∧ i < W.length) ∧
      (found = true ↔ ∃ j, start ≤ j ∧ j < stop ∧ (wedgeAt W j).2.1 = u) ∧
      (found = true → start ≤ m ∧ m < stop ∧ (wedgeAt W m).2.1 = u) := by
  have hsub : sub32 stop 1 = stop - 1 := sub32_of_le (by omega) (by omega)
  obtain ⟨found, m, e1, e2, e3, e4⟩ := getmLoop_full W u start stop
    (fun i j hi hij hj => hsorted j hj i hij hi) hlow h31 18446744073709551616 start
    (stop - 1) m0 (Nat.le_refl _) (by omega) (fun j hj1 hj2 => by omega)
    (fun j hj1 hj2 => by omega) (by omega)
  refine ⟨found, m, ?_, ?_, ?_, e3⟩
  · unfold getm; rw [hsub]; exact e1
  · intro i hi
    unfold getmTrace at hi
    rw [hsub] at hi
    have := e2 i hi
    omega
  · constructor
    · intro hf
      exact ⟨m, e3 hf⟩
    · rintro ⟨j, hj1, hj2, hj3⟩
      cases found with
      | true => rfl
      | false => exact absurd hj3 (e4 rfl j hj1 hj2)

theorem C25_getm_binary_search_witness :
    ∃ found m, getm [(0, 1, 4), (0, 2, 4), (0, 2, 5)] 0 3 2 0 = some (found, m) ∧
      (∀ i ∈ getmTrace [(0, 1, 4), (0, 2, 4), (0, 2, 5)] 0 3 2,
        0 ≤ i ∧ i < 3 ∧ i < [((0 : Nat), (1 : Nat), (4 : Nat)), (0, 2, 4), (0, 2, 5)].length) ∧
      (found = true ↔ ∃ j, 0 ≤ j ∧ j < 3 ∧
        (wedgeAt [(0, 1, 4), (0, 2, 4), (0, 2, 5)] j).2.1 = 2) ∧
      (found = true → 0 ≤ m ∧ m < 3 ∧ (wedgeAt [(0, 1, 4), (0, 2, 4), (0, 2, 5)] m).2.1 = 2) :=
  C25_getm_binary_search [(0, 1, 4), (0, 2, 4), (0, 2, 5)] 0 3 2 0 (by decide) (by decide)
    (by decide) (by decide) (Or.inr (by decide))

/-- C25 (counterexample): on the one-wedge range `[0, 1)` of `[(0, 5, 9)]`, which is
non-empty and ascending, the search for `u = 3` computes `r = m - 1` at `m = 0`, which wraps
to `4294967295`, and its second read is at index `2147483647`, outside the range. -/
theorem C25_getm_reads_outside :
    (0 < 1 ∧ 1 ≤ [((0 : Nat), (5 : Nat), (9 : Nat))].length ∧
      (∀ j, j < 1 → ∀ i, i ≤ j → 0 ≤ i →
        (wedgeAt [(0, 5, 9)] i).2.1 ≤ (wedgeAt [(0, 5, 9)] j).2.1)) ∧
      (getmTrace [(0, 5, 9)] 0 1 3).take 2 = [0, 2147483647] ∧
      ¬ (∀ i ∈ getmTrace [(0, 5, 9)] 0 1 3, 0 ≤ i ∧ i < 1) := by
  have h2 : (getmTrace [(0, 5, 9)] 0 1 3).take 2 = [0, 2147483647] := by decide
  refine ⟨⟨by decide, by decide, by decide⟩, h2, ?_⟩
  intro hall
  have hmem : 2147483647 ∈ (getmTrace [(0, 5, 9)] 0 1 3).take 2 := by
    rw [h2]; decide
  have := hall _ (List.mem_of_mem_take hmem)
  omega

/-- C24 (counterexample): the preprocessed graph `wideGraph 536870912` has 4 left vertices
and `3221225478` wedges with low endpoint below 3; its two-path counts ascend and every
vertex has at least 2 neighbours, as in a graph returned by the preprocessing. When the
scan over `partitions` runs one block per entry, the sum `2684354564` after entry 2 is
handed to the last block through an `int`: it comes back as `18446744072098938884`, and
`partitions[3]`, which is also the size given to `Wedges`, is `18446744072635809798`. -/
theorem C24_split_scan_counterexample :
    Preprocessed (wideGraph 536870912) 4 ∧ 2 ≤ 4 ∧
      (List.range 4).map (twoPath (wideGraph 536870912))
        = [1610612738, 1610612738, 1610612740, 1610612740] ∧
      (∀ k, k < (wideGraph 536870912).length → 2 ≤ (nbrs (wideGraph 536870912) k).length) ∧
      wedgesBelow (wideGraph 536870912) 3 = 3221225478 ∧
      rawPartitions (wideGraph 536870912) 4 = [0, 1610612738, 1073741826, 536870914] ∧
      carryInt 2684354564 = 18446744072098938884 ∧
      buildPartitions [1, 1, 1] (wideGraph 536870912) 4
        = [0, 1610612738, 2684354564, 18446744072635809798] ∧
      (buildPartitions [1, 1, 1] (wideGraph 536870912) 4).getD 3 0
        ≠ wedgesBelow (wideGraph 536870912) 3 := by
  have hp := wideGraph_preprocessed 536870912 (by norm_num)
  have hb := (wide_below 536870912).2.2.2
  have hraw : rawPartitions (wideGraph 536870912) 4
      = [0, 1610612738, 1073741826, 536870914] := by
    rw [rawPartitions_eq _ 4 (by norm_num) (by norm_num)]
    simp only [List.range_succ, List.range_zero, List.nil_append, List.cons_append,
      List.map_cons, List.map_nil, wedgeCount_eq, wide_wedges0, wide_wedges1, wide_wedges2]
    decide
  have hP : buildPartitions [1, 1, 1] (wideGraph 536870912) 4
      = [0, 1610612738, 2684354564, 18446744072635809798] := by
    unfold buildPartitions
    rw [hraw]
    decide
  refine ⟨hp, by decide, by rw [wide_twoPath], ?_, hb, hraw, by decide, hP, ?_⟩
  · intro k hk
    rw [wideGraph_length] at hk
    exact wide_mindeg 536870912 (by norm_num) k hk
  · rw [hP, hb]
    decide

/-- C24 (amended): on a preprocessed graph with `vLeft ≥ 2` and fewer than `2^31` wedges,
however the scan is split into blocks (or with fewer than `2^64` wedges when the scan runs
as one block), after the construction phase of `WJ::getCount` the vector `partitions` has
`vLeft` entries, `partitions[u]` is the number of wedges of `Wedges` whose low endpoint is
below `u` (so `partitions[0] = 0`), `Wedges` has `partitions[vLeft - 1]` entries, holds
exactly the triples `(u1, u2, v)` with `u1 < u2 < vLeft` and `v` adjacent to both, each
once, the wedge at an index has low endpoint `u1` exactly when the index lies in
`[partitions[u1], partitions[u1 + 1])`, and inside each such range the high endpoints are
ascending. -/
theorem C24_wedge_materialization (G : Graph) (vLeft : Nat) (cuts : List Nat)
    (h : Preprocessed G vLeft) (h2 : 2 ≤ vLeft)
    (hw : wedgesBelow G vLeft < 2147483648 ∨
      (cuts = [] ∧ wedgesBelow G vLeft < 18446744073709551616)) :
    (buildPartitions cuts G vLeft).length = vLeft ∧
    (buildPartitions cuts G vLeft).getD 0 0 = 0 ∧
    (∀ u, u < vLeft → (buildPartitions cuts G vLeft).getD u 0
      = (buildWedges G vLeft (buildPartitions cuts G vLeft)).countP
          (fun t => decide (t.1 < u))) ∧
    (buildWedges G vLeft (buildPartitions cuts G vLeft)).length
      = (buildPartitions cuts G vLeft).getD (vLeft - 1) 0 ∧
    (∀ t : Wedge, t ∈ buildWedges G vLeft (buildPartitions cuts G vLeft) ↔
      t.1 < t.2.1 ∧ t.2.1 < vLeft ∧ t.2.2 ∈ nbrs G t.1 ∧ t.2.2 ∈ nbrs G t.2.1) ∧
    (buildWedges G vLeft (buildPartitions cuts G vLeft)).Nodup ∧
    (∀ i, i < (buildWedges G vLeft (buildPartitions cuts G vLeft)).length →
      ∀ u1, u1 + 1 < vLeft →
        ((wedgeAt (buildWedges G vLeft (buildPartitions cuts G vLeft)) i).1 = u1 ↔
          (buildPartitions cuts G vLeft).getD u1 0 ≤ i ∧
            i < (buildPartitions cuts G vLeft).getD (u1 + 1) 0)) ∧
    (∀ u1, u1 + 1 < vLeft → ∀ i j, (buildPartitions cuts G vLeft).getD u1 0 ≤ i → i ≤ j →
      j < (buildPartitions cuts G vLeft).getD (u1 + 1) 0 →
      (wedgeAt (buildWedges G vLeft (buildPartitions cuts G vLeft)) i).2.1
        ≤ (wedgeAt (buildWedges G vLeft (buildPartitions cuts G vLeft)) j).2.1) := by
  have hv32 : vLeft < 4294967296 := Nat.lt_of_le_of_lt h.vLeft_le h.size_lt
  have e : buildPartitions cuts G vLeft = buildPartitions [] G vLeft := by
    rcases hw with hw | ⟨hc, -⟩
    · exact buildPartitions_cuts cuts G vLeft (by omega) hv32 hw
    · rw [hc]
  rw [e]
  exact materialization G vLeft h h2 (by rcases hw with hw | ⟨-, hw⟩ <;> omega)

theorem C24_wedge_materialization_witness :
    (Preprocessed hexagonPre 3 ∧ 2 ≤ 3 ∧ wedgesBelow hexagonPre 3 < 2147483648 ∧
      buildPartitions [1, 1] hexagonPre 3 = [0, 2, 3] ∧
      buildWedges hexagonPre 3 (buildPartitions [1, 1] hexagonPre 3)
        = [(0, 1, 3), (0, 2, 4), (1, 2, 5)]) ∧
    ((buildPartitions [1, 1] hexagonPre 3).length = 3 ∧
    (buildPartitions [1, 1] hexagonPre 3).getD 0 0 = 0 ∧
    (∀ u, u < 3 → (buildPartitions [1, 1] hexagonPre 3).getD u 0
      = (buildWedges hexagonPre 3 (buildPartitions [1, 1] hexagonPre 3)).countP
          (fun t => decide (t.1 < u))) ∧
    (buildWedges hexagonPre 3 (buildPartitions [1, 1] hexagonPre 3)).length
      = (buildPartitions [1, 1] hexagonPre 3).getD (3 - 1) 0 ∧
    (∀ t : Wedge, t ∈ buildWedges hexagonPre 3 (buildPartitions [1, 1] hexagonPre 3) ↔
      t.1 < t.2.1 ∧ t.2.1 < 3 ∧ t.2.2 ∈ nbrs hexagonPre t.1 ∧ t.2.2 ∈ nbrs hexagonPre t.2.1) ∧
    (buildWedges hexagonPre 3 (buildPartitions [1, 1] hexagonPre 3)).Nodup ∧
    (∀ i, i < (buildWedges hexagonPre 3 (buildPartitions [1, 1] hexagonPre 3)).length →
      ∀ u1, u1 + 1 < 3 →
        ((wedgeAt (buildWedges hexagonPre 3 (buildPartitions [1, 1] hexagonPre 3)) i).1 = u1 ↔
          (buildPartitions [1, 1] hexagonPre 3).getD u1 0 ≤ i ∧
            i < (buildPartitions [1, 1] hexagonPre 3).getD (u1 + 1) 0)) ∧
    (∀ u1, u1 + 1 < 3 → ∀ i j, (buildPartitions [1, 1] hexagonPre 3).getD u1 0 ≤ i → i ≤ j →
      j < (buildPartitions [1, 1] hexagonPre 3).getD (u1 + 1) 0 →
      (wedgeAt (buildWedges hexagonPre 3 (buildPartitions [1, 1] hexagonPre 3)) i).2.1
        ≤ (wedgeAt (buildWedges hexagonPre 3 (buildPartitions [1, 1] hexagonPre 3)) j).2.1)) :=
  ⟨⟨hexagonPre_preprocessed, by decide, by decide, by decide, by decide⟩,
    C24_wedge_materialization hexagonPre 3 [1, 1] hexagonPre_preprocessed (by decide)
      (Or.inl (by decide))⟩

/-- C26 (counterexample): the preprocessed graph `wideGraph 536870912` (ascending two-path
counts, every vertex with at least 2 neighbours) with the scan run as one block, so that `partitions` is `[0, 1610612738, 2684354564, 3221225478]` and `Wedges`
holds the wedges. For the wedge `w1 = (1, 2, 536870916)` and `u3 = 3`, reached through the
wedge `w2 = (2, 3, 536870918)` whose midpoint is not adjacent to 1 while the midpoint of
`w1` is not adjacent to 3, the search runs on `[1610612738, 2684354564)`: the sum `l + r`
wraps around in `uint32_t` and the first read is at index 2, below `partitions[1]`. -/
theorem C26_partition_wraps :
    Preprocessed (wideGraph 536870912) 4 ∧
      EdgeIndex (wideGraph 536870912) 4 (wideE 536870912) ∧
      (List.range 4).map (twoPath (wideGraph 536870912))
        = [1610612738, 1610612738, 1610612740, 1610612740] ∧
      (∀ k, k < (wideGraph 536870912).length → 2 ≤ (nbrs (wideGraph 536870912) k).length) ∧
      buildPartitions [] (wideGraph 536870912) 4
        = [0, 1610612738, 2684354564, 3221225478] ∧
      (∃ i, i < (buildWedges (wideGraph 536870912) 4
            (buildPartitions [] (wideGraph 536870912) 4)).length ∧
          wedgeAt (buildWedges (wideGraph 536870912) 4
            (buildPartitions [] (wideGraph 536870912) 4)) i = (1, 2, 536870916)) ∧
      ((2, 3, 536870918) ∈ buildWedges (wideGraph 536870912) 4
            (buildPartitions [] (wideGraph 536870912) 4) ∧
        536870918 ∉ nbrs (wideGraph 536870912) 1 ∧
        536870916 ∉ nbrs (wideGraph 536870912) 3) ∧
      (∃ rest, computeCReads (buildWedges (wideGraph 536870912) 4
            (buildPartitions [] (wideGraph 536870912) 4))
          (buildPartitions [] (wideGraph 536870912) 4) 1 3 = 2 :: rest) ∧
      ¬ ((buildPartitions [] (wideGraph 536870912) 4).getD 1 0 ≤ 2) := by
  have hp := wideGraph_preprocessed 536870912 (by norm_num)
  obtain ⟨-, b1, b2, b3⟩ := wide_below 536870912
  have hw4 : wedgesBelow (wideGraph 536870912) 4 < 18446744073709551616 := by
    have h4 : wedgesBelow (wideGraph 536870912) 4
        = wedgesBelow (wideGraph 536870912) 3 + (wedgeList (wideGraph 536870912) 3).length :=
      wedgesBelow_succ (wideGraph 536870912) 3
    have h3 : (wedgeList (wideGraph 536870912) 3).length = 0 := by
      have := sortedWedges_last hp 3 rfl
      rw [← length_sortedWedges, this]
      rfl
    omega
  have hraw : rawPartitions (wideGraph 536870912) 4
      = [0, 1610612738, 1073741826, 536870914] := by
    rw [rawPartitions_eq _ 4 (by norm_num) (by norm_num)]
    simp only [List.range_succ, List.range_zero, List.nil_append, List.cons_append,
      List.map_cons, List.map_nil, wedgeCount_eq, wide_wedges0, wide_wedges1, wide_wedges2]
    decide
  have hP : buildPartitions [] (wideGraph 536870912) 4
      = [0, 1610612738, 2684354564, 3221225478] := by
    unfold buildPartitions
    rw [hraw]
    decide
  obtain ⟨-, -, -, -, hmem, -, -, -⟩ := materialization (wideGraph 536870912) 4 hp
    (by norm_num) hw4
  have m1 : ((1 : Nat), (2 : Nat), (536870916 : Nat)) ∈ buildWedges (wideGraph 536870912) 4
      (buildPartitions [] (wideGraph 536870912) 4) := by
    rw [hmem]
    refine ⟨by decide, by decide, ?_, ?_⟩
    · show 536870916 ∈ nbrs (wideGraph 536870912) 1
      rw [nbrs_wideGraph _ _ (by norm_num), mem_wideNbrs]
      omega
    · show 536870916 ∈ nbrs (wideGraph 536870912) 2
      rw [nbrs_wideGraph _ _ (by norm_num), mem_wideNbrs]
      omega
  have m2 : ((2 : Nat), (3 : Nat), (536870918 : Nat)) ∈ buildWedges (wideGraph 536870912) 4
      (buildPartitions [] (wideGraph 536870912) 4) := by
    rw [hmem]
    refine ⟨by decide, by decide, ?_, ?_⟩
    · show 536870918 ∈ nbrs (wideGraph 536870912) 2
      rw [nbrs_wideGraph _ _ (by norm_num), mem_wideNbrs]
      omega
    · show 536870918 ∈ nbrs (wideGraph 536870912) 3
      rw [nbrs_wideGraph _ _ (by norm_num), mem_wideNbrs]
      omega
  refine ⟨hp, wideE_edgeIndex _, by rw [wide_twoPath], ?_, hP, ?_, ⟨m2, ?_, ?_⟩, ?_, ?_⟩
  · intro k hk
    rw [wideGraph_length] at hk
    exact wide_mindeg 536870912 (by norm_num) k hk
  · obtain ⟨i, hi, e⟩ := List.getElem_of_mem m1
    refine ⟨i, hi, ?_⟩
    unfold wedgeAt
    rw [List.getD_eq_getElem _ _ hi, e]
  · rw [nbrs_wideGraph _ _ (by norm_num), mem_wideNbrs]
    omega
  · rw [nbrs_wideGraph _ _ (by norm_num), mem_wideNbrs]
    omega
  · generalize buildWedges (wideGraph 536870912) 4
      (buildPartitions [] (wideGraph 536870912) 4) = W
    rw [hP]
    unfold computeCReads getmTrace
    obtain ⟨rest, e⟩ := getmReads_head W 3 18446744073709551615
      (u32 ([0, 1610612738, 2684354564, 3221225478].getD 1 0))
      (sub32 (u32 ([0, 1610612738, 2684354564, 3221225478].getD (1 + 1) 0)) 1) (by decide)
    have e2 : u32 (u32 ([0, 1610612738, 2684354564, 3221225478].getD 1 0)
        + sub32 (u32 ([0, 1610612738, 2684354564, 3221225478].getD (1 + 1) 0)) 1) / 2 = 2 := by
      decide
    rw [e2] at e
    have e3 : getmReads W 3 18446744073709551616
        (u32 ([0, 1610612738, 2684354564, 3221225478].getD 1 0))
        (sub32 (u32 ([0, 1610612738, 2684354564, 3221225478].getD (1 + 1) 0)) 1)
        = 2 :: rest := e
    rw [e3]
    exact ⟨_, rfl⟩
  · rw [hP]
    decide

/-- C26 (amended): in `WJ::getCount` on a preprocessed graph with fewer than `2^31` wedges,
however the scan is split into blocks, for every wedge `w1 = (u1, u2, v1)` of `Wedges` and
every left vertex `u3 > u2`: `getm` never computes `m - 1` at `m = 0`; a hit `m` lies
strictly above `partitions[u1]`; every index of `Wedges` read by the search and by the
forward and backward scans lies in `[partitions[u1], partitions[u1 + 1])` and holds a wedge
of low endpoint `u1`; the backward scan never decrements the index 0; and `c` is the number
of neighbours of `u1` adjacent to `u3` and not to `u2`. -/
theorem C26_scan_confinement (G : Graph) (vLeft : Nat) (E : Edges) (cuts P : List Nat)
    (W : List Wedge) (i u1 u2 v1 u3 : Nat)
    (h : Preprocessed G vLeft) (hE : EdgeIndex G vLeft E)
    (hw : wedgesBelow G vLeft < 2147483648)
    (hP : P = buildPartitions cuts G vLeft) (hW : W = buildWedges G vLeft P)
    (hi : i < W.length) (hw1 : wedgeAt W i = (u1, u2, v1)) (h23 : u2 < u3)
    (hu3 : u3 < vLeft) :
    (∀ m ∈ getmDecs W u3 18446744073709551616 (u32 (P.getD u1 0))
        (sub32 (u32 (P.getD (u1 + 1) 0)) 1), 0 < m) ∧
    (∀ found m, getm W (u32 (P.getD u1 0)) (u32 (P.getD (u1 + 1) 0)) u3 0 = some (found, m) →
      found = true → P.getD u1 0 < m ∧ m < P.getD (u1 + 1) 0) ∧
    (∀ j ∈ computeCReads W P u1 u3,
      P.getD u1 0 ≤ j ∧ j < P.getD (u1 + 1) 0 ∧ j < W.length ∧ (wedgeAt W j).1 = u1) ∧
    (∀ d ∈ computeCDecs W P u1 u3, 0 < d) ∧
    computeC W P E u1 u2 u3
      = some ((nbrs G u1).filter (fun x => adj G u3 x && !adj G u2 x)).length := by
  have hv32 : vLeft < 4294967296 := Nat.lt_of_le_of_lt h.vLeft_le h.size_lt
  rw [buildPartitions_cuts cuts G vLeft (by omega) hv32 hw] at hP
  have h1 : 1 ≤ vLeft := by omega
  obtain ⟨hp, hWeq⟩ := build_ok h h1 hw
  rw [← hP] at hp hWeq
  rw [← hW] at hWeq
  have hlen := length_flatMap_sortedWedges G (vLeft - 1)
  rw [← hWeq] at hlen
  rw [hlen] at hi
  obtain ⟨u, hu, hlo, hhi⟩ := locate_partition G (vLeft - 1) i hi
  have hmem := wedgeAt_partition G (vLeft - 1) u i hu hlo hhi
  rw [← hWeq, hw1] at hmem
  have hm := mem_sortedWedges h u (by omega) _ hmem
  have hu1 : u1 = u := hm.1
  subst hu1
  have h12 : u1 < u2 := hm.2.2.2.1
  have hu2 : u2 < vLeft := hm.2.2.2.2
  have hu1v : u1 + 1 < vLeft := by omega
  obtain ⟨A, B, hAB, hA⟩ := slice_at G vLeft u1 hu1v
  rw [← hWeq] at hAB
  have hp1 : P.getD u1 0 = A.length := by rw [hp _ (by omega), hA]
  have hp2 : P.getD (u1 + 1) 0 = A.length + (sortedWedges G u1).length := by
    rw [hp _ (by omega), wedgesBelow_succ, hA, length_sortedWedges]
  have hmono := wedgesBelow_mono G (show u1 + 1 ≤ vLeft by omega)
  have hmono2 := wedgesBelow_mono G (show u1 + 1 ≤ vLeft - 1 by omega)
  have hpw : P.getD (u1 + 1) 0 = wedgesBelow G (u1 + 1) := hp _ (by omega)
  have he : A.length + (sortedWedges G u1).length < 2147483648 := by
    rw [← hp2, hpw]; omega
  obtain ⟨r1, r2, r3, r4⟩ := computeC_reads P u1 u3 A (sortedWedges G u1) B hp1 hp2
    (sortedWedges_sorted G u1) ⟨_, hmem, h23⟩ he
  rw [← hAB, ← hp2, ← hp1] at r2 r3
  rw [← hAB, ← hp1] at r1 r4
  refine ⟨fun m hm => by have := r1 m hm; omega, r2, ?_, fun d hd => by have := r4 d hd; omega,
    ?_⟩
  · intro j hj
    obtain ⟨g1, g2⟩ := r3 j hj
    refine ⟨g1, g2, by rw [hlen]; omega, ?_⟩
    rw [hp _ (by omega)] at g1
    rw [hpw] at g2
    have := wedgeAt_partition G (vLeft - 1) u1 j hu g1 g2
    rw [← hWeq] at this
    exact sortedWedges_fst G u1 _ this
  · have hc := computeC_ok E h (by omega) hw u1 u2 u3 hu1v ⟨_, hmem, h23⟩
    rw [← hWeq, ← hP] at hc
    rw [hc, countP_sortedWedges h hE u1 u2 u3 (by omega) hu2 hu3 (by omega)]
    rfl

theorem C26_scan_confinement_witness :
    (Preprocessed hexagonPre 3 ∧ EdgeIndex hexagonPre 3 hexagonE ∧
      wedgesBelow hexagonPre 3 < 2147483648 ∧
      [0, 2, 3] = buildPartitions [2] hexagonPre 3 ∧
      [(0, 1, 3), (0, 2, 4), (1, 2, 5)] = buildWedges hexagonPre 3 [0, 2, 3] ∧
      wedgeAt [(0, 1, 3), (0, 2, 4), (1, 2, 5)] 0 = (0, 1, 3)) ∧
    ((∀ m ∈ getmDecs [(0, 1, 3), (0, 2, 4), (1, 2, 5)] 2 18446744073709551616
        (u32 ([0, 2, 3].getD 0 0)) (sub32 (u32 ([0, 2, 3].getD (0 + 1) 0)) 1), 0 < m) ∧
    (∀ found m, getm [(0, 1, 3), (0, 2, 4), (1, 2, 5)] (u32 ([0, 2, 3].getD 0 0))
        (u32 ([0, 2, 3].getD (0 + 1) 0)) 2 0 = some (found, m) →
      found = true → [0, 2, 3].getD 0 0 < m ∧ m < [0, 2, 3].getD (0 + 1) 0) ∧
    (∀ j ∈ computeCReads [(0, 1, 3), (0, 2, 4), (1, 2, 5)] [0, 2, 3] 0 2,
      [0, 2, 3].getD 0 0 ≤ j ∧ j < [0, 2, 3].getD (0 + 1) 0 ∧
        j < [((0 : Nat), (1 : Nat), (3 : Nat)), (0, 2, 4), (1, 2, 5)].length ∧
        (wedgeAt [(0, 1, 3), (0, 2, 4), (1, 2, 5)] j).1 = 0) ∧
    (∀ d ∈ computeCDecs [(0, 1, 3), (0, 2, 4), (1, 2, 5)] [0, 2, 3] 0 2, 0 < d) ∧
    computeC [(0, 1, 3), (0, 2, 4), (1, 2, 5)] [0, 2, 3] hexagonE 0 1 2
      = some ((nbrs hexagonPre 0).filter
          (fun x => adj hexagonPre 2 x && !adj hexagonPre 1 x)).length) :=
  ⟨⟨hexagonPre_preprocessed, hexagonE_edgeIndex, by decide, by decide, by decide, by decide⟩,
    C26_scan_confinement hexagonPre 3 hexagonE [2] [0, 2, 3]
      [(0, 1, 3), (0, 2, 4), (1, 2, 5)]
      0 0 1 3 2 hexagonPre_preprocessed hexagonE_edgeIndex (by decide) (by decide) (by decide)
      (by decide) (by decide) (by decide) (by decide)⟩

end WJ

end Induced6

namespace Induced6

open Finset

namespace BTJ

/-- C27 (counterexample): the 6-cycle in preprocessed form, 1431655767 workers and the
worker index 1431655766. The scratch vectors get `1431655767 * 3 mod 2^32 = 5` entries and
`globalStart = pid * vLeft` wraps to 2, so while the vertex 1 is processed from unused
scratch vectors the indices 2, 3 and 4 are accessed: none lies in
`[pid * vLeft, (pid + 1) * vLeft)`, and the entry `localIDs[2]` is also the one that the
worker 0 accesses for the same vertex. -/
theorem C27_scratch_block_wraps :
    Preprocessed hexagonPre 3 ∧ 1431655766 < 1431655767 ∧ u32 (1431655767 * 3) = 5 ∧
      u32 (1431655766 * 3) = 2 ∧
      (processBIdx hexagonPre 3 [] 1431655766
        (⟨[[], [], [], [], []], [0, 0, 0, 0, 0], [0, 0, 0, 0, 0], [0, 0, 0, 0, 0]⟩, [0])
          1).map Access.index = [4, 3, 3, 2, 2, 2, 2, 3, 2, 3, 4] ∧
      (∀ x ∈ processBIdx hexagonPre 3 [] 1431655766
        (⟨[[], [], [], [], []], [0, 0, 0, 0, 0], [0, 0, 0, 0, 0], [0, 0, 0, 0, 0]⟩, [0]) 1,
          ¬ (1431655766 * 3 ≤ x.index ∧ x.index < (1431655766 + 1) * 3)) ∧
      (processBIdx hexagonPre 3 [] 0
        (⟨[[], [], [], [], []], [0, 0, 0, 0, 0], [0, 0, 0, 0, 0], [0, 0, 0, 0, 0]⟩, [0])
          1).map Access.index = [2, 1, 1, 0, 0, 0, 0, 1, 0, 1, 2] := by
  have h1 : (processBIdx hexagonPre 3 [] 1431655766
      (⟨[[], [], [], [], []], [0, 0, 0, 0, 0], [0, 0, 0, 0, 0], [0, 0, 0, 0, 0]⟩, [0])
        1).map Access.index = [4, 3, 3, 2, 2, 2, 2, 3, 2, 3, 4] := by decide
  refine ⟨hexagonPre_preprocessed, by decide, by decide, by decide, h1, ?_, by decide⟩
  intro x hx hr
  have hm : x.index ∈ (processBIdx hexagonPre 3 [] 1431655766
      (⟨[[], [], [], [], []], [0, 0, 0, 0, 0], [0, 0, 0, 0, 0], [0, 0, 0, 0, 0]⟩, [0])
        1).map Access.index := List.mem_map_of_mem _ hx
  rw [h1] at hm
  simp only [List.mem_cons, List.mem_singleton, List.not_mem_nil, or_false] at hm
  omega

/-- C27 (amended): in `BTJ::getCount` with `num_threads` workers, where
`num_threads * vLeft < 2^32`, when the worker `pid < num_threads` processes a left vertex `b`
of a preprocessed graph from a state in which its block `[pid * vLeft, (pid + 1) * vLeft)`
of the scratch vectors is not in use (whatever the other blocks hold): every index of
`ABCs`, `ABCs_counts`, `localIDs` and `reverseIDs` that is read or written lies in the
block, the a-side slots lie in `[pid * vLeft, pid * vLeft + b)` and the c-side slots in
`[pid * vLeft + b, pid * vLeft + vLeft - 1)`, so an a-side slot is always below a c-side
slot; at the end every `ABCs` list of the block is empty and every `ABCs_counts` and
`localIDs` entry of the block is 0 again; and outside the block the four vectors are as
they were. -/
theorem C27_worker_scratch (G : Graph) (vLeft : Nat) (ACs : List (HMap Nat))
    (pid num_threads b : Nat) (st : Scratch × List Nat)
    (h : Preprocessed G vLeft) (hb : b < vLeft) (hpid : pid < num_threads)
    (hnt : num_threads * vLeft < 4294967296)
    (hs : BlockClean (pid * vLeft) vLeft (num_threads * vLeft) st.1) :
    (∀ x ∈ processBIdx G vLeft ACs pid st b,
      (pid * vLeft ≤ x.index ∧ x.index < (pid + 1) * vLeft ∧
        x.index < num_threads * vLeft) ∧
      (∀ i, x = Access.aSide i → pid * vLeft ≤ i ∧ i < pid * vLeft + b) ∧
      (∀ i, x = Access.cSide i → pid * vLeft + b ≤ i ∧ i < pid * vLeft + vLeft - 1)) ∧
    (∀ i j, Access.aSide i ∈ processBIdx G vLeft ACs pid st b →
      Access.cSide j ∈ processBIdx G vLeft ACs pid st b → i < j) ∧
    BlockClean (pid * vLeft) vLeft (num_threads * vLeft) (processB G vLeft ACs pid st b).1 ∧
    OutsideSame (pid * vLeft) vLeft st.1 (processB G vLeft ACs pid st b).1 := by
  have hmul : (pid + 1) * vLeft = pid * vLeft + vLeft := Nat.succ_mul pid vLeft
  have hsz : pid * vLeft + vLeft ≤ num_threads * vLeft := by
    rw [← hmul]
    exact Nat.mul_le_mul_right vLeft hpid
  obtain ⟨hclean, hag⟩ := clean_of_blockClean hs
  obtain ⟨r1, _, r3, r4, _, r6⟩ := processB_sim h ACs pid (num_threads * vLeft) b st.1 _ st.2
    hb hsz hnt hclean hag
  refine ⟨?_, ?_, ?_, r6⟩
  · intro x hx
    have hx1 := r1 x hx
    have hx2 := Access.inBlock_index hb x hx1
    refine ⟨⟨hx2.1, by omega, by omega⟩, ?_, ?_⟩
    · intro i e
      rw [e] at hx1
      exact hx1
    · intro i e
      rw [e] at hx1
      exact hx1
  · intro i j hi hj
    have h1 : pid * vLeft ≤ i ∧ i < pid * vLeft + b := r1 _ hi
    have h2 : pid * vLeft + b ≤ j ∧ j < pid * vLeft + vLeft - 1 := r1 _ hj
    omega
  · refine ⟨⟨r3.1.1.trans r4.len_abc, r3.2.1.1.trans r4.len_cnt, r3.2.2.1.1.trans r4.len_loc,
      r3.2.2.2.1.trans r4.len_rev⟩, ?_⟩
    intro i h1 h2
    exact ⟨(r3.1.2 i h1 h2).trans (r4.abc i), (r3.2.1.2 i h1 h2).trans (r4.cnt i),
      (r3.2.2.1.2 i h1 h2).trans (r4.loc i)⟩

theorem C27_worker_scratch_witness :
    (Preprocessed hexagonPre 3 ∧ 1 < 3 ∧ 1 < 2 ∧ 2 * 3 < 4294967296 ∧
      BlockClean (1 * 3) 3 (2 * 3)
        (⟨[[9], [], [], [], [], []], [1, 0, 0, 0, 0, 0], [1, 0, 0, 0, 0, 0],
          [2, 0, 0, 5, 5, 5]⟩, [0]).1) ∧
    ((∀ x ∈ processBIdx hexagonPre 3 [] 1
        (⟨[[9], [], [], [], [], []], [1, 0, 0, 0, 0, 0], [1, 0, 0, 0, 0, 0],
          [2, 0, 0, 5, 5, 5]⟩, [0]) 1,
      (1 * 3 ≤ x.index ∧ x.index < (1 + 1) * 3 ∧ x.index < 2 * 3) ∧
      (∀ i, x = Access.aSide i → 1 * 3 ≤ i ∧ i < 1 * 3 + 1) ∧
      (∀ i, x = Access.cSide i → 1 * 3 + 1 ≤ i ∧ i < 1 * 3 + 3 - 1)) ∧
    (∀ i j, Access.aSide i ∈ processBIdx hexagonPre 3 [] 1
        (⟨[[9], [], [], [], [], []], [1, 0, 0, 0, 0, 0], [1, 0, 0, 0, 0, 0],
          [2, 0, 0, 5, 5, 5]⟩, [0]) 1 →
      Access.cSide j ∈ processBIdx hexagonPre 3 [] 1
        (⟨[[9], [], [], [], [], []], [1, 0, 0, 0, 0, 0], [1, 0, 0, 0, 0, 0],
          [2, 0, 0, 5, 5, 5]⟩, [0]) 1 → i < j) ∧
    BlockClean (1 * 3) 3 (2 * 3) (processB hexagonPre 3 [] 1
        (⟨[[9], [], [], [], [], []], [1, 0, 0, 0, 0, 0], [1, 0, 0, 0, 0, 0],
          [2, 0, 0, 5, 5, 5]⟩, [0]) 1).1 ∧
    OutsideSame (1 * 3) 3
      (⟨[[9], [], [], [], [], []], [1, 0, 0, 0, 0, 0], [1, 0, 0, 0, 0, 0],
          [2, 0, 0, 5, 5, 5]⟩, [0]).1
      (processB hexagonPre 3 [] 1
        (⟨[[9], [], [], [], [], []], [1, 0, 0, 0, 0, 0], [1, 0, 0, 0, 0, 0],
          [2, 0, 0, 5, 5, 5]⟩, [0]) 1).1) :=
  have hbc : BlockClean (1 * 3) 3 (2 * 3)
      (⟨[[9], [], [], [], [], []], [1, 0, 0, 0, 0, 0], [1, 0, 0, 0, 0, 0],
        [2, 0, 0, 5, 5, 5]⟩, [0]).1 :=
    ⟨⟨rfl, rfl, rfl, rfl⟩, fun i h1 h2 => by
      have h3 : i = 3 ∨ i = 4 ∨ i = 5 := by omega
      rcases h3 with e | e | e <;> subst e <;> exact ⟨rfl, rfl, rfl⟩⟩
  ⟨⟨hexagonPre_preprocessed, by decide, by decide, by decide, hbc⟩,
    C27_worker_scratch hexagonPre 3 [] 1 2 1
      (⟨[[9], [], [], [], [], []], [1, 0, 0, 0, 0, 0], [1, 0, 0, 0, 0, 0],
        [2, 0, 0, 5, 5, 5]⟩, [0])
      hexagonPre_preprocessed (by decide) (by decide) (by decide) hbc⟩

end BTJ

end Induced6

